import Mathlib

/-!
# The jsonnet lexer (`src/core/lexer.cpp`)

A shallow embedding of `lex_number`, `whitespace_check` and `jsonnet_lex`.

* The input `const char *` is a list of bytes (`List Nat`); a pointer into it is an offset
  (`Nat`), and `*c` is `peek input c`, which is the terminating NUL (0) at the end of the
  list.  A C string holds no NUL before its end, which is the hypothesis `NulFree`.
* `throw StaticError(...)` is the outcome `.error`, a normal return is `.ok`.
* Every loop of the source is a recursive function with a bound on its number of
  iterations; `.diverge` is the outcome of a loop that used up its bound
  (`jsonnet_lex_total`: it never is).
* The `int`s of the source (`i` in `whitespace_check`, `ws_chars` in the text-block code)
  are natural numbers.  They are the `int`s of the source as long as they do not pass
  `INT_MAX`; the theorems on text blocks, on termination and on the reads carry that bound
  as a hypothesis on the indentation or on the length of the input and state that the
  `int`s stay in range (`IntExact`).
* The driver's loop is modelled as the list of its iterations (`jsonnet_lex_trace`), each
  with the cursor before and after it and the token it pushed; `jsonnet_lex` is the list
  of the tokens.

Bytes are written as numbers: 9 tab, 10 newline, 13 carriage return, 32 space, 33 `!`,
34 `"`, 35 `#`, 36 `$`, 37 `%`, 38 `&`, 40 `(`, 41 `)`, 42 `*`, 43 `+`, 44 `,`, 45 `-`,
46 `.`, 47 `/`, 48 to 57 `0` to `9`, 58 `:`, 59 `;`, 60 `<`, 61 `=`, 62 `>`, 65 to 90 `A`
to `Z` (69 `E`, 70 `F`), 91 `[`, 92 backslash, 93 `]`, 94 `^`, 95 `_`, 97 to 122 `a` to
`z` (98 `b`, 101 `e`, 102 `f`, 110 `n`, 114 `r`, 116 `t`, 117 `u`), 123 and 125 the
braces, 124 `|`, 126 `~`; 8 and 12 are `'\b'` and `'\f'`.
-/

namespace Jsonnet

/-! ## Data model -/

/-- The bytes of an ASCII string. -/
def str (s : String) : List Nat := s.toList.map Char.toNat

/-- Token kinds: `Token::Kind` (declared in `core/lexer.h`; the names are those used in
`lexer.cpp`). -/
inductive Kind where
  | BRACE_L | BRACE_R | BRACKET_L | BRACKET_R | COLON | COMMA | DOLLAR | DOT
  | PAREN_L | PAREN_R | SEMICOLON
  | IDENTIFIER | NUMBER | OPERATOR | STRING
  | ASSERT | ELSE | ERROR | FALSE | FOR | FUNCTION | IF | IMPORT | IMPORTSTR | IN
  | LOCAL | NULL_LIT | SELF | SUPER | TAILSTRICT | THEN | TRUE
  | END_OF_FILE
  deriving DecidableEq, Repr

/-- A `Location(line, column)`. -/
structure Location where
  line : Nat
  column : Nat
  deriving DecidableEq, Repr

/-- A `LocationRange(filename, begin, end)`. -/
structure LocationRange where
  file : List Nat
  begin : Location
  end_ : Location
  deriving DecidableEq, Repr

/-- A `Token(kind, data, location)`. -/
structure Token where
  kind : Kind
  data : List Nat
  location : LocationRange
  deriving DecidableEq, Repr

/-- A `StaticError(filename, location, msg)`. -/
structure StaticError where
  file : List Nat
  location : Location
  msg : List Nat
  deriving DecidableEq, Repr

/-- How a piece of the lexer ends: it returns, it throws, or the bound of a loop of the
model is used up. -/
inductive Outcome (α : Type) where
  | ok (a : α)
  | error (e : StaticError)
  | diverge
  deriving DecidableEq, Repr

/-- Sequencing: what follows a piece that returns; a throw or a used-up bound ends the
whole. -/
def Outcome.bind {α β : Type} (x : Outcome α) (f : α → Outcome β) : Outcome β :=
  match x with
  | .ok a => f a
  | .error e => .error e
  | .diverge => .diverge

/-- The byte `*c`: the byte at offset `c`, or the terminating NUL. -/
def peek (input : List Nat) (c : Nat) : Nat := input.getD c 0

/-- The input is a C string: no NUL byte before its end. -/
def NulFree (input : List Nat) : Prop := ∀ b ∈ input, b ≠ 0

instance (input : List Nat) : Decidable (NulFree input) := by
  unfold NulFree; exact inferInstance

/-! ## Character classes (lines 26-61) -/

def is_upper (c : Nat) : Bool := decide (65 ≤ c) && decide (c ≤ 90)

def is_lower (c : Nat) : Bool := decide (97 ≤ c) && decide (c ≤ 122)

def is_number (c : Nat) : Bool := decide (48 ≤ c) && decide (c ≤ 57)

def is_identifier_first (c : Nat) : Bool := is_upper c || is_lower c || decide (c = 95)

def is_identifier (c : Nat) : Bool := is_identifier_first c || is_number c

/-- The bytes `& | ^ = < > * / % #`. -/
def is_symbol (c : Nat) : Bool :=
  decide (c = 38) || decide (c = 124) || decide (c = 94)
    || decide (c = 61) || decide (c = 60) || decide (c = 62)
    || decide (c = 42) || decide (c = 47) || decide (c = 37)
    || decide (c = 35)

/-! ## `lex_number` (lines 63-223) -/

inductive State where
  | BEGIN | AFTER_ZERO | AFTER_ONE_TO_NINE | AFTER_DOT | AFTER_DIGIT | AFTER_E
  | AFTER_EXP_SIGN | AFTER_EXP_DIGIT
  deriving DecidableEq, Repr

/-- What one `switch (state)` of `lex_number` does with the byte `*c`: set the next state
(and fall to `r += *c; c++`), `goto end`, or throw. -/
inductive Move where
  | next (s : State)
  | stop
  | fail (msg : List Nat)
  deriving DecidableEq, Repr

/-- The decimal digits `1` to `9`. -/
def is_one_to_nine (c : Nat) : Bool := decide (49 ≤ c) && decide (c ≤ 57)

def lex_number_switch (state : State) (ch : Nat) : Move :=
  match state with
  | .BEGIN =>
    if ch = 48 then .next .AFTER_ZERO
    else if is_one_to_nine ch then .next .AFTER_ONE_TO_NINE
    else .fail (str "Couldn't lex number")
  | .AFTER_ZERO =>
    if ch = 46 then .next .AFTER_DOT
    else if ch = 101 ∨ ch = 69 then .next .AFTER_E
    else .stop
  | .AFTER_ONE_TO_NINE =>
    if ch = 46 then .next .AFTER_DOT
    else if ch = 101 ∨ ch = 69 then .next .AFTER_E
    else if is_number ch then .next .AFTER_ONE_TO_NINE
    else .stop
  | .AFTER_DOT =>
    if is_number ch then .next .AFTER_DIGIT
    else .fail (str "Couldn't lex number, junk after decimal point: " ++ [ch])
  | .AFTER_DIGIT =>
    if ch = 101 ∨ ch = 69 then .next .AFTER_E
    else if is_number ch then .next .AFTER_DIGIT
    else .stop
  | .AFTER_E =>
    if ch = 43 ∨ ch = 45 then .next .AFTER_EXP_SIGN
    else if is_number ch then .next .AFTER_EXP_DIGIT
    else .fail (str "Couldn't lex number, junk after 'E': " ++ [ch])
  | .AFTER_EXP_SIGN =>
    if is_number ch then .next .AFTER_EXP_DIGIT
    else .fail (str "Couldn't lex number, junk after exponent sign: " ++ [ch])
  | .AFTER_EXP_DIGIT =>
    if is_number ch then .next .AFTER_EXP_DIGIT
    else .stop

/-- The `while (true)` loop of `lex_number`, then `end: c--; return r;`.  Returns `r` and
the cursor `c` as the function leaves it. -/
def lex_number_loop (input file : List Nat) (begin : Location) :
    Nat → State → Nat → List Nat → Outcome (List Nat × Nat)
  | 0, _, _, _ => .diverge
  | fuel + 1, state, c, r =>
    match lex_number_switch state (peek input c) with
    | .next s => lex_number_loop input file begin fuel s (c + 1) (r ++ [peek input c])
    | .stop => .ok (r, c - 1)
    | .fail msg => .error ⟨file, begin, msg⟩

def lex_number (input : List Nat) (c : Nat) (file : List Nat) (begin : Location) :
    Outcome (List Nat × Nat) :=
  lex_number_loop input file begin (input.length + 1) .BEGIN c []

/-! ## `whitespace_check` (lines 225-235) -/

/-- The largest value of an `int`, `INT_MAX` of `<climits>`: 2^31 - 1 with the 32-bit `int`
of the platforms jsonnet is built for.  The index `i` of `whitespace_check`, the count it
returns and the local `ws_chars` of the text-block code (lines 552, 571) are `int`s. -/
def INT_MAX : Nat := 2147483647

/-- The loop of `whitespace_check(a, b)`, `a` and `b` offsets into the input, from index
`i` on.  The `int i` of the source is a natural number here: it is the `int` as long as it
is at most `INT_MAX`, which `IntExact` states and which holds on every input of at most
`INT_MAX` bytes (`IntExact_of_length`); past that bound the `i++` of the source overflows,
and this function does not say what the source does. -/
def whitespace_check_loop (input : List Nat) (a b : Nat) : Nat → Nat → Outcome Nat
  | 0, _ => .diverge
  | fuel + 1, i =>
    if peek input (a + i) = 32 ∨ peek input (a + i) = 9 then
      if peek input (b + i) ≠ peek input (a + i) then .ok 0
      else whitespace_check_loop input a b fuel (i + 1)
    else .ok i

/-- The function `whitespace_check(a, b)`: the number of spaces and tabs with which the
line at `a` starts when the line at `b` starts with the same bytes, and 0 otherwise.  The
`int` returned is a natural number, under the same bound as `i`. -/
def whitespace_check (input : List Nat) (a b : Nat) : Outcome Nat :=
  whitespace_check_loop input a b (input.length + 1) 0

/-! ## `jsonnet_lex` (lines 237-619) -/

/-- The mutable locals of `jsonnet_lex`: the cursor `c` and `line_start` as offsets into
the input, and `line_number`. -/
structure Cursor where
  c : Nat
  line_number : Nat
  line_start : Nat
  deriving DecidableEq, Repr

/-- Modelled from the spec: `encode_utf8` is declared in `core/string.h`, which is not
among the sources; the spec says the 16-bit code point "is then UTF-8 encoded and
appended", a lone surrogate "as-is": one byte below 0x80, two below 0x800, else three. -/
def encode_utf8 (x : Nat) : List Nat :=
  if x < 128 then [x]
  else if x < 2048 then [192 + x / 64, 128 + x % 64]
  else [224 + x / 4096, 128 + (x / 64) % 64, 128 + x % 64]

/-- The loop `for (unsigned i=0 ; i<4 ; ++i)` over the hex digits `c[i]` of a `\u` escape
(lines 389-413); `n` is the number of iterations left. Returns `codepoint`. -/
def unicode_escape_loop (input file : List Nat) (begin : Location) (c : Nat) :
    Nat → Nat → Nat → Outcome Nat
  | 0, _, codepoint => .ok codepoint
  | n + 1, i, codepoint =>
    let x := peek input (c + i)
    if x = 0 then .error ⟨file, begin, str "Unterminated string"⟩
    else if x = 34 then
      .error ⟨file, begin, str "Truncated unicode escape sequence in string literal."⟩
    else if 48 ≤ x ∧ x ≤ 57 then
      unicode_escape_loop input file begin c n (i + 1) (codepoint * 16 + (x - 48))
    else if 97 ≤ x ∧ x ≤ 102 then
      unicode_escape_loop input file begin c n (i + 1) (codepoint * 16 + (x - 97 + 10))
    else if 65 ≤ x ∧ x ≤ 70 then
      unicode_escape_loop input file begin c n (i + 1) (codepoint * 16 + (x - 65 + 10))
    else
      .error ⟨file, begin,
        str "Malformed unicode escape character, should be hex: '" ++ [x] ++ str "'"⟩

/-- The loop `for (; ; ++c)` of a string literal (lines 343-447), entered with the cursor
on the byte after the opening quote.  Returns the locals with the cursor on the closing
quote, and `data`. -/
def string_loop (input file : List Nat) (begin : Location) :
    Nat → Cursor → List Nat → Outcome (Cursor × List Nat)
  | 0, _, _ => .diverge
  | fuel + 1, st, data =>
    let ch := peek input st.c
    if ch = 0 then .error ⟨file, begin, str "Unterminated string"⟩
    else if ch = 34 then .ok (st, data)
    else if ch = 92 then
      -- `switch (*(++c))`
      let c1 := st.c + 1
      let e := peek input c1
      if e = 34 ∨ e = 92 ∨ e = 47 then
        string_loop input file begin fuel { st with c := c1 + 1 } (data ++ [e])
      else if e = 98 then
        string_loop input file begin fuel { st with c := c1 + 1 } (data ++ [8])
      else if e = 102 then
        string_loop input file begin fuel { st with c := c1 + 1 } (data ++ [12])
      else if e = 110 then
        string_loop input file begin fuel { st with c := c1 + 1 } (data ++ [10])
      else if e = 114 then
        string_loop input file begin fuel { st with c := c1 + 1 } (data ++ [13])
      else if e = 116 then
        string_loop input file begin fuel { st with c := c1 + 1 } (data ++ [9])
      else if e = 117 then
        -- `++c`, four hex digits, `c += 3`, and the loop's `++c`
        let c2 := c1 + 1
        (unicode_escape_loop input file begin c2 4 0 0).bind fun codepoint =>
          string_loop input file begin fuel { st with c := c2 + 3 + 1 }
            (data ++ encode_utf8 codepoint)
      else if e = 0 then
        .error ⟨file, begin, str "Truncated escape sequence in string literal."⟩
      else
        .error ⟨file, begin,
          str "Unknown escape sequence in string literal: '" ++ [e] ++ str "'"⟩
    else if ch = 10 then
      string_loop input file begin fuel
        { c := st.c + 1, line_number := st.line_number + 1, line_start := st.c + 1 }
        (data ++ [ch])
    else
      string_loop input file begin fuel { st with c := st.c + 1 } (data ++ [ch])

/-- The loop `for (; *c != '\0' ; ++c)` that reads an identifier (lines 456-461).  Returns
the cursor as the loop leaves it, and `id`. -/
def identifier_loop (input : List Nat) : Nat → Nat → List Nat → Outcome (Nat × List Nat)
  | 0, _, _ => .diverge
  | fuel + 1, c, id =>
    if peek input c ≠ 0 then
      if ¬ is_identifier (peek input c) then .ok (c, id)
      else identifier_loop input fuel (c + 1) (id ++ [peek input c])
    else .ok (c, id)

/-- The keyword comparisons of lines 463-501: the kind and data of the token for `id`. -/
def keyword_or_identifier (id : List Nat) : Kind × List Nat :=
  if id = str "assert" then (.ASSERT, [])
  else if id = str "else" then (.ELSE, [])
  else if id = str "error" then (.ERROR, [])
  else if id = str "false" then (.FALSE, [])
  else if id = str "for" then (.FOR, [])
  else if id = str "function" then (.FUNCTION, [])
  else if id = str "if" then (.IF, [])
  else if id = str "import" then (.IMPORT, [])
  else if id = str "importstr" then (.IMPORTSTR, [])
  else if id = str "in" then (.IN, [])
  else if id = str "local" then (.LOCAL, [])
  else if id = str "null" then (.NULL_LIT, [])
  else if id = str "self" then (.SELF, [])
  else if id = str "super" then (.SUPER, [])
  else if id = str "tailstrict" then (.TAILSTRICT, [])
  else if id = str "then" then (.THEN, [])
  else if id = str "true" then (.TRUE, [])
  else (.IDENTIFIER, id)

/-- The loop `while (*c != '\0' && *c != '\n') ++c;` of a line comment (lines 506, 517). -/
def line_comment_loop (input : List Nat) : Nat → Nat → Outcome Nat
  | 0, _ => .diverge
  | fuel + 1, c =>
    if peek input c ≠ 0 ∧ peek input c ≠ 10 then line_comment_loop input fuel (c + 1)
    else .ok c

/-- The loop of a block comment (lines 529-536), entered after `c += 2`. -/
def block_comment_loop (input : List Nat) : Nat → Cursor → Outcome Cursor
  | 0, _ => .diverge
  | fuel + 1, st =>
    if peek input st.c ≠ 0 ∧ ¬ (peek input st.c = 42 ∧ peek input (st.c + 1) = 47) then
      if peek input st.c = 10 then
        block_comment_loop input fuel
          { c := st.c + 1, line_number := st.line_number + 1, line_start := st.c + 1 }
      else block_comment_loop input fuel { st with c := st.c + 1 }
    else .ok st

/-- The loop `for (...; *c != '\n' ; ++c)` that reads one line of a text block
(lines 560-564), entered after `c = &c[ws_chars]`. -/
def text_line_loop (input file : List Nat) (begin : Location) :
    Nat → Nat → List Nat → Outcome (Nat × List Nat)
  | 0, _, _ => .diverge
  | fuel + 1, c, block =>
    if peek input c ≠ 10 then
      if peek input c = 0 then .error ⟨file, begin, str "Unexpected EOF"⟩
      else text_line_loop input file begin fuel (c + 1) (block ++ [peek input c])
    else .ok (c, block)

/-- The loop `while (*c == ' ' || *c == '\t') ++c;` (line 575). -/
def skip_blanks_loop (input : List Nat) : Nat → Nat → Outcome Nat
  | 0, _ => .diverge
  | fuel + 1, c =>
    if peek input c = 32 ∨ peek input c = 9 then skip_blanks_loop input fuel (c + 1)
    else .ok c

/-- The loop `while (true)` of a text block (lines 557-586).  Returns the locals with the
cursor on the last `|`, and `block.str()`.  The `int ws_chars` is a natural number, the
count returned by `whitespace_check`, under the same bound as there. -/
def text_block_loop (input file : List Nat) (begin : Location) (first_line : Nat) :
    Nat → Nat → Cursor → List Nat → Outcome (Cursor × List Nat)
  | 0, _, _, _ => .diverge
  | fuel + 1, ws_chars, st, block =>
    (text_line_loop input file begin (input.length + 1) (st.c + ws_chars) block).bind
      fun line =>
      let c2 := line.1 + 1
      let block2 := line.2 ++ [10]
      let st2 : Cursor := { c := c2, line_number := st.line_number + 1, line_start := c2 }
      (whitespace_check input first_line c2).bind fun ws =>
        if ws = 0 then
          (skip_blanks_loop input (input.length + 1) c2).bind fun c3 =>
            if ¬ (peek input c3 = 124 ∧ peek input (c3 + 1) = 124
                ∧ peek input (c3 + 2) = 124) then
              .error ⟨file, begin, str "Text block not terminated with |||"⟩
            else .ok ({ st2 with c := c3 + 2 }, block2)
        else text_block_loop input file begin first_line fuel ws st2 block2

/-- The loop `for (; *c != '\0' ; ++c)` that reads an operator (lines 591-596). -/
def operator_loop (input : List Nat) : Nat → Nat → List Nat → Outcome (Nat × List Nat)
  | 0, _, _ => .diverge
  | fuel + 1, c, data =>
    if peek input c ≠ 0 then
      if ¬ is_symbol (peek input c) then .ok (c, data)
      else operator_loop input fuel (c + 1) (data ++ [peek input c])
    else .ok (c, data)

/-- The single-byte punctuation cases of the `switch (*c)` (lines 263-305). -/
def punctuation (ch : Nat) : Option Kind :=
  if ch = 123 then some .BRACE_L
  else if ch = 125 then some .BRACE_R
  else if ch = 91 then some .BRACKET_L
  else if ch = 93 then some .BRACKET_R
  else if ch = 58 then some .COLON
  else if ch = 44 then some .COMMA
  else if ch = 36 then some .DOLLAR
  else if ch = 46 then some .DOT
  else if ch = 40 then some .PAREN_L
  else if ch = 41 then some .PAREN_R
  else if ch = 59 then some .SEMICOLON
  else none

/-- The comparison `*c < 32` of line 603 on a plain `char`, which is signed on the
platforms jsonnet is built for: the bytes 128 to 255 are negative. -/
def char_lt_32 (ch : Nat) : Bool := decide (ch < 32) || decide (128 ≤ ch)

/-- How the body of the driver's `for` loop ends when it does not throw: with `continue`
(no token), or by falling out of the `switch` to `r.push_back` with `kind` and `data`.
Either way the locals come along, the cursor on the last byte consumed. -/
inductive Step where
  | skip (st : Cursor)
  | emit (kind : Kind) (data : List Nat) (st : Cursor)
  deriving DecidableEq, Repr

/-- The locals a step ends with. -/
def Step.cursor : Step → Cursor
  | .skip st => st
  | .emit _ _ st => st

/-- The token `Token(kind, data, LocationRange(filename, begin, end))` of line 613, for a
step that reaches it. -/
def Step.token (file : List Nat) (begin end_ : Location) : Step → Option Token
  | .skip _ => none
  | .emit kind data _ => some ⟨kind, data, ⟨file, begin, end_⟩⟩

/-- The body of the driver's `for` loop up to the end of the `switch` (lines 247-610), at
a cursor with `*c != '\0'`. -/
def lex_body (file input : List Nat) (st : Cursor) : Outcome Step :=
  let c := st.c
  let begin : Location := ⟨st.line_number, c - st.line_start + 1⟩
  let ch := peek input c
  let fuel := input.length + 1
  if ch = 32 ∨ ch = 9 ∨ ch = 13 then .ok (.skip st)
  else if ch = 10 then
    .ok (.skip { st with line_number := st.line_number + 1, line_start := c + 1 })
  else
    match punctuation ch with
    | some kind => .ok (.emit kind [] st)
    | none =>
    if ch = 33 then
      if peek input (c + 1) = 61 then .ok (.emit .OPERATOR (str "!=") { st with c := c + 1 })
      else .ok (.emit .OPERATOR (str "!") st)
    else if ch = 126 then .ok (.emit .OPERATOR (str "~") st)
    else if ch = 43 then .ok (.emit .OPERATOR (str "+") st)
    else if ch = 45 then .ok (.emit .OPERATOR (str "-") st)
    else if is_number ch then
      (lex_number input c file begin).bind fun r =>
        .ok (.emit .NUMBER r.1 { st with c := r.2 })
    else if ch = 34 then
      (string_loop input file begin fuel { st with c := c + 1 } []).bind fun r =>
        .ok (.emit .STRING r.2 r.1)
    else if is_identifier_first ch then
      (identifier_loop input fuel c []).bind fun r =>
        .ok (.emit (keyword_or_identifier r.2).1 (keyword_or_identifier r.2).2
          { st with c := r.1 - 1 })
    else if is_symbol ch then
      if ch = 47 ∧ peek input (c + 1) = 47 then
        (line_comment_loop input fuel c).bind fun c1 => .ok (.skip { st with c := c1 - 1 })
      else if ch = 35 then
        (line_comment_loop input fuel c).bind fun c1 => .ok (.skip { st with c := c1 - 1 })
      else if ch = 47 ∧ peek input (c + 1) = 42 then
        (block_comment_loop input fuel { st with c := c + 2 }).bind fun st1 =>
          if peek input st1.c = 0 then
            .error ⟨file, begin, str "Multi-line comment has no terminating */."⟩
          else .ok (.skip { st1 with c := st1.c + 1 })
      else if ch = 124 ∧ peek input (c + 1) = 124 ∧ peek input (c + 2) = 124
          ∧ peek input (c + 3) = 10 then
        let c4 := c + 4
        let st1 : Cursor := { c := c4, line_number := st.line_number + 1, line_start := c4 }
        (whitespace_check input c4 c4).bind fun ws_chars =>
          if ws_chars = 0 then
            .error ⟨file, begin, str "Text block's first line must start with whitespace."⟩
          else
            (text_block_loop input file begin c4 fuel ws_chars st1 []).bind fun r =>
              .ok (.emit .STRING r.2 r.1)
      else
        (operator_loop input fuel c []).bind fun r =>
          .ok (.emit .OPERATOR r.2 { st with c := r.1 - 1 })
    else if char_lt_32 ch then
      .error ⟨file, begin, str "Could not lex the character code " ++ str (toString ch)⟩
    else
      .error ⟨file, begin, str "Could not lex the character '" ++ [ch] ++ str "'"⟩

/-- One iteration of the driver's loop as the trace records it: the cursor when the
iteration starts (`first`), the cursor when the following one starts, after the loop's
`++c` (`next`), and the token pushed, if any.  The bytes consumed by the iteration are
those at the offsets from `first` up to `next - 1`. -/
structure Event where
  first : Nat
  next : Nat
  token : Option Token
  deriving DecidableEq, Repr

/-- The driver's loop `for ( ; *c!='\0' ; ++c)` and the lines 616-618 after it, as the
list of its iterations, the `END_OF_FILE` token last. -/
def lex_loop (file input : List Nat) : Nat → Cursor → Outcome (List Event)
  | 0, _ => .diverge
  | fuel + 1, st =>
    if peek input st.c ≠ 0 then
      let begin : Location := ⟨st.line_number, st.c - st.line_start + 1⟩
      (lex_body file input st).bind fun step =>
        let st1 := step.cursor
        let end_ : Location := ⟨st1.line_number, st1.c - st1.line_start + 1⟩
        (lex_loop file input fuel { st1 with c := st1.c + 1 }).bind fun r =>
          .ok (⟨st.c, st1.c + 1, step.token file begin end_⟩ :: r)
    else
      let end_ : Location := ⟨st.line_number, st.c - st.line_start + 1⟩
      .ok [⟨st.c, st.c, some ⟨.END_OF_FILE, [], ⟨file, end_, end_⟩⟩⟩]

/-- The iterations of `jsonnet_lex(filename, input)`. -/
def jsonnet_lex_trace (file input : List Nat) : Outcome (List Event) :=
  lex_loop file input (input.length + 1) ⟨0, 1, 0⟩

/-- The function `jsonnet_lex(filename, input)`: the tokens pushed, in order. -/
def jsonnet_lex (file input : List Nat) : Outcome (List Token) :=
  (jsonnet_lex_trace file input).bind fun r => .ok (r.filterMap Event.token)

/-! ## The number grammar -/

/-- A string of decimal digits `[0-9]*`. -/
def Digits (ds : List Nat) : Prop := ∀ d ∈ ds, 48 ≤ d ∧ d ≤ 57

instance (ds : List Nat) : Decidable (Digits ds) := by
  unfold Digits; exact inferInstance

/-- The integer part `0|[1-9][0-9]*`. -/
def IsIntPart (s : List Nat) : Prop :=
  s = [48] ∨ ∃ d ds, s = d :: ds ∧ (49 ≤ d ∧ d ≤ 57) ∧ Digits ds

/-- The optional fraction `(\.[0-9]+)?`. -/
def IsFracPart (s : List Nat) : Prop :=
  s = [] ∨ ∃ ds, s = 46 :: ds ∧ ds ≠ [] ∧ Digits ds

/-- The optional exponent `([eE][+-]?[0-9]+)?`. -/
def IsExpPart (s : List Nat) : Prop :=
  s = [] ∨ ∃ e sign ds, s = e :: (sign ++ ds) ∧ (e = 101 ∨ e = 69)
    ∧ (sign = [] ∨ sign = [43] ∨ sign = [45]) ∧ ds ≠ [] ∧ Digits ds

/-- The unsigned JSON number grammar `(0|[1-9][0-9]*)(\.[0-9]+)?([eE][+-]?[0-9]+)?`. -/
def IsJsonNumber (n : List Nat) : Prop :=
  ∃ i f e, n = i ++ (f ++ e) ∧ IsIntPart i ∧ IsFracPart f ∧ IsExpPart e

/-- The state the number automaton is in after reading the bytes `w` from state `s`, if
every byte of `w` has a transition. -/
def run_number : State → List Nat → Option State
  | s, [] => some s
  | s, b :: bs =>
    match lex_number_switch s b with
    | .next s1 => run_number s1 bs
    | _ => none

/-- The states in which `lex_number` can `goto end`. -/
def State.accepting : State → Bool
  | .AFTER_ZERO | .AFTER_ONE_TO_NINE | .AFTER_DIGIT | .AFTER_EXP_DIGIT => true
  | _ => false

/-! ## Identifiers and keywords -/

/-- A byte of `[A-Za-z_]`. -/
def IdStart (b : Nat) : Prop := (65 ≤ b ∧ b ≤ 90) ∨ (97 ≤ b ∧ b ≤ 122) ∨ b = 95

/-- A byte of `[A-Za-z0-9_]`. -/
def IdChar (b : Nat) : Prop := IdStart b ∨ (48 ≤ b ∧ b ≤ 57)

instance (b : Nat) : Decidable (IdStart b) := by
  unfold IdStart; exact inferInstance

instance (b : Nat) : Decidable (IdChar b) := by
  unfold IdChar; exact inferInstance

/-- A string matching `[A-Za-z_][A-Za-z0-9_]*`. -/
def IsIdentifierText (w : List Nat) : Prop :=
  ∃ b bs, w = b :: bs ∧ IdStart b ∧ ∀ x ∈ bs, IdChar x

/-- The 17 reserved spellings, each with the token kind of its own. -/
def keywords : List (List Nat × Kind) :=
  [(str "assert", .ASSERT), (str "else", .ELSE), (str "error", .ERROR),
   (str "false", .FALSE), (str "for", .FOR), (str "function", .FUNCTION),
   (str "if", .IF), (str "import", .IMPORT), (str "importstr", .IMPORTSTR),
   (str "in", .IN), (str "local", .LOCAL), (str "null", .NULL_LIT),
   (str "self", .SELF), (str "super", .SUPER), (str "tailstrict", .TAILSTRICT),
   (str "then", .THEN), (str "true", .TRUE)]

/-- The string is one of the reserved spellings. -/
def IsKeyword (w : List Nat) : Prop := w ∈ keywords.map Prod.fst

instance (w : List Nat) : Decidable (IsKeyword w) := by
  unfold IsKeyword; exact inferInstance

/-! ## Source positions -/

/-- The 1-based line of the offset `c`: one more than the number of `'\n'` bytes among
the first `c` bytes of the input. -/
def lineOf (input : List Nat) (c : Nat) : Nat := 1 + (input.take c).count 10

/-- The number of bytes between the last `'\n'` before the offset `c` and `c`: the number
of bytes of the first `c` after their last `'\n'`, or `c` when there is none. -/
def colOf (input : List Nat) (c : Nat) : Nat :=
  ((input.take c).reverse.takeWhile fun b => b != 10).length

/-- The 1-based line and column of the offset `c`. -/
def locationOf (input : List Nat) (c : Nat) : Location := ⟨lineOf input c, colOf input c + 1⟩

/-- The locals of the driver agree with the input read so far: the cursor is inside the
input or at its end, `line_number` is the line of the cursor and `line_start` is the offset
at which that line starts. -/
def Inv (input : List Nat) (st : Cursor) : Prop :=
  st.c ≤ input.length ∧ st.line_number = lineOf input st.c ∧
    st.line_start + colOf input st.c = st.c

/-- The bytes at the offsets from `a` up to `b - 1` are neither NUL nor `'\n'`. -/
def Plain (input : List Nat) (a b : Nat) : Prop :=
  ∀ i, a ≤ i → i < b → peek input i ≠ 0 ∧ peek input i ≠ 10

/-- What `lex_number` has accumulated in `r` when it is in a given state: the part of a
number of the grammar read so far. -/
def Reach : State → List Nat → Prop
  | .BEGIN, r => r = []
  | .AFTER_ZERO, r => r = [48]
  | .AFTER_ONE_TO_NINE, r => ∃ d ds, r = d :: ds ∧ (49 ≤ d ∧ d ≤ 57) ∧ Digits ds
  | .AFTER_DOT, r => ∃ i, r = i ++ [46] ∧ IsIntPart i
  | .AFTER_DIGIT, r => ∃ i ds, r = i ++ 46 :: ds ∧ IsIntPart i ∧ ds ≠ [] ∧ Digits ds
  | .AFTER_E, r => ∃ i f e, r = i ++ (f ++ [e]) ∧ IsIntPart i ∧ IsFracPart f
      ∧ (e = 101 ∨ e = 69)
  | .AFTER_EXP_SIGN, r => ∃ i f e sg, r = i ++ (f ++ [e, sg]) ∧ IsIntPart i ∧ IsFracPart f
      ∧ (e = 101 ∨ e = 69) ∧ (sg = 43 ∨ sg = 45)
  | .AFTER_EXP_DIGIT, r => ∃ i f e sign ds, r = i ++ (f ++ e :: (sign ++ ds)) ∧ IsIntPart i
      ∧ IsFracPart f ∧ (e = 101 ∨ e = 69) ∧ (sign = [] ∨ sign = [43] ∨ sign = [45])
      ∧ ds ≠ [] ∧ Digits ds

/-! ## What a step of the driver must satisfy -/

/-- The bytes with which the lexeme of a token of the given kind and data can start: the
punctuation character, the first byte of the data of an identifier, number or operator,
the first letter of the keyword, and the `"` or `|` that opens a string or text block. -/
def lexeme_start (kind : Kind) (data : List Nat) : List Nat :=
  match kind with
  | .BRACE_L => [123]
  | .BRACE_R => [125]
  | .BRACKET_L => str "["
  | .BRACKET_R => str "]"
  | .COLON => str ":"
  | .COMMA => str ","
  | .DOLLAR => str "$"
  | .DOT => str "."
  | .PAREN_L => str "("
  | .PAREN_R => str ")"
  | .SEMICOLON => str ";"
  | .IDENTIFIER => data.take 1
  | .NUMBER => data.take 1
  | .OPERATOR => data.take 1
  | .STRING => str "\"|"
  | .ASSERT => (str "assert").take 1
  | .ELSE => (str "else").take 1
  | .ERROR => (str "error").take 1
  | .FALSE => (str "false").take 1
  | .FOR => (str "for").take 1
  | .FUNCTION => (str "function").take 1
  | .IF => (str "if").take 1
  | .IMPORT => (str "import").take 1
  | .IMPORTSTR => (str "importstr").take 1
  | .IN => (str "in").take 1
  | .LOCAL => (str "local").take 1
  | .NULL_LIT => (str "null").take 1
  | .SELF => (str "self").take 1
  | .SUPER => (str "super").take 1
  | .TAILSTRICT => (str "tailstrict").take 1
  | .THEN => (str "then").take 1
  | .TRUE => (str "true").take 1
  | .END_OF_FILE => []

/-- What holds of a token pushed by an iteration that starts on the byte `b`. -/
def TokenOK (b : Nat) (kind : Kind) (data : List Nat) : Prop :=
  kind ≠ .END_OF_FILE ∧ b ∈ lexeme_start kind data ∧ (kind = .NUMBER → IsJsonNumber data)

/-- What holds of a step of the driver from the locals `st`: the cursor did not move back,
the locals agree with the input after the loop's `++c`, and a token pushed ends on its
line (the cursor is not before `line_start`) and starts with the byte the step started
on. -/
def StepOK (input : List Nat) (st : Cursor) (step : Step) : Prop :=
  st.c ≤ step.cursor.c ∧ Inv input { step.cursor with c := step.cursor.c + 1 } ∧
    ∀ kind data st1, step = .emit kind data st1 →
      st1.line_start ≤ st1.c ∧ TokenOK (peek input st.c) kind data

/-! ## Well-formed traces -/

/-- The trace of the driver from the offset `c` on, as the input determines it: every
iteration starts where the one before ended, moves forward inside the input, and pushes
only tokens that start with the byte at `c`, begin at the position of `c` and end at the
position of the last byte consumed; the last entry is the `END_OF_FILE` token, at a NUL. -/
inductive TraceOK (file input : List Nat) : Nat → List Event → Prop where
  | eof (c : Nat) (hz : peek input c = 0) (hle : c ≤ input.length) :
      TraceOK file input c
        [⟨c, c, some ⟨.END_OF_FILE, [], ⟨file, locationOf input c, locationOf input c⟩⟩⟩]
  | step (c n : Nat) (tok : Option Token) (rest : List Event) (hlt : c < n)
      (hle : n ≤ input.length) (hnz : peek input c ≠ 0)
      (htok : ∀ t, tok = some t → peek input c ≠ 10 ∧ TokenOK (peek input c) t.kind t.data
        ∧ t.location = ⟨file, locationOf input c, ⟨lineOf input n, colOf input n⟩⟩)
      (hrest : TraceOK file input n rest) :
      TraceOK file input c (⟨c, n, tok⟩ :: rest)

/-- The lexicographic order on `(line, column)`. -/
def Location.lt (a b : Location) : Prop :=
  a.line < b.line ∨ (a.line = b.line ∧ a.column < b.column)

instance (a b : Location) : Decidable (a.lt b) := by
  unfold Location.lt; exact inferInstance

/-- The lines of the input: the pieces between its `'\n'` bytes. -/
def splitLines : List Nat → List (List Nat)
  | [] => [[]]
  | b :: rest =>
    if b = 10 then [] :: splitLines rest
    else
      match splitLines rest with
      | [] => [[b]]
      | l :: ls => (b :: l) :: ls

/-- The byte at a 1-based line and column of the input split into lines, if there is
one. -/
def byteAt (input : List Nat) (loc : Location) : Option Nat :=
  if loc.line = 0 ∨ loc.column = 0 then none
  else ((splitLines input)[loc.line - 1]?).bind fun l => l[loc.column - 1]?

/-! ## Hexadecimal digits -/

/-- A byte of `[0-9a-fA-F]`. -/
def IsHexDigit (x : Nat) : Prop := (48 ≤ x ∧ x ≤ 57) ∨ (97 ≤ x ∧ x ≤ 102) ∨ (65 ≤ x ∧ x ≤ 70)

instance (x : Nat) : Decidable (IsHexDigit x) := by
  unfold IsHexDigit; exact inferInstance

/-- The value 0 to 15 of a hexadecimal digit. -/
def hex_value (x : Nat) : Nat :=
  if x ≤ 57 then x - 48 else if 97 ≤ x then x - 97 + 10 else x - 65 + 10

/-- The number spelled by hexadecimal digits, after the digits that gave `acc`. -/
def hex_number (acc : Nat) (h : List Nat) : Nat := h.foldl (fun a x => a * 16 + hex_value x) acc

/-! ## Operators and unrecognised bytes -/

/-- The data an `OPERATOR` token can carry: one of `!`, `!=`, `~`, `+`, `-`, or a non-empty
run of `is_symbol` bytes. -/
def IsOperatorText (data : List Nat) : Prop :=
  data ∈ [str "!", str "!=", str "~", str "+", str "-"]
    ∨ (data ≠ [] ∧ ∀ b ∈ data, is_symbol b = true)

instance (data : List Nat) : Decidable (IsOperatorText data) := by
  unfold IsOperatorText; exact inferInstance

/-- A byte that starts no lexeme: not NUL, not white space, not punctuation, none of
`! ~ + -`, no digit, no `"`, no identifier start and no `is_symbol` byte. -/
def Unrecognised (b : Nat) : Prop :=
  b ≠ 0 ∧ b ∉ str " \t\r\n" ∧ b ∉ str "\x7b\x7d[]:,$.();" ∧ b ∉ str "!~+-"
    ∧ ¬ (48 ≤ b ∧ b ≤ 57) ∧ b ≠ 34 ∧ ¬ IdStart b ∧ b ∉ str "&|^=<>*/%#"

instance (b : Nat) : Decidable (Unrecognised b) := by
  unfold Unrecognised; exact inferInstance

/-! ## Text blocks -/

/-- The body of a text block whose lines `ls` are each indented by `p` and ended by
`'\n'`. -/
def text_block_body (p : List Nat) : List (List Nat) → List Nat
  | [] => []
  | l :: ls => p ++ l ++ 10 :: text_block_body p ls

/-- The lines `ls`, each ended by `'\n'`. -/
def text_block_data : List (List Nat) → List Nat
  | [] => []
  | l :: ls => l ++ 10 :: text_block_data ls

/-- What the loop of a text block does after a line (lines 566-585): with the locals `st2`
at the start of the next line, it goes on with that line or ends the block. -/
def text_block_next (input file : List Nat) (begin : Location) (first_line : Nat)
    (fuel : Nat) (st2 : Cursor) (block2 : List Nat) : Outcome (Cursor × List Nat) :=
  (whitespace_check input first_line st2.c).bind fun ws =>
    if ws = 0 then
      (skip_blanks_loop input (input.length + 1) st2.c).bind fun c3 =>
        if ¬ (peek input c3 = 124 ∧ peek input (c3 + 1) = 124
            ∧ peek input (c3 + 2) = 124) then
          .error ⟨file, begin, str "Text block not terminated with |||"⟩
        else .ok ({ st2 with c := c3 + 2 }, block2)
    else text_block_loop input file begin first_line fuel ws st2 block2

/-- A string of spaces and tabs. -/
def IsBlanks (q : List Nat) : Prop := ∀ x ∈ q, x = 32 ∨ x = 9

instance (q : List Nat) : Decidable (IsBlanks q) := by
  unfold IsBlanks; exact inferInstance

/-- The lines of the body of a text block: at least one, none with a `'\n'` or a NUL
byte, the first not starting with a space or a tab. -/
def IsTextLines (ls : List (List Nat)) : Prop :=
  ls ≠ [] ∧ (∀ l ∈ ls, ∀ b ∈ l, b ≠ 10 ∧ b ≠ 0)
    ∧ ¬ ((ls.headD []).headD 0 = 32 ∨ (ls.headD []).headD 0 = 9)

instance (ls : List (List Nat)) : Decidable (IsTextLines ls) := by
  unfold IsTextLines; exact inferInstance

/-! ## The same input one line further down -/

/-- The position one line further down. -/
def Location.down (l : Location) : Location := ⟨l.line + 1, l.column⟩

/-- The error located one line further down. -/
def StaticError.down (e : StaticError) : StaticError := ⟨e.file, e.location.down, e.msg⟩

/-- The token with the same kind and data, its range one line further down. -/
def Token.down (t : Token) : Token :=
  ⟨t.kind, t.data, ⟨t.location.file, t.location.begin.down, t.location.end_.down⟩⟩

/-- The outcome with its result mapped by `f` and its error one line further down. -/
def Outcome.down {α β : Type} (f : α → β) : Outcome α → Outcome β
  | .ok a => .ok (f a)
  | .error e => .error e.down
  | .diverge => .diverge

/-- The locals of the driver when `k` bytes that end in the first `'\n'` are put before
the input. -/
def Cursor.shift (k : Nat) (st : Cursor) : Cursor :=
  ⟨k + st.c, st.line_number + 1, k + st.line_start⟩

/-- A step of the driver with its locals shifted. -/
def Step.shift (k : Nat) : Step → Step
  | .skip st => .skip (st.shift k)
  | .emit kind data st => .emit kind data (st.shift k)

/-- An iteration of the driver with its offsets shifted and its token one line further
down. -/
def Event.shift (k : Nat) (ev : Event) : Event :=
  ⟨k + ev.first, k + ev.next, ev.token.map Token.down⟩

/-! ## The accesses of a run -/

/-- One evaluation of the head of a loop together with the iteration that follows it, if
one does: the value of the loop's cursor at the head (the index `i` in `whitespace_check`
and in the `for` loop over the digits of a `\u` escape), the offsets of the input that are
read until the next head (an offset read several times is listed at least once), and the
values of
the cursor from which a `c--` or `--c` steps back. -/
structure Iter where
  cursor : Nat
  reads : List Nat
  backs : List Nat
  deriving DecidableEq, Repr

/-- The offsets read in the iterations `its`. -/
def all_reads : List Iter → List Nat
  | [] => []
  | it :: its => it.reads ++ all_reads its

/-- The cursors from which the iterations `its` step back. -/
def all_backs : List Iter → List Nat
  | [] => []
  | it :: its => it.backs ++ all_backs its

/-- What follows a piece that returns; nothing follows a throw. -/
def Outcome.after {α β : Type} (x : Outcome α) (f : α → List β) : List β :=
  match x with
  | .ok a => f a
  | .error _ => []
  | .diverge => []

/-- The iterations of `lex_number` (lines 87-221): each reads `*c`; the one that does
`goto end` is followed by the `c--` of line 221. -/
def lex_number_iters (input : List Nat) : Nat → State → Nat → List Iter
  | 0, _, _ => []
  | fuel + 1, state, c =>
    match lex_number_switch state (peek input c) with
    | .next s => ⟨c, [c], []⟩ :: lex_number_iters input fuel s (c + 1)
    | .stop => [⟨c, [c], [c]⟩]
    | .fail _ => [⟨c, [c], []⟩]

/-- The iterations of `whitespace_check(a, b)` (lines 230-233): each reads `a[i]`, and
`b[i]` when `a[i]` is a space or a tab. -/
def whitespace_check_iters (input : List Nat) (a b : Nat) : Nat → Nat → List Iter
  | 0, _ => []
  | fuel + 1, i =>
    if peek input (a + i) = 32 ∨ peek input (a + i) = 9 then
      if peek input (b + i) ≠ peek input (a + i) then [⟨i, [a + i, b + i], []⟩]
      else ⟨i, [a + i, b + i], []⟩ :: whitespace_check_iters input a b fuel (i + 1)
    else [⟨i, [a + i], []⟩]

/-- The iterations of the loop over the digits of a `\u` escape (lines 389-413): each
reads `c[i]`. -/
def unicode_escape_iters (input : List Nat) (c : Nat) : Nat → Nat → List Iter
  | 0, _ => []
  | n + 1, i =>
    let x := peek input (c + i)
    if x = 0 then [⟨i, [c + i], []⟩]
    else if x = 34 then [⟨i, [c + i], []⟩]
    else if 48 ≤ x ∧ x ≤ 57 then ⟨i, [c + i], []⟩ :: unicode_escape_iters input c n (i + 1)
    else if 97 ≤ x ∧ x ≤ 102 then ⟨i, [c + i], []⟩ :: unicode_escape_iters input c n (i + 1)
    else if 65 ≤ x ∧ x ≤ 70 then ⟨i, [c + i], []⟩ :: unicode_escape_iters input c n (i + 1)
    else [⟨i, [c + i], []⟩]

/-- The iterations of the loop of a string literal (lines 343-447): each reads `*c`, an
escape reads `*(++c)`, and a `\u` escape the digits after it; the next iteration is at the
byte after the escape (`c += 3` and the loop's `++c` after the digits of a `\u`). -/
def string_iters (input : List Nat) : Nat → Nat → List Iter
  | 0, _ => []
  | fuel + 1, c =>
    let ch := peek input c
    if ch = 0 then [⟨c, [c], []⟩]
    else if ch = 34 then [⟨c, [c], []⟩]
    else if ch = 92 then
      let e := peek input (c + 1)
      if e = 34 ∨ e = 92 ∨ e = 47 ∨ e = 98 ∨ e = 102 ∨ e = 110 ∨ e = 114 ∨ e = 116 then
        ⟨c, [c, c + 1], []⟩ :: string_iters input fuel (c + 1 + 1)
      else if e = 117 then
        ⟨c, [c, c + 1] ++ all_reads (unicode_escape_iters input (c + 1 + 1) 4 0), []⟩ ::
          (unicode_escape_loop input [] ⟨0, 0⟩ (c + 1 + 1) 4 0 0).after fun _ =>
            string_iters input fuel (c + 1 + 1 + 3 + 1)
      else [⟨c, [c, c + 1], []⟩]
    else ⟨c, [c], []⟩ :: string_iters input fuel (c + 1)

/-- The iterations of the loop that reads an identifier (lines 456-461). -/
def identifier_iters (input : List Nat) : Nat → Nat → List Iter
  | 0, _ => []
  | fuel + 1, c =>
    if peek input c ≠ 0 then
      if ¬ is_identifier (peek input c) then [⟨c, [c], []⟩]
      else ⟨c, [c], []⟩ :: identifier_iters input fuel (c + 1)
    else [⟨c, [c], []⟩]

/-- The iterations of the loop that reads an operator (lines 591-596). -/
def operator_iters (input : List Nat) : Nat → Nat → List Iter
  | 0, _ => []
  | fuel + 1, c =>
    if peek input c ≠ 0 then
      if ¬ is_symbol (peek input c) then [⟨c, [c], []⟩]
      else ⟨c, [c], []⟩ :: operator_iters input fuel (c + 1)
    else [⟨c, [c], []⟩]

/-- The iterations of the loop of a line comment (lines 506, 517). -/
def line_comment_iters (input : List Nat) : Nat → Nat → List Iter
  | 0, _ => []
  | fuel + 1, c =>
    if peek input c ≠ 0 ∧ peek input c ≠ 10 then
      ⟨c, [c], []⟩ :: line_comment_iters input fuel (c + 1)
    else [⟨c, [c], []⟩]

/-- The offsets read by `*c == '*' && *(c+1) == '/'` after `*c != '\0'`: the second read
is made only when the first byte is a `*`. -/
def star_slash_reads (input : List Nat) (c : Nat) : List Nat :=
  c :: (if peek input c = 42 then [c + 1] else [])

/-- The iterations of the loop of a block comment (lines 529-536); the last one is
followed by the test `*c == '\0'` of line 537. -/
def block_comment_iters (input : List Nat) : Nat → Nat → List Iter
  | 0, _ => []
  | fuel + 1, c =>
    if peek input c ≠ 0 ∧ ¬ (peek input c = 42 ∧ peek input (c + 1) = 47) then
      ⟨c, star_slash_reads input c, []⟩ :: block_comment_iters input fuel (c + 1)
    else [⟨c, star_slash_reads input c, []⟩]

/-- The iterations of the loop that reads one line of a text block (lines 560-564). -/
def text_line_iters (input : List Nat) : Nat → Nat → List Iter
  | 0, _ => []
  | fuel + 1, c =>
    if peek input c ≠ 10 then
      if peek input c = 0 then [⟨c, [c], []⟩]
      else ⟨c, [c], []⟩ :: text_line_iters input fuel (c + 1)
    else [⟨c, [c], []⟩]

/-- The iterations of the loop that skips blanks (line 575). -/
def skip_blanks_iters (input : List Nat) : Nat → Nat → List Iter
  | 0, _ => []
  | fuel + 1, c =>
    if peek input c = 32 ∨ peek input c = 9 then
      ⟨c, [c], []⟩ :: skip_blanks_iters input fuel (c + 1)
    else [⟨c, [c], []⟩]

/-- The offsets read by `*c == '|' && *(c+1) == '|' && *(c+2) == '|'`: each byte is read
only when the ones before it are `|`. -/
def bars_reads (input : List Nat) (c : Nat) : List Nat :=
  c :: (if peek input c = 124 then
    (c + 1) :: (if peek input (c + 1) = 124 then [c + 2] else []) else [])

/-- The offsets read by the test of line 546, with `*(c+3) == '\n'` after the three
bars. -/
def text_block_open_reads (input : List Nat) (c : Nat) : List Nat :=
  bars_reads input c ++
    (if peek input c = 124 ∧ peek input (c + 1) = 124 ∧ peek input (c + 2) = 124 then [c + 3]
     else [])

/-- The iterations of the loop of a text block (lines 557-586), the cursor at the start
of a line: the jump by `ws_chars` and the line, `whitespace_check` on the next line, and,
when that gives 0, the blanks and the three bars that end the block. -/
def text_block_iters (input : List Nat) (first_line : Nat) : Nat → Nat → Nat → List Iter
  | 0, _, _ => []
  | fuel + 1, ws_chars, c =>
    let n := input.length + 1
    let line := all_reads (text_line_iters input n (c + ws_chars))
    match text_line_loop input [] ⟨0, 0⟩ n (c + ws_chars) [] with
    | .ok r =>
      let c2 := r.1 + 1
      let check := all_reads (whitespace_check_iters input first_line c2 n 0)
      match whitespace_check input first_line c2 with
      | .ok ws =>
        if ws = 0 then
          [⟨c, line ++ check ++ all_reads (skip_blanks_iters input n c2)
            ++ (skip_blanks_loop input n c2).after (bars_reads input), []⟩]
        else ⟨c, line ++ check, []⟩ :: text_block_iters input first_line fuel ws c2
      | _ => [⟨c, line ++ check, []⟩]
    | _ => [⟨c, line, []⟩]

/-- The iteration of the driver's loop that starts with the locals `st`, at a cursor with
`*c != '\0'` (lines 246-614): the reads of `*c`, of the lookaheads and of the loop or
function the `switch` goes to, and the back-up steps: the `c--` of `lex_number` and the
`--c` or `c--` after an identifier, an operator or a line comment. -/
def lex_body_iter (input : List Nat) (st : Cursor) : Iter :=
  let c := st.c
  let ch := peek input c
  let fuel := input.length + 1
  if ch = 33 then ⟨c, [c, c + 1], []⟩
  else if is_number ch then
    ⟨c, c :: all_reads (lex_number_iters input fuel .BEGIN c),
      all_backs (lex_number_iters input fuel .BEGIN c)⟩
  else if ch = 34 then ⟨c, c :: all_reads (string_iters input fuel (c + 1)), []⟩
  else if is_identifier_first ch then
    ⟨c, c :: all_reads (identifier_iters input fuel c),
      (identifier_loop input fuel c []).after fun r => [r.1]⟩
  else if is_symbol ch then
    if ch = 47 ∧ peek input (c + 1) = 47 then
      ⟨c, c :: (c + 1) :: all_reads (line_comment_iters input fuel c),
        (line_comment_loop input fuel c).after fun c1 => [c1]⟩
    else if ch = 35 then
      ⟨c, c :: all_reads (line_comment_iters input fuel c),
        (line_comment_loop input fuel c).after fun c1 => [c1]⟩
    else if ch = 47 ∧ peek input (c + 1) = 42 then
      ⟨c, c :: (c + 1) :: all_reads (block_comment_iters input fuel (c + 2)), []⟩
    else if ch = 124 ∧ peek input (c + 1) = 124 ∧ peek input (c + 2) = 124
        ∧ peek input (c + 3) = 10 then
      ⟨c, text_block_open_reads input c
        ++ all_reads (whitespace_check_iters input (c + 4) (c + 4) fuel 0)
        ++ (whitespace_check input (c + 4) (c + 4)).after fun ws_chars =>
            if ws_chars = 0 then []
            else all_reads (text_block_iters input (c + 4) fuel ws_chars (c + 4)), []⟩
    else
      ⟨c, (if ch = 47 then [c, c + 1] else text_block_open_reads input c)
        ++ all_reads (operator_iters input fuel c),
        (operator_loop input fuel c []).after fun r => [r.1]⟩
  else ⟨c, [c], []⟩

/-- The iterations of the driver's loop (lines 246-614), the last one the head that finds
`*c == '\0'`; an iteration that throws is the last. -/
def lex_loop_iters (file input : List Nat) : Nat → Cursor → List Iter
  | 0, _ => []
  | fuel + 1, st =>
    if peek input st.c ≠ 0 then
      lex_body_iter input st ::
        (lex_body file input st).after fun step =>
          lex_loop_iters file input fuel { step.cursor with c := step.cursor.c + 1 }
    else [⟨st.c, [st.c], []⟩]

/-- The iterations of the driver's loop in `jsonnet_lex(filename, input)`. -/
def jsonnet_lex_iters (file input : List Nat) : List Iter :=
  lex_loop_iters file input (input.length + 1) ⟨0, 1, 0⟩

/-- What holds of the iterations `its` of a loop entered with the cursor at `c`, on an
input of length `n`: no cursor is before `c`, every offset read is at most `n`, every
back-up step is from a cursor between 1 and `n`, and the cursor grows strictly from each
iteration to every later one. -/
def ItersOK (n c : Nat) (its : List Iter) : Prop :=
  (∀ it ∈ its, c ≤ it.cursor ∧ (∀ i ∈ it.reads, i ≤ n) ∧ ∀ e ∈ it.backs, 1 ≤ e ∧ e ≤ n) ∧
    its.Pairwise fun a b => a.cursor < b.cursor

/-- The cursor grows strictly from each of the iterations `its` to every later one. -/
def Forward (its : List Iter) : Prop := its.Pairwise fun a b => a.cursor < b.cursor

instance (its : List Iter) : Decidable (Forward its) := by
  unfold Forward; exact inferInstance

/-- The byte at the offset `j` is consumed by the iteration `ev` of the driver: it lies
between the cursor at which the iteration starts and the one at which the next starts. -/
def Event.consumes (ev : Event) (j : Nat) : Bool := decide (ev.first ≤ j ∧ j < ev.next)

/-! ## The range of the `int`s -/

/-- The `int`s of `whitespace_check(a, b)` are exact for the line at `a`, whatever the line
at `b` it is compared with: every value that the index `i` takes at the head of the loop
is at most `INT_MAX`, so that no `i++` overflows, and so is the count returned, which the
text-block code stores in `int ws_chars`. -/
def IntExact (input : List Nat) (a : Nat) : Prop :=
  ∀ b fuel, (∀ it ∈ whitespace_check_iters input a b fuel 0, it.cursor ≤ INT_MAX) ∧
    ∀ ws, whitespace_check_loop input a b fuel 0 = .ok ws → ws ≤ INT_MAX

/-! # Theorems -/

/-! ## Reading the input through `peek` -/

theorem peek_lt {input : List Nat} {c : Nat} (h : peek input c ≠ 0) : c < input.length := by
  by_contra hc
  exact h (by simp [peek, List.getElem?_eq_none (Nat.le_of_not_lt hc)])

theorem peek_of_drop {input : List Nat} {c x : Nat} {t : List Nat}
    (h : input.drop c = x :: t) : peek input c = x ∧ input.drop (c + 1) = t := by
  induction input generalizing c with
  | nil => simp at h
  | cons a l ih =>
    cases c with
    | zero => simp at h; simp [peek, h]
    | succ c => 
      simp at h
      have := ih h
      simpa [peek] using this

theorem peek_of_drop_nil {input : List Nat} {c : Nat} (h : input.drop c = []) :
    peek input c = 0 := by
  have : input.length ≤ c := by simpa using h
  simp [peek, List.getElem?_eq_none this]

theorem length_of_drop {input : List Nat} {c : Nat} {w t : List Nat}
    (h : input.drop c = w ++ t) : c + w.length + t.length = input.length ∨ (w = [] ∧ t = []) := by
  have h1 := congrArg List.length h
  simp at h1
  by_cases hw : w = [] ∧ t = []
  · exact Or.inr hw
  · left
    have : 0 < w.length + t.length := by
      rcases w with _ | ⟨a, w⟩
      · rcases t with _ | ⟨b, t⟩
        · simp at hw
        · simp
      · simp
    omega

/-! ## The number automaton -/

theorem run_number_append (s : State) (a b : List Nat) :
    run_number s (a ++ b) = (run_number s a).bind fun s1 => run_number s1 b := by
  induction a generalizing s with
  | nil => simp [run_number]
  | cons x a ih =>
    simp only [List.cons_append, run_number]
    cases lex_number_switch s x <;> simp [ih]

theorem run_number_digits {s : State} (hs : ∀ d, 48 ≤ d ∧ d ≤ 57 → lex_number_switch s d = .next s)
    {ds : List Nat} (h : Digits ds) : run_number s ds = some s := by
  induction ds with
  | nil => rfl
  | cons d ds ih =>
    have hd := h d (by simp)
    simp only [run_number, hs d hd]
    exact ih fun x hx => h x (by simp [hx])

theorem switch_digit_one_to_nine (d : Nat) (h : 48 ≤ d ∧ d ≤ 57) :
    lex_number_switch .AFTER_ONE_TO_NINE d = .next .AFTER_ONE_TO_NINE := by
  have h1 : d ≠ 46 := by omega
  have h2 : ¬ (d = 101 ∨ d = 69) := by omega
  simp [lex_number_switch, h1, h2, is_number, h.1, h.2]

theorem switch_digit_after_digit (d : Nat) (h : 48 ≤ d ∧ d ≤ 57) :
    lex_number_switch .AFTER_DIGIT d = .next .AFTER_DIGIT := by
  have h2 : ¬ (d = 101 ∨ d = 69) := by omega
  simp [lex_number_switch, h2, is_number, h.1, h.2]

theorem switch_digit_exp_digit (d : Nat) (h : 48 ≤ d ∧ d ≤ 57) :
    lex_number_switch .AFTER_EXP_DIGIT d = .next .AFTER_EXP_DIGIT := by
  simp [lex_number_switch, is_number, h.1, h.2]

theorem run_number_int {i : List Nat} (h : IsIntPart i) :
    run_number .BEGIN i = some .AFTER_ZERO ∨ run_number .BEGIN i = some .AFTER_ONE_TO_NINE := by
  rcases h with rfl | ⟨d, ds, rfl, hd, hds⟩
  · left; simp [run_number, lex_number_switch]
  · right
    have h1 : d ≠ 48 := by omega
    simp only [run_number, lex_number_switch, h1, is_one_to_nine, hd.1, hd.2, if_false,
      decide_True, Bool.and_self, if_true]
    exact run_number_digits switch_digit_one_to_nine hds

theorem run_number_frac {s : State} (hs : s = .AFTER_ZERO ∨ s = .AFTER_ONE_TO_NINE)
    {f : List Nat} (h : IsFracPart f) :
    run_number s f = some s ∨ run_number s f = some .AFTER_DIGIT := by
  rcases h with rfl | ⟨ds, rfl, hne, hds⟩
  · left; rfl
  · right
    rcases ds with _ | ⟨d, ds⟩
    · exact absurd rfl hne
    · have hd := hds d (by simp)
      have hsw : lex_number_switch s 46 = .next .AFTER_DOT := by
        rcases hs with rfl | rfl <;> simp [lex_number_switch]
      have hsw2 : lex_number_switch .AFTER_DOT d = .next .AFTER_DIGIT := by
        simp [lex_number_switch, is_number, hd.1, hd.2]
      simp only [run_number, hsw, hsw2]
      exact run_number_digits switch_digit_after_digit fun x hx => hds x (by simp [hx])

theorem run_number_exp {s : State}
    (hs : s = .AFTER_ZERO ∨ s = .AFTER_ONE_TO_NINE ∨ s = .AFTER_DIGIT)
    {e : List Nat} (h : IsExpPart e) :
    run_number s e = some s ∨ run_number s e = some .AFTER_EXP_DIGIT := by
  rcases h with rfl | ⟨e, sign, ds, rfl, he, hsign, hne, hds⟩
  · left; rfl
  · right
    rcases ds with _ | ⟨d, ds⟩
    · exact absurd rfl hne
    · have hd := hds d (by simp)
      have hsw : lex_number_switch s e = .next .AFTER_E := by
        have h1 : e ≠ 46 := by omega
        rcases hs with rfl | rfl | rfl <;> simp [lex_number_switch, he, h1]
      have hsw2 : lex_number_switch .AFTER_E d = .next .AFTER_EXP_DIGIT := by
        have h1 : ¬ (d = 43 ∨ d = 45) := by omega
        simp [lex_number_switch, is_number, hd.1, hd.2, h1]
      have hsw3 : lex_number_switch .AFTER_EXP_SIGN d = .next .AFTER_EXP_DIGIT := by
        simp [lex_number_switch, is_number, hd.1, hd.2]
      have hrest : run_number .AFTER_EXP_DIGIT ds = some .AFTER_EXP_DIGIT :=
        run_number_digits switch_digit_exp_digit fun x hx => hds x (by simp [hx])
      rcases hsign with rfl | rfl | rfl
      · simp only [List.nil_append, run_number, hsw, hsw2, hrest]
      · have : lex_number_switch .AFTER_E 43 = .next .AFTER_EXP_SIGN := by
          simp [lex_number_switch]
        simp only [List.singleton_append, run_number, hsw, this, hsw3, hrest]
      · have : lex_number_switch .AFTER_E 45 = .next .AFTER_EXP_SIGN := by
          simp [lex_number_switch]
        simp only [List.singleton_append, run_number, hsw, this, hsw3, hrest]

/-- Every string of the number grammar is spelled by a walk of the automaton from `BEGIN`
to a state that accepts. -/
theorem run_number_of_json_number {n : List Nat} (h : IsJsonNumber n) :
    ∃ s, run_number .BEGIN n = some s ∧ s.accepting = true := by
  obtain ⟨i, f, e, rfl, hi, hf, he⟩ := h
  rw [run_number_append]
  rcases run_number_int hi with h1 | h1 <;> rw [h1] <;>
    simp only [Option.some_bind, run_number_append]
  · rcases run_number_frac (Or.inl rfl) hf with h2 | h2 <;> rw [h2] <;>
      simp only [Option.some_bind]
    · rcases run_number_exp (Or.inl rfl) he with h3 | h3 <;> rw [h3] <;> exact ⟨_, rfl, rfl⟩
    · rcases run_number_exp (Or.inr (Or.inr rfl)) he with h3 | h3 <;> rw [h3] <;>
        exact ⟨_, rfl, rfl⟩
  · rcases run_number_frac (Or.inr rfl) hf with h2 | h2 <;> rw [h2] <;>
      simp only [Option.some_bind]
    · rcases run_number_exp (Or.inr (Or.inl rfl)) he with h3 | h3 <;> rw [h3] <;>
        exact ⟨_, rfl, rfl⟩
    · rcases run_number_exp (Or.inr (Or.inr rfl)) he with h3 | h3 <;> rw [h3] <;>
        exact ⟨_, rfl, rfl⟩

/-- The loop of `lex_number` follows a walk of the automaton over the bytes at the cursor. -/
theorem lex_number_loop_run (input file : List Nat) (begin : Location) :
    ∀ (w : List Nat) (s s1 : State) (c : Nat) (r tail : List Nat) (fuel : Nat),
      input.drop c = w ++ tail → run_number s w = some s1 →
      lex_number_loop input file begin (fuel + w.length) s c r
        = lex_number_loop input file begin fuel s1 (c + w.length) (r ++ w) := by
  intro w
  induction w with
  | nil =>
    intro s s1 c r tail fuel _ h
    simp [run_number] at h
    simp [h]
  | cons b w ih =>
    intro s s1 c r tail fuel hd h
    obtain ⟨hp, hd1⟩ := peek_of_drop hd
    simp only [run_number] at h
    cases hsw : lex_number_switch s b with
    | next s2 =>
      rw [hsw] at h
      have := ih s2 s1 (c + 1) (r ++ [b]) tail fuel hd1 h
      rw [show fuel + (b :: w).length = (fuel + w.length) + 1 by simp; omega]
      simp only [lex_number_loop, hp, hsw, this]
      congr 1
      · simp; omega
      · simp
    | stop => rw [hsw] at h; simp at h
    | fail m => rw [hsw] at h; simp at h

/-- An accepting state stops at the end of the input. -/
theorem switch_accepting_nul {s : State} (h : s.accepting = true) :
    lex_number_switch s 0 = .stop := by
  cases s <;> simp [State.accepting] at h <;> simp [lex_number_switch, is_number]

/-- On a cursor followed by a walk `n` of the automaton to a state that stops at the byte
after it, `lex_number` returns `n` and leaves the cursor on the last byte of `n`. -/
theorem lex_number_of_run (input file : List Nat) (begin : Location) (c : Nat)
    (n tail : List Nat) (s : State) (hd : input.drop c = n ++ tail)
    (hrun : run_number .BEGIN n = some s)
    (hstop : lex_number_switch s (tail.headD 0) = .stop) :
    lex_number input c file begin = .ok (n, c + n.length - 1) := by
  have hlen : n.length ≤ input.length := by
    have := congrArg List.length hd
    simp at this; omega
  obtain ⟨k, hk⟩ : ∃ k, input.length + 1 = (k + 1) + n.length := ⟨input.length - n.length, by omega⟩
  have hpk : peek input (c + n.length) = tail.headD 0 := by
    have h2 : input.drop (c + n.length) = tail := by
      rw [← List.drop_drop, hd]; simp
    rcases tail with _ | ⟨t, tail⟩
    · simpa using peek_of_drop_nil h2
    · simpa using (peek_of_drop h2).1
  unfold lex_number
  rw [hk, lex_number_loop_run input file begin n .BEGIN s c [] tail (k + 1) hd hrun]
  simp only [lex_number_loop, List.nil_append]
  rw [hpk, hstop]

theorem is_number_iff (c : Nat) : is_number c = true ↔ 48 ≤ c ∧ c ≤ 57 := by
  simp [is_number]

theorem is_identifier_first_iff (c : Nat) :
    is_identifier_first c = true ↔ (65 ≤ c ∧ c ≤ 90) ∨ (97 ≤ c ∧ c ≤ 122) ∨ c = 95 := by
  simp [is_identifier_first, is_upper, is_lower, or_assoc]

theorem is_identifier_iff (c : Nat) :
    is_identifier c = true ↔
      (65 ≤ c ∧ c ≤ 90) ∨ (97 ≤ c ∧ c ≤ 122) ∨ c = 95 ∨ (48 ≤ c ∧ c ≤ 57) := by
  simp [is_identifier, is_identifier_first_iff, is_number_iff, or_assoc]

theorem is_symbol_iff (c : Nat) :
    is_symbol c = true ↔ c = 38 ∨ c = 124 ∨ c = 94 ∨ c = 61 ∨ c = 60 ∨ c = 62 ∨ c = 42
      ∨ c = 47 ∨ c = 37 ∨ c = 35 := by
  simp [is_symbol, or_assoc]

theorem punctuation_eq_none {ch : Nat}
    (h : ch ≠ 123 ∧ ch ≠ 125 ∧ ch ≠ 91 ∧ ch ≠ 93 ∧ ch ≠ 58 ∧ ch ≠ 44 ∧ ch ≠ 36 ∧ ch ≠ 46
      ∧ ch ≠ 40 ∧ ch ≠ 41 ∧ ch ≠ 59) : punctuation ch = none := by
  obtain ⟨h1, h2, h3, h4, h5, h6, h7, h8, h9, h10, h11⟩ := h
  simp [punctuation, h1, h2, h3, h4, h5, h6, h7, h8, h9, h10, h11]

theorem lex_body_of_number (file input : List Nat) (st : Cursor)
    (h : is_number (peek input st.c) = true) :
    lex_body file input st =
      (lex_number input st.c file ⟨st.line_number, st.c - st.line_start + 1⟩).bind fun r =>
        .ok (.emit .NUMBER r.1 { st with c := r.2 }) := by
  have hd := (is_number_iff _).1 h
  have hp : punctuation (peek input st.c) = none := punctuation_eq_none (by omega)
  have h1 : ¬ (peek input st.c = 32 ∨ peek input st.c = 9 ∨ peek input st.c = 13) := by omega
  have h2 : peek input st.c ≠ 10 := by omega
  have h3 : peek input st.c ≠ 33 := by omega
  have h4 : peek input st.c ≠ 126 := by omega
  have h5 : peek input st.c ≠ 43 := by omega
  have h6 : peek input st.c ≠ 45 := by omega
  simp only [lex_body, h1, h2, hp, h3, h4, h5, h6, h, if_false, if_true, Bool.false_eq_true]

theorem lex_body_of_identifier_first (file input : List Nat) (st : Cursor)
    (h : is_identifier_first (peek input st.c) = true) :
    lex_body file input st =
      (identifier_loop input (input.length + 1) st.c []).bind fun r =>
        .ok (.emit (keyword_or_identifier r.2).1 (keyword_or_identifier r.2).2
          { st with c := r.1 - 1 }) := by
  have hd := (is_identifier_first_iff _).1 h
  have hp : punctuation (peek input st.c) = none := punctuation_eq_none (by omega)
  have h1 : ¬ (peek input st.c = 32 ∨ peek input st.c = 9 ∨ peek input st.c = 13) := by omega
  have h2 : peek input st.c ≠ 10 := by omega
  have h3 : peek input st.c ≠ 33 := by omega
  have h4 : peek input st.c ≠ 126 := by omega
  have h5 : peek input st.c ≠ 43 := by omega
  have h6 : peek input st.c ≠ 45 := by omega
  have h7 : is_number (peek input st.c) = false := by
    rw [Bool.eq_false_iff, Ne, is_number_iff]; omega
  have h8 : peek input st.c ≠ 34 := by omega
  simp only [lex_body, h1, h2, hp, h3, h4, h5, h6, h7, h8, h, if_false, if_true,
    Option.isSome_none, Bool.false_eq_true]

theorem lex_body_of_quote (file input : List Nat) (st : Cursor)
    (h : peek input st.c = 34) :
    lex_body file input st =
      (string_loop input file ⟨st.line_number, st.c - st.line_start + 1⟩
          (input.length + 1) { st with c := st.c + 1 } []).bind fun r =>
        .ok (.emit .STRING r.2 r.1) := by
  simp [lex_body, h, punctuation, is_number]

theorem lex_body_of_minus (file input : List Nat) (st : Cursor)
    (h : peek input st.c = 45) :
    lex_body file input st = .ok (.emit .OPERATOR (str "-") st) := by
  simp [lex_body, h, punctuation]

theorem lex_loop_eof (file input : List Nat) (fuel : Nat) (st : Cursor)
    (h : peek input st.c = 0) :
    lex_loop file input (fuel + 1) st =
      .ok [⟨st.c, st.c, some ⟨.END_OF_FILE, [],
        ⟨file, ⟨st.line_number, st.c - st.line_start + 1⟩,
          ⟨st.line_number, st.c - st.line_start + 1⟩⟩⟩⟩] := by
  simp [lex_loop, h]

theorem lex_loop_emit (file input : List Nat) (fuel : Nat) (st st1 : Cursor) (kind : Kind)
    (data : List Nat) (h : peek input st.c ≠ 0)
    (hb : lex_body file input st = .ok (.emit kind data st1)) :
    lex_loop file input (fuel + 1) st =
      (lex_loop file input fuel { st1 with c := st1.c + 1 }).bind fun r =>
        .ok (⟨st.c, st1.c + 1, some ⟨kind, data,
          ⟨file, ⟨st.line_number, st.c - st.line_start + 1⟩,
            ⟨st1.line_number, st1.c - st1.line_start + 1⟩⟩⟩⟩ :: r) := by
  simp [lex_loop, h, hb, Step.cursor, Step.token, Outcome.bind]

/-! ## Lexing one number -/

theorem json_number_head {n : List Nat} (h : IsJsonNumber n) :
    ∃ d rest, n = d :: rest ∧ 48 ≤ d ∧ d ≤ 57 := by
  obtain ⟨i, f, e, rfl, hi, -, -⟩ := h
  rcases hi with rfl | ⟨d, ds, rfl, hd, -⟩
  · exact ⟨48, f ++ e, rfl, by omega, by omega⟩
  · exact ⟨d, ds ++ (f ++ e), rfl, by omega, by omega⟩

/-- The driver at a cursor followed by a number of the grammar and then the end of the
input: a `NUMBER` token, then `END_OF_FILE`. -/
theorem lex_loop_number_last (file input : List Nat) (st : Cursor) (n : List Nat)
    (fuel : Nat) (hd : input.drop st.c = n) (h : IsJsonNumber n) :
    lex_loop file input (fuel + 2) st =
      .ok [⟨st.c, st.c + n.length, some ⟨.NUMBER, n,
            ⟨file, ⟨st.line_number, st.c - st.line_start + 1⟩,
              ⟨st.line_number, st.c + n.length - 1 - st.line_start + 1⟩⟩⟩⟩,
          ⟨st.c + n.length, st.c + n.length, some ⟨.END_OF_FILE, [],
            ⟨file, ⟨st.line_number, st.c + n.length - st.line_start + 1⟩,
              ⟨st.line_number, st.c + n.length - st.line_start + 1⟩⟩⟩⟩] := by
  obtain ⟨d, rest, hn, hd1, hd2⟩ := json_number_head h
  obtain ⟨s, hrun, hacc⟩ := run_number_of_json_number h
  have hpk : peek input st.c = d := (peek_of_drop (hn ▸ hd)).1
  have hnum : is_number (peek input st.c) = true := by
    rw [hpk, is_number_iff]; exact ⟨hd1, hd2⟩
  have hlex := lex_number_of_run input file ⟨st.line_number, st.c - st.line_start + 1⟩
    st.c n [] s (by simpa using hd) hrun (by simpa using switch_accepting_nul hacc)
  have hbody := lex_body_of_number file input st hnum
  rw [hlex] at hbody
  simp only [Outcome.bind] at hbody
  have hlen : 1 ≤ n.length := by rw [hn]; simp
  have hend : peek input (st.c + n.length) = 0 := by
    apply peek_of_drop_nil
    rw [← List.drop_drop, hd]; simp
  rw [lex_loop_emit file input (fuel + 1) st _ _ _ (by rw [hpk]; omega) hbody]
  have h1 : st.c + n.length - 1 + 1 = st.c + n.length := by omega
  simp only [h1]
  rw [lex_loop_eof file input fuel _ (by simpa using hend)]
  simp [Outcome.bind]

/-- C1. Number round-trip: for every string `n` of the unsigned JSON number grammar,
`jsonnet_lex` on input `n` succeeds and returns exactly one `NUMBER` token whose data is
`n` (its range the whole of line 1), followed by `END_OF_FILE`. -/
theorem number_round_trip (file n : List Nat) (h : IsJsonNumber n) :
    jsonnet_lex file n =
      .ok [⟨.NUMBER, n, ⟨file, ⟨1, 1⟩, ⟨1, n.length⟩⟩⟩,
        ⟨.END_OF_FILE, [], ⟨file, ⟨1, n.length + 1⟩, ⟨1, n.length + 1⟩⟩⟩] := by
  obtain ⟨d, rest, hn, -, -⟩ := json_number_head h
  have hlen : n.length + 1 = (n.length - 1) + 2 := by rw [hn]; simp
  unfold jsonnet_lex jsonnet_lex_trace
  rw [hlen, lex_loop_number_last file n ⟨0, 1, 0⟩ n (n.length - 1) (by simp) h]
  have h1 : n.length - 1 + 1 = n.length := by rw [hn]; simp
  simp [Outcome.bind, h1]

/-- C1 at the input `2.5e+3`. -/
theorem number_round_trip_witness :
    IsJsonNumber (str "2.5e+3") ∧
      jsonnet_lex [] (str "2.5e+3") =
        .ok [⟨.NUMBER, str "2.5e+3", ⟨[], ⟨1, 1⟩, ⟨1, 6⟩⟩⟩,
          ⟨.END_OF_FILE, [], ⟨[], ⟨1, 7⟩, ⟨1, 7⟩⟩⟩] :=
  have h : IsJsonNumber (str "2.5e+3") :=
    ⟨str "2", str ".5", str "e+3", by decide,
      Or.inr ⟨50, [], by decide, by decide, by decide⟩,
      Or.inr ⟨str "5", by decide, by decide, by decide⟩,
      Or.inr ⟨101, str "+", str "3", by decide, by decide, by decide, by decide, by decide⟩⟩
  ⟨h, number_round_trip [] (str "2.5e+3") h⟩

/-! ## Lexing one identifier -/

theorem identifier_loop_run (input : List Nat) :
    ∀ (w : List Nat) (c : Nat) (id tail : List Nat) (fuel : Nat),
      input.drop c = w ++ tail → (∀ b ∈ w, IdChar b) → ¬ IdChar (tail.headD 0) →
      identifier_loop input (fuel + w.length + 1) c id = .ok (c + w.length, id ++ w) := by
  intro w
  induction w with
  | nil =>
    intro c id tail fuel hd _ ht
    have hp : peek input c = tail.headD 0 := by
      rcases tail with _ | ⟨t, tail⟩
      · simpa using peek_of_drop_nil (by simpa using hd)
      · simpa using (peek_of_drop (by simpa using hd)).1
    have hni : is_identifier (peek input c) = false := by
      rw [Bool.eq_false_iff, Ne, is_identifier_iff, hp]
      simpa [IdChar, IdStart, or_assoc] using ht
    rw [show fuel + ([] : List Nat).length + 1 = fuel + 1 by simp, identifier_loop]
    simp [hni]
  | cons b w ih =>
    intro c id tail fuel hd hw ht
    obtain ⟨hp, hd1⟩ := peek_of_drop hd
    have hb : IdChar b := hw b (by simp)
    have hi : is_identifier (peek input c) = true := by
      rw [is_identifier_iff, hp]
      simpa [IdChar, IdStart, or_assoc] using hb
    have hnz : peek input c ≠ 0 := by
      rw [hp]; intro h0; subst h0; revert hb; decide
    have := ih (c + 1) (id ++ [b]) tail fuel hd1 (fun x hx => hw x (by simp [hx])) ht
    rw [show fuel + (b :: w).length + 1 = (fuel + w.length + 1) + 1 by simp; omega]
    rw [identifier_loop, if_pos hnz, if_neg (by simp [hi]), hp, this]
    have e1 : c + 1 + w.length = c + (b :: w).length := by
      simp only [List.length_cons]; omega
    have e2 : id ++ [b] ++ w = id ++ b :: w := by simp
    rw [e1, e2]

theorem keyword_or_identifier_of_not_keyword {w : List Nat} (h : ¬ IsKeyword w) :
    keyword_or_identifier w = (.IDENTIFIER, w) := by
  have hk : ∀ p ∈ keywords, w ≠ p.1 := by
    intro p hp hw
    exact h (List.mem_map.2 ⟨p, hp, hw.symm⟩)
  simp only [keywords, List.forall_mem_cons, List.not_mem_nil, false_implies, implies_true,
    and_true] at hk
  obtain ⟨h1, h2, h3, h4, h5, h6, h7, h8, h9, h10, h11, h12, h13, h14, h15, h16, h17⟩ := hk
  simp only [keyword_or_identifier, h1, h2, h3, h4, h5, h6, h7, h8, h9, h10, h11, h12, h13,
    h14, h15, h16, h17, if_false]

theorem keyword_or_identifier_of_keyword {w : List Nat} {k : Kind} (h : (w, k) ∈ keywords) :
    keyword_or_identifier w = (k, []) := by
  simp only [keywords, List.mem_cons, Prod.mk.injEq, List.not_mem_nil, or_false] at h
  rcases h with h | h | h | h | h | h | h | h | h | h | h | h | h | h | h | h | h <;>
    obtain ⟨rfl, rfl⟩ := h <;> decide

/-- The body of the driver at a cursor followed by an identifier text `w` and then a byte
that does not continue it: one token for `w`, the cursor left on the last byte of `w`. -/
theorem lex_body_identifier_run (file input : List Nat) (st : Cursor) (w tail : List Nat)
    (hd : input.drop st.c = w ++ tail) (hw : IsIdentifierText w)
    (ht : ¬ IdChar (tail.headD 0)) :
    lex_body file input st =
      .ok (.emit (keyword_or_identifier w).1 (keyword_or_identifier w).2
        { st with c := st.c + w.length - 1 }) := by
  obtain ⟨b, bs, rfl, hb, hbs⟩ := hw
  have hpk : peek input st.c = b := (peek_of_drop hd).1
  have hfirst : is_identifier_first (peek input st.c) = true := by
    rw [hpk, is_identifier_first_iff]; exact hb
  have hall : ∀ x ∈ b :: bs, IdChar x := by
    intro x hx
    rcases List.mem_cons.1 hx with rfl | hx
    · exact Or.inl hb
    · exact hbs x hx
  have hlen : (b :: bs).length ≤ input.length := by
    have := congrArg List.length hd
    simp only [List.length_drop, List.length_append] at this
    omega
  have hrun := identifier_loop_run input (b :: bs) st.c [] tail
    (input.length - (b :: bs).length) hd hall ht
  rw [show input.length - (b :: bs).length + (b :: bs).length + 1 = input.length + 1 by omega]
    at hrun
  rw [lex_body_of_identifier_first file input st hfirst, hrun]
  simp [Outcome.bind]

/-- The driver on an input that is one identifier text: one token, then `END_OF_FILE`. -/
theorem jsonnet_lex_identifier_text (file w : List Nat) (hw : IsIdentifierText w) :
    jsonnet_lex file w =
      .ok [⟨(keyword_or_identifier w).1, (keyword_or_identifier w).2,
          ⟨file, ⟨1, 1⟩, ⟨1, w.length⟩⟩⟩,
        ⟨.END_OF_FILE, [], ⟨file, ⟨1, w.length + 1⟩, ⟨1, w.length + 1⟩⟩⟩] := by
  have hbody := lex_body_identifier_run file w ⟨0, 1, 0⟩ w [] (by simp) hw (by decide)
  obtain ⟨b, bs, hwb, hb, -⟩ := hw
  have hpk : peek w 0 ≠ 0 := by
    rw [hwb]; simp only [peek, List.getD_cons_zero]
    intro h0; subst h0; revert hb; decide
  have hlen : w.length = bs.length + 1 := by rw [hwb]; simp
  have hend : peek w w.length = 0 := peek_of_drop_nil (by simp)
  unfold jsonnet_lex jsonnet_lex_trace
  rw [show w.length + 1 = bs.length + 1 + 1 by omega,
    lex_loop_emit file w (bs.length + 1) ⟨0, 1, 0⟩ _ _ _ hpk hbody]
  have h1 : 0 + w.length - 1 + 1 = w.length := by omega
  simp only [h1]
  rw [lex_loop_eof file w bs.length _ (by simpa using hend)]
  simp [Outcome.bind]
  omega

/-- C5. Identifier/keyword classification: for every string `w` matching
`[A-Za-z_][A-Za-z0-9_]*`, `jsonnet_lex` on input `w` returns exactly one token followed by
`END_OF_FILE`; if `w` is one of the 17 reserved spellings the token has that keyword's own
kind and empty data, and otherwise it has kind `IDENTIFIER` with data equal to `w`. -/
theorem identifier_keyword_classification (file w : List Nat) (hw : IsIdentifierText w) :
    (∀ k, (w, k) ∈ keywords →
      jsonnet_lex file w =
        .ok [⟨k, [], ⟨file, ⟨1, 1⟩, ⟨1, w.length⟩⟩⟩,
          ⟨.END_OF_FILE, [], ⟨file, ⟨1, w.length + 1⟩, ⟨1, w.length + 1⟩⟩⟩]) ∧
    (¬ IsKeyword w →
      jsonnet_lex file w =
        .ok [⟨.IDENTIFIER, w, ⟨file, ⟨1, 1⟩, ⟨1, w.length⟩⟩⟩,
          ⟨.END_OF_FILE, [], ⟨file, ⟨1, w.length + 1⟩, ⟨1, w.length + 1⟩⟩⟩]) := by
  constructor
  · intro k hk
    rw [jsonnet_lex_identifier_text file w hw, keyword_or_identifier_of_keyword hk]
  · intro hk
    rw [jsonnet_lex_identifier_text file w hw, keyword_or_identifier_of_not_keyword hk]

/-- C5 at the input `importstr2`, which has the keyword `importstr` as a proper initial
segment. -/
theorem identifier_keyword_classification_witness :
    IsIdentifierText (str "importstr2") ∧
      ((∀ k, (str "importstr2", k) ∈ keywords →
        jsonnet_lex [] (str "importstr2") =
          .ok [⟨k, [], ⟨[], ⟨1, 1⟩, ⟨1, (str "importstr2").length⟩⟩⟩,
            ⟨.END_OF_FILE, [], ⟨[], ⟨1, (str "importstr2").length + 1⟩,
              ⟨1, (str "importstr2").length + 1⟩⟩⟩]) ∧
      (¬ IsKeyword (str "importstr2") →
        jsonnet_lex [] (str "importstr2") =
          .ok [⟨.IDENTIFIER, str "importstr2", ⟨[], ⟨1, 1⟩, ⟨1, (str "importstr2").length⟩⟩⟩,
            ⟨.END_OF_FILE, [], ⟨[], ⟨1, (str "importstr2").length + 1⟩,
              ⟨1, (str "importstr2").length + 1⟩⟩⟩])) :=
  have h : IsIdentifierText (str "importstr2") :=
    ⟨105, str "mportstr2", by decide, by decide, by decide⟩
  ⟨h, identifier_keyword_classification [] (str "importstr2") h⟩

/-- C10. A minus sign is never absorbed into a number: for every identifier text `x` that
is not a keyword and every unsigned JSON number literal `n`, `jsonnet_lex` on
`x ++ "-" ++ n` returns exactly `IDENTIFIER(x)`, `OPERATOR("-")`, `NUMBER(n)`,
`END_OF_FILE`, in that order. -/
theorem minus_not_absorbed (file x n : List Nat) (hx : IsIdentifierText x)
    (hk : ¬ IsKeyword x) (hn : IsJsonNumber n) :
    jsonnet_lex file (x ++ str "-" ++ n) =
      .ok [⟨.IDENTIFIER, x, ⟨file, ⟨1, 1⟩, ⟨1, x.length⟩⟩⟩,
        ⟨.OPERATOR, str "-", ⟨file, ⟨1, x.length + 1⟩, ⟨1, x.length + 1⟩⟩⟩,
        ⟨.NUMBER, n, ⟨file, ⟨1, x.length + 2⟩, ⟨1, x.length + 1 + n.length⟩⟩⟩,
        ⟨.END_OF_FILE, [], ⟨file, ⟨1, x.length + 1 + n.length + 1⟩,
          ⟨1, x.length + 1 + n.length + 1⟩⟩⟩] := by
  have hstr : str "-" = [45] := by decide
  rw [hstr]
  set input := x ++ [45] ++ n with hinput
  have hd0 : input.drop 0 = x ++ (45 :: n) := by simp [hinput]
  have hbody := lex_body_identifier_run file input ⟨0, 1, 0⟩ x (45 :: n) hd0 hx
    (show ¬ IdChar 45 by decide)
  rw [keyword_or_identifier_of_not_keyword hk] at hbody
  obtain ⟨b, bs, hxb, hb, -⟩ := hx
  have hxlen : x.length = bs.length + 1 := by rw [hxb]; simp
  have hpk : peek input 0 ≠ 0 := by
    rw [(peek_of_drop (hxb ▸ hd0)).1]
    intro h0; subst h0; revert hb; decide
  have hd1 : input.drop x.length = 45 :: n := by simp [hinput]
  have hpm : peek input x.length = 45 := (peek_of_drop hd1).1
  have hd2 : input.drop (x.length + 1) = n := (peek_of_drop hd1).2
  obtain ⟨d, rest, hnd, -, -⟩ := json_number_head hn
  have hnlen : n.length = rest.length + 1 := by rw [hnd]; simp
  have hlen : input.length + 1 = (bs.length + rest.length + 2) + 1 + 1 := by
    simp only [hinput, List.length_append, List.length_singleton]; omega
  unfold jsonnet_lex jsonnet_lex_trace
  rw [hlen, lex_loop_emit file input _ ⟨0, 1, 0⟩ _ _ _ hpk hbody]
  have h1 : 0 + x.length - 1 + 1 = x.length := by omega
  simp only [h1]
  rw [lex_loop_emit file input _ ⟨x.length, 1, 0⟩ ⟨x.length, 1, 0⟩ .OPERATOR (str "-")
    (by simp [hpm]) (lex_body_of_minus file input _ hpm)]
  rw [show bs.length + rest.length + 2 = (bs.length + rest.length) + 2 by omega,
    lex_loop_number_last file input ⟨x.length + 1, 1, 0⟩ n _ hd2 hn]
  simp [Outcome.bind, hstr]
  omega

/-- C10 at the input `x-1`. -/
theorem minus_not_absorbed_witness :
    IsIdentifierText (str "x") ∧ ¬ IsKeyword (str "x") ∧ IsJsonNumber (str "1") ∧
      jsonnet_lex [] (str "x" ++ str "-" ++ str "1") =
        .ok [⟨.IDENTIFIER, str "x", ⟨[], ⟨1, 1⟩, ⟨1, (str "x").length⟩⟩⟩,
          ⟨.OPERATOR, str "-", ⟨[], ⟨1, (str "x").length + 1⟩, ⟨1, (str "x").length + 1⟩⟩⟩,
          ⟨.NUMBER, str "1",
            ⟨[], ⟨1, (str "x").length + 2⟩, ⟨1, (str "x").length + 1 + (str "1").length⟩⟩⟩,
          ⟨.END_OF_FILE, [], ⟨[], ⟨1, (str "x").length + 1 + (str "1").length + 1⟩,
            ⟨1, (str "x").length + 1 + (str "1").length + 1⟩⟩⟩] :=
  have hx : IsIdentifierText (str "x") := ⟨120, [], by decide, by decide, by decide⟩
  have hk : ¬ IsKeyword (str "x") := by decide
  have hn : IsJsonNumber (str "1") :=
    ⟨str "1", [], [], by decide, Or.inr ⟨49, [], by decide, by decide, by decide⟩,
      Or.inl rfl, Or.inl rfl⟩
  ⟨hx, hk, hn, minus_not_absorbed [] (str "x") (str "1") hx hk hn⟩

/-! ## Lexing one string literal without escapes -/

theorem string_loop_run (input file : List Nat) (begin : Location) :
    ∀ (v : List Nat) (st : Cursor) (data tail : List Nat) (fuel : Nat),
      input.drop st.c = v ++ 34 :: tail → (∀ b ∈ v, b ≠ 34 ∧ b ≠ 92 ∧ b ≠ 0) →
      ∃ st1, string_loop input file begin (fuel + v.length + 1) st data = .ok (st1, data ++ v)
        ∧ st1.c = st.c + v.length := by
  intro v
  induction v with
  | nil =>
    intro st data tail fuel hd _
    have hp : peek input st.c = 34 := (peek_of_drop (by simpa using hd)).1
    refine ⟨st, ?_, by simp⟩
    rw [show fuel + ([] : List Nat).length + 1 = fuel + 1 by simp, string_loop]
    simp [hp]
  | cons b v ih =>
    intro st data tail fuel hd hv
    obtain ⟨hp, hd1⟩ := peek_of_drop hd
    obtain ⟨hb1, hb2, hb3⟩ := hv b (by simp)
    have hv1 : ∀ x ∈ v, x ≠ 34 ∧ x ≠ 92 ∧ x ≠ 0 := fun x hx => hv x (by simp [hx])
    rw [show fuel + (b :: v).length + 1 = (fuel + v.length + 1) + 1 by
      simp only [List.length_cons]; omega, string_loop]
    simp only [hp, hb1, hb2, hb3, if_false]
    by_cases h10 : b = 10
    · obtain ⟨st1, h1, h2⟩ := ih ⟨st.c + 1, st.line_number + 1, st.c + 1⟩ (data ++ [b]) tail
        fuel hd1 hv1
      refine ⟨st1, ?_, ?_⟩
      · simp only [h10, if_true]
        rw [h10] at h1
        simpa using h1
      · rw [h2]; simp only [List.length_cons]; omega
    · obtain ⟨st1, h1, h2⟩ := ih { st with c := st.c + 1 } (data ++ [b]) tail fuel hd1 hv1
      refine ⟨st1, ?_, ?_⟩
      · simp only [h10, if_false]
        simpa using h1
      · rw [h2]; simp only [List.length_cons]; omega

/-- C6. String round-trip: for every byte string `v` that contains no `"`, no backslash
and no NUL byte (raw newlines allowed), `jsonnet_lex` on the input `"` ++ v ++ `"`
succeeds and returns exactly one `STRING` token, beginning at line 1, column 1, whose data
equals `v`, followed by `END_OF_FILE`. -/
theorem string_round_trip (file v : List Nat) (hv : ∀ b ∈ v, b ≠ 34 ∧ b ≠ 92 ∧ b ≠ 0) :
    ∃ e1 e2, jsonnet_lex file (str "\"" ++ v ++ str "\"") =
      .ok [⟨.STRING, v, ⟨file, ⟨1, 1⟩, e1⟩⟩, ⟨.END_OF_FILE, [], ⟨file, e2, e2⟩⟩] := by
  have hstr : str "\"" = [34] := by decide
  rw [hstr]
  obtain ⟨input, hinput⟩ : ∃ input, input = [34] ++ v ++ [34] := ⟨_, rfl⟩
  rw [← hinput]
  have hlen : input.length = v.length + 2 := by simp [hinput]
  have hpk : peek input 0 = 34 := by simp [hinput, peek]
  obtain ⟨st1, hrun, hc⟩ := string_loop_run input file ⟨1, 0 - 0 + 1⟩ v ⟨0 + 1, 1, 0⟩ [] []
    2 (by simp [hinput]) hv
  have hbody := lex_body_of_quote file input ⟨0, 1, 0⟩ hpk
  rw [show input.length + 1 = 2 + v.length + 1 by omega] at hbody
  simp only [] at hbody
  rw [hrun] at hbody
  simp only [Outcome.bind, List.nil_append] at hbody
  simp at hc
  have hend : peek input (st1.c + 1) = 0 := by
    apply peek_of_drop_nil
    simp only [List.drop_eq_nil_iff]
    omega
  unfold jsonnet_lex jsonnet_lex_trace
  rw [show input.length + 1 = (v.length + 1 + 1) + 1 by omega,
    lex_loop_emit file input _ ⟨0, 1, 0⟩ _ _ _ (by simp [hpk]) hbody,
    lex_loop_eof file input _ _ (by simpa using hend)]
  exact ⟨⟨st1.line_number, st1.c - st1.line_start + 1⟩,
    ⟨st1.line_number, st1.c + 1 - st1.line_start + 1⟩, by simp [Outcome.bind]⟩

/-- C6 at the input `"a\nb"`, a string literal with a raw newline. -/
theorem string_round_trip_witness :
    (∀ b ∈ str "a\nb", b ≠ 34 ∧ b ≠ 92 ∧ b ≠ 0) ∧
      ∃ e1 e2, jsonnet_lex [] (str "\"" ++ str "a\nb" ++ str "\"") =
        .ok [⟨.STRING, str "a\nb", ⟨[], ⟨1, 1⟩, e1⟩⟩, ⟨.END_OF_FILE, [], ⟨[], e2, e2⟩⟩] :=
  ⟨by decide, string_round_trip [] (str "a\nb") (by decide)⟩

/-! ## Lines and columns -/

theorem take_succ_peek {input : List Nat} {c : Nat} (h : c < input.length) :
    input.take (c + 1) = input.take c ++ [peek input c] := by
  rw [List.take_succ]
  simp [peek, List.getElem?_eq_getElem h]

theorem lineOf_succ {input : List Nat} {c : Nat} (h : c < input.length) :
    lineOf input (c + 1) = lineOf input c + (if peek input c = 10 then 1 else 0) := by
  unfold lineOf
  rw [take_succ_peek h, List.count_append]
  by_cases h10 : peek input c = 10
  · simp [h10, List.count_singleton]; omega
  · simp [h10, List.count_singleton]

theorem colOf_succ {input : List Nat} {c : Nat} (h : c < input.length) :
    colOf input (c + 1) = if peek input c = 10 then 0 else colOf input c + 1 := by
  unfold colOf
  rw [take_succ_peek h, List.reverse_append]
  by_cases h10 : peek input c = 10
  · simp [h10, List.takeWhile]
  · have hb : (peek input c != 10) = true := by simp [h10]
    simp [h10, List.takeWhile_cons, hb]

theorem colOf_le (input : List Nat) (c : Nat) : colOf input c ≤ c := by
  unfold colOf
  calc ((input.take c).reverse.takeWhile fun b => b != 10).length
      ≤ (input.take c).reverse.length := (List.takeWhile_sublist _).length_le
    _ ≤ c := by simp [List.length_take]

theorem Inv_init (input : List Nat) : Inv input ⟨0, 1, 0⟩ := by
  simp [Inv, lineOf, colOf]

theorem Inv_plain {input : List Nat} {st : Cursor} (h : Inv input st)
    (h0 : peek input st.c ≠ 0) (h10 : peek input st.c ≠ 10) :
    Inv input { st with c := st.c + 1 } := by
  have hlt := peek_lt h0
  obtain ⟨h1, h2, h3⟩ := h
  refine ⟨hlt, ?_, ?_⟩
  · simp only [lineOf_succ hlt, h10, if_false]; exact h2
  · simp only [colOf_succ hlt, h10, if_false]; omega

theorem Inv_newline {input : List Nat} {st : Cursor} (h : Inv input st)
    (h10 : peek input st.c = 10) :
    Inv input ⟨st.c + 1, st.line_number + 1, st.c + 1⟩ := by
  have hlt : st.c < input.length := peek_lt (by rw [h10]; decide)
  obtain ⟨h1, h2, h3⟩ := h
  refine ⟨hlt, ?_, ?_⟩
  · simp only [lineOf_succ hlt, h10, if_true]; omega
  · simp only [colOf_succ hlt, h10, if_true]

theorem Plain_mono {input : List Nat} {a b a1 b1 : Nat} (h : Plain input a b)
    (ha : a ≤ a1) (hb : b1 ≤ b) : Plain input a1 b1 :=
  fun i h1 h2 => h i (by omega) (by omega)

theorem Plain_empty (input : List Nat) (a : Nat) : Plain input a a :=
  fun i h1 h2 => absurd h2 (by omega)

theorem Plain_cons {input : List Nat} {a b : Nat} (h0 : peek input a ≠ 0)
    (h10 : peek input a ≠ 10) (h : Plain input (a + 1) b) : Plain input a b := by
  intro i h1 h2
  by_cases hi : i = a
  · subst hi; exact ⟨h0, h10⟩
  · exact h i (by omega) h2

theorem Plain_append {input : List Nat} {a b c : Nat} (h1 : Plain input a b)
    (h2 : Plain input b c) : Plain input a c := by
  intro i hi1 hi2
  by_cases hi : i < b
  · exact h1 i hi1 hi
  · exact h2 i (by omega) hi2

/-- Moving the cursor over bytes that are neither NUL nor `'\n'` keeps the invariant. -/
theorem Inv_skip {input : List Nat} {st : Cursor} (h : Inv input st) :
    ∀ (k : Nat), Plain input st.c (st.c + k) → Inv input { st with c := st.c + k } := by
  intro k
  induction k with
  | zero => intro _; simpa using h
  | succ k ih =>
    intro hp
    have hk := ih (Plain_mono hp (Nat.le_refl _) (by omega))
    obtain ⟨h0, h10⟩ := hp (st.c + k) (by omega) (by omega)
    have := Inv_plain hk (by simpa using h0) (by simpa using h10)
    simpa [Nat.add_assoc] using this

theorem Inv_skip_to {input : List Nat} {st : Cursor} (h : Inv input st) {c1 : Nat}
    (hle : st.c ≤ c1) (hp : Plain input st.c c1) : Inv input { st with c := c1 } := by
  have := Inv_skip h (c1 - st.c) (by rwa [Nat.add_sub_cancel' hle])
  rwa [Nat.add_sub_cancel' hle] at this

/-- Positions grow with the offset: the line never decreases, and on an unchanged line the
column grows by the distance. -/
theorem lineOf_colOf_mono (input : List Nat) (a : Nat) :
    ∀ (k : Nat), a + k ≤ input.length →
      lineOf input a ≤ lineOf input (a + k) ∧
        (lineOf input a = lineOf input (a + k) → colOf input (a + k) = colOf input a + k) := by
  intro k
  induction k with
  | zero => intro _; simp
  | succ k ih =>
    intro hk
    obtain ⟨h1, h2⟩ := ih (by omega)
    have hlt : a + k < input.length := by omega
    rw [← Nat.add_assoc, lineOf_succ hlt, colOf_succ hlt]
    by_cases h10 : peek input (a + k) = 10
    · simp only [h10, if_true]
      exact ⟨by omega, fun h => by omega⟩
    · simp only [h10, if_false]
      exact ⟨by omega, fun h => by rw [h2 (by omega)]; omega⟩

/-! ## What `lex_number` returns -/

theorem Digits_append {a b : List Nat} (ha : Digits a) (hb : Digits b) : Digits (a ++ b) := by
  intro d hd
  rcases List.mem_append.1 hd with h | h
  · exact ha d h
  · exact hb d h

theorem Digits_singleton {d : Nat} (h : 48 ≤ d ∧ d ≤ 57) : Digits [d] := by
  intro x hx
  rw [List.mem_singleton.1 hx]; exact h

theorem Digits_nil : Digits [] := fun _ h => absurd h (List.not_mem_nil _)

theorem switch_next_plain {s s1 : State} {ch : Nat} (h : lex_number_switch s ch = .next s1) :
    ch ≠ 0 ∧ ch ≠ 10 := by
  cases s <;> simp only [lex_number_switch] at h <;> split_ifs at h <;>
    simp_all [is_number, is_one_to_nine] <;> omega

theorem reach_next {s s1 : State} {ch : Nat} {r : List Nat} (hr : Reach s r)
    (h : lex_number_switch s ch = .next s1) : Reach s1 (r ++ [ch]) := by
  cases s <;> simp only [lex_number_switch] at h <;> split_ifs at h <;>
    simp only [Move.next.injEq, reduceCtorEq] at h <;> subst h <;> simp only [Reach] at hr ⊢
  -- BEGIN
  · subst hr; simp_all
  · subst hr
    rename_i h1 h2
    simp only [is_one_to_nine, Bool.and_eq_true, decide_eq_true_eq] at h2
    exact ⟨ch, [], by simp, h2, Digits_nil⟩
  -- AFTER_ZERO
  · subst hr; rename_i h1; subst h1
    exact ⟨[48], rfl, Or.inl rfl⟩
  · subst hr
    rename_i h1 h2
    exact ⟨[48], [], ch, by simp, Or.inl rfl, Or.inl rfl, h2⟩
  -- AFTER_ONE_TO_NINE
  · obtain ⟨d, ds, rfl, hd, hds⟩ := hr
    rename_i h1; subst h1
    exact ⟨d :: ds, rfl, Or.inr ⟨d, ds, rfl, hd, hds⟩⟩
  · obtain ⟨d, ds, rfl, hd, hds⟩ := hr
    rename_i h1 h2
    exact ⟨d :: ds, [], ch, by simp, Or.inr ⟨d, ds, rfl, hd, hds⟩, Or.inl rfl, h2⟩
  · obtain ⟨d, ds, rfl, hd, hds⟩ := hr
    rename_i h1 h2 h3
    rw [is_number_iff] at h3
    exact ⟨d, ds ++ [ch], by simp, hd, Digits_append hds (Digits_singleton h3)⟩
  -- AFTER_DOT
  · obtain ⟨i, rfl, hi⟩ := hr
    rename_i h1
    rw [is_number_iff] at h1
    exact ⟨i, [ch], by simp, hi, by simp, Digits_singleton h1⟩
  -- AFTER_DIGIT
  · obtain ⟨i, ds, rfl, hi, hne, hds⟩ := hr
    rename_i h1
    exact ⟨i, 46 :: ds, ch, by simp, hi, Or.inr ⟨ds, rfl, hne, hds⟩, h1⟩
  · obtain ⟨i, ds, rfl, hi, hne, hds⟩ := hr
    rename_i h1 h2
    rw [is_number_iff] at h2
    exact ⟨i, ds ++ [ch], by simp, hi, by simp, Digits_append hds (Digits_singleton h2)⟩
  -- AFTER_E
  · obtain ⟨i, f, e, rfl, hi, hf, he⟩ := hr
    rename_i h1
    exact ⟨i, f, e, ch, by simp, hi, hf, he, h1⟩
  · obtain ⟨i, f, e, rfl, hi, hf, he⟩ := hr
    rename_i h1 h2
    rw [is_number_iff] at h2
    exact ⟨i, f, e, [], [ch], by simp, hi, hf, he, Or.inl rfl, by simp, Digits_singleton h2⟩
  -- AFTER_EXP_SIGN
  · obtain ⟨i, f, e, sg, rfl, hi, hf, he, hsg⟩ := hr
    rename_i h1
    rw [is_number_iff] at h1
    refine ⟨i, f, e, [sg], [ch], by simp, hi, hf, he, ?_, by simp, Digits_singleton h1⟩
    rcases hsg with rfl | rfl <;> simp
  -- AFTER_EXP_DIGIT
  · obtain ⟨i, f, e, sign, ds, rfl, hi, hf, he, hsign, hne, hds⟩ := hr
    rename_i h1
    rw [is_number_iff] at h1
    exact ⟨i, f, e, sign, ds ++ [ch], by simp, hi, hf, he, hsign, by simp,
      Digits_append hds (Digits_singleton h1)⟩

theorem reach_stop {s : State} {ch : Nat} {r : List Nat} (hr : Reach s r)
    (h : lex_number_switch s ch = .stop) : IsJsonNumber r := by
  cases s <;> simp only [lex_number_switch] at h <;> split_ifs at h <;>
    simp only [Reach] at hr
  · subst hr
    exact ⟨[48], [], [], rfl, Or.inl rfl, Or.inl rfl, Or.inl rfl⟩
  · obtain ⟨d, ds, rfl, hd, hds⟩ := hr
    exact ⟨d :: ds, [], [], by simp, Or.inr ⟨d, ds, rfl, hd, hds⟩, Or.inl rfl, Or.inl rfl⟩
  · obtain ⟨i, ds, rfl, hi, hne, hds⟩ := hr
    exact ⟨i, 46 :: ds, [], by simp, hi, Or.inr ⟨ds, rfl, hne, hds⟩, Or.inl rfl⟩
  · obtain ⟨i, f, e, sign, ds, rfl, hi, hf, he, hsign, hne, hds⟩ := hr
    exact ⟨i, f, e :: (sign ++ ds), rfl, hi, hf, Or.inr ⟨e, sign, ds, rfl, he, hsign, hne, hds⟩⟩

/-- What the loop of `lex_number` returns: it stops at an offset `e` and leaves the cursor
at `e - 1`, read only bytes that are neither NUL nor `'\n'`, and `r` is a number of the
grammar that extends what was accumulated before. -/
theorem lex_number_loop_spec (input file : List Nat) (begin : Location) :
    ∀ (fuel : Nat) (s : State) (c : Nat) (r r1 : List Nat) (c1 : Nat),
      lex_number_loop input file begin fuel s c r = .ok (r1, c1) → Reach s r →
      ∃ e, c ≤ e ∧ c1 = e - 1 ∧ Plain input c e ∧ IsJsonNumber r1 ∧ r <+: r1
        ∧ (s = .BEGIN → c < e) := by
  intro fuel
  induction fuel with
  | zero => intro s c r r1 c1 h; simp [lex_number_loop] at h
  | succ fuel ih =>
    intro s c r r1 c1 h hr
    rw [lex_number_loop] at h
    cases hsw : lex_number_switch s (peek input c) with
    | next s1 =>
      rw [hsw] at h
      simp only [] at h
      obtain ⟨e, h1, h2, h3, h4, h5, -⟩ := ih s1 (c + 1) _ r1 c1 h (reach_next hr hsw)
      obtain ⟨hz, hn⟩ := switch_next_plain hsw
      exact ⟨e, by omega, h2, Plain_cons hz hn h3, h4,
        (List.prefix_append r _).trans h5, fun _ => by omega⟩
    | stop =>
      rw [hsw] at h
      simp only [Outcome.ok.injEq, Prod.mk.injEq] at h
      obtain ⟨rfl, rfl⟩ := h
      refine ⟨c, Nat.le_refl _, rfl, Plain_empty _ _, reach_stop hr hsw, List.prefix_refl _, ?_⟩
      intro hs; subst hs
      simp only [lex_number_switch] at hsw
      split_ifs at hsw
    | fail m =>
      rw [hsw] at h
      simp at h

theorem lex_number_loop_error (input file : List Nat) (begin : Location) :
    ∀ (fuel : Nat) (s : State) (c : Nat) (r : List Nat) (err : StaticError),
      lex_number_loop input file begin fuel s c r = .error err → err.location = begin := by
  intro fuel
  induction fuel with
  | zero => intro s c r err h; simp [lex_number_loop] at h
  | succ fuel ih =>
    intro s c r err h
    rw [lex_number_loop] at h
    cases hsw : lex_number_switch s (peek input c) with
    | next s1 => rw [hsw] at h; exact ih _ _ _ _ h
    | stop => rw [hsw] at h; simp at h
    | fail m =>
      rw [hsw] at h
      simp only [Outcome.error.injEq] at h
      rw [← h]

/-! ## What the other loops return -/

theorem identifier_loop_spec (input : List Nat) :
    ∀ (fuel c : Nat) (id : List Nat) (c1 : Nat) (id1 : List Nat),
      identifier_loop input fuel c id = .ok (c1, id1) →
      c ≤ c1 ∧ Plain input c c1 ∧ id <+: id1 := by
  intro fuel
  induction fuel with
  | zero => intro c id c1 id1 h; simp [identifier_loop] at h
  | succ fuel ih =>
    intro c id c1 id1 h
    rw [identifier_loop] at h
    by_cases h0 : peek input c ≠ 0
    · rw [if_pos h0] at h
      by_cases hi : is_identifier (peek input c) = true
      · rw [if_neg (not_not.2 hi)] at h
        obtain ⟨h1, h2, h3⟩ := ih _ _ _ _ h
        have h10 : peek input c ≠ 10 := by
          intro h10; rw [h10] at hi; revert hi; decide
        exact ⟨by omega, Plain_cons h0 h10 h2, (List.prefix_append id _).trans h3⟩
      · rw [if_pos hi] at h
        simp only [Outcome.ok.injEq, Prod.mk.injEq] at h
        obtain ⟨rfl, rfl⟩ := h
        exact ⟨Nat.le_refl _, Plain_empty _ _, List.prefix_refl _⟩
    · rw [if_neg h0] at h
      simp only [Outcome.ok.injEq, Prod.mk.injEq] at h
      obtain ⟨rfl, rfl⟩ := h
      exact ⟨Nat.le_refl _, Plain_empty _ _, List.prefix_refl _⟩

theorem identifier_loop_ne_error (input : List Nat) :
    ∀ (fuel c : Nat) (id : List Nat) (err : StaticError),
      identifier_loop input fuel c id ≠ .error err := by
  intro fuel
  induction fuel with
  | zero => intro c id err h; simp [identifier_loop] at h
  | succ fuel ih =>
    intro c id err h
    rw [identifier_loop] at h
    split_ifs at h
    exact ih _ _ _ h

theorem operator_loop_spec (input : List Nat) :
    ∀ (fuel c : Nat) (data : List Nat) (c1 : Nat) (data1 : List Nat),
      operator_loop input fuel c data = .ok (c1, data1) →
      c ≤ c1 ∧ Plain input c c1 ∧ data <+: data1 := by
  intro fuel
  induction fuel with
  | zero => intro c id c1 id1 h; simp [operator_loop] at h
  | succ fuel ih =>
    intro c id c1 id1 h
    rw [operator_loop] at h
    by_cases h0 : peek input c ≠ 0
    · rw [if_pos h0] at h
      by_cases hi : is_symbol (peek input c) = true
      · rw [if_neg (not_not.2 hi)] at h
        obtain ⟨h1, h2, h3⟩ := ih _ _ _ _ h
        have h10 : peek input c ≠ 10 := by
          intro h10; rw [h10] at hi; revert hi; decide
        exact ⟨by omega, Plain_cons h0 h10 h2, (List.prefix_append id _).trans h3⟩
      · rw [if_pos hi] at h
        simp only [Outcome.ok.injEq, Prod.mk.injEq] at h
        obtain ⟨rfl, rfl⟩ := h
        exact ⟨Nat.le_refl _, Plain_empty _ _, List.prefix_refl _⟩
    · rw [if_neg h0] at h
      simp only [Outcome.ok.injEq, Prod.mk.injEq] at h
      obtain ⟨rfl, rfl⟩ := h
      exact ⟨Nat.le_refl _, Plain_empty _ _, List.prefix_refl _⟩

theorem operator_loop_ne_error (input : List Nat) :
    ∀ (fuel c : Nat) (data : List Nat) (err : StaticError),
      operator_loop input fuel c data ≠ .error err := by
  intro fuel
  induction fuel with
  | zero => intro c id err h; simp [operator_loop] at h
  | succ fuel ih =>
    intro c id err h
    rw [operator_loop] at h
    split_ifs at h
    exact ih _ _ _ h

theorem line_comment_loop_spec (input : List Nat) :
    ∀ (fuel c c1 : Nat), line_comment_loop input fuel c = .ok c1 →
      c ≤ c1 ∧ Plain input c c1 := by
  intro fuel
  induction fuel with
  | zero => intro c c1 h; simp [line_comment_loop] at h
  | succ fuel ih =>
    intro c c1 h
    rw [line_comment_loop] at h
    split_ifs at h with h0
    · obtain ⟨h1, h2⟩ := ih _ _ h
      exact ⟨by omega, Plain_cons h0.1 h0.2 h2⟩
    · simp only [Outcome.ok.injEq] at h
      subst h
      exact ⟨Nat.le_refl _, Plain_empty _ _⟩

theorem line_comment_loop_ne_error (input : List Nat) :
    ∀ (fuel c : Nat) (err : StaticError), line_comment_loop input fuel c ≠ .error err := by
  intro fuel
  induction fuel with
  | zero => intro c err h; simp [line_comment_loop] at h
  | succ fuel ih =>
    intro c err h
    rw [line_comment_loop] at h
    split_ifs at h
    exact ih _ _ h

theorem skip_blanks_loop_spec (input : List Nat) :
    ∀ (fuel c c1 : Nat), skip_blanks_loop input fuel c = .ok c1 →
      c ≤ c1 ∧ Plain input c c1 := by
  intro fuel
  induction fuel with
  | zero => intro c c1 h; simp [skip_blanks_loop] at h
  | succ fuel ih =>
    intro c c1 h
    rw [skip_blanks_loop] at h
    split_ifs at h with h0
    · obtain ⟨h1, h2⟩ := ih _ _ h
      exact ⟨by omega, Plain_cons (by omega) (by omega) h2⟩
    · simp only [Outcome.ok.injEq] at h
      subst h
      exact ⟨Nat.le_refl _, Plain_empty _ _⟩

theorem skip_blanks_loop_ne_error (input : List Nat) :
    ∀ (fuel c : Nat) (err : StaticError), skip_blanks_loop input fuel c ≠ .error err := by
  intro fuel
  induction fuel with
  | zero => intro c err h; simp [skip_blanks_loop] at h
  | succ fuel ih =>
    intro c err h
    rw [skip_blanks_loop] at h
    split_ifs at h
    exact ih _ _ h

theorem text_line_loop_spec (input file : List Nat) (begin : Location) :
    ∀ (fuel c : Nat) (block : List Nat) (c1 : Nat) (block1 : List Nat),
      text_line_loop input file begin fuel c block = .ok (c1, block1) →
      c ≤ c1 ∧ Plain input c c1 ∧ peek input c1 = 10 := by
  intro fuel
  induction fuel with
  | zero => intro c b c1 b1 h; simp [text_line_loop] at h
  | succ fuel ih =>
    intro c b c1 b1 h
    rw [text_line_loop] at h
    split_ifs at h with h10 h0
    · obtain ⟨h1, h2, h3⟩ := ih _ _ _ _ h
      exact ⟨by omega, Plain_cons h0 h10 h2, h3⟩
    · simp only [Outcome.ok.injEq, Prod.mk.injEq] at h
      obtain ⟨rfl, rfl⟩ := h
      exact ⟨Nat.le_refl _, Plain_empty _ _, not_not.1 h10⟩

theorem text_line_loop_error (input file : List Nat) (begin : Location) :
    ∀ (fuel c : Nat) (block : List Nat) (err : StaticError),
      text_line_loop input file begin fuel c block = .error err → err.location = begin := by
  intro fuel
  induction fuel with
  | zero => intro c b err h; simp [text_line_loop] at h
  | succ fuel ih =>
    intro c b err h
    rw [text_line_loop] at h
    split_ifs at h
    · simp only [Outcome.error.injEq] at h
      rw [← h]
    · exact ih _ _ _ h

/-- When `whitespace_check(a, b)` returns a count that is not 0, that many bytes at `b`
are spaces and tabs. -/
theorem whitespace_check_loop_spec (input : List Nat) (a b : Nat) :
    ∀ (fuel i ws : Nat), whitespace_check_loop input a b fuel i = .ok ws → ws ≠ 0 →
      i ≤ ws ∧ Plain input (b + i) (b + ws) := by
  intro fuel
  induction fuel with
  | zero => intro i ws h; simp [whitespace_check_loop] at h
  | succ fuel ih =>
    intro i ws h hws
    rw [whitespace_check_loop] at h
    split_ifs at h with h1 h2
    · simp only [Outcome.ok.injEq] at h
      exact absurd h.symm hws
    · obtain ⟨h3, h4⟩ := ih _ _ h hws
      have heq : peek input (b + i) = peek input (a + i) := not_not.1 h2
      exact ⟨by omega, Plain_cons (by omega) (by omega) h4⟩
    · simp only [Outcome.ok.injEq] at h
      subst h
      exact ⟨Nat.le_refl _, Plain_empty _ _⟩

theorem whitespace_check_spec (input : List Nat) (a b ws : Nat)
    (h : whitespace_check input a b = .ok ws) (hws : ws ≠ 0) : Plain input b (b + ws) := by
  have := (whitespace_check_loop_spec input a b _ 0 ws h hws).2
  simpa using this

theorem whitespace_check_loop_ne_error (input : List Nat) (a b : Nat) :
    ∀ (fuel i : Nat) (err : StaticError),
      whitespace_check_loop input a b fuel i ≠ .error err := by
  intro fuel
  induction fuel with
  | zero => intro i err h; simp [whitespace_check_loop] at h
  | succ fuel ih =>
    intro i err h
    rw [whitespace_check_loop] at h
    split_ifs at h
    exact ih _ _ h

theorem block_comment_loop_spec (input : List Nat) :
    ∀ (fuel : Nat) (st st1 : Cursor), block_comment_loop input fuel st = .ok st1 →
      Inv input st → Inv input st1 ∧ st.c ≤ st1.c ∧
        (peek input st1.c ≠ 0 → peek input st1.c = 42 ∧ peek input (st1.c + 1) = 47) := by
  intro fuel
  induction fuel with
  | zero => intro st st1 h; simp [block_comment_loop] at h
  | succ fuel ih =>
    intro st st1 h hinv
    rw [block_comment_loop] at h
    split_ifs at h with h0 h10
    · obtain ⟨h1, h2, h3⟩ := ih _ _ h (Inv_newline hinv h10)
      exact ⟨h1, by simp only [] at h2; omega, h3⟩
    · obtain ⟨h1, h2, h3⟩ := ih _ _ h (Inv_plain hinv h0.1 h10)
      exact ⟨h1, by simp only [] at h2; omega, h3⟩
    · simp only [Outcome.ok.injEq] at h
      subst h
      refine ⟨hinv, Nat.le_refl _, fun hz => ?_⟩
      by_contra hc
      exact h0 ⟨hz, hc⟩

theorem block_comment_loop_ne_error (input : List Nat) :
    ∀ (fuel : Nat) (st : Cursor) (err : StaticError),
      block_comment_loop input fuel st ≠ .error err := by
  intro fuel
  induction fuel with
  | zero => intro st err h; simp [block_comment_loop] at h
  | succ fuel ih =>
    intro st err h
    rw [block_comment_loop] at h
    split_ifs at h
    · exact ih _ _ h
    · exact ih _ _ h

theorem unicode_escape_loop_spec (input file : List Nat) (begin : Location) (c : Nat) :
    ∀ (n i cp r : Nat), unicode_escape_loop input file begin c n i cp = .ok r →
      Plain input (c + i) (c + i + n) := by
  intro n
  induction n with
  | zero => intro i cp r _; exact Plain_empty _ _
  | succ n ih =>
    intro i cp r h
    rw [unicode_escape_loop] at h
    have hrec : ∀ cp1, unicode_escape_loop input file begin c n (i + 1) cp1 = .ok r →
        peek input (c + i) ≠ 0 → peek input (c + i) ≠ 10 →
        Plain input (c + i) (c + i + (n + 1)) := by
      intro cp1 h1 hz h10
      have := ih _ _ _ h1
      exact Plain_cons hz h10 (by simpa [Nat.add_assoc, Nat.add_comm 1 n] using this)
    split_ifs at h with h1 h2 h3 h4 h5
    · exact hrec _ h h1 (by omega)
    · exact hrec _ h h1 (by omega)
    · exact hrec _ h h1 (by omega)

theorem unicode_escape_loop_error (input file : List Nat) (begin : Location) (c : Nat) :
    ∀ (n i cp : Nat) (err : StaticError),
      unicode_escape_loop input file begin c n i cp = .error err → err.location = begin := by
  intro n
  induction n with
  | zero => intro i cp err h; simp [unicode_escape_loop] at h
  | succ n ih =>
    intro i cp err h
    rw [unicode_escape_loop] at h
    split_ifs at h <;>
      first
      | exact ih _ _ _ h
      | (simp only [Outcome.error.injEq] at h; rw [← h])

theorem Inv_escape {input : List Nat} {st : Cursor} (h : Inv input st)
    (h0 : peek input st.c ≠ 0) (h10 : peek input st.c ≠ 10)
    (h1 : peek input (st.c + 1) ≠ 0) (h2 : peek input (st.c + 1) ≠ 10) :
    Inv input { st with c := st.c + 1 + 1 } :=
  @Inv_plain input { st with c := st.c + 1 } (Inv_plain h h0 h10) h1 h2

/-- What the loop of a string literal returns: the locals still agree with the input, and
the cursor is on the closing quote. -/
theorem string_loop_spec (input file : List Nat) (begin : Location) :
    ∀ (fuel : Nat) (st : Cursor) (data : List Nat) (st1 : Cursor) (data1 : List Nat),
      string_loop input file begin fuel st data = .ok (st1, data1) → Inv input st →
      Inv input st1 ∧ st.c ≤ st1.c ∧ peek input st1.c = 34 := by
  intro fuel
  induction fuel with
  | zero => intro st data st1 data1 h; simp [string_loop] at h
  | succ fuel ih =>
    intro st data st1 data1 h hinv
    rw [string_loop] at h
    dsimp only at h
    have hesc : ∀ d, string_loop input file begin fuel { st with c := st.c + 1 + 1 } d
          = .ok (st1, data1) →
        peek input st.c = 92 → peek input (st.c + 1) ≠ 0 → peek input (st.c + 1) ≠ 10 →
        Inv input st1 ∧ st.c ≤ st1.c ∧ peek input st1.c = 34 := by
      intro d hd h92 hz h10
      obtain ⟨h1, h2, h3⟩ := ih _ _ _ _ hd (Inv_escape hinv (by omega) (by omega) hz h10)
      exact ⟨h1, by simp only [] at h2; omega, h3⟩
    by_cases hz : peek input st.c = 0
    · rw [if_pos hz] at h; simp at h
    rw [if_neg hz] at h
    by_cases hq : peek input st.c = 34
    · rw [if_pos hq] at h
      simp only [Outcome.ok.injEq, Prod.mk.injEq] at h
      obtain ⟨rfl, rfl⟩ := h
      exact ⟨hinv, Nat.le_refl _, hq⟩
    rw [if_neg hq] at h
    by_cases hb : peek input st.c = 92
    · rw [if_pos hb] at h
      split_ifs at h with e1 e2 e3 e4 e5 e6 e7
      · exact hesc _ h hb (by omega) (by omega)
      · exact hesc _ h hb (by omega) (by omega)
      · exact hesc _ h hb (by omega) (by omega)
      · exact hesc _ h hb (by omega) (by omega)
      · exact hesc _ h hb (by omega) (by omega)
      · exact hesc _ h hb (by omega) (by omega)
      · cases hu : unicode_escape_loop input file begin (st.c + 1 + 1) 4 0 0 with
        | ok cp =>
          rw [hu] at h
          simp only [Outcome.bind] at h
          have hpl := unicode_escape_loop_spec input file begin _ _ _ _ _ hu
          have hpl2 : Plain input st.c (st.c + 6) := by
            refine Plain_cons (by omega) (by omega) (Plain_cons (by omega) (by omega) ?_)
            simpa [Nat.add_assoc] using hpl
          have hinv2 := Inv_skip hinv 6 hpl2
          obtain ⟨h1, h2, h3⟩ := ih _ _ _ _ h (by simpa [Nat.add_assoc] using hinv2)
          exact ⟨h1, by simp only [] at h2; omega, h3⟩
        | error e => rw [hu] at h; simp [Outcome.bind] at h
        | diverge => rw [hu] at h; simp [Outcome.bind] at h
    rw [if_neg hb] at h
    by_cases hn : peek input st.c = 10
    · rw [if_pos hn] at h
      obtain ⟨h1, h2, h3⟩ := ih _ _ _ _ h (Inv_newline hinv hn)
      exact ⟨h1, by simp only [] at h2; omega, h3⟩
    · rw [if_neg hn] at h
      obtain ⟨h1, h2, h3⟩ := ih _ _ _ _ h (Inv_plain hinv hz hn)
      exact ⟨h1, by simp only [] at h2; omega, h3⟩

theorem string_loop_error (input file : List Nat) (begin : Location) :
    ∀ (fuel : Nat) (st : Cursor) (data : List Nat) (err : StaticError),
      string_loop input file begin fuel st data = .error err → err.location = begin := by
  intro fuel
  induction fuel with
  | zero => intro st data err h; simp [string_loop] at h
  | succ fuel ih =>
    intro st data err h
    rw [string_loop] at h
    dsimp only at h
    by_cases hz : peek input st.c = 0
    · rw [if_pos hz] at h
      simp only [Outcome.error.injEq] at h
      rw [← h]
    rw [if_neg hz] at h
    by_cases hq : peek input st.c = 34
    · rw [if_pos hq] at h; simp at h
    rw [if_neg hq] at h
    by_cases hb : peek input st.c = 92
    · rw [if_pos hb] at h
      split_ifs at h
      · exact ih _ _ _ h
      · exact ih _ _ _ h
      · exact ih _ _ _ h
      · exact ih _ _ _ h
      · exact ih _ _ _ h
      · exact ih _ _ _ h
      · cases hu : unicode_escape_loop input file begin (st.c + 1 + 1) 4 0 0 with
        | ok cp =>
          rw [hu] at h
          simp only [Outcome.bind] at h
          exact ih _ _ _ h
        | error e =>
          rw [hu] at h
          simp only [Outcome.bind, Outcome.error.injEq] at h
          rw [← h]
          exact unicode_escape_loop_error input file begin _ _ _ _ _ hu
        | diverge => rw [hu] at h; simp [Outcome.bind] at h
      · simp only [Outcome.error.injEq] at h
        rw [← h]
      · simp only [Outcome.error.injEq] at h
        rw [← h]
    rw [if_neg hb] at h
    split_ifs at h
    · exact ih _ _ _ h
    · exact ih _ _ _ h

/-- What the loop of a text block returns: the cursor is on the last `|`, and the locals
agree with the input there. -/
theorem text_block_loop_spec (input file : List Nat) (begin : Location) (first_line : Nat) :
    ∀ (fuel ws : Nat) (st : Cursor) (block : List Nat) (st1 : Cursor) (data : List Nat),
      text_block_loop input file begin first_line fuel ws st block = .ok (st1, data) →
      Inv input st → Plain input st.c (st.c + ws) →
      Inv input st1 ∧ st.c ≤ st1.c ∧ peek input st1.c = 124 := by
  intro fuel
  induction fuel with
  | zero => intro ws st block st1 data h; simp [text_block_loop] at h
  | succ fuel ih =>
    intro ws st block st1 data h hinv hws
    rw [text_block_loop] at h
    cases hl : text_line_loop input file begin (input.length + 1) (st.c + ws) block with
    | error e => rw [hl] at h; simp [Outcome.bind] at h
    | diverge => rw [hl] at h; simp [Outcome.bind] at h
    | ok line =>
      obtain ⟨c1, block1⟩ := line
      rw [hl] at h
      simp only [Outcome.bind] at h
      obtain ⟨hc1, hp1, hn1⟩ := text_line_loop_spec input file begin _ _ _ _ _ hl
      have hinv1 : Inv input { st with c := c1 } :=
        Inv_skip_to hinv (by omega) (Plain_append hws hp1)
      have hinv2 : Inv input ⟨c1 + 1, st.line_number + 1, c1 + 1⟩ :=
        @Inv_newline input { st with c := c1 } hinv1 hn1
      cases hw : whitespace_check input first_line (c1 + 1) with
      | error e => rw [hw] at h; simp at h
      | diverge => rw [hw] at h; simp at h
      | ok ws1 =>
        rw [hw] at h
        dsimp only at h
        by_cases hz : ws1 = 0
        · rw [if_pos hz] at h
          cases hs : skip_blanks_loop input (input.length + 1) (c1 + 1) with
          | error e => rw [hs] at h; simp at h
          | diverge => rw [hs] at h; simp at h
          | ok c3 =>
            rw [hs] at h
            dsimp only at h
            obtain ⟨hc3, hp3⟩ := skip_blanks_loop_spec input _ _ _ hs
            split_ifs at h with hbar
            · simp only [Outcome.ok.injEq, Prod.mk.injEq] at h
              obtain ⟨rfl, -⟩ := h
              have hp4 : Plain input c3 (c3 + 2) := by
                intro i hi1 hi2
                have : i = c3 ∨ i = c3 + 1 := by omega
                rcases this with rfl | rfl <;> omega
              have := @Inv_skip_to input _ hinv2 (c3 + 2) (by simp only []; omega)
                (Plain_append hp3 hp4)
              exact ⟨this, by simp only []; omega, hbar.2.2⟩
        · rw [if_neg hz] at h
          have hpw := whitespace_check_spec input first_line (c1 + 1) ws1 hw hz
          obtain ⟨h1, h2, h3⟩ := ih _ _ _ _ _ h hinv2 hpw
          exact ⟨h1, by simp only [] at h2; omega, h3⟩

theorem text_block_loop_error (input file : List Nat) (begin : Location) (first_line : Nat) :
    ∀ (fuel ws : Nat) (st : Cursor) (block : List Nat) (err : StaticError),
      text_block_loop input file begin first_line fuel ws st block = .error err →
      err.location = begin := by
  intro fuel
  induction fuel with
  | zero => intro ws st block err h; simp [text_block_loop] at h
  | succ fuel ih =>
    intro ws st block err h
    rw [text_block_loop] at h
    cases hl : text_line_loop input file begin (input.length + 1) (st.c + ws) block with
    | error e =>
      rw [hl] at h
      simp only [Outcome.bind, Outcome.error.injEq] at h
      rw [← h]
      exact text_line_loop_error input file begin _ _ _ _ hl
    | diverge => rw [hl] at h; simp [Outcome.bind] at h
    | ok line =>
      rw [hl] at h
      simp only [Outcome.bind] at h
      cases hw : whitespace_check input first_line (line.1 + 1) with
      | error e => exact absurd hw (whitespace_check_loop_ne_error input _ _ _ _ _)
      | diverge => rw [hw] at h; simp at h
      | ok ws1 =>
        rw [hw] at h
        dsimp only at h
        by_cases hz : ws1 = 0
        · rw [if_pos hz] at h
          cases hs : skip_blanks_loop input (input.length + 1) (line.1 + 1) with
          | error e => exact absurd hs (skip_blanks_loop_ne_error input _ _ _)
          | diverge => rw [hs] at h; simp at h
          | ok c3 =>
            rw [hs] at h
            dsimp only at h
            split_ifs at h
            simp only [Outcome.error.injEq] at h
            rw [← h]
        · rw [if_neg hz] at h
          exact ih _ _ _ _ h

/-! ## One step of the driver -/

theorem mem_take_one {l : List Nat} {b : Nat} (h : [b] <+: l) : b ∈ l.take 1 := by
  obtain ⟨t, rfl⟩ := h
  simp

theorem punctuation_some {ch : Nat} {kind : Kind} (h : punctuation ch = some kind) :
    TokenOK ch kind [] := by
  by_cases hall : ch ≠ 123 ∧ ch ≠ 125 ∧ ch ≠ 91 ∧ ch ≠ 93 ∧ ch ≠ 58 ∧ ch ≠ 44 ∧ ch ≠ 36
      ∧ ch ≠ 46 ∧ ch ≠ 40 ∧ ch ≠ 41 ∧ ch ≠ 59
  · rw [punctuation_eq_none hall] at h
    simp at h
  · have hch : ch = 123 ∨ ch = 125 ∨ ch = 91 ∨ ch = 93 ∨ ch = 58 ∨ ch = 44 ∨ ch = 36
        ∨ ch = 46 ∨ ch = 40 ∨ ch = 41 ∨ ch = 59 := by omega
    unfold TokenOK
    rcases hch with rfl | rfl | rfl | rfl | rfl | rfl | rfl | rfl | rfl | rfl | rfl <;>
      simp [punctuation] at h <;> subst h <;>
      exact ⟨by decide, by decide, fun hk => absurd hk (by decide)⟩

theorem keyword_or_identifier_start {id : List Nat} {ch : Nat} (h : [ch] <+: id) :
    TokenOK ch (keyword_or_identifier id).1 (keyword_or_identifier id).2 := by
  by_cases hk : IsKeyword id
  · obtain ⟨p, hp, rfl⟩ := List.mem_map.1 hk
    rw [keyword_or_identifier_of_keyword (k := p.2) hp]
    clear hk
    revert h
    revert p
    simp only [keywords, List.forall_mem_cons, List.not_mem_nil, false_implies, implies_true,
      and_true]
    unfold TokenOK
    refine ⟨?_, ?_, ?_, ?_, ?_, ?_, ?_, ?_, ?_, ?_, ?_, ?_, ?_, ?_, ?_, ?_, ?_⟩ <;>
      (intro h; exact ⟨by decide, mem_take_one h, fun hk => absurd hk (by decide)⟩)
  · rw [keyword_or_identifier_of_not_keyword hk]
    exact ⟨by simp, mem_take_one h, fun hk => absurd hk (by simp)⟩

theorem lex_number_spec (input file : List Nat) (begin : Location) (c : Nat)
    (r : List Nat) (c1 : Nat) (h : lex_number input c file begin = .ok (r, c1)) :
    ∃ e, c < e ∧ c1 = e - 1 ∧ Plain input c e ∧ IsJsonNumber r ∧ [peek input c] <+: r := by
  unfold lex_number at h
  rw [lex_number_loop] at h
  cases hsw : lex_number_switch .BEGIN (peek input c) with
  | next s1 =>
    rw [hsw] at h
    dsimp only at h
    obtain ⟨e, h1, h2, h3, h4, h5, -⟩ :=
      lex_number_loop_spec input file begin _ _ _ _ _ _ h (reach_next (s := .BEGIN) (r := []) (by simp [Reach]) hsw)
    obtain ⟨hz, hn⟩ := switch_next_plain hsw
    exact ⟨e, by omega, h2, Plain_cons hz hn h3, h4, by simpa using h5⟩
  | stop =>
    simp only [lex_number_switch] at hsw
    split_ifs at hsw
  | fail m => rw [hsw] at h; simp at h

theorem lex_number_error (input file : List Nat) (begin : Location) (c : Nat)
    (err : StaticError) (h : lex_number input c file begin = .error err) :
    err.location = begin :=
  lex_number_loop_error input file begin _ _ _ _ _ h

theorem identifier_loop_first (input : List Nat) (fuel c : Nat) (id : List Nat)
    (h : is_identifier_first (peek input c) = true) :
    identifier_loop input (fuel + 1) c id
      = identifier_loop input fuel (c + 1) (id ++ [peek input c]) := by
  have h1 := (is_identifier_first_iff _).1 h
  have h0 : peek input c ≠ 0 := by omega
  have h2 : is_identifier (peek input c) = true := by simp [is_identifier, h]
  rw [identifier_loop, if_pos h0, if_neg (by simp [h2])]

theorem operator_loop_first (input : List Nat) (fuel c : Nat) (data : List Nat)
    (h : is_symbol (peek input c) = true) :
    operator_loop input (fuel + 1) c data
      = operator_loop input fuel (c + 1) (data ++ [peek input c]) := by
  have h1 := (is_symbol_iff _).1 h
  have h0 : peek input c ≠ 0 := by omega
  rw [operator_loop, if_pos h0, if_neg (by simp [h])]

theorem line_comment_loop_first (input : List Nat) (fuel c : Nat)
    (h : peek input c ≠ 0 ∧ peek input c ≠ 10) :
    line_comment_loop input (fuel + 1) c = line_comment_loop input fuel (c + 1) := by
  rw [line_comment_loop, if_pos h]

theorem StepOK_skip_to {input : List Nat} {st : Cursor} (hinv : Inv input st) {c1 : Nat}
    (hle : st.c ≤ c1) (hp : Plain input st.c (c1 + 1)) :
    StepOK input st (.skip { st with c := c1 }) := by
  unfold StepOK
  simp only [Step.cursor]
  exact ⟨hle, Inv_skip_to hinv (by omega) hp, fun _ _ _ hk => by simp at hk⟩

theorem StepOK_emit_to {input : List Nat} {st : Cursor} (hinv : Inv input st) {c1 : Nat}
    (hle : st.c ≤ c1) (hp : Plain input st.c (c1 + 1)) {kind : Kind} {data : List Nat}
    (htok : TokenOK (peek input st.c) kind data) :
    StepOK input st (.emit kind data { st with c := c1 }) := by
  unfold StepOK
  simp only [Step.cursor]
  refine ⟨hle, Inv_skip_to hinv (by omega) hp, fun k d s hk => ?_⟩
  simp only [Step.emit.injEq] at hk
  obtain ⟨rfl, rfl, rfl⟩ := hk
  have := hinv.2.2
  exact ⟨by simp only []; omega, htok⟩

theorem StepOK_emit_moved {input : List Nat} {st st1 : Cursor} (hle : st.c ≤ st1.c)
    (hinv1 : Inv input st1) (h0 : peek input st1.c ≠ 0) (h10 : peek input st1.c ≠ 10)
    {kind : Kind} {data : List Nat} (htok : TokenOK (peek input st.c) kind data) :
    StepOK input st (.emit kind data st1) := by
  refine ⟨hle, Inv_plain hinv1 h0 h10, fun k d s hk => ?_⟩
  simp only [Step.emit.injEq] at hk
  obtain ⟨rfl, rfl, rfl⟩ := hk
  have := hinv1.2.2
  exact ⟨by omega, htok⟩

theorem Plain_one {input : List Nat} {c : Nat} (h0 : peek input c ≠ 0)
    (h10 : peek input c ≠ 10) : Plain input c (c + 1) :=
  Plain_cons h0 h10 (Plain_empty _ _)

theorem Plain_two {input : List Nat} {c : Nat} (h0 : peek input c ≠ 0)
    (h10 : peek input c ≠ 10) (h1 : peek input (c + 1) ≠ 0) (h2 : peek input (c + 1) ≠ 10) :
    Plain input c (c + 1 + 1) :=
  Plain_cons h0 h10 (Plain_one h1 h2)

/-- The branch of the driver's body for a byte that is no white space, newline,
punctuation, `!`, `~`, `+`, `-`, digit or quote, and starts an identifier. -/
theorem lex_body_spec_identifier (input : List Nat) (st : Cursor) (hinv : Inv input st)
    (hfirst : is_identifier_first (peek input st.c) = true) (r : Nat × List Nat)
    (h : identifier_loop input (input.length + 1) st.c [] = .ok r) :
    StepOK input st
      (.emit (keyword_or_identifier r.2).1 (keyword_or_identifier r.2).2
        { st with c := r.1 - 1 }) := by
  obtain ⟨c1, id⟩ := r
  rw [identifier_loop_first input _ _ _ hfirst] at h
  obtain ⟨h1, h2, h3⟩ := identifier_loop_spec input _ _ _ _ _ h
  have hch := (is_identifier_first_iff _).1 hfirst
  have hpl : Plain input st.c (c1 - 1 + 1) := by
    rw [Nat.sub_add_cancel (by omega)]
    exact Plain_cons (by omega) (by omega) h2
  exact StepOK_emit_to hinv (by omega) hpl
    (keyword_or_identifier_start (by simpa using h3))

theorem lex_body_spec_operator (input : List Nat) (st : Cursor) (hinv : Inv input st)
    (hsym : is_symbol (peek input st.c) = true) (r : Nat × List Nat)
    (h : operator_loop input (input.length + 1) st.c [] = .ok r) :
    StepOK input st (.emit .OPERATOR r.2 { st with c := r.1 - 1 }) := by
  obtain ⟨c1, data⟩ := r
  rw [operator_loop_first input _ _ _ hsym] at h
  obtain ⟨h1, h2, h3⟩ := operator_loop_spec input _ _ _ _ _ h
  have hch := (is_symbol_iff _).1 hsym
  have hpl : Plain input st.c (c1 - 1 + 1) := by
    rw [Nat.sub_add_cancel (by omega)]
    exact Plain_cons (by omega) (by omega) h2
  exact StepOK_emit_to hinv (by omega) hpl
    ⟨by decide, mem_take_one (by simpa using h3), fun hk => absurd hk (by decide)⟩

theorem lex_body_spec_line_comment (input : List Nat) (st : Cursor) (hinv : Inv input st)
    (hch : peek input st.c = 47 ∨ peek input st.c = 35) (c1 : Nat)
    (h : line_comment_loop input (input.length + 1) st.c = .ok c1) :
    StepOK input st (.skip { st with c := c1 - 1 }) := by
  rw [line_comment_loop_first input _ _ (by omega)] at h
  obtain ⟨h1, h2⟩ := line_comment_loop_spec input _ _ _ h
  have hpl : Plain input st.c (c1 - 1 + 1) := by
    rw [Nat.sub_add_cancel (by omega)]
    exact Plain_cons (by omega) (by omega) h2
  exact StepOK_skip_to hinv (by omega) hpl

theorem lex_body_spec_number (input file : List Nat) (st : Cursor) (hinv : Inv input st)
    (begin : Location) (r : List Nat × Nat) (h : lex_number input st.c file begin = .ok r) :
    StepOK input st (.emit .NUMBER r.1 { st with c := r.2 }) := by
  obtain ⟨data, c1⟩ := r
  obtain ⟨e, h1, h2, h3, h4, h5⟩ := lex_number_spec input file begin _ _ _ h
  have hpl : Plain input st.c (c1 + 1) := by
    rw [h2, Nat.sub_add_cancel (by omega)]; exact h3
  exact StepOK_emit_to hinv (by omega) hpl ⟨by decide, mem_take_one h5, fun _ => h4⟩

theorem lex_body_spec_string (input file : List Nat) (st : Cursor) (hinv : Inv input st)
    (hq : peek input st.c = 34) (begin : Location) (fuel : Nat) (r : Cursor × List Nat)
    (h : string_loop input file begin fuel { st with c := st.c + 1 } [] = .ok r) :
    StepOK input st (.emit .STRING r.2 r.1) := by
  obtain ⟨st1, data⟩ := r
  obtain ⟨h1, h2, h3⟩ := string_loop_spec input file begin _ _ _ _ _ h
    (Inv_plain hinv (by omega) (by omega))
  refine StepOK_emit_moved (by simp only [] at h2 ⊢; omega) h1 (by omega) (by omega)
    ⟨by decide, ?_, fun hk => absurd hk (by decide)⟩
  rw [hq]; exact (by decide : (34 : Nat) ∈ str "\"|")

theorem lex_body_spec_block_comment (input file : List Nat) (st : Cursor)
    (hinv : Inv input st) (hch : peek input st.c = 47 ∧ peek input (st.c + 1) = 42)
    (begin : Location) (fuel : Nat) (st1 : Cursor) (step : Step)
    (h : block_comment_loop input fuel { st with c := st.c + 2 } = .ok st1)
    (hstep : (if peek input st1.c = 0 then
        (.error ⟨file, begin, str "Multi-line comment has no terminating */."⟩ : Outcome Step)
      else .ok (.skip { st1 with c := st1.c + 1 })) = .ok step) :
    StepOK input st step := by
  obtain ⟨h1, h2, h3⟩ := block_comment_loop_spec input _ _ _ h
    (Inv_escape hinv (by omega) (by omega) (by omega) (by omega))
  by_cases hz : peek input st1.c = 0
  · rw [if_pos hz] at hstep; simp at hstep
  · rw [if_neg hz] at hstep
    simp only [Outcome.ok.injEq] at hstep
    subst hstep
    obtain ⟨h4, h5⟩ := h3 hz
    exact ⟨by simp only [Step.cursor] at h2 ⊢; omega,
      Inv_escape h1 (by omega) (by omega) (by omega) (by omega),
      fun _ _ _ hk => by simp at hk⟩

theorem lex_body_spec_text_block (input file : List Nat) (st : Cursor)
    (hinv : Inv input st)
    (hch : peek input st.c = 124 ∧ peek input (st.c + 1) = 124 ∧ peek input (st.c + 2) = 124
      ∧ peek input (st.c + 3) = 10)
    (begin : Location) (fuel ws : Nat) (hws : whitespace_check input (st.c + 4) (st.c + 4) = .ok ws)
    (hne : ws ≠ 0) (r : Cursor × List Nat)
    (h : text_block_loop input file begin (st.c + 4) fuel ws
      ⟨st.c + 4, st.line_number + 1, st.c + 4⟩ [] = .ok r) :
    StepOK input st (.emit .STRING r.2 r.1) := by
  obtain ⟨st1, data⟩ := r
  obtain ⟨h1, h2, h3, h4⟩ := hch
  have hp3 : Plain input st.c (st.c + 3) := by
    intro i hi1 hi2
    have : i = st.c ∨ i = st.c + 1 ∨ i = st.c + 2 := by omega
    rcases this with rfl | rfl | rfl <;> omega
  have hinv3 := Inv_skip hinv 3 hp3
  have hinv4 : Inv input ⟨st.c + 4, st.line_number + 1, st.c + 4⟩ :=
    @Inv_newline input { st with c := st.c + 3 } hinv3 h4
  obtain ⟨h5, h6, h7⟩ := text_block_loop_spec input file begin _ _ _ _ _ _ _ h hinv4
    (whitespace_check_spec input _ _ _ hws hne)
  refine StepOK_emit_moved (by simp only [] at h6 ⊢; omega) h5 (by omega) (by omega)
    ⟨by decide, ?_, fun hk => absurd hk (by decide)⟩
  rw [h1]; exact (by decide : (124 : Nat) ∈ str "\"|")

theorem bind_eq_ok {α β : Type} {x : Outcome α} {f : α → Outcome β} {b : β}
    (h : x.bind f = .ok b) : ∃ a, x = .ok a ∧ f a = .ok b := by
  cases x with
  | ok a => exact ⟨a, rfl, h⟩
  | error e => simp [Outcome.bind] at h
  | diverge => simp [Outcome.bind] at h

theorem bind_eq_error {α β : Type} {x : Outcome α} {f : α → Outcome β} {err : StaticError}
    (h : x.bind f = .error err) : x = .error err ∨ ∃ a, x = .ok a ∧ f a = .error err := by
  cases x with
  | ok a => exact Or.inr ⟨a, rfl, h⟩
  | error e => simp only [Outcome.bind, Outcome.error.injEq] at h; exact Or.inl (by rw [h])
  | diverge => simp [Outcome.bind] at h

/-- Every step of the driver that does not throw keeps the locals in agreement with the
input, moves the cursor forward, and pushes only tokens that start where the step
started. -/
theorem lex_body_spec (file input : List Nat) (st : Cursor) (step : Step)
    (hinv : Inv input st) (hnz : peek input st.c ≠ 0)
    (h : lex_body file input st = .ok step) : StepOK input st step := by
  unfold lex_body at h
  dsimp only at h
  by_cases hws : peek input st.c = 32 ∨ peek input st.c = 9 ∨ peek input st.c = 13
  · rw [if_pos hws] at h
    simp only [Outcome.ok.injEq] at h; subst h
    exact StepOK_skip_to hinv (Nat.le_refl _) (Plain_one hnz (by omega))
  rw [if_neg hws] at h
  by_cases hnl : peek input st.c = 10
  · rw [if_pos hnl] at h
    simp only [Outcome.ok.injEq] at h; subst h
    exact ⟨Nat.le_refl _, Inv_newline hinv hnl, fun _ _ _ hk => by simp at hk⟩
  rw [if_neg hnl] at h
  have hone : Plain input st.c (st.c + 1) := Plain_one hnz hnl
  cases hp : punctuation (peek input st.c) with
  | some kind =>
    rw [hp] at h
    simp only [Outcome.ok.injEq] at h; subst h
    exact StepOK_emit_to hinv (Nat.le_refl _) hone (punctuation_some hp)
  | none =>
  rw [hp] at h
  dsimp only at h
  by_cases h33 : peek input st.c = 33
  · rw [if_pos h33] at h
    by_cases h61 : peek input (st.c + 1) = 61
    · rw [if_pos h61] at h
      simp only [Outcome.ok.injEq] at h; subst h
      refine StepOK_emit_to hinv (by omega) (Plain_two hnz hnl (by omega) (by omega))
        ⟨by decide, ?_, fun hk => absurd hk (by decide)⟩
      rw [h33]; exact (by decide : (33 : Nat) ∈ (str "!=").take 1)
    · rw [if_neg h61] at h
      simp only [Outcome.ok.injEq] at h; subst h
      refine StepOK_emit_to hinv (Nat.le_refl _) hone
        ⟨by decide, ?_, fun hk => absurd hk (by decide)⟩
      rw [h33]; exact (by decide : (33 : Nat) ∈ (str "!").take 1)
  rw [if_neg h33] at h
  by_cases h126 : peek input st.c = 126
  · rw [if_pos h126] at h
    simp only [Outcome.ok.injEq] at h; subst h
    refine StepOK_emit_to hinv (Nat.le_refl _) hone
      ⟨by decide, ?_, fun hk => absurd hk (by decide)⟩
    rw [h126]; exact (by decide : (126 : Nat) ∈ (str "~").take 1)
  rw [if_neg h126] at h
  by_cases h43 : peek input st.c = 43
  · rw [if_pos h43] at h
    simp only [Outcome.ok.injEq] at h; subst h
    refine StepOK_emit_to hinv (Nat.le_refl _) hone
      ⟨by decide, ?_, fun hk => absurd hk (by decide)⟩
    rw [h43]; exact (by decide : (43 : Nat) ∈ (str "+").take 1)
  rw [if_neg h43] at h
  by_cases h45 : peek input st.c = 45
  · rw [if_pos h45] at h
    simp only [Outcome.ok.injEq] at h; subst h
    refine StepOK_emit_to hinv (Nat.le_refl _) hone
      ⟨by decide, ?_, fun hk => absurd hk (by decide)⟩
    rw [h45]; exact (by decide : (45 : Nat) ∈ (str "-").take 1)
  rw [if_neg h45] at h
  by_cases hnum : is_number (peek input st.c) = true
  · rw [if_pos hnum] at h
    obtain ⟨r, hr, hs⟩ := bind_eq_ok h
    simp only [Outcome.ok.injEq] at hs; subst hs
    exact lex_body_spec_number input file st hinv _ r hr
  rw [if_neg hnum] at h
  by_cases hq : peek input st.c = 34
  · rw [if_pos hq] at h
    obtain ⟨r, hr, hs⟩ := bind_eq_ok h
    simp only [Outcome.ok.injEq] at hs; subst hs
    exact lex_body_spec_string input file st hinv hq _ _ r hr
  rw [if_neg hq] at h
  by_cases hid : is_identifier_first (peek input st.c) = true
  · rw [if_pos hid] at h
    obtain ⟨r, hr, hs⟩ := bind_eq_ok h
    simp only [Outcome.ok.injEq] at hs; subst hs
    exact lex_body_spec_identifier input st hinv hid r hr
  rw [if_neg hid] at h
  by_cases hsym : is_symbol (peek input st.c) = true
  · rw [if_pos hsym] at h
    by_cases hlc : peek input st.c = 47 ∧ peek input (st.c + 1) = 47
    · rw [if_pos hlc] at h
      obtain ⟨r, hr, hs⟩ := bind_eq_ok h
      simp only [Outcome.ok.injEq] at hs; subst hs
      exact lex_body_spec_line_comment input st hinv (Or.inl hlc.1) r hr
    rw [if_neg hlc] at h
    by_cases hhash : peek input st.c = 35
    · rw [if_pos hhash] at h
      obtain ⟨r, hr, hs⟩ := bind_eq_ok h
      simp only [Outcome.ok.injEq] at hs; subst hs
      exact lex_body_spec_line_comment input st hinv (Or.inr hhash) r hr
    rw [if_neg hhash] at h
    by_cases hbc : peek input st.c = 47 ∧ peek input (st.c + 1) = 42
    · rw [if_pos hbc] at h
      obtain ⟨r, hr, hs⟩ := bind_eq_ok h
      exact lex_body_spec_block_comment input file st hinv hbc _ _ r step hr hs
    rw [if_neg hbc] at h
    by_cases htb : peek input st.c = 124 ∧ peek input (st.c + 1) = 124
        ∧ peek input (st.c + 2) = 124 ∧ peek input (st.c + 3) = 10
    · rw [if_pos htb] at h
      obtain ⟨ws, hws, hs⟩ := bind_eq_ok h
      by_cases hz : ws = 0
      · rw [if_pos hz] at hs; simp at hs
      · rw [if_neg hz] at hs
        obtain ⟨r, hr, hs2⟩ := bind_eq_ok hs
        simp only [Outcome.ok.injEq] at hs2; subst hs2
        exact lex_body_spec_text_block input file st hinv htb _ _ ws hws hz r hr
    rw [if_neg htb] at h
    obtain ⟨r, hr, hs⟩ := bind_eq_ok h
    simp only [Outcome.ok.injEq] at hs; subst hs
    exact lex_body_spec_operator input st hinv hsym r hr
  rw [if_neg hsym] at h
  split_ifs at h

/-- Every `StaticError` thrown by a step of the driver is located at the `begin` of that
step. -/
theorem lex_body_error (file input : List Nat) (st : Cursor) (err : StaticError)
    (h : lex_body file input st = .error err) :
    err.location = ⟨st.line_number, st.c - st.line_start + 1⟩ := by
  unfold lex_body at h
  dsimp only at h
  by_cases hws : peek input st.c = 32 ∨ peek input st.c = 9 ∨ peek input st.c = 13
  · rw [if_pos hws] at h; simp at h
  rw [if_neg hws] at h
  by_cases hnl : peek input st.c = 10
  · rw [if_pos hnl] at h; simp at h
  rw [if_neg hnl] at h
  cases hp : punctuation (peek input st.c) with
  | some kind => rw [hp] at h; simp at h
  | none =>
  rw [hp] at h
  dsimp only at h
  by_cases h33 : peek input st.c = 33
  · rw [if_pos h33] at h
    split_ifs at h
  rw [if_neg h33] at h
  by_cases h126 : peek input st.c = 126
  · rw [if_pos h126] at h; simp at h
  rw [if_neg h126] at h
  by_cases h43 : peek input st.c = 43
  · rw [if_pos h43] at h; simp at h
  rw [if_neg h43] at h
  by_cases h45 : peek input st.c = 45
  · rw [if_pos h45] at h; simp at h
  rw [if_neg h45] at h
  by_cases hnum : is_number (peek input st.c) = true
  · rw [if_pos hnum] at h
    rcases bind_eq_error h with hr | ⟨r, -, hs⟩
    · exact lex_number_error input file _ _ _ hr
    · simp at hs
  rw [if_neg hnum] at h
  by_cases hq : peek input st.c = 34
  · rw [if_pos hq] at h
    rcases bind_eq_error h with hr | ⟨r, -, hs⟩
    · exact string_loop_error input file _ _ _ _ _ hr
    · simp at hs
  rw [if_neg hq] at h
  by_cases hid : is_identifier_first (peek input st.c) = true
  · rw [if_pos hid] at h
    rcases bind_eq_error h with hr | ⟨r, -, hs⟩
    · exact absurd hr (identifier_loop_ne_error input _ _ _ _)
    · simp at hs
  rw [if_neg hid] at h
  by_cases hsym : is_symbol (peek input st.c) = true
  · rw [if_pos hsym] at h
    by_cases hlc : peek input st.c = 47 ∧ peek input (st.c + 1) = 47
    · rw [if_pos hlc] at h
      rcases bind_eq_error h with hr | ⟨r, -, hs⟩
      · exact absurd hr (line_comment_loop_ne_error input _ _ _)
      · simp at hs
    rw [if_neg hlc] at h
    by_cases hhash : peek input st.c = 35
    · rw [if_pos hhash] at h
      rcases bind_eq_error h with hr | ⟨r, -, hs⟩
      · exact absurd hr (line_comment_loop_ne_error input _ _ _)
      · simp at hs
    rw [if_neg hhash] at h
    by_cases hbc : peek input st.c = 47 ∧ peek input (st.c + 1) = 42
    · rw [if_pos hbc] at h
      rcases bind_eq_error h with hr | ⟨r, -, hs⟩
      · exact absurd hr (block_comment_loop_ne_error input _ _ _)
      · split_ifs at hs
        simp only [Outcome.error.injEq] at hs
        rw [← hs]
    rw [if_neg hbc] at h
    by_cases htb : peek input st.c = 124 ∧ peek input (st.c + 1) = 124
        ∧ peek input (st.c + 2) = 124 ∧ peek input (st.c + 3) = 10
    · rw [if_pos htb] at h
      rcases bind_eq_error h with hr | ⟨ws, -, hs⟩
      · exact absurd hr (whitespace_check_loop_ne_error input _ _ _ _ _)
      · by_cases hz : ws = 0
        · rw [if_pos hz] at hs
          simp only [Outcome.error.injEq] at hs
          rw [← hs]
        · rw [if_neg hz] at hs
          rcases bind_eq_error hs with hr | ⟨r, -, hs2⟩
          · exact text_block_loop_error input file _ _ _ _ _ _ _ hr
          · simp at hs2
    rw [if_neg htb] at h
    rcases bind_eq_error h with hr | ⟨r, -, hs⟩
    · exact absurd hr (operator_loop_ne_error input _ _ _ _)
    · simp at hs
  rw [if_neg hsym] at h
  split_ifs at h <;> (simp only [Outcome.error.injEq] at h; rw [← h])

/-! ## The trace of the driver -/

theorem lex_body_emit_not_newline (file input : List Nat) (st st1 : Cursor) (kind : Kind)
    (data : List Nat) (h : lex_body file input st = .ok (.emit kind data st1)) :
    peek input st.c ≠ 10 := by
  intro h10
  unfold lex_body at h
  simp [h10] at h

theorem Inv_begin {input : List Nat} {st : Cursor} (h : Inv input st) :
    (⟨st.line_number, st.c - st.line_start + 1⟩ : Location) = locationOf input st.c := by
  obtain ⟨-, h2, h3⟩ := h
  simp only [locationOf, Location.mk.injEq]
  exact ⟨h2, by omega⟩

/-- The loop of the driver produces a well-formed trace. -/
theorem lex_loop_trace (file input : List Nat) :
    ∀ (fuel : Nat) (st : Cursor) (evs : List Event),
      lex_loop file input fuel st = .ok evs → Inv input st → TraceOK file input st.c evs := by
  intro fuel
  induction fuel with
  | zero => intro st evs h; simp [lex_loop] at h
  | succ fuel ih =>
    intro st evs h hinv
    rw [lex_loop] at h
    by_cases hnz : peek input st.c ≠ 0
    · rw [if_pos hnz] at h
      dsimp only at h
      obtain ⟨step, hstep, h1⟩ := bind_eq_ok h
      obtain ⟨r, hr, h2⟩ := bind_eq_ok h1
      simp only [Outcome.ok.injEq] at h2
      subst h2
      obtain ⟨hle, hinv1, htok⟩ := lex_body_spec file input st step hinv hnz hstep
      have hrest := ih _ _ hr hinv1
      refine TraceOK.step st.c _ _ r (by omega) hinv1.1 hnz ?_ hrest
      intro t ht
      cases step with
      | skip s => simp [Step.token] at ht
      | emit kind data s =>
        simp only [Step.token, Option.some.injEq] at ht
        subst ht
        obtain ⟨hls, hok⟩ := htok kind data s rfl
        refine ⟨lex_body_emit_not_newline file input st s kind data hstep, hok, ?_⟩
        simp only [Step.cursor] at hinv1 ⊢
        rw [Inv_begin hinv]
        obtain ⟨-, h2, h3⟩ := hinv1
        simp only [] at h2 h3
        simp only [LocationRange.mk.injEq, Location.mk.injEq, true_and]
        exact ⟨h2, by omega⟩
    · rw [if_neg hnz] at h
      simp only [Outcome.ok.injEq] at h
      subst h
      rw [Inv_begin hinv]
      exact TraceOK.eof st.c (not_not.1 hnz) hinv.1

/-- Every `StaticError` of the driver is located at the position of an offset of the input
at or after the cursor. -/
theorem lex_loop_error (file input : List Nat) :
    ∀ (fuel : Nat) (st : Cursor) (err : StaticError),
      lex_loop file input fuel st = .error err → Inv input st →
      ∃ c, st.c ≤ c ∧ c ≤ input.length ∧ err.location = locationOf input c := by
  intro fuel
  induction fuel with
  | zero => intro st err h; simp [lex_loop] at h
  | succ fuel ih =>
    intro st err h hinv
    rw [lex_loop] at h
    by_cases hnz : peek input st.c ≠ 0
    · rw [if_pos hnz] at h
      dsimp only at h
      rcases bind_eq_error h with hb | ⟨step, hstep, h1⟩
      · refine ⟨st.c, Nat.le_refl _, hinv.1, ?_⟩
        rw [lex_body_error file input st err hb, Inv_begin hinv]
      · obtain ⟨hle, hinv1, -⟩ := lex_body_spec file input st step hinv hnz hstep
        rcases bind_eq_error h1 with hr | ⟨r, -, h2⟩
        · obtain ⟨c, hc1, hc2, hc3⟩ := ih _ _ hr hinv1
          exact ⟨c, by simp only [] at hc1; omega, hc2, hc3⟩
        · simp at h2
    · rw [if_neg hnz] at h
      simp at h

theorem jsonnet_lex_trace_ok (file input : List Nat) (evs : List Event)
    (h : jsonnet_lex_trace file input = .ok evs) : TraceOK file input 0 evs :=
  lex_loop_trace file input _ ⟨0, 1, 0⟩ evs h (Inv_init input)

theorem jsonnet_lex_ok (file input : List Nat) (toks : List Token)
    (h : jsonnet_lex file input = .ok toks) :
    ∃ evs, jsonnet_lex_trace file input = .ok evs ∧ toks = evs.filterMap Event.token := by
  unfold jsonnet_lex at h
  obtain ⟨evs, h1, h2⟩ := bind_eq_ok h
  simp only [Outcome.ok.injEq] at h2
  exact ⟨evs, h1, h2.symm⟩

/-! ## Consequences for the tokens -/

theorem locationOf_lt (input : List Nat) {a b : Nat} (hab : a < b) (hb : b ≤ input.length) :
    (locationOf input a).lt (locationOf input b) := by
  obtain ⟨h1, h2⟩ := lineOf_colOf_mono input a (b - a) (by omega)
  rw [Nat.add_sub_cancel' (Nat.le_of_lt hab)] at h1 h2
  unfold Location.lt locationOf
  by_cases h : lineOf input a = lineOf input b
  · right
    exact ⟨h, by simp only []; rw [h2 h]; omega⟩
  · left
    simp only []; omega

theorem Location.lt_irrefl (a : Location) : ¬ a.lt a := by
  unfold Location.lt; omega

/-- Every token of a well-formed trace begins at the position of an offset of the input at
or after the start of the trace. -/
theorem TraceOK_begin {file input : List Nat} {c : Nat} {evs : List Event}
    (h : TraceOK file input c evs) :
    ∀ t ∈ evs.filterMap Event.token,
      ∃ a, c ≤ a ∧ a ≤ input.length ∧ t.location.begin = locationOf input a := by
  induction h with
  | eof c hz hle =>
    intro t ht
    simp only [List.filterMap_cons, List.filterMap_nil, List.mem_singleton] at ht
    subst ht
    exact ⟨c, Nat.le_refl _, hle, rfl⟩
  | step c n tok rest hlt hle hnz htok hrest ih =>
    intro t ht
    cases tok with
    | none =>
      simp only [List.filterMap_cons] at ht
      obtain ⟨a, h1, h2, h3⟩ := ih t ht
      exact ⟨a, by omega, h2, h3⟩
    | some t0 =>
      simp only [List.filterMap_cons, List.mem_cons] at ht
      rcases ht with rfl | ht
      · obtain ⟨-, -, hloc⟩ := htok t rfl
        exact ⟨c, Nat.le_refl _, by omega, by rw [hloc]⟩
      · obtain ⟨a, h1, h2, h3⟩ := ih t ht
        exact ⟨a, by omega, h2, h3⟩

/-- What holds of every entry of a well-formed trace. -/
theorem TraceOK_event {file input : List Nat} {c : Nat} {evs : List Event}
    (h : TraceOK file input c evs) :
    ∀ ev ∈ evs, ∀ t, ev.token = some t →
      (t.kind = .END_OF_FILE ∧ ev.next = ev.first
        ∧ t.location.begin = t.location.end_) ∨
      (ev.first < ev.next ∧ ev.next ≤ input.length ∧ peek input ev.first ≠ 10
        ∧ TokenOK (peek input ev.first) t.kind t.data
        ∧ t.location = ⟨file, locationOf input ev.first,
            ⟨lineOf input ev.next, colOf input ev.next⟩⟩) := by
  induction h with
  | eof c hz hle =>
    intro ev hev t ht
    simp only [List.mem_singleton] at hev
    subst hev
    simp only [Option.some.injEq] at ht
    subst ht
    exact Or.inl ⟨rfl, rfl, rfl⟩
  | step c n tok rest hlt hle hnz htok hrest ih =>
    intro ev hev t ht
    rcases List.mem_cons.1 hev with rfl | hev
    · obtain ⟨h1, h2, h3⟩ := htok t ht
      exact Or.inr ⟨hlt, hle, h1, h2, h3⟩
    · exact ih ev hev t ht

theorem getLast_digits {ds : List Nat} (hne : ds ≠ []) (hds : Digits ds) (pre : List Nat) :
    ∃ d, (pre ++ ds).getLast? = some d ∧ 48 ≤ d ∧ d ≤ 57 := by
  obtain ⟨init, x, rfl⟩ : ∃ init x, ds = init ++ [x] :=
    ⟨ds.dropLast, ds.getLast hne, (List.dropLast_append_getLast hne).symm⟩
  refine ⟨x, ?_, hds x (by simp)⟩
  rw [← List.append_assoc, List.getLast?_append]
  simp

theorem json_number_last {n : List Nat} (h : IsJsonNumber n) :
    ∃ d, n.getLast? = some d ∧ 48 ≤ d ∧ d ≤ 57 := by
  obtain ⟨i, f, e, rfl, hi, hf, he⟩ := h
  rcases he with rfl | ⟨e0, sign, ds, rfl, -, -, hne, hds⟩
  · rcases hf with rfl | ⟨ds, rfl, hne, hds⟩
    · rcases hi with rfl | ⟨d, ds, rfl, hd, hds⟩
      · exact ⟨48, by simp, by omega, by omega⟩
      · have := @getLast_digits (d :: ds) (by simp) (by
          intro x hx
          rcases List.mem_cons.1 hx with rfl | hx
          · omega
          · exact hds x hx) []
        simpa using this
    · have := getLast_digits hne hds (i ++ [46])
      simpa using this
  · have := getLast_digits hne hds (i ++ (f ++ e0 :: sign))
    simpa using this

/-- C9. NUMBER data is well-formed: for every input on which `jsonnet_lex` succeeds, the
data of every `NUMBER` token in the result matches
`(0|[1-9][0-9]*)(\.[0-9]+)?([eE][+-]?[0-9]+)?` exactly; in particular its first byte is a
decimal digit (it is non-empty and has no leading sign) and its last byte is a decimal
digit (it never ends in `.`, `e`, `E`, `+` or `-`). -/
theorem number_data_well_formed (file input : List Nat) (toks : List Token)
    (h : jsonnet_lex file input = .ok toks) :
    ∀ t ∈ toks, t.kind = .NUMBER →
      IsJsonNumber t.data ∧ (∃ d rest, t.data = d :: rest ∧ 48 ≤ d ∧ d ≤ 57)
        ∧ ∃ d, t.data.getLast? = some d ∧ 48 ≤ d ∧ d ≤ 57 := by
  obtain ⟨evs, h1, rfl⟩ := jsonnet_lex_ok file input toks h
  have htr := jsonnet_lex_trace_ok file input evs h1
  intro t ht hk
  obtain ⟨ev, hev, hevt⟩ := List.mem_filterMap.1 ht
  rcases TraceOK_event htr ev hev t hevt with ⟨h2, -, -⟩ | ⟨-, -, -, h2, -⟩
  · rw [hk] at h2; exact absurd h2 (by decide)
  · have hj := h2.2.2 hk
    exact ⟨hj, json_number_head hj, json_number_last hj⟩

/-- C9 at the input `x=0.5e-3`. -/
theorem number_data_well_formed_witness :
    jsonnet_lex [] (str "x=0.5e-3") =
        .ok [⟨.IDENTIFIER, str "x", ⟨[], ⟨1, 1⟩, ⟨1, 1⟩⟩⟩,
          ⟨.OPERATOR, str "=", ⟨[], ⟨1, 2⟩, ⟨1, 2⟩⟩⟩,
          ⟨.NUMBER, str "0.5e-3", ⟨[], ⟨1, 3⟩, ⟨1, 8⟩⟩⟩,
          ⟨.END_OF_FILE, [], ⟨[], ⟨1, 9⟩, ⟨1, 9⟩⟩⟩] ∧
      ∀ t ∈ [(⟨.IDENTIFIER, str "x", ⟨[], ⟨1, 1⟩, ⟨1, 1⟩⟩⟩ : Token),
          ⟨.OPERATOR, str "=", ⟨[], ⟨1, 2⟩, ⟨1, 2⟩⟩⟩,
          ⟨.NUMBER, str "0.5e-3", ⟨[], ⟨1, 3⟩, ⟨1, 8⟩⟩⟩,
          ⟨.END_OF_FILE, [], ⟨[], ⟨1, 9⟩, ⟨1, 9⟩⟩⟩],
        t.kind = .NUMBER →
          IsJsonNumber t.data ∧ (∃ d rest, t.data = d :: rest ∧ 48 ≤ d ∧ d ≤ 57)
            ∧ ∃ d, t.data.getLast? = some d ∧ 48 ≤ d ∧ d ≤ 57 :=
  ⟨by decide, number_data_well_formed [] (str "x=0.5e-3") _ (by decide)⟩

theorem TraceOK_pairwise {file input : List Nat} {c : Nat} {evs : List Event}
    (h : TraceOK file input c evs) :
    (evs.filterMap Event.token).Pairwise
      (fun a b => a.location.begin.lt b.location.begin) := by
  induction h with
  | eof c hz hle => simp
  | step c n tok rest hlt hle hnz htok hrest ih =>
    cases tok with
    | none => simpa only [List.filterMap_cons] using ih
    | some t0 =>
      simp only [List.filterMap_cons]
      refine List.Pairwise.cons ?_ ih
      intro t ht
      obtain ⟨a, h1, h2, h3⟩ := TraceOK_begin hrest t ht
      obtain ⟨-, -, hloc⟩ := htok t0 rfl
      rw [hloc, h3]
      exact locationOf_lt input (by omega) h2

/-- C8. Token order: for every input on which `jsonnet_lex` succeeds, the begin locations
of the returned tokens (the final `END_OF_FILE` included) are strictly increasing in the
lexicographic order on (line, column), each token before all later ones; in particular no
two tokens share a begin location, and, in the trace of the run, every token other than
`END_OF_FILE` consumes at least one source byte. -/
theorem token_order (file input : List Nat) (toks : List Token)
    (h : jsonnet_lex file input = .ok toks) :
    toks.Pairwise (fun a b => a.location.begin.lt b.location.begin) ∧
      ∃ evs, jsonnet_lex_trace file input = .ok evs ∧ toks = evs.filterMap Event.token ∧
        ∀ ev ∈ evs, ∀ t, ev.token = some t → t.kind ≠ .END_OF_FILE →
          ev.first < ev.next := by
  obtain ⟨evs, h1, rfl⟩ := jsonnet_lex_ok file input toks h
  have htr := jsonnet_lex_trace_ok file input evs h1
  refine ⟨TraceOK_pairwise htr, evs, h1, rfl, ?_⟩
  intro ev hev t ht hk
  rcases TraceOK_event htr ev hev t ht with ⟨h2, -, -⟩ | ⟨h2, -⟩
  · exact absurd h2 hk
  · exact h2

/-- C8 at an input with a newline inside a string literal. -/
theorem token_order_witness :
    jsonnet_lex [] (str "a\n \"b\nc\" d") =
        .ok [⟨.IDENTIFIER, str "a", ⟨[], ⟨1, 1⟩, ⟨1, 1⟩⟩⟩,
          ⟨.STRING, str "b\nc", ⟨[], ⟨2, 2⟩, ⟨3, 2⟩⟩⟩,
          ⟨.IDENTIFIER, str "d", ⟨[], ⟨3, 4⟩, ⟨3, 4⟩⟩⟩,
          ⟨.END_OF_FILE, [], ⟨[], ⟨3, 5⟩, ⟨3, 5⟩⟩⟩] ∧
      ([(⟨.IDENTIFIER, str "a", ⟨[], ⟨1, 1⟩, ⟨1, 1⟩⟩⟩ : Token),
          ⟨.STRING, str "b\nc", ⟨[], ⟨2, 2⟩, ⟨3, 2⟩⟩⟩,
          ⟨.IDENTIFIER, str "d", ⟨[], ⟨3, 4⟩, ⟨3, 4⟩⟩⟩,
          ⟨.END_OF_FILE, [], ⟨[], ⟨3, 5⟩, ⟨3, 5⟩⟩⟩].Pairwise
            (fun a b => a.location.begin.lt b.location.begin) ∧
        ∃ evs, jsonnet_lex_trace [] (str "a\n \"b\nc\" d") = .ok evs ∧
          [(⟨.IDENTIFIER, str "a", ⟨[], ⟨1, 1⟩, ⟨1, 1⟩⟩⟩ : Token),
            ⟨.STRING, str "b\nc", ⟨[], ⟨2, 2⟩, ⟨3, 2⟩⟩⟩,
            ⟨.IDENTIFIER, str "d", ⟨[], ⟨3, 4⟩, ⟨3, 4⟩⟩⟩,
            ⟨.END_OF_FILE, [], ⟨[], ⟨3, 5⟩, ⟨3, 5⟩⟩⟩] = evs.filterMap Event.token ∧
          ∀ ev ∈ evs, ∀ t, ev.token = some t → t.kind ≠ .END_OF_FILE →
            ev.first < ev.next) :=
  ⟨by decide, token_order [] (str "a\n \"b\nc\" d") _ (by decide)⟩

/-- C3, as the code has it. The end of a token's range is inclusive: for every token
returned by `jsonnet_lex` other than `END_OF_FILE` whose range begins and ends on the same
line, `end.column + 1 - begin.column` is the number of source bytes the token consumed in
the run (`end` is the column of the last consumed byte, so a one-byte token has
`end = begin`); the `END_OF_FILE` token has `begin = end` and consumes nothing. -/
theorem range_end_inclusive (file input : List Nat) (toks : List Token)
    (h : jsonnet_lex file input = .ok toks) :
    ∃ evs, jsonnet_lex_trace file input = .ok evs ∧ toks = evs.filterMap Event.token ∧
      ∀ ev ∈ evs, ∀ t, ev.token = some t →
        (t.kind = .END_OF_FILE →
          t.location.begin = t.location.end_ ∧ ev.next = ev.first) ∧
        (t.kind ≠ .END_OF_FILE → t.location.begin.line = t.location.end_.line →
          t.location.end_.column + 1 = t.location.begin.column + (ev.next - ev.first)) := by
  obtain ⟨evs, h1, rfl⟩ := jsonnet_lex_ok file input toks h
  have htr := jsonnet_lex_trace_ok file input evs h1
  refine ⟨evs, h1, rfl, ?_⟩
  intro ev hev t ht
  rcases TraceOK_event htr ev hev t ht with ⟨h1, h2, h3⟩ | ⟨h1, h2, -, h4, h5⟩
  · exact ⟨fun _ => ⟨h3, h2⟩, fun hk => absurd h1 hk⟩
  · refine ⟨fun hk => absurd hk h4.1, fun _ hline => ?_⟩
    rw [h5] at hline ⊢
    simp only [locationOf] at hline ⊢
    obtain ⟨-, hcol⟩ := lineOf_colOf_mono input ev.first (ev.next - ev.first) (by omega)
    rw [Nat.add_sub_cancel' (Nat.le_of_lt h1)] at hcol
    rw [hcol hline]
    omega

/-- C3 at the input `ab +`: `ab` has range 1:1 to 1:2 and consumed two bytes, `+` has range
1:4 to 1:4 and consumed one. -/
theorem range_end_inclusive_witness :
    jsonnet_lex [] (str "ab +") =
        .ok [⟨.IDENTIFIER, str "ab", ⟨[], ⟨1, 1⟩, ⟨1, 2⟩⟩⟩,
          ⟨.OPERATOR, str "+", ⟨[], ⟨1, 4⟩, ⟨1, 4⟩⟩⟩,
          ⟨.END_OF_FILE, [], ⟨[], ⟨1, 5⟩, ⟨1, 5⟩⟩⟩] ∧
      ∃ evs, jsonnet_lex_trace [] (str "ab +") = .ok evs ∧
        [(⟨.IDENTIFIER, str "ab", ⟨[], ⟨1, 1⟩, ⟨1, 2⟩⟩⟩ : Token),
          ⟨.OPERATOR, str "+", ⟨[], ⟨1, 4⟩, ⟨1, 4⟩⟩⟩,
          ⟨.END_OF_FILE, [], ⟨[], ⟨1, 5⟩, ⟨1, 5⟩⟩⟩] = evs.filterMap Event.token ∧
        ∀ ev ∈ evs, ∀ t, ev.token = some t →
          (t.kind = .END_OF_FILE →
            t.location.begin = t.location.end_ ∧ ev.next = ev.first) ∧
          (t.kind ≠ .END_OF_FILE → t.location.begin.line = t.location.end_.line →
            t.location.end_.column + 1 = t.location.begin.column + (ev.next - ev.first)) :=
  ⟨by decide, range_end_inclusive [] (str "ab +") _ (by decide)⟩

/-- C3, as the spec states it, fails: on the input `{` the token `BRACE_L` begins and ends
at line 1, column 1, so `end.column - begin.column` is 0 while the token consumed one
byte (the cursor went from offset 0 to offset 1). -/
theorem range_end_exclusive_counterexample :
    jsonnet_lex [] [123] =
        .ok [⟨.BRACE_L, [], ⟨[], ⟨1, 1⟩, ⟨1, 1⟩⟩⟩,
          ⟨.END_OF_FILE, [], ⟨[], ⟨1, 2⟩, ⟨1, 2⟩⟩⟩] ∧
      jsonnet_lex_trace [] [123] =
        .ok [⟨0, 1, some ⟨.BRACE_L, [], ⟨[], ⟨1, 1⟩, ⟨1, 1⟩⟩⟩⟩,
          ⟨1, 1, some ⟨.END_OF_FILE, [], ⟨[], ⟨1, 2⟩, ⟨1, 2⟩⟩⟩⟩] ∧
      ¬ ∀ evs, jsonnet_lex_trace [] [123] = .ok evs →
        ∀ ev ∈ evs, ∀ t, ev.token = some t →
          t.location.begin.line = t.location.end_.line →
            t.location.end_.column - t.location.begin.column = ev.next - ev.first := by
  have hrun : jsonnet_lex_trace [] [123] =
      .ok [⟨0, 1, some ⟨.BRACE_L, [], ⟨[], ⟨1, 1⟩, ⟨1, 1⟩⟩⟩⟩,
        ⟨1, 1, some ⟨.END_OF_FILE, [], ⟨[], ⟨1, 2⟩, ⟨1, 2⟩⟩⟩⟩] := by decide
  refine ⟨by decide, hrun, fun hall => ?_⟩
  have := hall _ hrun ⟨0, 1, some ⟨.BRACE_L, [], ⟨[], ⟨1, 1⟩, ⟨1, 1⟩⟩⟩⟩ (by simp) _ rfl rfl
  simp at this

theorem nul_free_end {input : List Nat} (hnul : NulFree input) {c : Nat}
    (hz : peek input c = 0) (hle : c ≤ input.length) : c = input.length := by
  by_contra hne
  have hlt : c < input.length := by omega
  have hmem : input[c] ∈ input := List.getElem_mem hlt
  have : peek input c = input[c] := by simp [peek, List.getElem?_eq_getElem hlt]
  exact hnul _ hmem (by rw [← this, hz])

theorem TraceOK_last {file input : List Nat} (hnul : NulFree input) {c : Nat}
    {evs : List Event} (h : TraceOK file input c evs) :
    ∃ init, evs.filterMap Event.token
        = init ++ [⟨.END_OF_FILE, [],
            ⟨file, locationOf input input.length, locationOf input input.length⟩⟩]
      ∧ ∀ t ∈ init, t.kind ≠ .END_OF_FILE := by
  induction h with
  | eof c hz hle =>
    rw [nul_free_end hnul hz hle]
    exact ⟨[], by simp, by simp⟩
  | step c n tok rest hlt hle hnz htok hrest ih =>
    obtain ⟨init, h1, h2⟩ := ih
    cases tok with
    | none => exact ⟨init, by simpa only [List.filterMap_cons] using h1, h2⟩
    | some t0 =>
      refine ⟨t0 :: init, by simp only [List.filterMap_cons, h1, List.cons_append], ?_⟩
      intro t ht
      rcases List.mem_cons.1 ht with rfl | ht
      · exact (htok t rfl).2.1.1
      · exact h2 t ht

/-- C4. End-of-file sentinel: for every input (a C string) on which `jsonnet_lex` succeeds,
the returned sequence is non-empty, its last token has kind `END_OF_FILE` with empty data
and `begin == end`, no earlier token has kind `END_OF_FILE`, and that location is one past
the last source character: line = 1 + (number of `'\n'` bytes in the whole input) and
column = 1 + (number of input bytes after the last `'\n'`, or the input length when there
is no `'\n'`); no other byte, `'\r'` included, changes the line. -/
theorem eof_sentinel (file input : List Nat) (toks : List Token) (hnul : NulFree input)
    (h : jsonnet_lex file input = .ok toks) :
    ∃ init, toks = init ++ [⟨.END_OF_FILE, [],
        ⟨file, ⟨1 + input.count 10, 1 + (input.reverse.takeWhile fun b => b != 10).length⟩,
          ⟨1 + input.count 10, 1 + (input.reverse.takeWhile fun b => b != 10).length⟩⟩⟩]
      ∧ ∀ t ∈ init, t.kind ≠ .END_OF_FILE := by
  obtain ⟨evs, h1, rfl⟩ := jsonnet_lex_ok file input toks h
  obtain ⟨init, h2, h3⟩ := TraceOK_last hnul (jsonnet_lex_trace_ok file input evs h1)
  refine ⟨init, ?_, h3⟩
  rw [h2]
  simp [locationOf, lineOf, colOf, Nat.add_comm]

/-- C4 at the input `a\r\nbc`: the `'\r'` does not count as a line. -/
theorem eof_sentinel_witness :
    NulFree (str "a\r\nbc") ∧
      jsonnet_lex [] (str "a\r\nbc") =
        .ok [⟨.IDENTIFIER, str "a", ⟨[], ⟨1, 1⟩, ⟨1, 1⟩⟩⟩,
          ⟨.IDENTIFIER, str "bc", ⟨[], ⟨2, 1⟩, ⟨2, 2⟩⟩⟩,
          ⟨.END_OF_FILE, [], ⟨[], ⟨2, 3⟩, ⟨2, 3⟩⟩⟩] ∧
      ∃ init, [(⟨.IDENTIFIER, str "a", ⟨[], ⟨1, 1⟩, ⟨1, 1⟩⟩⟩ : Token),
          ⟨.IDENTIFIER, str "bc", ⟨[], ⟨2, 1⟩, ⟨2, 2⟩⟩⟩,
          ⟨.END_OF_FILE, [], ⟨[], ⟨2, 3⟩, ⟨2, 3⟩⟩⟩]
        = init ++ [⟨.END_OF_FILE, [],
          ⟨[], ⟨1 + (str "a\r\nbc").count 10,
              1 + ((str "a\r\nbc").reverse.takeWhile fun b => b != 10).length⟩,
            ⟨1 + (str "a\r\nbc").count 10,
              1 + ((str "a\r\nbc").reverse.takeWhile fun b => b != 10).length⟩⟩⟩]
        ∧ ∀ t ∈ init, t.kind ≠ .END_OF_FILE :=
  ⟨by decide, by decide, eof_sentinel [] (str "a\r\nbc") _ (by decide) (by decide)⟩

/-! ## Positions in the input split into lines -/

theorem takeWhile_length_eq_iff (l : List Nat) :
    (l.takeWhile fun b => b != 10).length = l.length ↔ l.count 10 = 0 := by
  rw [List.count_eq_zero]
  constructor
  · intro h
    have heq : l.takeWhile (fun b => b != 10) = l :=
      (List.takeWhile_sublist _).eq_of_length h
    intro hmem
    have := (List.takeWhile_eq_self_iff.1 heq) 10 hmem
    simp at this
  · intro h
    have heq : l.takeWhile (fun b => b != 10) = l := by
      rw [List.takeWhile_eq_self_iff]
      intro x hx
      have : x ≠ 10 := fun h10 => h (h10 ▸ hx)
      simpa using this
    rw [heq]

theorem lineOf_cons (b : Nat) (rest : List Nat) (c : Nat) :
    ((b :: rest).take (c + 1)).count 10 = (rest.take c).count 10 + (if b = 10 then 1 else 0) := by
  rw [List.take_succ_cons, List.count_cons]
  by_cases h : b = 10 <;> simp [h]

theorem colOf_cons (b : Nat) (rest : List Nat) (c : Nat) :
    colOf (b :: rest) (c + 1) =
      if b ≠ 10 ∧ (rest.take c).count 10 = 0 then colOf rest c + 1 else colOf rest c := by
  unfold colOf
  rw [List.take_succ_cons, List.reverse_cons, List.takeWhile_append]
  have hiff := takeWhile_length_eq_iff (rest.take c).reverse
  rw [List.count_reverse] at hiff
  by_cases hb : b = 10
  · subst hb
    by_cases hc : (rest.take c).count 10 = 0
    · rw [if_pos (hiff.2 hc)]
      have hp : ((10 : Nat) != 10) = false := by decide
      simp only [List.takeWhile_cons, hp, List.append_nil, ne_eq, not_true_eq_false,
        false_and, if_false, Bool.false_eq_true]
      exact (hiff.2 hc).symm
    · rw [if_neg (fun h => hc (hiff.1 h))]; simp
  · by_cases hc : (rest.take c).count 10 = 0
    · rw [if_pos (hiff.2 hc), if_pos ⟨hb, hc⟩]
      have hp : (b != 10) = true := by simp [hb]
      simp only [List.length_append, List.takeWhile_cons, hp, if_true, List.takeWhile_nil,
        List.length_singleton]
      rw [hiff.2 hc]
    · rw [if_neg (fun h => hc (hiff.1 h)), if_neg (fun h => hc h.2)]

theorem splitLines_ne_nil (input : List Nat) : splitLines input ≠ [] := by
  cases input with
  | nil => simp [splitLines]
  | cons b rest =>
    unfold splitLines
    split_ifs
    · simp
    · split <;> simp

/-- The byte at an offset that is not a `'\n'` is the byte at the line and column of that
offset in the input split into lines. -/
theorem splitLines_at (input : List Nat) :
    ∀ c, c < input.length → peek input c ≠ 10 →
      ((splitLines input)[(input.take c).count 10]?).bind (fun l => l[colOf input c]?)
        = some (peek input c) := by
  induction input with
  | nil => intro c hc; simp at hc
  | cons b rest ih =>
    intro c hc hne
    cases c with
    | zero =>
      have hb : b ≠ 10 := by simpa [peek] using hne
      have hcol : colOf (b :: rest) 0 = 0 := by simp [colOf]
      rw [hcol]
      simp only [List.take_zero, List.count_nil, splitLines, hb, if_false]
      cases splitLines rest <;> simp [peek]
    | succ c =>
      have hc1 : c < rest.length := by simpa using hc
      have hpk : peek (b :: rest) (c + 1) = peek rest c := by simp [peek]
      rw [hpk] at hne ⊢
      have hih := ih c hc1 hne
      rw [lineOf_cons, colOf_cons]
      by_cases hb : b = 10
      · subst hb
        simp only [splitLines, if_true, ne_eq, not_true_eq_false, false_and, if_false,
          List.getElem?_cons_succ]
        exact hih
      · simp only [hb, if_false, Nat.add_zero, ne_eq, not_false_eq_true, true_and, splitLines]
        cases hs : splitLines rest with
        | nil => exact absurd hs (splitLines_ne_nil rest)
        | cons l ls =>
          rw [hs] at hih
          by_cases hcnt : (rest.take c).count 10 = 0
          · rw [hcnt] at hih ⊢
            simpa [hcnt] using hih
          · obtain ⟨k, hk⟩ : ∃ k, (rest.take c).count 10 = k + 1 :=
              ⟨(rest.take c).count 10 - 1, by omega⟩
            rw [hk] at hih ⊢
            simpa [hcnt] using hih

theorem byteAt_locationOf (input : List Nat) (c : Nat) (hc : c < input.length)
    (hne : peek input c ≠ 10) : byteAt input (locationOf input c) = some (peek input c) := by
  unfold byteAt locationOf lineOf
  simp only [Nat.add_eq_zero, one_ne_zero, false_and, and_false, or_self, if_false,
    Nat.add_sub_cancel_left, Nat.add_sub_cancel]
  exact splitLines_at input c hc hne

theorem locationOf_inj (input : List Nat) {a b : Nat} (ha : a ≤ input.length)
    (hb : b ≤ input.length) (h : locationOf input a = locationOf input b) : a = b := by
  rcases Nat.lt_trichotomy a b with hab | hab | hab
  · have := locationOf_lt input hab hb
    rw [h] at this
    exact absurd this (Location.lt_irrefl _)
  · exact hab
  · have := locationOf_lt input hab ha
    rw [h] at this
    exact absurd this (Location.lt_irrefl _)

/-- C7. Begin locations are accurate: on every input on which `jsonnet_lex` succeeds, the
tokens are those pushed by the iterations of the driver, and for every iteration `ev` that
pushes a token other than `END_OF_FILE` the lexeme is the bytes from the offset `ev.first`,
at which the iteration starts, up to `ev.next - 1`; `begin` is the position of `ev.first`,
the line one more than the number of `'\n'` bytes before it, and of no other offset of the
input; `begin.line >= 1` and `begin.column >= 1`; when the input is split into lines at
its `'\n'` bytes the byte at the 1-based (`begin.line`, `begin.column`) exists and is the
byte at `ev.first`; and that byte is the first byte of the lexeme of the token (see
`lexeme_start`).  This holds wherever the newlines before the token were read, inside
string literals, block comments and text blocks included. -/
theorem begin_locations_accurate (file input : List Nat) (toks : List Token)
    (h : jsonnet_lex file input = .ok toks) :
    ∃ evs, jsonnet_lex_trace file input = .ok evs ∧ toks = evs.filterMap Event.token ∧
      ∀ ev ∈ evs, ∀ t, ev.token = some t → t.kind ≠ .END_OF_FILE →
        ev.first < ev.next ∧ ev.next ≤ input.length ∧
        t.location.begin = locationOf input ev.first ∧
        (∀ a, a ≤ input.length → locationOf input a = t.location.begin → a = ev.first) ∧
        1 ≤ t.location.begin.line ∧ 1 ≤ t.location.begin.column ∧
        byteAt input t.location.begin = some (peek input ev.first) ∧
        peek input ev.first ∈ lexeme_start t.kind t.data := by
  obtain ⟨evs, h1, h2⟩ := jsonnet_lex_ok file input toks h
  have htr := jsonnet_lex_trace_ok file input evs h1
  refine ⟨evs, h1, h2, ?_⟩
  intro ev hev t hevt hk
  rcases TraceOK_event htr ev hev t hevt with ⟨h3, -, -⟩ | ⟨h3, h4, h5, h6, h7⟩
  · exact absurd h3 hk
  · have hb : t.location.begin = locationOf input ev.first := by rw [h7]
    refine ⟨h3, h4, hb, ?_, ?_, ?_, ?_, h6.2.1⟩
    · intro a ha hloc
      exact locationOf_inj input ha (by omega) (hloc.trans hb)
    · rw [hb]; simp [locationOf, lineOf]
    · rw [hb]; simp [locationOf]
    · rw [hb]
      exact byteAt_locationOf input ev.first (by omega) h5

/-- C7 at an input with newlines inside a block comment, a string literal and a text
block: the string literal starts at the offset 9, which is line 2, column 5, where the
byte is `"`; the text block at the offset 18, line 4, column 1, where the byte is `|`. -/
theorem begin_locations_accurate_witness :
    jsonnet_lex_trace [] (str "/* a\n */ \"b\nc\" if\n|||\n x\n||| y") =
      .ok [⟨0, 8, none⟩, ⟨8, 9, none⟩,
        ⟨9, 14, some ⟨.STRING, str "b\nc", ⟨[], ⟨2, 5⟩, ⟨3, 2⟩⟩⟩⟩, ⟨14, 15, none⟩,
        ⟨15, 17, some ⟨.IF, [], ⟨[], ⟨3, 4⟩, ⟨3, 5⟩⟩⟩⟩, ⟨17, 18, none⟩,
        ⟨18, 28, some ⟨.STRING, str "x\n", ⟨[], ⟨4, 1⟩, ⟨6, 3⟩⟩⟩⟩, ⟨28, 29, none⟩,
        ⟨29, 30, some ⟨.IDENTIFIER, str "y", ⟨[], ⟨6, 5⟩, ⟨6, 5⟩⟩⟩⟩,
        ⟨30, 30, some ⟨.END_OF_FILE, [], ⟨[], ⟨6, 6⟩, ⟨6, 6⟩⟩⟩⟩] ∧
    locationOf (str "/* a\n */ \"b\nc\" if\n|||\n x\n||| y") 9 = ⟨2, 5⟩ ∧
    locationOf (str "/* a\n */ \"b\nc\" if\n|||\n x\n||| y") 15 = ⟨3, 4⟩ ∧
    locationOf (str "/* a\n */ \"b\nc\" if\n|||\n x\n||| y") 18 = ⟨4, 1⟩ ∧
    locationOf (str "/* a\n */ \"b\nc\" if\n|||\n x\n||| y") 29 = ⟨6, 5⟩ ∧
    byteAt (str "/* a\n */ \"b\nc\" if\n|||\n x\n||| y") ⟨2, 5⟩ = some 34 ∧
    byteAt (str "/* a\n */ \"b\nc\" if\n|||\n x\n||| y") ⟨4, 1⟩ = some 124 ∧
    ∃ evs, jsonnet_lex_trace [] (str "/* a\n */ \"b\nc\" if\n|||\n x\n||| y") = .ok evs ∧
      [(⟨.STRING, str "b\nc", ⟨[], ⟨2, 5⟩, ⟨3, 2⟩⟩⟩ : Token),
          ⟨.IF, [], ⟨[], ⟨3, 4⟩, ⟨3, 5⟩⟩⟩,
          ⟨.STRING, str "x\n", ⟨[], ⟨4, 1⟩, ⟨6, 3⟩⟩⟩,
          ⟨.IDENTIFIER, str "y", ⟨[], ⟨6, 5⟩, ⟨6, 5⟩⟩⟩,
          ⟨.END_OF_FILE, [], ⟨[], ⟨6, 6⟩, ⟨6, 6⟩⟩⟩] = evs.filterMap Event.token ∧
      ∀ ev ∈ evs, ∀ t, ev.token = some t → t.kind ≠ .END_OF_FILE →
        ev.first < ev.next ∧
        ev.next ≤ (str "/* a\n */ \"b\nc\" if\n|||\n x\n||| y").length ∧
        t.location.begin = locationOf (str "/* a\n */ \"b\nc\" if\n|||\n x\n||| y") ev.first ∧
        (∀ a, a ≤ (str "/* a\n */ \"b\nc\" if\n|||\n x\n||| y").length →
          locationOf (str "/* a\n */ \"b\nc\" if\n|||\n x\n||| y") a = t.location.begin →
            a = ev.first) ∧
        1 ≤ t.location.begin.line ∧ 1 ≤ t.location.begin.column ∧
        byteAt (str "/* a\n */ \"b\nc\" if\n|||\n x\n||| y") t.location.begin
          = some (peek (str "/* a\n */ \"b\nc\" if\n|||\n x\n||| y") ev.first) ∧
        peek (str "/* a\n */ \"b\nc\" if\n|||\n x\n||| y") ev.first
          ∈ lexeme_start t.kind t.data :=
  ⟨by decide, by decide, by decide, by decide, by decide, by decide, by decide,
    begin_locations_accurate [] (str "/* a\n */ \"b\nc\" if\n|||\n x\n||| y") _ (by decide)⟩

/-! ## A leading zero -/

theorem locationOf_zero (input : List Nat) : locationOf input 0 = ⟨1, 1⟩ := by
  simp [locationOf, lineOf, colOf]

/-- A leading zero is a token of its own: on an input that starts with the digit `0`
followed by another decimal digit, the first step of the driver pushes `NUMBER("0")` and
leaves the cursor on the `0`; every `StaticError` lies after line 1, column 1; and a result
starts with `NUMBER("0")` and a `NUMBER` token that begins at line 1, column 2. -/
theorem leading_zero_steps (file rest : List Nat) (d : Nat) (hd : 48 ≤ d ∧ d ≤ 57) :
    lex_body file (48 :: d :: rest) ⟨0, 1, 0⟩ = .ok (.emit .NUMBER [48] ⟨0, 1, 0⟩) ∧
    (∀ err, jsonnet_lex file (48 :: d :: rest) = .error err →
      err.location ≠ ⟨1, 1⟩ ∧ (⟨1, 1⟩ : Location).lt err.location) ∧
    (∀ toks, jsonnet_lex file (48 :: d :: rest) = .ok toks →
      ∃ n e more, toks = ⟨.NUMBER, [48], ⟨file, ⟨1, 1⟩, ⟨1, 1⟩⟩⟩
        :: ⟨.NUMBER, n, ⟨file, ⟨1, 2⟩, e⟩⟩ :: more) := by
  obtain ⟨input, hinput⟩ : ∃ input, input = 48 :: d :: rest := ⟨_, rfl⟩
  rw [← hinput]
  have hp0 : peek input 0 = 48 := by simp [hinput, peek]
  have hp1 : peek input 1 = d := by simp [hinput, peek]
  have hnum0 : is_number (peek input 0) = true := by rw [hp0]; decide
  have hstop : lex_number_switch .AFTER_ZERO d = .stop := by
    have h1 : d ≠ 46 := by omega
    have h2 : ¬ (d = 101 ∨ d = 69) := by omega
    simp [lex_number_switch, h1, h2]
  have hlex := lex_number_of_run input file ⟨1, 0 - 0 + 1⟩ 0 [48] (d :: rest) .AFTER_ZERO
    (by simp [hinput]) (by simp [run_number, lex_number_switch]) (by simpa using hstop)
  have hbody : lex_body file input ⟨0, 1, 0⟩ = .ok (.emit .NUMBER [48] ⟨0, 1, 0⟩) := by
    rw [lex_body_of_number file input ⟨0, 1, 0⟩ hnum0, hlex]
    simp [Outcome.bind]
  have hloop : lex_loop file input (input.length + 1) ⟨0, 1, 0⟩ =
      (lex_loop file input input.length ⟨1, 1, 0⟩).bind fun r =>
        .ok (⟨0, 1, some ⟨.NUMBER, [48], ⟨file, ⟨1, 1⟩, ⟨1, 1⟩⟩⟩⟩ :: r) := by
    rw [lex_loop_emit file input _ ⟨0, 1, 0⟩ _ _ _ (by rw [hp0]; decide) hbody]
    rfl
  have hinv1 : Inv input ⟨1, 1, 0⟩ :=
    Inv_plain (Inv_init input) (by simp only []; omega) (by simp only []; omega)
  refine ⟨hbody, ?_, ?_⟩
  · intro err herr
    unfold jsonnet_lex jsonnet_lex_trace at herr
    rw [hloop] at herr
    rcases bind_eq_error herr with h1 | ⟨evs, -, h2⟩
    · rcases bind_eq_error h1 with h3 | ⟨r, -, h4⟩
      · obtain ⟨c, hc1, hc2, hc3⟩ := lex_loop_error file input _ _ _ h3 hinv1
        have hlt := locationOf_lt input (show 0 < c from hc1) hc2
        rw [locationOf_zero, ← hc3] at hlt
        refine ⟨fun heq => ?_, hlt⟩
        rw [heq] at hlt
        exact Location.lt_irrefl _ hlt
      · simp at h4
    · simp at h2
  · intro toks htoks
    unfold jsonnet_lex jsonnet_lex_trace at htoks
    rw [hloop] at htoks
    obtain ⟨evs, h1, h2⟩ := bind_eq_ok htoks
    obtain ⟨r, h3, h4⟩ := bind_eq_ok h1
    simp only [Outcome.ok.injEq] at h2 h4
    subst h4
    subst h2
    have hlen : input.length = rest.length + 1 + 1 := by simp [hinput]
    rw [hlen, lex_loop] at h3
    have hnz : peek input (⟨1, 1, 0⟩ : Cursor).c ≠ 0 := by
      show peek input 1 ≠ 0
      omega
    rw [if_pos hnz] at h3
    dsimp only at h3
    obtain ⟨step, h5, h6⟩ := bind_eq_ok h3
    obtain ⟨r2, -, h7⟩ := bind_eq_ok h6
    simp only [Outcome.ok.injEq] at h7
    subst h7
    rw [lex_body_of_number file input ⟨1, 1, 0⟩
      (by rw [is_number_iff]; show 48 ≤ peek input 1 ∧ peek input 1 ≤ 57; omega)] at h5
    obtain ⟨res, -, h8⟩ := bind_eq_ok h5
    simp only [Outcome.ok.injEq] at h8
    subst h8
    refine ⟨res.1, ⟨1, res.2 - 0 + 1⟩, r2.filterMap Event.token, ?_⟩
    simp [Step.token, Step.cursor]

/-! ## The loop bounds of the model are never used up -/

theorem bind_ne_diverge {α β : Type} {x : Outcome α} {f : α → Outcome β}
    (hx : x ≠ .diverge) (hf : ∀ a, x = .ok a → f a ≠ .diverge) : x.bind f ≠ .diverge := by
  cases x with
  | ok a => exact hf a rfl
  | error e => simp [Outcome.bind]
  | diverge => exact absurd rfl hx

theorem lex_number_loop_total (input file : List Nat) (begin : Location) :
    ∀ (fuel : Nat) (s : State) (c : Nat) (r : List Nat), c ≤ input.length →
      input.length < c + fuel → lex_number_loop input file begin fuel s c r ≠ .diverge := by
  intro fuel
  induction fuel with
  | zero => intro s c r h1 h2; omega
  | succ fuel ih =>
    intro s c r h1 h2
    rw [lex_number_loop]
    cases hsw : lex_number_switch s (peek input c) with
    | next s1 =>
      have := peek_lt (switch_next_plain hsw).1
      exact ih _ _ _ (by omega) (by omega)
    | stop => simp
    | fail m => simp

theorem identifier_loop_total (input : List Nat) :
    ∀ (fuel c : Nat) (id : List Nat), c ≤ input.length → input.length < c + fuel →
      identifier_loop input fuel c id ≠ .diverge := by
  intro fuel
  induction fuel with
  | zero => intro c id h1 h2; omega
  | succ fuel ih =>
    intro c id h1 h2
    rw [identifier_loop]
    by_cases h0 : peek input c ≠ 0
    · rw [if_pos h0]
      have := peek_lt h0
      split_ifs
      · exact ih _ _ (by omega) (by omega)
      · simp
    · rw [if_neg h0]; simp

theorem operator_loop_total (input : List Nat) :
    ∀ (fuel c : Nat) (data : List Nat), c ≤ input.length → input.length < c + fuel →
      operator_loop input fuel c data ≠ .diverge := by
  intro fuel
  induction fuel with
  | zero => intro c id h1 h2; omega
  | succ fuel ih =>
    intro c id h1 h2
    rw [operator_loop]
    by_cases h0 : peek input c ≠ 0
    · rw [if_pos h0]
      have := peek_lt h0
      split_ifs
      · exact ih _ _ (by omega) (by omega)
      · simp
    · rw [if_neg h0]; simp

theorem line_comment_loop_total (input : List Nat) :
    ∀ (fuel c : Nat), c ≤ input.length → input.length < c + fuel →
      line_comment_loop input fuel c ≠ .diverge := by
  intro fuel
  induction fuel with
  | zero => intro c h1 h2; omega
  | succ fuel ih =>
    intro c h1 h2
    rw [line_comment_loop]
    by_cases h0 : peek input c ≠ 0 ∧ peek input c ≠ 10
    · rw [if_pos h0]
      have := peek_lt h0.1
      exact ih _ (by omega) (by omega)
    · rw [if_neg h0]; simp

theorem skip_blanks_loop_total (input : List Nat) :
    ∀ (fuel c : Nat), c ≤ input.length → input.length < c + fuel →
      skip_blanks_loop input fuel c ≠ .diverge := by
  intro fuel
  induction fuel with
  | zero => intro c h1 h2; omega
  | succ fuel ih =>
    intro c h1 h2
    rw [skip_blanks_loop]
    by_cases h0 : peek input c = 32 ∨ peek input c = 9
    · rw [if_pos h0]
      have := @peek_lt input (c) (by omega)
      exact ih _ (by omega) (by omega)
    · rw [if_neg h0]; simp

theorem text_line_loop_total (input file : List Nat) (begin : Location) :
    ∀ (fuel c : Nat) (block : List Nat), c ≤ input.length → input.length < c + fuel →
      text_line_loop input file begin fuel c block ≠ .diverge := by
  intro fuel
  induction fuel with
  | zero => intro c b h1 h2; omega
  | succ fuel ih =>
    intro c b h1 h2
    rw [text_line_loop]
    by_cases h10 : peek input c ≠ 10
    · rw [if_pos h10]
      by_cases h0 : peek input c = 0
      · rw [if_pos h0]; simp
      · rw [if_neg h0]
        have := peek_lt h0
        exact ih _ _ (by omega) (by omega)
    · rw [if_neg h10]; simp

theorem whitespace_check_loop_total (input : List Nat) (a b : Nat) :
    ∀ (fuel i : Nat), a + i ≤ input.length → input.length < a + i + fuel →
      whitespace_check_loop input a b fuel i ≠ .diverge := by
  intro fuel
  induction fuel with
  | zero => intro i h1 h2; omega
  | succ fuel ih =>
    intro i h1 h2
    rw [whitespace_check_loop]
    by_cases h0 : peek input (a + i) = 32 ∨ peek input (a + i) = 9
    · rw [if_pos h0]
      have := @peek_lt input (a + i) (by omega)
      split_ifs
      · simp
      · exact ih _ (by omega) (by omega)
    · rw [if_neg h0]; simp

theorem whitespace_check_total (input : List Nat) (a b : Nat) (ha : a ≤ input.length) :
    whitespace_check input a b ≠ .diverge :=
  whitespace_check_loop_total input a b _ 0 (by omega) (by omega)

theorem block_comment_loop_total (input : List Nat) :
    ∀ (fuel : Nat) (st : Cursor), st.c ≤ input.length → input.length < st.c + fuel →
      block_comment_loop input fuel st ≠ .diverge := by
  intro fuel
  induction fuel with
  | zero => intro st h1 h2; omega
  | succ fuel ih =>
    intro st h1 h2
    rw [block_comment_loop]
    by_cases h0 : peek input st.c ≠ 0 ∧ ¬ (peek input st.c = 42 ∧ peek input (st.c + 1) = 47)
    · rw [if_pos h0]
      have := peek_lt h0.1
      split_ifs
      · exact ih _ (by simp only []; omega) (by simp only []; omega)
      · exact ih _ (by simp only []; omega) (by simp only []; omega)
    · rw [if_neg h0]; simp

theorem unicode_escape_loop_total (input file : List Nat) (begin : Location) (c : Nat) :
    ∀ (n i cp : Nat), unicode_escape_loop input file begin c n i cp ≠ .diverge := by
  intro n
  induction n with
  | zero => intro i cp; simp [unicode_escape_loop]
  | succ n ih =>
    intro i cp
    rw [unicode_escape_loop]
    split_ifs <;> first | exact ih _ _ | simp

theorem Plain_le {input : List Nat} {a b : Nat} (h : Plain input a b) (hab : a ≤ b)
    (ha : a ≤ input.length) : b ≤ input.length := by
  by_cases hb : a = b
  · omega
  · have := peek_lt (h (b - 1) (by omega) (by omega)).1
    omega

theorem string_loop_total (input file : List Nat) (begin : Location) :
    ∀ (fuel : Nat) (st : Cursor) (data : List Nat), st.c ≤ input.length →
      input.length < st.c + fuel → string_loop input file begin fuel st data ≠ .diverge := by
  intro fuel
  induction fuel with
  | zero => intro st data h1 h2; omega
  | succ fuel ih =>
    intro st data h1 h2
    rw [string_loop]
    dsimp only
    have hesc : ∀ d, peek input st.c = 92 → peek input (st.c + 1) ≠ 0 →
        string_loop input file begin fuel { st with c := st.c + 1 + 1 } d ≠ .diverge := by
      intro d h92 hz
      have hlt1 := @peek_lt input (st.c) (by omega)
      have hlt2 := peek_lt hz
      exact ih _ _ (by simp only []; omega) (by simp only []; omega)
    by_cases hz : peek input st.c = 0
    · rw [if_pos hz]; simp
    rw [if_neg hz]
    have hlt := peek_lt hz
    by_cases hq : peek input st.c = 34
    · rw [if_pos hq]; simp
    rw [if_neg hq]
    by_cases hb : peek input st.c = 92
    · rw [if_pos hb]
      split_ifs
      · exact hesc _ hb (by omega)
      · exact hesc _ hb (by omega)
      · exact hesc _ hb (by omega)
      · exact hesc _ hb (by omega)
      · exact hesc _ hb (by omega)
      · exact hesc _ hb (by omega)
      · refine bind_ne_diverge (unicode_escape_loop_total input file begin _ _ _ _) ?_
        intro cp hu
        have hpl := unicode_escape_loop_spec input file begin _ _ _ _ _ hu
        have hpl2 : Plain input st.c (st.c + 6) := by
          refine Plain_cons (by omega) (by omega) (Plain_cons (by omega) (by omega) ?_)
          simpa [Nat.add_assoc] using hpl
        have := Plain_le hpl2 (by omega) h1
        exact ih _ _ (by simp only []; omega) (by simp only []; omega)
      · simp
      · simp
    rw [if_neg hb]
    split_ifs
    · exact ih _ _ (by simp only []; omega) (by simp only []; omega)
    · exact ih _ _ (by simp only []; omega) (by simp only []; omega)

theorem text_block_loop_total (input file : List Nat) (begin : Location) (first_line : Nat)
    (hfirst : first_line ≤ input.length) :
    ∀ (fuel ws : Nat) (st : Cursor) (block : List Nat), st.c + ws ≤ input.length →
      input.length < st.c + fuel →
      text_block_loop input file begin first_line fuel ws st block ≠ .diverge := by
  intro fuel
  induction fuel with
  | zero => intro ws st block h1 h2; omega
  | succ fuel ih =>
    intro ws st block h1 h2
    rw [text_block_loop]
    refine bind_ne_diverge (text_line_loop_total input file begin _ _ _ h1 (by omega)) ?_
    intro line hl
    obtain ⟨c1, block1⟩ := line
    obtain ⟨hc1, -, hn1⟩ := text_line_loop_spec input file begin _ _ _ _ _ hl
    have hlt1 := @peek_lt input (c1) (by omega)
    dsimp only
    refine bind_ne_diverge (whitespace_check_total input _ _ hfirst) ?_
    intro ws1 hw
    by_cases hz : ws1 = 0
    · rw [if_pos hz]
      refine bind_ne_diverge (skip_blanks_loop_total input _ _ (by omega) (by omega)) ?_
      intro c3 _
      split_ifs <;> simp
    · rw [if_neg hz]
      have hpw := whitespace_check_spec input first_line (c1 + 1) ws1 hw hz
      have := Plain_le hpw (by omega) (by omega)
      exact ih _ _ _ (by simp only []; omega) (by simp only []; omega)

/-- No step of the driver uses up a loop bound. -/
theorem lex_body_total (file input : List Nat) (st : Cursor)
    (hnz : peek input st.c ≠ 0) : lex_body file input st ≠ .diverge := by
  have hlt := peek_lt hnz
  unfold lex_body
  dsimp only
  by_cases hws : peek input st.c = 32 ∨ peek input st.c = 9 ∨ peek input st.c = 13
  · rw [if_pos hws]; simp
  rw [if_neg hws]
  by_cases hnl : peek input st.c = 10
  · rw [if_pos hnl]; simp
  rw [if_neg hnl]
  cases hp : punctuation (peek input st.c) with
  | some kind => simp
  | none =>
  dsimp only
  by_cases h33 : peek input st.c = 33
  · rw [if_pos h33]; split_ifs <;> simp
  rw [if_neg h33]
  by_cases h126 : peek input st.c = 126
  · rw [if_pos h126]; simp
  rw [if_neg h126]
  by_cases h43 : peek input st.c = 43
  · rw [if_pos h43]; simp
  rw [if_neg h43]
  by_cases h45 : peek input st.c = 45
  · rw [if_pos h45]; simp
  rw [if_neg h45]
  by_cases hnum : is_number (peek input st.c) = true
  · rw [if_pos hnum]
    exact bind_ne_diverge
      (lex_number_loop_total input file _ _ _ _ _ (by omega) (by omega)) (fun _ _ => by simp)
  rw [if_neg hnum]
  by_cases hq : peek input st.c = 34
  · rw [if_pos hq]
    exact bind_ne_diverge
      (string_loop_total input file _ _ _ _ (by simp only []; omega) (by simp only []; omega))
      (fun _ _ => by simp)
  rw [if_neg hq]
  by_cases hid : is_identifier_first (peek input st.c) = true
  · rw [if_pos hid]
    exact bind_ne_diverge (identifier_loop_total input _ _ _ (by omega) (by omega))
      (fun _ _ => by simp)
  rw [if_neg hid]
  by_cases hsym : is_symbol (peek input st.c) = true
  · rw [if_pos hsym]
    by_cases hlc : peek input st.c = 47 ∧ peek input (st.c + 1) = 47
    · rw [if_pos hlc]
      exact bind_ne_diverge (line_comment_loop_total input _ _ (by omega) (by omega))
        (fun _ _ => by simp)
    rw [if_neg hlc]
    by_cases hhash : peek input st.c = 35
    · rw [if_pos hhash]
      exact bind_ne_diverge (line_comment_loop_total input _ _ (by omega) (by omega))
        (fun _ _ => by simp)
    rw [if_neg hhash]
    by_cases hbc : peek input st.c = 47 ∧ peek input (st.c + 1) = 42
    · rw [if_pos hbc]
      have hlt1 := @peek_lt input (st.c + 1) (by omega)
      refine bind_ne_diverge
        (block_comment_loop_total input _ _ (by simp only []; omega)
          (by simp only []; omega)) ?_
      intro st1 _
      split_ifs <;> simp
    rw [if_neg hbc]
    by_cases htb : peek input st.c = 124 ∧ peek input (st.c + 1) = 124
        ∧ peek input (st.c + 2) = 124 ∧ peek input (st.c + 3) = 10
    · rw [if_pos htb]
      have hlt3 := @peek_lt input (st.c + 3) (by omega)
      refine bind_ne_diverge (whitespace_check_total input _ _ (by omega)) ?_
      intro ws hws
      by_cases hz : ws = 0
      · rw [if_pos hz]; simp
      · rw [if_neg hz]
        have hpw := whitespace_check_spec input _ _ ws hws hz
        have := Plain_le hpw (by omega) (by omega)
        exact bind_ne_diverge
          (text_block_loop_total input file _ _ (by omega) _ _ _ _ (by simp only []; omega)
            (by simp only []; omega))
          (fun _ _ => by simp)
    rw [if_neg htb]
    exact bind_ne_diverge (operator_loop_total input _ _ _ (by omega) (by omega))
      (fun _ _ => by simp)
  rw [if_neg hsym]
  split_ifs <;> simp

theorem lex_loop_total (file input : List Nat) :
    ∀ (fuel : Nat) (st : Cursor), Inv input st → input.length < st.c + fuel →
      lex_loop file input fuel st ≠ .diverge := by
  intro fuel
  induction fuel with
  | zero => intro st h1 h2; have := h1.1; omega
  | succ fuel ih =>
    intro st hinv h2
    rw [lex_loop]
    by_cases hnz : peek input st.c ≠ 0
    · rw [if_pos hnz]
      dsimp only
      refine bind_ne_diverge (lex_body_total file input st hnz) ?_
      intro step hstep
      obtain ⟨hle, hinv1, -⟩ := lex_body_spec file input st step hinv hnz hstep
      exact bind_ne_diverge (ih _ hinv1 (by simp only []; omega)) (fun _ _ => by simp)
    · rw [if_neg hnz]; simp

/-- The model of `jsonnet_lex` never uses up a loop bound: on every input the lexer
returns a token sequence or throws a `StaticError`. -/
theorem jsonnet_lex_total (file input : List Nat) :
    (∃ toks, jsonnet_lex file input = .ok toks) ∨
      ∃ err, jsonnet_lex file input = .error err := by
  have h : jsonnet_lex file input ≠ .diverge := by
    unfold jsonnet_lex jsonnet_lex_trace
    exact bind_ne_diverge (lex_loop_total file input _ _ (Inv_init input) (by simp))
      (fun _ _ => by simp)
  cases hr : jsonnet_lex file input with
  | ok toks => exact Or.inl ⟨toks, rfl⟩
  | error err => exact Or.inr ⟨err, rfl⟩
  | diverge => exact absurd hr h

/-! ## A leading zero, concluded -/

/-- C2, as the code has it. A leading zero is not rejected: for every input that starts
with the digit `0` immediately followed by another decimal digit, the `0` alone is lexed
as a complete `NUMBER` token (`AFTER_ZERO` stops at a digit) and lexing goes on at the
following digit. The first step of the driver pushes `NUMBER("0")` and leaves the cursor
on the `0`, and then either `jsonnet_lex` succeeds and its result starts with
`NUMBER("0")`, with range 1:1 to 1:1, followed by a `NUMBER` token that begins at line 1,
column 2, or it throws a `StaticError` located after line 1, column 1. -/
theorem leading_zero_is_a_token (file rest : List Nat) (d : Nat) (hd : 48 ≤ d ∧ d ≤ 57) :
    lex_body file (48 :: d :: rest) ⟨0, 1, 0⟩ = .ok (.emit .NUMBER [48] ⟨0, 1, 0⟩) ∧
    ((∃ n e more, jsonnet_lex file (48 :: d :: rest) =
        .ok (⟨.NUMBER, [48], ⟨file, ⟨1, 1⟩, ⟨1, 1⟩⟩⟩
          :: ⟨.NUMBER, n, ⟨file, ⟨1, 2⟩, e⟩⟩ :: more)) ∨
      ∃ err, jsonnet_lex file (48 :: d :: rest) = .error err ∧
        err.location ≠ ⟨1, 1⟩ ∧ (⟨1, 1⟩ : Location).lt err.location) := by
  obtain ⟨h1, h2, h3⟩ := leading_zero_steps file rest d hd
  refine ⟨h1, ?_⟩
  rcases jsonnet_lex_total file (48 :: d :: rest) with ⟨toks, ht⟩ | ⟨err, he⟩
  · obtain ⟨n, e, more, hm⟩ := h3 toks ht
    exact Or.inl ⟨n, e, more, by rw [ht, hm]⟩
  · exact Or.inr ⟨err, he, h2 err he⟩

/-- C2 at the input `0123`. -/
theorem leading_zero_is_a_token_witness :
    (48 ≤ 49 ∧ 49 ≤ 57) ∧
      (lex_body [] (48 :: 49 :: str "23") ⟨0, 1, 0⟩ = .ok (.emit .NUMBER [48] ⟨0, 1, 0⟩) ∧
      ((∃ n e more, jsonnet_lex [] (48 :: 49 :: str "23") =
          .ok (⟨.NUMBER, [48], ⟨[], ⟨1, 1⟩, ⟨1, 1⟩⟩⟩
            :: ⟨.NUMBER, n, ⟨[], ⟨1, 2⟩, e⟩⟩ :: more)) ∨
        ∃ err, jsonnet_lex [] (48 :: 49 :: str "23") = .error err ∧
          err.location ≠ ⟨1, 1⟩ ∧ (⟨1, 1⟩ : Location).lt err.location)) :=
  ⟨by decide, leading_zero_is_a_token [] (str "23") 49 (by decide)⟩

/-- C2, as the spec states it, fails: the input `0123` is not rejected; it lexes to
`NUMBER("0")`, `NUMBER("123")`, `END_OF_FILE`. -/
theorem leading_zero_counterexample :
    jsonnet_lex [] (str "0123") =
        .ok [⟨.NUMBER, str "0", ⟨[], ⟨1, 1⟩, ⟨1, 1⟩⟩⟩,
          ⟨.NUMBER, str "123", ⟨[], ⟨1, 2⟩, ⟨1, 4⟩⟩⟩,
          ⟨.END_OF_FILE, [], ⟨[], ⟨1, 5⟩, ⟨1, 5⟩⟩⟩] ∧
      ¬ ∃ err, jsonnet_lex [] (str "0123") = .error err := by
  have hrun : jsonnet_lex [] (str "0123") =
      .ok [⟨.NUMBER, str "0", ⟨[], ⟨1, 1⟩, ⟨1, 1⟩⟩⟩,
        ⟨.NUMBER, str "123", ⟨[], ⟨1, 2⟩, ⟨1, 4⟩⟩⟩,
        ⟨.END_OF_FILE, [], ⟨[], ⟨1, 5⟩, ⟨1, 5⟩⟩⟩] := by decide
  refine ⟨hrun, ?_⟩
  rintro ⟨err, herr⟩
  rw [hrun] at herr
  simp at herr

/-! ## Malformed number tails -/

/-- The byte at the cursor after the bytes `w`. -/
theorem peek_after_drop {input : List Nat} {c : Nat} {w tail : List Nat}
    (hd : input.drop c = w ++ tail) : peek input (c + w.length) = tail.headD 0 := by
  have h2 : input.drop (c + w.length) = tail := by
    rw [← List.drop_drop, hd]; simp
  rcases tail with _ | ⟨t, tail⟩
  · simpa using peek_of_drop_nil h2
  · simpa using (peek_of_drop h2).1

/-- On a cursor followed by a walk `w` of the automaton to a state that throws at the byte
after it, `lex_number` throws that message at `begin`. -/
theorem lex_number_fail_of_run (input file : List Nat) (begin : Location) (c : Nat)
    (w tail : List Nat) (s : State) (msg : List Nat) (hd : input.drop c = w ++ tail)
    (hrun : run_number .BEGIN w = some s)
    (hfail : lex_number_switch s (tail.headD 0) = .fail msg) :
    lex_number input c file begin = .error ⟨file, begin, msg⟩ := by
  have hlen : w.length ≤ input.length := by
    have := congrArg List.length hd
    simp at this; omega
  obtain ⟨k, hk⟩ : ∃ k, input.length + 1 = (k + 1) + w.length :=
    ⟨input.length - w.length, by omega⟩
  unfold lex_number
  rw [hk, lex_number_loop_run input file begin w .BEGIN s c [] tail (k + 1) hd hrun]
  simp only [lex_number_loop, List.nil_append]
  rw [peek_after_drop hd, hfail]

/-- An iteration of the driver whose body throws ends the whole with that error. -/
theorem lex_loop_body_error (file input : List Nat) (fuel : Nat) (st : Cursor)
    (e : StaticError) (h : peek input st.c ≠ 0) (hb : lex_body file input st = .error e) :
    lex_loop file input (fuel + 1) st = .error e := by
  simp [lex_loop, h, hb, Outcome.bind]

/-- The lexer on an input that starts with a walk of the number automaton to a state that
throws at the byte after it: the error is at line 1, column 1. -/
theorem jsonnet_lex_number_fail (file w tail : List Nat) (s : State) (msg : List Nat)
    (d : Nat) (w1 : List Nat) (hw : w = d :: w1) (hd : 48 ≤ d ∧ d ≤ 57)
    (hrun : run_number .BEGIN w = some s)
    (hfail : lex_number_switch s (tail.headD 0) = .fail msg) :
    jsonnet_lex file (w ++ tail) = .error ⟨file, ⟨1, 1⟩, msg⟩ := by
  have hpk : peek (w ++ tail) 0 = d := by rw [hw]; simp [peek]
  have hnum : is_number (peek (w ++ tail) 0) = true := by
    rw [hpk, is_number_iff]; exact hd
  have hlex := lex_number_fail_of_run (w ++ tail) file ⟨1, 1⟩ 0 w tail s msg (by simp)
    hrun hfail
  have hbody := lex_body_of_number file (w ++ tail) ⟨0, 1, 0⟩ hnum
  rw [show (⟨(⟨0, 1, 0⟩ : Cursor).line_number,
    (⟨0, 1, 0⟩ : Cursor).c - (⟨0, 1, 0⟩ : Cursor).line_start + 1⟩ : Location) = ⟨1, 1⟩ from rfl,
    show (⟨0, 1, 0⟩ : Cursor).c = 0 from rfl, hlex] at hbody
  simp only [Outcome.bind] at hbody
  unfold jsonnet_lex jsonnet_lex_trace
  rw [lex_loop_body_error file (w ++ tail) _ ⟨0, 1, 0⟩ _ (by rw [hpk]; omega) hbody]
  rfl

theorem int_part_head {i : List Nat} (h : IsIntPart i) :
    ∃ d rest, i = d :: rest ∧ 48 ≤ d ∧ d ≤ 57 := by
  rcases h with rfl | ⟨d, ds, rfl, hd, -⟩
  · exact ⟨48, [], rfl, by omega, by omega⟩
  · exact ⟨d, ds, rfl, by omega, by omega⟩

/-- An integer part and a point lead the automaton to `AFTER_DOT`. -/
theorem run_number_dot {i : List Nat} (h : IsIntPart i) :
    run_number .BEGIN (i ++ [46]) = some .AFTER_DOT := by
  rw [run_number_append]
  rcases run_number_int h with h1 | h1 <;> rw [h1] <;>
    simp [run_number, lex_number_switch]

/-- An integer part, an optional fraction and an `e` or `E` lead the automaton to
`AFTER_E`. -/
theorem run_number_e {i f : List Nat} {e : Nat} (hi : IsIntPart i) (hf : IsFracPart f)
    (he : e = 101 ∨ e = 69) : run_number .BEGIN (i ++ (f ++ [e])) = some .AFTER_E := by
  have h0 : e ≠ 46 := by omega
  rw [run_number_append]
  rcases run_number_int hi with h1 | h1 <;> rw [h1] <;>
    simp only [Option.some_bind, run_number_append]
  · rcases run_number_frac (Or.inl rfl) hf with h2 | h2 <;> rw [h2] <;>
      simp [run_number, lex_number_switch, he, h0]
  · rcases run_number_frac (Or.inr rfl) hf with h2 | h2 <;> rw [h2] <;>
      simp [run_number, lex_number_switch, he, h0]

/-- The same followed by a sign leads the automaton to `AFTER_EXP_SIGN`. -/
theorem run_number_exp_sign {i f : List Nat} {e sg : Nat} (hi : IsIntPart i)
    (hf : IsFracPart f) (he : e = 101 ∨ e = 69) (hs : sg = 43 ∨ sg = 45) :
    run_number .BEGIN (i ++ (f ++ [e, sg])) = some .AFTER_EXP_SIGN := by
  have : i ++ (f ++ [e, sg]) = (i ++ (f ++ [e])) ++ [sg] := by simp
  rw [this, run_number_append, run_number_e hi hf he]
  simp [run_number, lex_number_switch, hs]

/-- C15. Malformed number tails are rejected with the documented messages, at the first
character of the number (line 1, column 1): an integer part and `.` followed by a byte `x`
that is not a digit (`x` is the terminating NUL when the input ends there) gives
`Couldn't lex number, junk after decimal point: ` then `x`; a number prefix ending in `e`
or `E` followed by `x` neither a digit nor a sign gives `... junk after 'E': ` then `x`;
a prefix ending in an exponent sign followed by a non-digit `x` gives
`... junk after exponent sign: ` then `x`. -/
theorem malformed_number_tail (file : List Nat) :
    (∀ i rest, IsIntPart i → ¬ (48 ≤ rest.headD 0 ∧ rest.headD 0 ≤ 57) →
      jsonnet_lex file (i ++ [46] ++ rest) = .error ⟨file, ⟨1, 1⟩,
        str "Couldn't lex number, junk after decimal point: " ++ [rest.headD 0]⟩) ∧
    (∀ i f e rest, IsIntPart i → IsFracPart f → (e = 101 ∨ e = 69) →
      ¬ (48 ≤ rest.headD 0 ∧ rest.headD 0 ≤ 57) → rest.headD 0 ≠ 43 → rest.headD 0 ≠ 45 →
      jsonnet_lex file (i ++ f ++ [e] ++ rest) = .error ⟨file, ⟨1, 1⟩,
        str "Couldn't lex number, junk after 'E': " ++ [rest.headD 0]⟩) ∧
    (∀ i f e sg rest, IsIntPart i → IsFracPart f → (e = 101 ∨ e = 69) → (sg = 43 ∨ sg = 45) →
      ¬ (48 ≤ rest.headD 0 ∧ rest.headD 0 ≤ 57) →
      jsonnet_lex file (i ++ f ++ [e, sg] ++ rest) = .error ⟨file, ⟨1, 1⟩,
        str "Couldn't lex number, junk after exponent sign: " ++ [rest.headD 0]⟩) := by
  refine ⟨?_, ?_, ?_⟩
  · intro i rest hi hx
    obtain ⟨d, r, hir, hd⟩ := int_part_head hi
    have hn : is_number (rest.headD 0) = false := by
      rw [Bool.eq_false_iff, Ne, is_number_iff]; exact hx
    exact jsonnet_lex_number_fail file (i ++ [46]) rest .AFTER_DOT _ d (r ++ [46])
      (by rw [hir]; rfl) hd (run_number_dot hi)
      (by simp only [lex_number_switch, hn, if_false, Bool.false_eq_true])
  · intro i f e rest hi hf he hx h1 h2
    obtain ⟨d, r, hir, hd⟩ := int_part_head hi
    have hn : is_number (rest.headD 0) = false := by
      rw [Bool.eq_false_iff, Ne, is_number_iff]; exact hx
    have := jsonnet_lex_number_fail file (i ++ (f ++ [e])) rest .AFTER_E
      (str "Couldn't lex number, junk after 'E': " ++ [rest.headD 0]) d (r ++ (f ++ [e]))
      (by rw [hir]; rfl) hd (run_number_e hi hf he)
      (by simp only [lex_number_switch, hn, if_false, Bool.false_eq_true]
          rw [if_neg (by omega)])
    simpa using this
  · intro i f e sg rest hi hf he hs hx
    obtain ⟨d, r, hir, hd⟩ := int_part_head hi
    have hn : is_number (rest.headD 0) = false := by
      rw [Bool.eq_false_iff, Ne, is_number_iff]; exact hx
    have := jsonnet_lex_number_fail file (i ++ (f ++ [e, sg])) rest .AFTER_EXP_SIGN
      (str "Couldn't lex number, junk after exponent sign: " ++ [rest.headD 0]) d
      (r ++ (f ++ [e, sg]))
      (by rw [hir]; rfl) hd (run_number_exp_sign hi hf he hs)
      (by simp only [lex_number_switch, hn, if_false, Bool.false_eq_true])
    simpa using this

/-- The input `1.` fails with the message ending in the terminating NUL, `1.x` with the
message ending in `x`, `1e!` and `1.5E+x` with the two other messages. -/
theorem malformed_number_tail_witness :
    jsonnet_lex [] (str "1.") = .error ⟨[], ⟨1, 1⟩,
      str "Couldn't lex number, junk after decimal point: " ++ [0]⟩ ∧
    jsonnet_lex [] (str "1.x") = .error ⟨[], ⟨1, 1⟩,
      str "Couldn't lex number, junk after decimal point: x"⟩ ∧
    jsonnet_lex [] (str "1e!") = .error ⟨[], ⟨1, 1⟩,
      str "Couldn't lex number, junk after 'E': !"⟩ ∧
    jsonnet_lex [] (str "1.5E+x") = .error ⟨[], ⟨1, 1⟩,
      str "Couldn't lex number, junk after exponent sign: x"⟩ :=
  ⟨(malformed_number_tail []).1 (str "1") [] (Or.inr ⟨49, [], rfl, by decide, by decide⟩)
     (by decide),
   (malformed_number_tail []).1 (str "1") (str "x")
     (Or.inr ⟨49, [], rfl, by decide, by decide⟩) (by decide),
   (malformed_number_tail []).2.1 (str "1") [] 101 (str "!")
     (Or.inr ⟨49, [], rfl, by decide, by decide⟩) (Or.inl rfl)
     (by decide) (by decide) (by decide) (by decide),
   (malformed_number_tail []).2.2 (str "1") (str ".5") 69 43 (str "x")
     (Or.inr ⟨49, [], rfl, by decide, by decide⟩) (Or.inr ⟨[53], rfl, by decide, by decide⟩)
     (by decide) (by decide) (by decide)⟩

/-! ## String literals: escapes and errors -/

/-- The loop of a string literal over bytes that are no quote, backslash or NUL: they are
appended to the data. -/
theorem string_loop_plain_run (input file : List Nat) (begin : Location) :
    ∀ (v : List Nat) (st : Cursor) (data tail : List Nat) (fuel : Nat),
      input.drop st.c = v ++ tail → (∀ b ∈ v, b ≠ 34 ∧ b ≠ 92 ∧ b ≠ 0) →
      ∃ st1, st1.c = st.c + v.length ∧
        string_loop input file begin (fuel + v.length) st data
          = string_loop input file begin fuel st1 (data ++ v) := by
  intro v
  induction v with
  | nil =>
    intro st data tail fuel _ _
    exact ⟨st, by simp, by simp⟩
  | cons b v ih =>
    intro st data tail fuel hd hv
    obtain ⟨hp, hd1⟩ := peek_of_drop hd
    obtain ⟨hb1, hb2, hb3⟩ := hv b (by simp)
    have hv1 : ∀ x ∈ v, x ≠ 34 ∧ x ≠ 92 ∧ x ≠ 0 := fun x hx => hv x (by simp [hx])
    rw [show fuel + (b :: v).length = (fuel + v.length) + 1 by
      simp only [List.length_cons]; omega, string_loop]
    simp only [hp, hb1, hb2, hb3, if_false]
    by_cases h10 : b = 10
    · obtain ⟨st1, h1, h2⟩ := ih ⟨st.c + 1, st.line_number + 1, st.c + 1⟩ (data ++ [b]) tail
        fuel hd1 hv1
      refine ⟨st1, ?_, ?_⟩
      · rw [h1]; simp only [List.length_cons]; omega
      · simp only [h10, if_true]
        rw [h10] at h2
        simpa using h2
    · obtain ⟨st1, h1, h2⟩ := ih { st with c := st.c + 1 } (data ++ [b]) tail fuel hd1 hv1
      refine ⟨st1, ?_, ?_⟩
      · rw [h1]; simp only [List.length_cons]; omega
      · simp only [h10, if_false]
        simpa using h2

/-- The loop over the digits of a `\u` escape reads hexadecimal digits into the code
point. -/
theorem unicode_escape_loop_hex (input file : List Nat) (begin : Location) (c : Nat) :
    ∀ (h : List Nat) (n i cp : Nat) (tail : List Nat),
      input.drop (c + i) = h ++ tail → (∀ x ∈ h, IsHexDigit x) →
      unicode_escape_loop input file begin c (n + h.length) i cp
        = unicode_escape_loop input file begin c n (i + h.length) (hex_number cp h) := by
  intro h
  induction h with
  | nil => intro n i cp tail _ _; simp [hex_number]
  | cons x h ih =>
    intro n i cp tail hd hh
    obtain ⟨hp, hd1⟩ := peek_of_drop hd
    have hx : IsHexDigit x := hh x (by simp)
    have ih1 := ih n (i + 1) (cp * 16 + hex_value x) tail (by simpa [Nat.add_assoc] using hd1)
      fun y hy => hh y (by simp [hy])
    rw [show n + (x :: h).length = (n + h.length) + 1 by simp only [List.length_cons]; omega,
      unicode_escape_loop]
    simp only [hp]
    rw [show i + (x :: h).length = i + 1 + h.length by simp only [List.length_cons]; omega,
      show hex_number cp (x :: h) = hex_number (cp * 16 + hex_value x) h by
        simp [hex_number], ← ih1]
    unfold IsHexDigit at hx
    rw [if_neg (by omega), if_neg (by omega)]
    by_cases h1 : 48 ≤ x ∧ x ≤ 57
    · rw [if_pos h1]
      have : hex_value x = x - 48 := by unfold hex_value; rw [if_pos h1.2]
      rw [this]
    · rw [if_neg h1]
      by_cases h2 : 97 ≤ x ∧ x ≤ 102
      · rw [if_pos h2]
        have : hex_value x = x - 97 + 10 := by
          unfold hex_value; rw [if_neg (by omega), if_pos h2.1]
        rw [this]
      · rw [if_neg h2, if_pos (by omega)]
        have : hex_value x = x - 65 + 10 := by
          unfold hex_value; rw [if_neg (by omega), if_neg (by omega)]
        rw [this]

/-- The lexer on an input that opens a string literal, reads bytes `s` that are no quote,
backslash or NUL, and then throws: the error of the whole. -/
theorem jsonnet_lex_string_fail (file s tail : List Nat) (msg : List Nat)
    (hs : ∀ b ∈ s, b ≠ 34 ∧ b ≠ 92 ∧ b ≠ 0)
    (h : ∀ st1 data fuel, st1.c = 1 + s.length →
      string_loop (34 :: (s ++ tail)) file ⟨1, 1⟩ (fuel + 1) st1 data
        = .error ⟨file, ⟨1, 1⟩, msg⟩) :
    jsonnet_lex file (34 :: (s ++ tail)) = .error ⟨file, ⟨1, 1⟩, msg⟩ := by
  obtain ⟨input, hinput⟩ : ∃ input, input = 34 :: (s ++ tail) := ⟨_, rfl⟩
  rw [← hinput] at h ⊢
  have hpk : peek input 0 = 34 := by rw [hinput]; rfl
  have hlen : input.length + 1 = (tail.length + 1 + 1) + s.length := by
    rw [hinput]; simp; omega
  obtain ⟨st1, hc, hrun⟩ := string_loop_plain_run input file ⟨1, 1⟩ s ⟨1, 1, 0⟩ [] tail
    (tail.length + 1 + 1) (by rw [hinput]; simp) hs
  have hbody := lex_body_of_quote file input ⟨0, 1, 0⟩ hpk
  rw [show (⟨(⟨0, 1, 0⟩ : Cursor).line_number,
    (⟨0, 1, 0⟩ : Cursor).c - (⟨0, 1, 0⟩ : Cursor).line_start + 1⟩ : Location) = ⟨1, 1⟩ from rfl,
    show ({ (⟨0, 1, 0⟩ : Cursor) with c := (⟨0, 1, 0⟩ : Cursor).c + 1 } : Cursor) = ⟨1, 1, 0⟩
      from rfl, hlen, hrun, h st1 _ _ (by rw [hc])] at hbody
  simp only [Outcome.bind] at hbody
  unfold jsonnet_lex jsonnet_lex_trace
  rw [lex_loop_body_error file input _ ⟨0, 1, 0⟩ _ (by rw [hpk]; omega) hbody]
  rfl

/-- C17. Unterminated strings and bad escapes: for every `s` without `"`, backslash and
NUL (raw newlines allowed), the input `"` ++ s fails with `Unterminated string`, the input
`"` ++ s ++ backslash fails with `Truncated escape sequence in string literal.`, and for
every byte `x` (of a C string, so not NUL) that is none of the quote, backslash, `/`, `b`,
`f`, `n`, `r`, `t`, `u`, and every rest `r`, the input `"` ++ s ++ backslash ++ x ++ r fails
with `Unknown escape sequence in string literal: '<x>'`; the location of each error is the
opening quote, line 1, column 1. -/
theorem string_errors (file s : List Nat) (hs : ∀ b ∈ s, b ≠ 34 ∧ b ≠ 92 ∧ b ≠ 0) :
    jsonnet_lex file (str "\"" ++ s) = .error ⟨file, ⟨1, 1⟩, str "Unterminated string"⟩ ∧
    jsonnet_lex file (str "\"" ++ s ++ str "\\") =
      .error ⟨file, ⟨1, 1⟩, str "Truncated escape sequence in string literal."⟩ ∧
    ∀ x r, x ≠ 0 → x ∉ str "\"\\/bfnrtu" →
      jsonnet_lex file (str "\"" ++ s ++ str "\\" ++ [x] ++ r) =
        .error ⟨file, ⟨1, 1⟩,
          str "Unknown escape sequence in string literal: '" ++ [x] ++ str "'"⟩ := by
  have hq : str "\"" = [34] := by decide
  have hb : str "\\" = [92] := by decide
  rw [hq, hb]
  refine ⟨?_, ?_, ?_⟩
  · have := jsonnet_lex_string_fail file s [] (str "Unterminated string") hs (by
      intro st1 data fuel hc
      have hp : peek (34 :: (s ++ [])) st1.c = 0 := by
        apply peek_of_drop_nil; rw [hc]; simp [Nat.add_comm]
      rw [string_loop]
      simp only [hp, if_true])
    simpa using this
  · have := jsonnet_lex_string_fail file s [92]
      (str "Truncated escape sequence in string literal.") hs (by
      intro st1 data fuel hc
      have hd : (34 :: (s ++ [92])).drop st1.c = [92] := by
        rw [hc, Nat.add_comm]; simp
      obtain ⟨hp, hd1⟩ := peek_of_drop hd
      have hp1 := peek_of_drop_nil hd1
      rw [string_loop]
      simp [hp, hp1])
    simpa using this
  · intro x r hx0 hx
    have hx1 : x ≠ 34 ∧ x ≠ 92 ∧ x ≠ 47 ∧ x ≠ 98 ∧ x ≠ 102 ∧ x ≠ 110 ∧ x ≠ 114 ∧ x ≠ 116
        ∧ x ≠ 117 := by
      have : str "\"\\/bfnrtu" = [34, 92, 47, 98, 102, 110, 114, 116, 117] := by decide
      rw [this] at hx
      simpa using hx
    obtain ⟨h1, h2, h3, h4, h5, h6, h7, h8, h9⟩ := hx1
    have := jsonnet_lex_string_fail file s (92 :: x :: r)
      (str "Unknown escape sequence in string literal: '" ++ [x] ++ str "'") hs (by
      intro st1 data fuel hc
      have hd : (34 :: (s ++ 92 :: x :: r)).drop st1.c = 92 :: x :: r := by
        rw [hc, Nat.add_comm]; simp
      obtain ⟨hp, hd1⟩ := peek_of_drop hd
      obtain ⟨hp1, -⟩ := peek_of_drop hd1
      rw [string_loop]
      simp [hp, hp1, h1, h2, h3, h4, h5, h6, h7, h8, h9, hx0])
    simpa using this

/-- A string with a raw newline that is never closed, one that ends in a backslash, and
one with the escape `\q`: each error is at the opening quote. -/
theorem string_errors_witness :
    jsonnet_lex [] (str "\"ab\ncd") = .error ⟨[], ⟨1, 1⟩, str "Unterminated string"⟩ ∧
    jsonnet_lex [] (str "\"ab\ncd\\") =
      .error ⟨[], ⟨1, 1⟩, str "Truncated escape sequence in string literal."⟩ ∧
    jsonnet_lex [] (str "\"ab\ncd\\q\"") =
      .error ⟨[], ⟨1, 1⟩, str "Unknown escape sequence in string literal: 'q'"⟩ :=
  ⟨(string_errors [] (str "ab\ncd") (by decide)).1,
   (string_errors [] (str "ab\ncd") (by decide)).2.1,
   (string_errors [] (str "ab\ncd") (by decide)).2.2 113 (str "\"") (by decide) (by decide)⟩

/-- The loop of a string literal at the escape `\u`. -/
theorem string_loop_unicode (input file : List Nat) (begin : Location) (fuel : Nat)
    (st : Cursor) (data : List Nat) (hp : peek input st.c = 92)
    (hp1 : peek input (st.c + 1) = 117) :
    string_loop input file begin (fuel + 1) st data =
      (unicode_escape_loop input file begin (st.c + 1 + 1) 4 0 0).bind fun cp =>
        string_loop input file begin fuel { st with c := st.c + 1 + 1 + 3 + 1 }
          (data ++ encode_utf8 cp) := by
  rw [string_loop]
  simp [hp, hp1]

/-- The `\u` escape after `s` and `k` hexadecimal digits, stopped by a byte `x` that is no
hexadecimal digit. -/
theorem unicode_escape_stop (file s h rest : List Nat) (msg : List Nat)
    (hs : ∀ b ∈ s, b ≠ 34 ∧ b ≠ 92 ∧ b ≠ 0) (hh : ∀ x ∈ h, IsHexDigit x)
    (hk : h.length ≤ 3)
    (hmsg : msg =
      if rest.headD 0 = 0 then str "Unterminated string"
      else if rest.headD 0 = 34 then str "Truncated unicode escape sequence in string literal."
      else str "Malformed unicode escape character, should be hex: '" ++ [rest.headD 0]
        ++ str "'")
    (hx : ¬ IsHexDigit (rest.headD 0)) :
    jsonnet_lex file (34 :: (s ++ (92 :: 117 :: (h ++ rest)))) =
      .error ⟨file, ⟨1, 1⟩, msg⟩ := by
  apply jsonnet_lex_string_fail file s _ msg hs
  intro st1 data fuel hc
  obtain ⟨input, hinput⟩ : ∃ input, input = 34 :: (s ++ (92 :: 117 :: (h ++ rest))) :=
    ⟨_, rfl⟩
  rw [← hinput]
  have hd : input.drop st1.c = 92 :: 117 :: (h ++ rest) := by
    rw [hinput, hc, Nat.add_comm]; simp
  obtain ⟨hp, hd1⟩ := peek_of_drop hd
  obtain ⟨hp1, hd2⟩ := peek_of_drop hd1
  obtain ⟨n, hn⟩ : ∃ n, 4 = (n + 1) + h.length := ⟨3 - h.length, by omega⟩
  have hrun := unicode_escape_loop_hex input file ⟨1, 1⟩ (st1.c + 1 + 1) h (n + 1) 0 0 rest
    (by simpa using hd2) hh
  have hpx : peek input (st1.c + 1 + 1 + (0 + h.length)) = rest.headD 0 := by
    rw [Nat.zero_add]; exact peek_after_drop hd2
  rw [string_loop_unicode input file _ fuel st1 data hp hp1, hn, hrun, unicode_escape_loop]
  simp only [hpx]
  unfold IsHexDigit at hx
  by_cases h0 : rest.headD 0 = 0
  · rw [if_pos h0]; rw [if_pos h0] at hmsg; rw [hmsg]; rfl
  · rw [if_neg h0]; rw [if_neg h0] at hmsg
    by_cases h34 : rest.headD 0 = 34
    · rw [if_pos h34]; rw [if_pos h34] at hmsg; rw [hmsg]; rfl
    · rw [if_neg h34, if_neg (by omega), if_neg (by omega), if_neg (by omega)]
      rw [if_neg h34] at hmsg; rw [hmsg]; rfl

/-- C16. Errors inside a `\u` escape are classified by the first offending position: for
every `s` without `"`, backslash and NUL and every `h` of at most three hexadecimal digits,
the input `"` ++ s ++ `\u` ++ h fails with `Unterminated string` when it ends there, with
`Truncated unicode escape sequence in string literal.` when the next byte is `"`, and with
`Malformed unicode escape character, should be hex: '<x>'` when the next byte `x` is any
other byte that is no hexadecimal digit; the location is the opening quote, line 1,
column 1. -/
theorem unicode_escape_errors (file s h : List Nat)
    (hs : ∀ b ∈ s, b ≠ 34 ∧ b ≠ 92 ∧ b ≠ 0) (hh : ∀ x ∈ h, IsHexDigit x)
    (hk : h.length ≤ 3) :
    jsonnet_lex file (str "\"" ++ s ++ str "\\u" ++ h) =
      .error ⟨file, ⟨1, 1⟩, str "Unterminated string"⟩ ∧
    (∀ r, jsonnet_lex file (str "\"" ++ s ++ str "\\u" ++ h ++ str "\"" ++ r) =
      .error ⟨file, ⟨1, 1⟩, str "Truncated unicode escape sequence in string literal."⟩) ∧
    ∀ x r, x ≠ 0 → x ≠ 34 → ¬ IsHexDigit x →
      jsonnet_lex file (str "\"" ++ s ++ str "\\u" ++ h ++ [x] ++ r) =
        .error ⟨file, ⟨1, 1⟩,
          str "Malformed unicode escape character, should be hex: '" ++ [x] ++ str "'"⟩ := by
  have hq : str "\"" = [34] := by decide
  have hb : str "\\u" = [92, 117] := by decide
  rw [hq, hb]
  refine ⟨?_, ?_, ?_⟩
  · have := unicode_escape_stop file s h [] _ hs hh hk rfl (by decide)
    simpa using this
  · intro r
    have := unicode_escape_stop file s h (34 :: r) _ hs hh hk rfl
      (show ¬ IsHexDigit 34 by decide)
    simpa using this
  · intro x r h0 h34 hx
    have := unicode_escape_stop file s h (x :: r) _ hs hh hk rfl (by simpa using hx)
    simpa [h0, h34] using this

/-- The escape `\u12` cut by the end of the input, by the closing quote and by a `g`. -/
theorem unicode_escape_errors_witness :
    jsonnet_lex [] (str "\"a\\u12") = .error ⟨[], ⟨1, 1⟩, str "Unterminated string"⟩ ∧
    jsonnet_lex [] (str "\"a\\u12\"") =
      .error ⟨[], ⟨1, 1⟩, str "Truncated unicode escape sequence in string literal."⟩ ∧
    jsonnet_lex [] (str "\"a\\u12g4\"") =
      .error ⟨[], ⟨1, 1⟩, str "Malformed unicode escape character, should be hex: 'g'"⟩ :=
  ⟨(unicode_escape_errors [] (str "a") (str "12") (by decide) (by decide) (by decide)).1,
   (unicode_escape_errors [] (str "a") (str "12") (by decide) (by decide) (by decide)).2.1 [],
   (unicode_escape_errors [] (str "a") (str "12") (by decide) (by decide) (by decide)).2.2
     103 (str "4\"") (by decide) (by decide) (by decide)⟩

/-! ## Decoding a `\u` escape -/

theorem hex_value_lt {x : Nat} (h : IsHexDigit x) : hex_value x < 16 := by
  unfold IsHexDigit at h
  unfold hex_value
  split_ifs <;> omega

/-- C11. Unicode escape decoding: for every four hexadecimal digits `h1 h2 h3 h4` the input
`"\u` ++ h1 h2 h3 h4 ++ `"` lexes to exactly one `STRING` token followed by `END_OF_FILE`;
the data of the `STRING` is `encode_utf8` of the code point
`((d1*16 + d2)*16 + d3)*16 + d4`, which is below 65536, where `encode_utf8` is, as the
specification describes it, one byte below 0x80, two bytes below 0x800 and three bytes
otherwise, with no special treatment of surrogates or of the code point 0. -/
theorem unicode_escape_decoding (file : List Nat) (h1 h2 h3 h4 : Nat)
    (hh1 : IsHexDigit h1) (hh2 : IsHexDigit h2) (hh3 : IsHexDigit h3) (hh4 : IsHexDigit h4) :
    jsonnet_lex file (str "\"\\u" ++ [h1, h2, h3, h4] ++ str "\"") =
      .ok [⟨.STRING,
          encode_utf8 (((hex_value h1 * 16 + hex_value h2) * 16 + hex_value h3) * 16
            + hex_value h4), ⟨file, ⟨1, 1⟩, ⟨1, 8⟩⟩⟩,
        ⟨.END_OF_FILE, [], ⟨file, ⟨1, 9⟩, ⟨1, 9⟩⟩⟩] ∧
    ((hex_value h1 * 16 + hex_value h2) * 16 + hex_value h3) * 16 + hex_value h4 < 65536 ∧
    ∀ cp, encode_utf8 cp =
      if cp < 128 then [cp]
      else if cp < 2048 then [192 + cp / 64, 128 + cp % 64]
      else [224 + cp / 4096, 128 + cp / 64 % 64, 128 + cp % 64] := by
  refine ⟨?_, ?_, fun cp => rfl⟩
  · have hq : str "\"\\u" = [34, 92, 117] := by decide
    have hb : str "\"" = [34] := by decide
    rw [hq, hb]
    obtain ⟨input, hinput⟩ : ∃ input, input = [34, 92, 117] ++ [h1, h2, h3, h4] ++ [34] :=
      ⟨_, rfl⟩
    rw [← hinput]
    have hlen : input.length + 1 = 9 := by rw [hinput]; rfl
    have hp0 : peek input 0 = 34 := by rw [hinput]; rfl
    have hp1 : peek input 1 = 92 := by rw [hinput]; rfl
    have hp2 : peek input 2 = 117 := by rw [hinput]; rfl
    have hp7 : peek input 7 = 34 := by rw [hinput]; rfl
    have hp8 : peek input 8 = 0 := by rw [hinput]; rfl
    have hrun := unicode_escape_loop_hex input file ⟨1, 1⟩ 3 [h1, h2, h3, h4] 0 0 0 [34]
      (by rw [hinput]; rfl) (by
        intro x hx
        simp only [List.mem_cons, List.mem_singleton, List.not_mem_nil, or_false] at hx
        rcases hx with rfl | rfl | rfl | rfl <;> assumption)
    have hu : unicode_escape_loop input file ⟨1, 1⟩ 3 4 0 0 =
        .ok (((hex_value h1 * 16 + hex_value h2) * 16 + hex_value h3) * 16 + hex_value h4) := by
      have := hrun
      simp only [List.length_cons, List.length_nil, Nat.zero_add, hex_number,
        List.foldl_cons, List.foldl_nil, Nat.zero_mul] at this
      rw [this, unicode_escape_loop]
    have hs : string_loop input file ⟨1, 1⟩ 9 ⟨1, 1, 0⟩ [] =
        .ok (⟨7, 1, 0⟩, encode_utf8
          (((hex_value h1 * 16 + hex_value h2) * 16 + hex_value h3) * 16 + hex_value h4)) := by
      rw [string_loop_unicode input file _ 8 ⟨1, 1, 0⟩ [] hp1 hp2]
      simp only [hu, Outcome.bind, List.nil_append]
      rw [string_loop]
      simp only [hp7]
      rfl
    have hbody := lex_body_of_quote file input ⟨0, 1, 0⟩ hp0
    rw [hlen] at hbody
    rw [show (⟨(⟨0, 1, 0⟩ : Cursor).line_number,
      (⟨0, 1, 0⟩ : Cursor).c - (⟨0, 1, 0⟩ : Cursor).line_start + 1⟩ : Location) = ⟨1, 1⟩
        from rfl,
      show ({ (⟨0, 1, 0⟩ : Cursor) with c := (⟨0, 1, 0⟩ : Cursor).c + 1 } : Cursor) = ⟨1, 1, 0⟩
        from rfl, hs] at hbody
    simp only [Outcome.bind] at hbody
    unfold jsonnet_lex jsonnet_lex_trace
    rw [hlen, lex_loop_emit file input 8 ⟨0, 1, 0⟩ _ _ _ (by rw [hp0]; omega) hbody,
      lex_loop_eof file input 7 _ hp8]
    rfl
  · have := hex_value_lt hh1
    have := hex_value_lt hh2
    have := hex_value_lt hh3
    have := hex_value_lt hh4
    omega

/-- The escapes `\u00e9` (two bytes), `\u0041` (one byte), `\u20AC` (three bytes), the
surrogate `\ud83d` (three bytes, as it stands) and `\u0000` (a NUL byte in the data); and
the input `"\u00e9\n"` of the specification, whose data is 0xC3 0xA9 0x0A. -/
theorem unicode_escape_decoding_witness :
    jsonnet_lex [] (str "\"\\u00e9\"") =
      .ok [⟨.STRING, [195, 169], ⟨[], ⟨1, 1⟩, ⟨1, 8⟩⟩⟩,
        ⟨.END_OF_FILE, [], ⟨[], ⟨1, 9⟩, ⟨1, 9⟩⟩⟩] ∧
    jsonnet_lex [] (str "\"\\u0041\"") =
      .ok [⟨.STRING, [65], ⟨[], ⟨1, 1⟩, ⟨1, 8⟩⟩⟩,
        ⟨.END_OF_FILE, [], ⟨[], ⟨1, 9⟩, ⟨1, 9⟩⟩⟩] ∧
    jsonnet_lex [] (str "\"\\u20AC\"") =
      .ok [⟨.STRING, [226, 130, 172], ⟨[], ⟨1, 1⟩, ⟨1, 8⟩⟩⟩,
        ⟨.END_OF_FILE, [], ⟨[], ⟨1, 9⟩, ⟨1, 9⟩⟩⟩] ∧
    jsonnet_lex [] (str "\"\\ud83d\"") =
      .ok [⟨.STRING, [237, 160, 189], ⟨[], ⟨1, 1⟩, ⟨1, 8⟩⟩⟩,
        ⟨.END_OF_FILE, [], ⟨[], ⟨1, 9⟩, ⟨1, 9⟩⟩⟩] ∧
    jsonnet_lex [] (str "\"\\u0000\"") =
      .ok [⟨.STRING, [0], ⟨[], ⟨1, 1⟩, ⟨1, 8⟩⟩⟩,
        ⟨.END_OF_FILE, [], ⟨[], ⟨1, 9⟩, ⟨1, 9⟩⟩⟩] ∧
    jsonnet_lex [] (str "\"\\u00e9\\n\"") =
      .ok [⟨.STRING, [195, 169, 10], ⟨[], ⟨1, 1⟩, ⟨1, 10⟩⟩⟩,
        ⟨.END_OF_FILE, [], ⟨[], ⟨1, 11⟩, ⟨1, 11⟩⟩⟩] :=
  ⟨(unicode_escape_decoding [] 48 48 101 57 (by decide) (by decide) (by decide)
      (by decide)).1,
   (unicode_escape_decoding [] 48 48 52 49 (by decide) (by decide) (by decide)
      (by decide)).1,
   (unicode_escape_decoding [] 50 48 65 67 (by decide) (by decide) (by decide)
      (by decide)).1,
   (unicode_escape_decoding [] 100 56 51 100 (by decide) (by decide) (by decide)
      (by decide)).1,
   (unicode_escape_decoding [] 48 48 48 48 (by decide) (by decide) (by decide)
      (by decide)).1,
   by decide⟩

/-! ## Block comments -/

/-- An iteration of the driver whose body ends with `continue`. -/
theorem lex_loop_skip (file input : List Nat) (fuel : Nat) (st st1 : Cursor)
    (h : peek input st.c ≠ 0) (hb : lex_body file input st = .ok (.skip st1)) :
    lex_loop file input (fuel + 1) st =
      (lex_loop file input fuel { st1 with c := st1.c + 1 }).bind fun r =>
        .ok (⟨st.c, st1.c + 1, none⟩ :: r) := by
  simp [lex_loop, h, hb, Step.cursor, Step.token, Outcome.bind]

theorem lex_body_of_block_comment (file input : List Nat) (st : Cursor)
    (h : peek input st.c = 47) (h1 : peek input (st.c + 1) = 42) :
    lex_body file input st =
      (block_comment_loop input (input.length + 1) { st with c := st.c + 2 }).bind fun st1 =>
        if peek input st1.c = 0 then
          .error ⟨file, ⟨st.line_number, st.c - st.line_start + 1⟩,
            str "Multi-line comment has no terminating */."⟩
        else .ok (.skip { st1 with c := st1.c + 1 }) := by
  simp [lex_body, h, h1, punctuation, is_number, is_identifier_first, is_upper, is_lower,
    is_symbol]

/-- The loop of a block comment over bytes `s` without NUL and without `*/`, when the byte
after `s` is no `/`: it reaches the byte after `s`. -/
theorem block_comment_loop_run (input : List Nat) :
    ∀ (s : List Nat) (st : Cursor) (tail : List Nat) (fuel : Nat),
      input.drop st.c = s ++ tail → NulFree s → ¬ (str "*/") <:+: s → tail.headD 0 ≠ 47 →
      ∃ st1, st1.c = st.c + s.length ∧
        block_comment_loop input (fuel + s.length) st = block_comment_loop input fuel st1 := by
  have hstr : str "*/" = [42, 47] := by decide
  rw [hstr]
  intro s
  induction s with
  | nil => intro st tail fuel _ _ _ _; exact ⟨st, by simp, by simp⟩
  | cons b s ih =>
    intro st tail fuel hd hn hs ht
    obtain ⟨hp, hd1⟩ := peek_of_drop hd
    have hb0 : b ≠ 0 := hn b (by simp)
    have hn1 : NulFree s := fun x hx => hn x (by simp [hx])
    have hs1 : ¬ [42, 47] <:+: s := fun hc => hs (hc.trans (List.suffix_cons b s).isInfix)
    have hnext : ¬ (b = 42 ∧ peek input (st.c + 1) = 47) := by
      rintro ⟨rfl, h47⟩
      rcases s with _ | ⟨x, s⟩
      · have hpk := peek_after_drop (show input.drop (st.c + 1) = [] ++ tail from hd1)
        simp only [List.length_nil, Nat.add_zero] at hpk
        rw [hpk] at h47
        exact ht h47
      · have := (peek_of_drop hd1).1
        rw [h47] at this
        subst this
        exact hs ⟨[], s, by simp⟩
    rw [show fuel + (b :: s).length = (fuel + s.length) + 1 by
      simp only [List.length_cons]; omega, block_comment_loop]
    simp only [hp]
    rw [if_pos ⟨hb0, hnext⟩]
    by_cases h10 : b = 10
    · rw [if_pos h10]
      obtain ⟨st1, h1, h2⟩ := ih ⟨st.c + 1, st.line_number + 1, st.c + 1⟩ tail fuel hd1 hn1
        hs1 ht
      exact ⟨st1, by rw [h1]; simp only [List.length_cons]; omega, h2⟩
    · rw [if_neg h10]
      obtain ⟨st1, h1, h2⟩ := ih { st with c := st.c + 1 } tail fuel hd1 hn1 hs1 ht
      exact ⟨st1, by rw [h1]; simp only [List.length_cons]; omega, h2⟩

/-- C14. Block comments close only at a `*/` after the two opening bytes: for every
NUL-free `s` that does not contain `*/`, the input `/*` ++ s ++ `*/` succeeds with the
`END_OF_FILE` token alone, and the input `/*` ++ s fails at line 1, column 1 with the
message `Multi-line comment has no terminating */.`. -/
theorem block_comment_closing (file s : List Nat) (hn : NulFree s)
    (hs : ¬ (str "*/") <:+: s) :
    (∃ e, jsonnet_lex file (str "/*" ++ s ++ str "*/") =
      .ok [⟨.END_OF_FILE, [], ⟨file, e, e⟩⟩]) ∧
    jsonnet_lex file (str "/*" ++ s) =
      .error ⟨file, ⟨1, 1⟩, str "Multi-line comment has no terminating */."⟩ := by
  have ho : str "/*" = [47, 42] := by decide
  have hc : str "*/" = [42, 47] := by decide
  constructor
  · rw [ho, hc]
    obtain ⟨input, hinput⟩ : ∃ input, input = [47, 42] ++ s ++ [42, 47] := ⟨_, rfl⟩
    rw [← hinput]
    have hp0 : peek input 0 = 47 := by rw [hinput]; rfl
    have hp1 : peek input 1 = 42 := by rw [hinput]; rfl
    have hlen : input.length + 1 = (s.length + 4) + 1 := by rw [hinput]; simp
    have hlen2 : input.length + 1 = 5 + s.length := by rw [hinput]; simp; omega
    obtain ⟨st1, h1, h2⟩ := block_comment_loop_run input s ⟨2, 1, 0⟩ [42, 47] 5
      (by rw [hinput]; simp) hn hs (by decide)
    have hd : input.drop st1.c = [42, 47] := by
      rw [h1, hinput]
      show List.drop (2 + s.length) ([47, 42] ++ s ++ [42, 47]) = _
      rw [List.append_assoc, ← List.drop_drop]
      simp
    obtain ⟨hq0, hd1⟩ := peek_of_drop hd
    obtain ⟨hq1, hd2⟩ := peek_of_drop hd1
    have hq2 : peek input (st1.c + 1 + 1) = 0 := peek_of_drop_nil hd2
    have hloop : block_comment_loop input 5 st1 = .ok st1 := by
      rw [block_comment_loop]
      simp [hq0, hq1]
    have hbody := lex_body_of_block_comment file input ⟨0, 1, 0⟩ hp0 hp1
    rw [hlen2] at hbody
    rw [show ({ (⟨0, 1, 0⟩ : Cursor) with c := (⟨0, 1, 0⟩ : Cursor).c + 2 } : Cursor)
      = ⟨2, 1, 0⟩ from rfl, h2, hloop] at hbody
    simp only [Outcome.bind, hq0] at hbody
    rw [if_neg (by omega)] at hbody
    unfold jsonnet_lex jsonnet_lex_trace
    rw [hlen, lex_loop_skip file input _ ⟨0, 1, 0⟩ _ (by rw [hp0]; omega) hbody,
      show s.length + 4 = (s.length + 3) + 1 from rfl,
      lex_loop_eof file input _ _ (by simpa using hq2)]
    exact ⟨_, rfl⟩
  · rw [ho]
    obtain ⟨input, hinput⟩ : ∃ input, input = [47, 42] ++ s := ⟨_, rfl⟩
    rw [← hinput]
    have hp0 : peek input 0 = 47 := by rw [hinput]; rfl
    have hp1 : peek input 1 = 42 := by rw [hinput]; rfl
    have hlen : input.length + 1 = 3 + s.length := by rw [hinput]; simp; omega
    obtain ⟨st1, h1, h2⟩ := block_comment_loop_run input s ⟨2, 1, 0⟩ [] 3
      (by rw [hinput]; simp) hn hs (by decide)
    have hq0 : peek input st1.c = 0 := by
      apply peek_of_drop_nil
      rw [h1, hinput]; simp; omega
    have hloop : block_comment_loop input 3 st1 = .ok st1 := by
      rw [block_comment_loop]
      simp [hq0]
    have hbody := lex_body_of_block_comment file input ⟨0, 1, 0⟩ hp0 hp1
    rw [hlen] at hbody
    rw [show ({ (⟨0, 1, 0⟩ : Cursor) with c := (⟨0, 1, 0⟩ : Cursor).c + 2 } : Cursor)
      = ⟨2, 1, 0⟩ from rfl, h2, hloop] at hbody
    simp only [Outcome.bind, hq0, if_true] at hbody
    unfold jsonnet_lex jsonnet_lex_trace
    rw [lex_loop_body_error file input _ ⟨0, 1, 0⟩ _ (by rw [hp0]; omega) hbody]
    rfl

/-- The comments `/* a*b / */` and `/***/` leave only `END_OF_FILE`; the inputs `/*`,
`/*/` and `/* a *` are comments that never close. -/
theorem block_comment_closing_witness :
    (∃ e, jsonnet_lex [] (str "/*" ++ str " a*b\n / " ++ str "*/") =
      .ok [⟨.END_OF_FILE, [], ⟨[], e, e⟩⟩]) ∧
    jsonnet_lex [] (str "/* a*b\n / */") =
      .ok [⟨.END_OF_FILE, [], ⟨[], ⟨2, 6⟩, ⟨2, 6⟩⟩⟩] ∧
    jsonnet_lex [] (str "/***/") = .ok [⟨.END_OF_FILE, [], ⟨[], ⟨1, 6⟩, ⟨1, 6⟩⟩⟩] ∧
    jsonnet_lex [] (str "/*") =
      .error ⟨[], ⟨1, 1⟩, str "Multi-line comment has no terminating */."⟩ ∧
    jsonnet_lex [] (str "/*/") =
      .error ⟨[], ⟨1, 1⟩, str "Multi-line comment has no terminating */."⟩ ∧
    jsonnet_lex [] (str "/* a *") =
      .error ⟨[], ⟨1, 1⟩, str "Multi-line comment has no terminating */."⟩ :=
  ⟨(block_comment_closing [] (str " a*b\n / ") (by decide) (by decide)).1,
   by decide,
   by decide,
   (block_comment_closing [] [] (by decide) (by decide)).2,
   (block_comment_closing [] (str "/") (by decide) (by decide)).2,
   (block_comment_closing [] (str " a *") (by decide) (by decide)).2⟩

/-! ## Operators -/

/-- The loop that reads an operator appends `is_symbol` bytes only. -/
theorem operator_loop_symbols (input : List Nat) :
    ∀ (fuel c : Nat) (data : List Nat) (c1 : Nat) (data1 : List Nat),
      operator_loop input fuel c data = .ok (c1, data1) →
      ∃ w, data1 = data ++ w ∧ ∀ b ∈ w, is_symbol b = true := by
  intro fuel
  induction fuel with
  | zero => intro c id c1 id1 h; simp [operator_loop] at h
  | succ fuel ih =>
    intro c id c1 id1 h
    rw [operator_loop] at h
    by_cases h0 : peek input c ≠ 0
    · rw [if_pos h0] at h
      by_cases hi : is_symbol (peek input c) = true
      · rw [if_neg (not_not.2 hi)] at h
        obtain ⟨w, h1, h2⟩ := ih _ _ _ _ h
        refine ⟨peek input c :: w, by simpa using h1, ?_⟩
        intro b hb
        rcases List.mem_cons.1 hb with rfl | hb
        · exact hi
        · exact h2 b hb
      · rw [if_pos hi] at h
        simp only [Outcome.ok.injEq, Prod.mk.injEq] at h
        exact ⟨[], by simp [h.2], by simp⟩
    · rw [if_neg h0] at h
      simp only [Outcome.ok.injEq, Prod.mk.injEq] at h
      exact ⟨[], by simp [h.2], by simp⟩

/-- The loop that reads an operator over `is_symbol` bytes `w` followed by a byte that is
none. -/
theorem operator_loop_run (input : List Nat) :
    ∀ (w : List Nat) (c : Nat) (data tail : List Nat) (fuel : Nat),
      input.drop c = w ++ tail → (∀ b ∈ w, is_symbol b = true) →
      is_symbol (tail.headD 0) = false →
      operator_loop input (fuel + w.length + 1) c data = .ok (c + w.length, data ++ w) := by
  intro w
  induction w with
  | nil =>
    intro c data tail fuel hd _ ht
    have hp : peek input c = tail.headD 0 := by
      have := peek_after_drop (show input.drop c = [] ++ tail from hd)
      simpa using this
    rw [show fuel + ([] : List Nat).length + 1 = fuel + 1 by simp, operator_loop]
    by_cases h0 : peek input c ≠ 0
    · rw [if_pos h0, if_pos (by rw [hp, ht]; simp)]; simp
    · rw [if_neg h0]; simp
  | cons b w ih =>
    intro c data tail fuel hd hw ht
    obtain ⟨hp, hd1⟩ := peek_of_drop hd
    have hb : is_symbol (peek input c) = true := by rw [hp]; exact hw b (by simp)
    have := ih (c + 1) (data ++ [b]) tail fuel hd1 (fun x hx => hw x (by simp [hx])) ht
    rw [show fuel + (b :: w).length + 1 = (fuel + w.length + 1) + 1 by simp; omega,
      operator_loop_first input _ _ _ hb, hp, this]
    have e1 : c + 1 + w.length = c + (b :: w).length := by
      simp only [List.length_cons]; omega
    have e2 : data ++ [b] ++ w = data ++ b :: w := by simp
    rw [e1, e2]

/-- The body of the driver at an `is_symbol` byte that opens no comment and no text
block. -/
theorem lex_body_of_operator (file input : List Nat) (st : Cursor)
    (h : is_symbol (peek input st.c) = true) (hhash : peek input st.c ≠ 35)
    (hlc : ¬ (peek input st.c = 47 ∧ peek input (st.c + 1) = 47))
    (hbc : ¬ (peek input st.c = 47 ∧ peek input (st.c + 1) = 42))
    (htb : ¬ (peek input st.c = 124 ∧ peek input (st.c + 1) = 124
      ∧ peek input (st.c + 2) = 124 ∧ peek input (st.c + 3) = 10)) :
    lex_body file input st =
      (operator_loop input (input.length + 1) st.c []).bind fun r =>
        .ok (.emit .OPERATOR r.2 { st with c := r.1 - 1 }) := by
  have hd := (is_symbol_iff _).1 h
  have hp : punctuation (peek input st.c) = none := punctuation_eq_none (by omega)
  have h1 : ¬ (peek input st.c = 32 ∨ peek input st.c = 9 ∨ peek input st.c = 13) := by omega
  have h2 : peek input st.c ≠ 10 := by omega
  have h3 : peek input st.c ≠ 33 := by omega
  have h4 : peek input st.c ≠ 126 := by omega
  have h5 : peek input st.c ≠ 43 := by omega
  have h6 : peek input st.c ≠ 45 := by omega
  have h7 : is_number (peek input st.c) = false := by
    rw [Bool.eq_false_iff, Ne, is_number_iff]; omega
  have h8 : peek input st.c ≠ 34 := by omega
  have h9 : is_identifier_first (peek input st.c) = false := by
    rw [Bool.eq_false_iff, Ne, is_identifier_first_iff]; omega
  simp only [lex_body, h1, h2, hp, h3, h4, h5, h6, h7, h8, h9, h, hhash, hlc, hbc, htb,
    if_false, if_true, Bool.false_eq_true]

theorem keyword_or_identifier_not_operator (id : List Nat) :
    (keyword_or_identifier id).1 ≠ .OPERATOR := by
  by_cases hk : IsKeyword id
  · obtain ⟨p, hp, rfl⟩ := List.mem_map.1 hk
    rw [keyword_or_identifier_of_keyword (k := p.2) hp]
    clear hk
    revert p
    simp [keywords]
  · rw [keyword_or_identifier_of_not_keyword hk]
    simp

/-- What the body of the driver pushes as an `OPERATOR`. -/
theorem lex_body_operator (file input : List Nat) (st st1 : Cursor) (data : List Nat)
    (h : lex_body file input st = .ok (.emit .OPERATOR data st1)) :
    ¬ (str "#") <+: data ∧ IsOperatorText data := by
  unfold lex_body at h
  dsimp only at h
  by_cases hws : peek input st.c = 32 ∨ peek input st.c = 9 ∨ peek input st.c = 13
  · rw [if_pos hws] at h; simp at h
  rw [if_neg hws] at h
  by_cases hnl : peek input st.c = 10
  · rw [if_pos hnl] at h; simp at h
  rw [if_neg hnl] at h
  cases hp : punctuation (peek input st.c) with
  | some kind =>
    rw [hp] at h
    simp only [Outcome.ok.injEq, Step.emit.injEq] at h
    have := (punctuation_some hp).2.1
    rw [h.1] at this
    simp [lexeme_start] at this
  | none =>
  rw [hp] at h
  dsimp only at h
  by_cases h33 : peek input st.c = 33
  · rw [if_pos h33] at h
    by_cases h61 : peek input (st.c + 1) = 61
    · rw [if_pos h61] at h
      simp only [Outcome.ok.injEq, Step.emit.injEq, true_and] at h
      rw [← h.1]; decide
    · rw [if_neg h61] at h
      simp only [Outcome.ok.injEq, Step.emit.injEq, true_and] at h
      rw [← h.1]; decide
  rw [if_neg h33] at h
  by_cases h126 : peek input st.c = 126
  · rw [if_pos h126] at h
    simp only [Outcome.ok.injEq, Step.emit.injEq, true_and] at h
    rw [← h.1]; decide
  rw [if_neg h126] at h
  by_cases h43 : peek input st.c = 43
  · rw [if_pos h43] at h
    simp only [Outcome.ok.injEq, Step.emit.injEq, true_and] at h
    rw [← h.1]; decide
  rw [if_neg h43] at h
  by_cases h45 : peek input st.c = 45
  · rw [if_pos h45] at h
    simp only [Outcome.ok.injEq, Step.emit.injEq, true_and] at h
    rw [← h.1]; decide
  rw [if_neg h45] at h
  by_cases hnum : is_number (peek input st.c) = true
  · rw [if_pos hnum] at h
    obtain ⟨r, hr, hs⟩ := bind_eq_ok h
    simp at hs
  rw [if_neg hnum] at h
  by_cases hq : peek input st.c = 34
  · rw [if_pos hq] at h
    obtain ⟨r, hr, hs⟩ := bind_eq_ok h
    simp at hs
  rw [if_neg hq] at h
  by_cases hid : is_identifier_first (peek input st.c) = true
  · rw [if_pos hid] at h
    obtain ⟨r, hr, hs⟩ := bind_eq_ok h
    simp only [Outcome.ok.injEq, Step.emit.injEq] at hs
    exact absurd hs.1 (keyword_or_identifier_not_operator _)
  rw [if_neg hid] at h
  by_cases hsym : is_symbol (peek input st.c) = true
  · rw [if_pos hsym] at h
    by_cases hlc : peek input st.c = 47 ∧ peek input (st.c + 1) = 47
    · rw [if_pos hlc] at h
      obtain ⟨r, hr, hs⟩ := bind_eq_ok h
      simp at hs
    rw [if_neg hlc] at h
    by_cases hhash : peek input st.c = 35
    · rw [if_pos hhash] at h
      obtain ⟨r, hr, hs⟩ := bind_eq_ok h
      simp at hs
    rw [if_neg hhash] at h
    by_cases hbc : peek input st.c = 47 ∧ peek input (st.c + 1) = 42
    · rw [if_pos hbc] at h
      obtain ⟨r, hr, hs⟩ := bind_eq_ok h
      split_ifs at hs
      simp at hs
    rw [if_neg hbc] at h
    by_cases htb : peek input st.c = 124 ∧ peek input (st.c + 1) = 124
        ∧ peek input (st.c + 2) = 124 ∧ peek input (st.c + 3) = 10
    · rw [if_pos htb] at h
      obtain ⟨ws, hws, hs⟩ := bind_eq_ok h
      by_cases hz : ws = 0
      · rw [if_pos hz] at hs; simp at hs
      · rw [if_neg hz] at hs
        obtain ⟨r, hr, hs2⟩ := bind_eq_ok hs
        simp at hs2
    rw [if_neg htb] at h
    obtain ⟨r, hr, hs⟩ := bind_eq_ok h
    simp only [Outcome.ok.injEq, Step.emit.injEq, true_and] at hs
    obtain ⟨c1, data1⟩ := r
    rw [operator_loop_first input _ _ _ hsym] at hr
    obtain ⟨w, hw1, hw2⟩ := operator_loop_symbols input _ _ _ _ _ hr
    have hdata : data = peek input st.c :: w := by rw [← hs.1]; simpa using hw1
    rw [hdata]
    refine ⟨?_, Or.inr ⟨by simp, ?_⟩⟩
    · rw [show str "#" = [35] by decide]
      intro hpre
      obtain ⟨t, ht⟩ := hpre
      simp only [List.singleton_append, List.cons.injEq] at ht
      exact hhash ht.1.symm
    · intro b hb
      rcases List.mem_cons.1 hb with rfl | hb
      · exact hsym
      · exact hw2 b hb
  rw [if_neg hsym] at h
  split_ifs at h

/-- Every token pushed by the driver's loop is the `END_OF_FILE` token or was pushed by
the body of an iteration. -/
theorem lex_loop_tokens (file input : List Nat) (P : Kind → List Nat → Prop)
    (hP : ∀ st kind data st1, lex_body file input st = .ok (.emit kind data st1) →
      P kind data)
    (hE : P .END_OF_FILE []) :
    ∀ (fuel : Nat) (st : Cursor) (evs : List Event),
      lex_loop file input fuel st = .ok evs →
      ∀ ev ∈ evs, ∀ t, ev.token = some t → P t.kind t.data := by
  intro fuel
  induction fuel with
  | zero => intro st evs h; simp [lex_loop] at h
  | succ fuel ih =>
    intro st evs h ev hev t ht
    rw [lex_loop] at h
    by_cases h0 : peek input st.c ≠ 0
    · rw [if_pos h0] at h
      dsimp only at h
      obtain ⟨step, hstep, h1⟩ := bind_eq_ok h
      obtain ⟨r, hr, h2⟩ := bind_eq_ok h1
      simp only [Outcome.ok.injEq] at h2
      subst h2
      rcases List.mem_cons.1 hev with rfl | hev
      · cases step with
        | skip st1 => simp [Step.token] at ht
        | emit kind data st1 =>
          simp only [Step.token, Option.some.injEq] at ht
          subst ht
          exact hP st kind data st1 hstep
      · exact ih _ _ hr ev hev t ht
    · rw [if_neg h0] at h
      simp only [Outcome.ok.injEq] at h
      subst h
      simp only [List.mem_singleton] at hev
      subst hev
      simp only [Option.some.injEq] at ht
      subst ht
      exact hE

theorem jsonnet_lex_tokens (file input : List Nat) (P : Kind → List Nat → Prop)
    (hP : ∀ st kind data st1, lex_body file input st = .ok (.emit kind data st1) →
      P kind data)
    (hE : P .END_OF_FILE []) (toks : List Token) (h : jsonnet_lex file input = .ok toks) :
    ∀ t ∈ toks, P t.kind t.data := by
  unfold jsonnet_lex at h
  obtain ⟨evs, hevs, h1⟩ := bind_eq_ok h
  simp only [Outcome.ok.injEq] at h1
  subst h1
  intro t ht
  obtain ⟨ev, hev, het⟩ := List.mem_filterMap.1 ht
  exact lex_loop_tokens file input P hP hE _ _ _ hevs ev hev t het

/-- C19. Operator tokens are maximal symbol runs: for every non-empty `s` over `is_symbol`
bytes that does not begin with `#`, `//` or `/*`, the input `s` lexes to exactly one
`OPERATOR` token with data `s`, followed by `END_OF_FILE`; and for every input on which
`jsonnet_lex` succeeds, no `OPERATOR` token has data that begins with `#`, and the data of
every `OPERATOR` token is one of `!`, `!=`, `~`, `+`, `-` or a non-empty run of `is_symbol`
bytes. -/
theorem operator_maximal_run (file : List Nat) :
    (∀ s, s ≠ [] → (∀ b ∈ s, is_symbol b = true) → ¬ (str "#") <+: s →
      ¬ (str "//") <+: s → ¬ (str "/*") <+: s →
      jsonnet_lex file s =
        .ok [⟨.OPERATOR, s, ⟨file, ⟨1, 1⟩, ⟨1, s.length⟩⟩⟩,
          ⟨.END_OF_FILE, [], ⟨file, ⟨1, s.length + 1⟩, ⟨1, s.length + 1⟩⟩⟩]) ∧
    (∀ input toks, jsonnet_lex file input = .ok toks → ∀ t ∈ toks, t.kind = .OPERATOR →
      ¬ (str "#") <+: t.data ∧ IsOperatorText t.data) := by
  constructor
  · intro s hne hs h1 h2 h3
    rw [show str "#" = [35] by decide] at h1
    rw [show str "//" = [47, 47] by decide] at h2
    rw [show str "/*" = [47, 42] by decide] at h3
    obtain ⟨b, s1, rfl⟩ := List.exists_cons_of_ne_nil hne
    obtain ⟨input, hinput⟩ : ∃ input, input = b :: s1 := ⟨_, rfl⟩
    rw [← hinput] at hs ⊢
    have hp0 : peek input 0 = b := by rw [hinput]; rfl
    have hsym : ∀ i, peek input i = 0 ∨ is_symbol (peek input i) = true := by
      intro i
      by_cases hi : i < input.length
      · right
        apply hs
        simp [peek, List.getD_eq_getElem?_getD, List.getElem?_eq_getElem hi]
      · left
        apply peek_of_drop_nil
        simpa using hi
    have hb : is_symbol (peek input 0) = true := by
      rw [hp0]; exact hs b (by rw [hinput]; simp)
    have hp1 : peek input 1 = s1.headD 0 := by
      have := peek_after_drop (show input.drop 0 = [b] ++ s1 by rw [hinput]; rfl)
      simpa using this
    have hhash : peek input 0 ≠ 35 := by
      rw [hp0]; rintro rfl; exact h1 ⟨s1, rfl⟩
    have hlc : ¬ (peek input 0 = 47 ∧ peek input (0 + 1) = 47) := by
      rw [hp0, Nat.zero_add, hp1]
      rintro ⟨rfl, h47⟩
      rcases s1 with _ | ⟨x, s1⟩
      · simp at h47
      · simp only [List.headD_cons] at h47; subst h47
        exact h2 ⟨s1, rfl⟩
    have hbc : ¬ (peek input 0 = 47 ∧ peek input (0 + 1) = 42) := by
      rw [hp0, Nat.zero_add, hp1]
      rintro ⟨rfl, h42⟩
      rcases s1 with _ | ⟨x, s1⟩
      · simp at h42
      · simp only [List.headD_cons] at h42; subst h42
        exact h3 ⟨s1, rfl⟩
    have htb : ¬ (peek input 0 = 124 ∧ peek input (0 + 1) = 124
        ∧ peek input (0 + 2) = 124 ∧ peek input (0 + 3) = 10) := by
      rintro ⟨-, -, -, h10⟩
      rcases hsym (0 + 3) with h | h
      · omega
      · rw [h10] at h; revert h; decide
    have hrun := operator_loop_run input input 0 [] [] 0 (by simp) hs (by decide)
    have hbody := lex_body_of_operator file input ⟨0, 1, 0⟩ hb hhash hlc hbc htb
    rw [show (⟨0, 1, 0⟩ : Cursor).c = 0 from rfl] at hbody
    rw [show 0 + input.length + 1 = input.length + 1 by omega] at hrun
    rw [hrun] at hbody
    simp only [Outcome.bind, List.nil_append, Nat.zero_add] at hbody
    have hlen : input.length + 1 = (input.length - 1) + 1 + 1 := by
      rw [hinput]; simp
    have hlen1 : input.length - 1 + 1 = input.length := by rw [hinput]; simp
    have hend : peek input input.length = 0 := peek_of_drop_nil (by simp)
    unfold jsonnet_lex jsonnet_lex_trace
    have hnz : peek input 0 ≠ 0 := by
      have := (is_symbol_iff _).1 hb
      omega
    rw [hlen, lex_loop_emit file input _ ⟨0, 1, 0⟩ _ _ _ hnz hbody,
      lex_loop_eof file input (input.length - 1) ⟨input.length - 1 + 1, 1, 0⟩
        (by simpa [hlen1] using hend)]
    simp [Outcome.bind, hlen1]
  · intro input toks h t ht hk
    exact jsonnet_lex_tokens file input
      (fun kind data => kind = .OPERATOR → ¬ (str "#") <+: data ∧ IsOperatorText data)
      (fun st kind data st1 hb hkind => by
        subst hkind
        exact lex_body_operator file input st st1 data hb)
      (fun hkind => absurd hkind (by decide)) toks h t ht hk

/-- The runs `|||` and `=/*#` are one operator each, and the operators of
`a!=b-#c` are `!=` and `-`. -/
theorem operator_maximal_run_witness :
    jsonnet_lex [] (str "|||") =
      .ok [⟨.OPERATOR, str "|||", ⟨[], ⟨1, 1⟩, ⟨1, 3⟩⟩⟩,
        ⟨.END_OF_FILE, [], ⟨[], ⟨1, 4⟩, ⟨1, 4⟩⟩⟩] ∧
    jsonnet_lex [] (str "=/*#") =
      .ok [⟨.OPERATOR, str "=/*#", ⟨[], ⟨1, 1⟩, ⟨1, 4⟩⟩⟩,
        ⟨.END_OF_FILE, [], ⟨[], ⟨1, 5⟩, ⟨1, 5⟩⟩⟩] ∧
    (∀ t ∈ [(⟨.IDENTIFIER, str "a", ⟨[], ⟨1, 1⟩, ⟨1, 1⟩⟩⟩ : Token),
        ⟨.OPERATOR, str "!=", ⟨[], ⟨1, 2⟩, ⟨1, 3⟩⟩⟩,
        ⟨.IDENTIFIER, str "b", ⟨[], ⟨1, 4⟩, ⟨1, 4⟩⟩⟩,
        ⟨.OPERATOR, str "-", ⟨[], ⟨1, 5⟩, ⟨1, 5⟩⟩⟩,
        ⟨.END_OF_FILE, [], ⟨[], ⟨1, 8⟩, ⟨1, 8⟩⟩⟩],
      t.kind = .OPERATOR → ¬ (str "#") <+: t.data ∧ IsOperatorText t.data) :=
  ⟨(operator_maximal_run []).1 (str "|||") (by decide) (by decide) (by decide) (by decide)
      (by decide),
   (operator_maximal_run []).1 (str "=/*#") (by decide) (by decide) (by decide) (by decide)
      (by decide),
   (operator_maximal_run []).2 (str "a!=b-#c") _ (by decide)⟩

/-! ## Unrecognised bytes -/

/-- The body of the driver at a byte that starts no lexeme. -/
theorem lex_body_of_unrecognised (file input : List Nat) (st : Cursor)
    (h : Unrecognised (peek input st.c)) :
    lex_body file input st =
      .error ⟨file, ⟨st.line_number, st.c - st.line_start + 1⟩,
        if char_lt_32 (peek input st.c) then
          str "Could not lex the character code " ++ str (toString (peek input st.c))
        else str "Could not lex the character '" ++ [peek input st.c] ++ str "'"⟩ := by
  obtain ⟨h0, hws, hpu, hop, hnum, hq, hid, hsy⟩ := h
  rw [show str " \t\r\n" = [32, 9, 13, 10] by decide] at hws
  rw [show str "\x7b\x7d[]:,$.();" = [123, 125, 91, 93, 58, 44, 36, 46, 40, 41, 59] by decide]
    at hpu
  rw [show str "!~+-" = [33, 126, 43, 45] by decide] at hop
  rw [show str "&|^=<>*/%#" = [38, 124, 94, 61, 60, 62, 42, 47, 37, 35] by decide] at hsy
  simp only [List.mem_cons, List.mem_singleton, List.not_mem_nil, or_false, not_or]
    at hws hpu hop hsy
  have hp : punctuation (peek input st.c) = none := punctuation_eq_none (by omega)
  have h1 : ¬ (peek input st.c = 32 ∨ peek input st.c = 9 ∨ peek input st.c = 13) := by omega
  have h2 : peek input st.c ≠ 10 := by omega
  have h3 : peek input st.c ≠ 33 := by omega
  have h4 : peek input st.c ≠ 126 := by omega
  have h5 : peek input st.c ≠ 43 := by omega
  have h6 : peek input st.c ≠ 45 := by omega
  have h7 : is_number (peek input st.c) = false := by
    rw [Bool.eq_false_iff, Ne, is_number_iff]; exact hnum
  have h9 : is_identifier_first (peek input st.c) = false := by
    rw [Bool.eq_false_iff, Ne, is_identifier_first_iff]; exact hid
  have h10 : is_symbol (peek input st.c) = false := by
    rw [Bool.eq_false_iff, Ne, is_symbol_iff]; omega
  simp only [lex_body, h1, h2, hp, h3, h4, h5, h6, h7, hq, h9, h10, if_false,
    Bool.false_eq_true]
  by_cases hlt : char_lt_32 (peek input st.c) = true
  · rw [if_pos hlt, if_pos hlt]
  · rw [if_neg hlt, if_neg hlt]

/-- C20 as the code has it. An unrecognised byte `b` as the only byte of the input is
rejected at line 1, column 1; the message is `Could not lex the character '<b>'` for
`32 ≤ b < 128`, and `Could not lex the character code <n>`, `n` the decimal value of the
byte, for `b < 32` and also for `b ≥ 128`: the comparison `*c < 32` is on a plain `char`,
signed on the platforms jsonnet is built for, so that the bytes 128 to 255 are negative. -/
theorem unrecognised_byte_rejected (file : List Nat) (b : Nat) (h : Unrecognised b) :
    jsonnet_lex file [b] = .error ⟨file, ⟨1, 1⟩,
      if b < 32 ∨ 128 ≤ b then str "Could not lex the character code " ++ str (toString b)
      else str "Could not lex the character '" ++ [b] ++ str "'"⟩ := by
  have hp0 : peek [b] 0 = b := rfl
  have hbody := lex_body_of_unrecognised file [b] ⟨0, 1, 0⟩ (by rw [hp0]; exact h)
  rw [show (⟨0, 1, 0⟩ : Cursor).c = 0 from rfl, hp0] at hbody
  unfold jsonnet_lex jsonnet_lex_trace
  rw [show [b].length + 1 = 1 + 1 from rfl,
    lex_loop_body_error file [b] 1 ⟨0, 1, 0⟩ _ (by rw [hp0]; exact h.1) hbody]
  simp only [Outcome.bind, char_lt_32, Bool.or_eq_true, decide_eq_true_eq]

/-- The bytes `@`, 1 and 200. -/
theorem unrecognised_byte_rejected_witness :
    jsonnet_lex [] [64] = .error ⟨[], ⟨1, 1⟩, str "Could not lex the character '@'"⟩ ∧
    jsonnet_lex [] [1] = .error ⟨[], ⟨1, 1⟩, str "Could not lex the character code 1"⟩ ∧
    jsonnet_lex [] [200] =
      .error ⟨[], ⟨1, 1⟩, str "Could not lex the character code 200"⟩ :=
  ⟨unrecognised_byte_rejected [] 64 (by decide), unrecognised_byte_rejected [] 1 (by decide),
   unrecognised_byte_rejected [] 200 (by decide)⟩

/-- C20 as the specification states it fails at the byte 200: it is unrecognised and not
below 32, and the message is `Could not lex the character code 200`, not the byte between
quotes. -/
theorem unrecognised_high_byte_counterexample :
    Unrecognised 200 ∧ 32 ≤ 200 ∧
    jsonnet_lex [] [200] =
      .error ⟨[], ⟨1, 1⟩, str "Could not lex the character code 200"⟩ ∧
    jsonnet_lex [] [200] ≠
      .error ⟨[], ⟨1, 1⟩, str "Could not lex the character '" ++ [200] ++ str "'"⟩ := by
  decide

/-! ## Text blocks -/

theorem text_block_loop_unfold (input file : List Nat) (begin : Location)
    (first_line fuel ws : Nat) (st : Cursor) (block : List Nat) :
    text_block_loop input file begin first_line (fuel + 1) ws st block =
      (text_line_loop input file begin (input.length + 1) (st.c + ws) block).bind fun line =>
        text_block_next input file begin first_line fuel
          ⟨line.1 + 1, st.line_number + 1, line.1 + 1⟩ (line.2 ++ [10]) := by
  rw [text_block_loop]
  rfl

/-- The loop of `whitespace_check` over an indentation that both lines share. -/
theorem whitespace_check_loop_match (input : List Nat) (a b : Nat) :
    ∀ (p : List Nat) (i fuel : Nat) (ta tb : List Nat),
      input.drop (a + i) = p ++ ta → input.drop (b + i) = p ++ tb →
      (∀ x ∈ p, x = 32 ∨ x = 9) →
      whitespace_check_loop input a b (fuel + p.length) i
        = whitespace_check_loop input a b fuel (i + p.length) := by
  intro p
  induction p with
  | nil => intro i fuel ta tb _ _ _; simp
  | cons x p ih =>
    intro i fuel ta tb ha hb hp
    obtain ⟨hpa, ha1⟩ := peek_of_drop ha
    obtain ⟨hpb, hb1⟩ := peek_of_drop hb
    have hx := hp x (by simp)
    rw [show fuel + (x :: p).length = (fuel + p.length) + 1 by
      simp only [List.length_cons]; omega, whitespace_check_loop, hpa, hpb, if_pos hx,
      if_neg (by simp),
      ih (i + 1) fuel ta tb (by simpa [Nat.add_assoc] using ha1)
        (by simpa [Nat.add_assoc] using hb1) (fun y hy => hp y (by simp [hy]))]
    simp only [List.length_cons]
    congr 1
    omega

/-- The function `whitespace_check` gives the length of the indentation `p` of the line at
`a` when the line at `b` starts with `p`. -/
theorem whitespace_check_match (input : List Nat) (a b : Nat) (p ta tb : List Nat)
    (ha : input.drop a = p ++ ta) (hb : input.drop b = p ++ tb)
    (hp : ∀ x ∈ p, x = 32 ∨ x = 9) (hta : ¬ (ta.headD 0 = 32 ∨ ta.headD 0 = 9)) :
    whitespace_check input a b = .ok p.length := by
  have hlen : p.length ≤ input.length := by
    have := congrArg List.length ha
    simp at this; omega
  obtain ⟨k, hk⟩ : ∃ k, input.length + 1 = (k + 1) + p.length :=
    ⟨input.length - p.length, by omega⟩
  unfold whitespace_check
  rw [hk, whitespace_check_loop_match input a b p 0 (k + 1) ta tb (by simpa using ha)
    (by simpa using hb) hp, whitespace_check_loop, Nat.zero_add, peek_after_drop ha,
    if_neg hta]

/-- The loop of `whitespace_check` gives 0 when the line at `b` does not start with the
indentation of the line at `a`. -/
theorem whitespace_check_loop_mismatch (input : List Nat) (a b : Nat) :
    ∀ (p : List Nat) (i fuel : Nat) (ta q : List Nat),
      input.drop (a + i) = p ++ ta → input.drop (b + i) = q →
      (∀ x ∈ p, x = 32 ∨ x = 9) → ¬ p <+: q →
      whitespace_check_loop input a b (fuel + p.length) i = .ok 0 := by
  intro p
  induction p with
  | nil => intro i fuel ta q _ _ _ h; exact absurd ( List.nil_prefix) h
  | cons x p ih =>
    intro i fuel ta q ha hb hp hq
    obtain ⟨hpa, ha1⟩ := peek_of_drop ha
    have hx := hp x (by simp)
    rw [show fuel + (x :: p).length = (fuel + p.length) + 1 by
      simp only [List.length_cons]; omega, whitespace_check_loop, hpa, if_pos hx]
    by_cases hne : peek input (b + i) ≠ x
    · rw [if_pos hne]
    · rw [if_neg hne]
      have hbx : peek input (b + i) = x := not_not.1 hne
      rcases q with _ | ⟨y, q⟩
      · rw [peek_of_drop_nil hb] at hbx
        omega
      · obtain ⟨hpb, hb1⟩ := peek_of_drop hb
        have hyx : y = x := by rw [← hpb, hbx]
        subst hyx
        exact ih (i + 1) fuel ta q (by simpa [Nat.add_assoc] using ha1)
          (by simpa [Nat.add_assoc] using hb1) (fun z hz => hp z (by simp [hz]))
          (fun hc => hq ((List.prefix_cons_inj y).2 hc))

theorem whitespace_check_mismatch (input : List Nat) (a b : Nat) (p ta : List Nat)
    (ha : input.drop a = p ++ ta) (hp : ∀ x ∈ p, x = 32 ∨ x = 9)
    (hq : ¬ p <+: input.drop b) : whitespace_check input a b = .ok 0 := by
  have hlen : p.length ≤ input.length := by
    have := congrArg List.length ha
    simp at this; omega
  obtain ⟨k, hk⟩ : ∃ k, input.length + 1 = k + p.length :=
    ⟨input.length + 1 - p.length, by omega⟩
  unfold whitespace_check
  rw [hk]
  exact whitespace_check_loop_mismatch input a b p 0 k ta _ (by simpa using ha) rfl hp hq

/-- An indentation that is no prefix of the blanks `q` is no prefix of `q` followed by
something that starts with no blank. -/
theorem not_prefix_blanks :
    ∀ (p q tb : List Nat), (∀ x ∈ p, x = 32 ∨ x = 9) → ¬ p <+: q →
      ¬ (tb.headD 0 = 32 ∨ tb.headD 0 = 9) → ¬ p <+: q ++ tb := by
  intro p
  induction p with
  | nil => intro q tb _ h; exact absurd ( List.nil_prefix) h
  | cons x p ih =>
    intro q tb hp hq htb hc
    rcases q with _ | ⟨y, q⟩
    · obtain ⟨t, ht⟩ := hc
      simp only [List.nil_append, List.cons_append] at ht
      rw [← ht] at htb
      exact htb (by simpa using hp x (by simp))
    · rw [List.cons_append] at hc
      obtain ⟨t, ht⟩ := hc
      simp only [List.cons_append, List.cons.injEq] at ht
      obtain ⟨rfl, ht⟩ := ht
      exact ih q tb (fun z hz => hp z (by simp [hz]))
        (fun h => hq ((List.prefix_cons_inj x).2 h)) htb ⟨t, ht⟩

/-- The loop that reads a line of a text block over bytes that are neither `'\n'` nor
NUL. -/
theorem text_line_loop_prefix (input file : List Nat) (begin : Location) :
    ∀ (l : List Nat) (c : Nat) (block tail : List Nat) (fuel : Nat),
      input.drop c = l ++ tail → (∀ b ∈ l, b ≠ 10 ∧ b ≠ 0) →
      text_line_loop input file begin (fuel + l.length) c block
        = text_line_loop input file begin fuel (c + l.length) (block ++ l) := by
  intro l
  induction l with
  | nil => intro c block tail fuel _ _; simp
  | cons b l ih =>
    intro c block tail fuel hd hl
    obtain ⟨hp, hd1⟩ := peek_of_drop hd
    obtain ⟨hb1, hb2⟩ := hl b (by simp)
    rw [show fuel + (b :: l).length = (fuel + l.length) + 1 by
      simp only [List.length_cons]; omega, text_line_loop, hp, if_pos hb1, if_neg hb2,
      ih (c + 1) (block ++ [b]) tail fuel hd1 (fun x hx => hl x (by simp [hx]))]
    simp only [List.length_cons, List.append_assoc, List.singleton_append]
    congr 1
    omega

theorem text_line_loop_run (input file : List Nat) (begin : Location) (l : List Nat)
    (c : Nat) (block tail : List Nat) (hd : input.drop c = l ++ 10 :: tail)
    (hl : ∀ b ∈ l, b ≠ 10 ∧ b ≠ 0) :
    text_line_loop input file begin (input.length + 1) c block
      = .ok (c + l.length, block ++ l) := by
  have hlen : l.length ≤ input.length := by
    have := congrArg List.length hd
    simp at this; omega
  obtain ⟨k, hk⟩ : ∃ k, input.length + 1 = (k + 1) + l.length :=
    ⟨input.length - l.length, by omega⟩
  rw [hk, text_line_loop_prefix input file begin l c block _ (k + 1) hd hl, text_line_loop,
    peek_after_drop hd]
  simp

theorem text_line_loop_eof (input file : List Nat) (begin : Location) (l : List Nat)
    (c : Nat) (block : List Nat) (hd : input.drop c = l) (hl : ∀ b ∈ l, b ≠ 10 ∧ b ≠ 0) :
    text_line_loop input file begin (input.length + 1) c block
      = .error ⟨file, begin, str "Unexpected EOF"⟩ := by
  have hlen : l.length ≤ input.length := by
    have := congrArg List.length hd
    simp at this; omega
  obtain ⟨k, hk⟩ : ∃ k, input.length + 1 = (k + 1) + l.length :=
    ⟨input.length - l.length, by omega⟩
  rw [hk, text_line_loop_prefix input file begin l c block [] (k + 1) (by simpa using hd) hl,
    text_line_loop, peek_after_drop (show input.drop c = l ++ [] by simpa using hd)]
  simp

/-- The loop that skips blanks, over the blanks `q` followed by a byte that is none. -/
theorem skip_blanks_loop_run (input : List Nat) :
    ∀ (q : List Nat) (c : Nat) (tail : List Nat) (fuel : Nat),
      input.drop c = q ++ tail → (∀ x ∈ q, x = 32 ∨ x = 9) →
      ¬ (tail.headD 0 = 32 ∨ tail.headD 0 = 9) →
      skip_blanks_loop input (fuel + q.length + 1) c = .ok (c + q.length) := by
  intro q
  induction q with
  | nil =>
    intro c tail fuel hd _ ht
    have hp := peek_after_drop (show input.drop c = [] ++ tail from hd)
    simp only [List.length_nil, Nat.add_zero] at hp ⊢
    rw [skip_blanks_loop, hp, if_neg ht]
  | cons x q ih =>
    intro c tail fuel hd hq ht
    obtain ⟨hp, hd1⟩ := peek_of_drop hd
    rw [show fuel + (x :: q).length + 1 = (fuel + q.length + 1) + 1 by
      simp only [List.length_cons]; omega, skip_blanks_loop, hp, if_pos (hq x (by simp)),
      ih (c + 1) tail fuel hd1 (fun y hy => hq y (by simp [hy])) ht]
    simp only [List.length_cons]
    congr 1
    omega

theorem skip_blanks_run (input : List Nat) (q : List Nat) (c : Nat) (tail : List Nat)
    (hd : input.drop c = q ++ tail) (hq : ∀ x ∈ q, x = 32 ∨ x = 9)
    (ht : ¬ (tail.headD 0 = 32 ∨ tail.headD 0 = 9)) :
    skip_blanks_loop input (input.length + 1) c = .ok (c + q.length) := by
  have hlen : q.length ≤ input.length := by
    have := congrArg List.length hd
    simp at this; omega
  have := skip_blanks_loop_run input q c tail (input.length - q.length) hd hq ht
  rwa [show input.length - q.length + q.length + 1 = input.length + 1 by omega] at this

theorem drop_after {input : List Nat} {c : Nat} {w t : List Nat}
    (h : input.drop c = w ++ t) : input.drop (c + w.length) = t := by
  rw [← List.drop_drop, h]; simp

theorem text_block_body_length (p : List Nat) :
    ∀ ls : List (List Nat), ls.length ≤ (text_block_body p ls).length := by
  intro ls
  induction ls with
  | nil => simp
  | cons l ls ih => simp only [text_block_body, List.length_append, List.length_cons]; omega

/-- After a line of a text block, a line that starts with the indentation is read as the
next line of the block. -/
theorem text_block_next_continue (input file : List Nat) (begin : Location)
    (first_line fuel : Nat) (st2 : Cursor) (block2 : List Nat) (ws : Nat)
    (hws : whitespace_check input first_line st2.c = .ok ws) (hne : ws ≠ 0) :
    text_block_next input file begin first_line fuel st2 block2 =
      text_block_loop input file begin first_line fuel ws st2 block2 := by
  unfold text_block_next
  simp only [hws, Outcome.bind, if_neg hne]

/-- After a line of a text block, a line that does not start with the indentation ends
the block: blanks, then `|||`. -/
theorem text_block_next_end (input file : List Nat) (begin : Location)
    (first_line fuel : Nat) (st2 : Cursor) (block2 : List Nat) (c3 : Nat)
    (hws : whitespace_check input first_line st2.c = .ok 0)
    (hsk : skip_blanks_loop input (input.length + 1) st2.c = .ok c3) :
    text_block_next input file begin first_line fuel st2 block2 =
      if ¬ (peek input c3 = 124 ∧ peek input (c3 + 1) = 124 ∧ peek input (c3 + 2) = 124) then
        .error ⟨file, begin, str "Text block not terminated with |||"⟩
      else .ok ({ st2 with c := c3 + 2 }, block2) := by
  unfold text_block_next
  simp only [hws, hsk, Outcome.bind, if_true]

/-- The loop of a text block over the lines `l :: ls`, each indented by the indentation
`p` of the first line: it reads them all and comes to what follows the last. -/
theorem text_block_loop_lines (input file : List Nat) (begin : Location) (first_line : Nat)
    (p ta : List Nat) (hfl : input.drop first_line = p ++ ta) (hp : IsBlanks p)
    (hpne : p ≠ []) (hta : ¬ (ta.headD 0 = 32 ∨ ta.headD 0 = 9)) :
    ∀ (ls : List (List Nat)) (l : List Nat) (st : Cursor) (block tail : List Nat)
      (fuel : Nat),
      input.drop st.c = text_block_body p (l :: ls) ++ tail →
      (∀ x ∈ l :: ls, ∀ b ∈ x, b ≠ 10 ∧ b ≠ 0) →
      text_block_loop input file begin first_line (fuel + ls.length + 1) p.length st block =
        text_block_next input file begin first_line fuel
          ⟨st.c + (text_block_body p (l :: ls)).length, st.line_number + (ls.length + 1),
            st.c + (text_block_body p (l :: ls)).length⟩
          (block ++ text_block_data (l :: ls)) := by
  intro ls
  induction ls with
  | nil =>
    intro l st block tail fuel hd hl
    have hd1 : input.drop (st.c + p.length) = l ++ 10 :: tail := by
      apply drop_after
      rw [hd]; simp [text_block_body]
    rw [show fuel + ([] : List (List Nat)).length + 1 = fuel + 1 from rfl,
      text_block_loop_unfold,
      text_line_loop_run input file begin l _ block tail hd1 (hl l (by simp))]
    simp only [Outcome.bind, text_block_body, text_block_data, List.length_append,
      List.length_cons, List.length_nil, List.append_assoc, List.singleton_append]
    congr 2 <;> omega
  | cons l2 ls ih =>
    intro l st block tail fuel hd hl
    have hd1 : input.drop (st.c + p.length) =
        l ++ 10 :: (text_block_body p (l2 :: ls) ++ tail) := by
      apply drop_after
      rw [hd]; simp [text_block_body]
    have hd2 : input.drop (st.c + p.length + l.length + 1) =
        text_block_body p (l2 :: ls) ++ tail := by
      have := drop_after (show input.drop (st.c + p.length) =
        (l ++ [10]) ++ (text_block_body p (l2 :: ls) ++ tail) by rw [hd1]; simp)
      simpa [Nat.add_assoc] using this
    have hws : whitespace_check input first_line (st.c + p.length + l.length + 1)
        = .ok p.length :=
      whitespace_check_match input _ _ p ta _ hfl
        (show _ = p ++ (l2 ++ 10 :: (text_block_body p ls ++ tail)) by
          rw [hd2]; simp [text_block_body]) hp hta
    have hne : p.length ≠ 0 := by
      intro h0; exact hpne (List.length_eq_zero.1 h0)
    have ih1 := ih l2 ⟨st.c + p.length + l.length + 1, st.line_number + 1,
      st.c + p.length + l.length + 1⟩ (block ++ l ++ [10]) tail fuel hd2
      (fun x hx => hl x (by simp [hx]))
    rw [show fuel + (l2 :: ls).length + 1 = (fuel + ls.length + 1) + 1 by
      simp only [List.length_cons]; omega, text_block_loop_unfold,
      text_line_loop_run input file begin l _ block _ hd1 (hl l (by simp))]
    simp only [Outcome.bind]
    rw [text_block_next_continue input file begin first_line _ _ _ p.length hws hne, ih1]
    have e1 : st.c + p.length + l.length + 1 + (text_block_body p (l2 :: ls)).length
        = st.c + (text_block_body p (l :: l2 :: ls)).length := by
      simp only [text_block_body, List.length_append, List.length_cons]; omega
    have e2 : st.line_number + 1 + (ls.length + 1) = st.line_number + ((l2 :: ls).length + 1) := by
      simp only [List.length_cons]; omega
    have e3 : block ++ l ++ [10] ++ text_block_data (l2 :: ls)
        = block ++ text_block_data (l :: l2 :: ls) := by
      simp [text_block_data]
    simp only [e1, e2, e3]

/-- The body of the driver at the opening `|||` of a text block. -/
theorem lex_body_of_text_block (file input : List Nat) (st : Cursor)
    (h : peek input st.c = 124 ∧ peek input (st.c + 1) = 124 ∧ peek input (st.c + 2) = 124
      ∧ peek input (st.c + 3) = 10) :
    lex_body file input st =
      (whitespace_check input (st.c + 4) (st.c + 4)).bind fun ws =>
        if ws = 0 then
          .error ⟨file, ⟨st.line_number, st.c - st.line_start + 1⟩,
            str "Text block's first line must start with whitespace."⟩
        else
          (text_block_loop input file ⟨st.line_number, st.c - st.line_start + 1⟩ (st.c + 4)
            (input.length + 1) ws ⟨st.c + 4, st.line_number + 1, st.c + 4⟩ []).bind fun r =>
              .ok (.emit .STRING r.2 r.1) := by
  obtain ⟨h0, h1, h2, h3⟩ := h
  simp [lex_body, h0, h1, h2, h3, punctuation, is_number, is_identifier_first, is_upper,
    is_lower, is_symbol]

/-- The body of the driver on a text block that starts the input, with the body lines
`ls` indented by `p`: what remains is what follows the last line. -/
theorem lex_body_text_block_lines (file p : List Nat) (ls : List (List Nat))
    (tail : List Nat) (hp : IsBlanks p) (hpne : p ≠ []) (hls : IsTextLines ls) :
    ∃ f, lex_body file (str "|||\n" ++ text_block_body p ls ++ tail) ⟨0, 1, 0⟩ =
      (text_block_next (str "|||\n" ++ text_block_body p ls ++ tail) file ⟨1, 1⟩ 4 (f + 1)
        ⟨4 + (text_block_body p ls).length, ls.length + 2,
          4 + (text_block_body p ls).length⟩ (text_block_data ls)).bind fun r =>
        .ok (.emit .STRING r.2 r.1) := by
  obtain ⟨hne, hl, h1⟩ := hls
  obtain ⟨l, ls1, rfl⟩ := List.exists_cons_of_ne_nil hne
  rw [show str "|||\n" = [124, 124, 124, 10] by decide]
  obtain ⟨input, hinput⟩ :
      ∃ input, input = [124, 124, 124, 10] ++ text_block_body p (l :: ls1) ++ tail :=
    ⟨_, rfl⟩
  rw [← hinput]
  have hpk : peek input 0 = 124 ∧ peek input (0 + 1) = 124 ∧ peek input (0 + 2) = 124
      ∧ peek input (0 + 3) = 10 := by
    rw [hinput]; exact ⟨rfl, rfl, rfl, rfl⟩
  have hd4 : input.drop 4 = text_block_body p (l :: ls1) ++ tail := by
    rw [hinput]; simp
  have hfl : input.drop 4 = p ++ (l ++ 10 :: (text_block_body p ls1 ++ tail)) := by
    rw [hd4]; simp [text_block_body]
  have hta : ¬ ((l ++ 10 :: (text_block_body p ls1 ++ tail)).headD 0 = 32
      ∨ (l ++ 10 :: (text_block_body p ls1 ++ tail)).headD 0 = 9) := by
    rcases l with _ | ⟨b, l⟩
    · simp
    · simpa using h1
  have hws := whitespace_check_match input 4 4 p _ _ hfl hfl hp hta
  have hne0 : p.length ≠ 0 := by
    intro h0; exact hpne (List.length_eq_zero.1 h0)
  have hlen : ls1.length + 5 ≤ input.length := by
    have := text_block_body_length p (l :: ls1)
    rw [hinput]
    simp only [List.length_append, List.length_cons, List.length_nil] at this ⊢
    omega
  refine ⟨input.length - ls1.length - 1, ?_⟩
  have hbody := lex_body_of_text_block file input ⟨0, 1, 0⟩ hpk
  have hrun := text_block_loop_lines input file ⟨1, 1⟩ 4 p _ hfl hp hpne hta ls1 l ⟨4, 2, 4⟩ []
    tail (input.length - ls1.length - 1 + 1) hd4 hl
  rw [show input.length - ls1.length - 1 + 1 + ls1.length + 1 = input.length + 1 by omega]
    at hrun
  rw [hbody]
  simp only [Nat.zero_add, hws, Outcome.bind, if_neg hne0]
  rw [show (⟨1, 0 - 0 + 1⟩ : Location) = ⟨1, 1⟩ from rfl, hrun]
  simp only [List.nil_append, List.length_cons]
  rw [show 2 + (ls1.length + 1) = ls1.length + 1 + 2 by omega]

/-- The body of a text block starts with the indentation of its first line, and what
follows the indentation starts with no blank. -/
theorem text_lines_first (p : List Nat) {ls : List (List Nat)} (hls : IsTextLines ls)
    (tail : List Nat) :
    ∃ ta, text_block_body p ls ++ tail = p ++ ta ∧ ¬ (ta.headD 0 = 32 ∨ ta.headD 0 = 9) := by
  obtain ⟨hne, -, h1⟩ := hls
  obtain ⟨l, ls1, rfl⟩ := List.exists_cons_of_ne_nil hne
  refine ⟨l ++ 10 :: (text_block_body p ls1 ++ tail), by simp [text_block_body], ?_⟩
  rcases l with _ | ⟨b, l⟩
  · simp
  · simpa using h1

/-- Three `|` at the cursor are a prefix of what is left of the input. -/
theorem prefix_of_peek_bars {input : List Nat} {c : Nat} {r : List Nat}
    (hd : input.drop c = r)
    (h : peek input c = 124 ∧ peek input (c + 1) = 124 ∧ peek input (c + 2) = 124) :
    [124, 124, 124] <+: r := by
  obtain ⟨h0, h1, h2⟩ := h
  rcases r with _ | ⟨a, r⟩
  · rw [peek_of_drop_nil hd] at h0; omega
  obtain ⟨ha, hd1⟩ := peek_of_drop hd
  rcases r with _ | ⟨b, r⟩
  · rw [peek_of_drop_nil hd1] at h1; omega
  obtain ⟨hb, hd2⟩ := peek_of_drop hd1
  rcases r with _ | ⟨x, r⟩
  · rw [peek_of_drop_nil hd2] at h2; omega
  obtain ⟨hx, -⟩ := peek_of_drop hd2
  rw [← ha, ← hb, ← hx, h0, h1, h2]
  exact ⟨r, rfl⟩

/-! ## The `int`s of `whitespace_check` stay in range -/

/-- The index `i` of `whitespace_check(a, b)` does not pass the first byte of the line at
`a` that is no space or tab. -/
theorem whitespace_check_iters_le (input : List Nat) (a b m : Nat)
    (hm : ¬ (peek input (a + m) = 32 ∨ peek input (a + m) = 9)) :
    ∀ (fuel i : Nat), i ≤ m →
      ∀ it ∈ whitespace_check_iters input a b fuel i, it.cursor ≤ m := by
  intro fuel
  induction fuel with
  | zero => intro i _ it hit; simp [whitespace_check_iters] at hit
  | succ fuel ih =>
    intro i hi it hit
    rw [whitespace_check_iters] at hit
    by_cases hws : peek input (a + i) = 32 ∨ peek input (a + i) = 9
    · have him : i ≠ m := fun h => hm (h ▸ hws)
      rw [if_pos hws] at hit
      by_cases hne : peek input (b + i) ≠ peek input (a + i)
      · rw [if_pos hne] at hit
        simp only [List.mem_singleton] at hit
        subst hit
        exact hi
      · rw [if_neg hne] at hit
        rcases List.mem_cons.1 hit with rfl | hit
        · exact hi
        · exact ih (i + 1) (by omega) it hit
    · rw [if_neg hws] at hit
      simp only [List.mem_singleton] at hit
      subst hit
      exact hi

/-- The count that `whitespace_check(a, b)` returns is at most the number of spaces and
tabs at the start of the line at `a`. -/
theorem whitespace_check_loop_le (input : List Nat) (a b m : Nat)
    (hm : ¬ (peek input (a + m) = 32 ∨ peek input (a + m) = 9)) :
    ∀ (fuel i ws : Nat), i ≤ m → whitespace_check_loop input a b fuel i = .ok ws →
      ws ≤ m := by
  intro fuel
  induction fuel with
  | zero => intro i ws _ h; simp [whitespace_check_loop] at h
  | succ fuel ih =>
    intro i ws hi h
    rw [whitespace_check_loop] at h
    by_cases hws : peek input (a + i) = 32 ∨ peek input (a + i) = 9
    · have him : i ≠ m := fun h => hm (h ▸ hws)
      rw [if_pos hws] at h
      by_cases hne : peek input (b + i) ≠ peek input (a + i)
      · rw [if_pos hne] at h
        simp only [Outcome.ok.injEq] at h
        omega
      · rw [if_neg hne] at h
        exact ih (i + 1) ws (by omega) h
    · rw [if_neg hws] at h
      simp only [Outcome.ok.injEq] at h
      omega

/-- The `int`s of `whitespace_check` are exact when the line at `a` has a byte that is no
space or tab at an index `m` that is at most `INT_MAX`. -/
theorem IntExact_of_stop (input : List Nat) (a m : Nat)
    (hm : ¬ (peek input (a + m) = 32 ∨ peek input (a + m) = 9)) (hint : m ≤ INT_MAX) :
    IntExact input a := by
  intro b fuel
  constructor
  · intro it hit
    exact Nat.le_trans (whitespace_check_iters_le input a b m hm fuel 0 (Nat.zero_le m) it hit)
      hint
  · intro ws h
    exact Nat.le_trans (whitespace_check_loop_le input a b m hm fuel 0 ws (Nat.zero_le m) h)
      hint

/-- The `int`s of `whitespace_check` are exact when the indentation of the line at `a` has
at most `INT_MAX` bytes. -/
theorem IntExact_of_indent (input : List Nat) (a : Nat) (p ta : List Nat)
    (ha : input.drop a = p ++ ta) (hta : ¬ (ta.headD 0 = 32 ∨ ta.headD 0 = 9))
    (hint : p.length ≤ INT_MAX) : IntExact input a :=
  IntExact_of_stop input a p.length (by rw [peek_after_drop ha]; exact hta) hint

/-- The `int`s of `whitespace_check` are exact on an input of at most `INT_MAX` bytes. -/
theorem IntExact_of_length (input : List Nat) (hint : input.length ≤ INT_MAX) (a : Nat) :
    IntExact input a := by
  refine IntExact_of_stop input a input.length ?_ hint
  have h0 : peek input (a + input.length) = 0 := by
    simp [peek, List.getElem?_eq_none (Nat.le_add_left input.length a)]
  rw [h0]
  omega

/-- C12. Text-block round trip: for every non-empty indentation `p` of spaces and tabs of
at most `INT_MAX` bytes (the values that the `int`s `i` and `ws_chars` of the source can
hold), every non-empty list of lines `ls` (none with a `'\n'` or a NUL byte, the first not
starting with a space or tab) and every string `q` of spaces and tabs of which `p` is no
prefix, the input `|||\n` ++ (p ++ l ++ `\n` for each line l) ++ q ++ `|||` lexes to
exactly one `STRING` token followed by `END_OF_FILE`, and the data of the `STRING` is the
lines, each followed by `'\n'`; and in every call of `whitespace_check` on the first line
of the block (at the offset 4) the index `i` and the count returned stay at most
`INT_MAX`, so that the `int`s of the source do not overflow. -/
theorem text_block_round_trip (file p q : List Nat) (ls : List (List Nat))
    (hp : IsBlanks p) (hpne : p ≠ []) (hls : IsTextLines ls) (hq : IsBlanks q)
    (hpq : ¬ p <+: q) (hint : p.length ≤ INT_MAX) :
    jsonnet_lex file (str "|||\n" ++ text_block_body p ls ++ q ++ str "|||") =
      .ok [⟨.STRING, text_block_data ls, ⟨file, ⟨1, 1⟩, ⟨ls.length + 2, q.length + 3⟩⟩⟩,
        ⟨.END_OF_FILE, [],
          ⟨file, ⟨ls.length + 2, q.length + 4⟩, ⟨ls.length + 2, q.length + 4⟩⟩⟩] ∧
    IntExact (str "|||\n" ++ text_block_body p ls ++ q ++ str "|||") 4 := by
  have hbar : str "|||" = [124, 124, 124] := by decide
  rw [hbar, List.append_assoc _ q]
  obtain ⟨f, hbody⟩ := lex_body_text_block_lines file p ls (q ++ [124, 124, 124]) hp hpne hls
  obtain ⟨ta, hta1, hta2⟩ := text_lines_first p hls (q ++ [124, 124, 124])
  have hstr : str "|||\n" = [124, 124, 124, 10] := by decide
  obtain ⟨input, hinput⟩ :
      ∃ input, input = str "|||\n" ++ text_block_body p ls ++ (q ++ [124, 124, 124]) :=
    ⟨_, rfl⟩
  rw [← hinput] at hbody ⊢
  obtain ⟨c2, hc2⟩ : ∃ c2, c2 = 4 + (text_block_body p ls).length := ⟨_, rfl⟩
  rw [← hc2] at hbody
  have hp0 : peek input 0 = 124 := by rw [hinput, hstr]; rfl
  have hd4 : input.drop 4 = p ++ ta := by
    rw [hinput, hstr, ← hta1]; simp
  refine ⟨?_, IntExact_of_indent input 4 p ta hd4 hta2 hint⟩
  have hdc : input.drop c2 = q ++ [124, 124, 124] := by
    have h := drop_after (show input.drop 0 =
      (str "|||\n" ++ text_block_body p ls) ++ (q ++ [124, 124, 124]) by rw [hinput]; rfl)
    rw [show 0 + (str "|||\n" ++ text_block_body p ls).length = c2 by
      rw [hc2, hstr]; simp; omega] at h
    exact h
  have hdq : input.drop (c2 + q.length) = [124, 124, 124] := drop_after hdc
  have hlen : input.length = c2 + q.length + 3 := by
    rw [hinput, hc2, hstr]; simp; omega
  have hws := whitespace_check_mismatch input 4 c2 p ta hd4 hp
    (by rw [hdc]; exact not_prefix_blanks p q _ hp hpq (by decide))
  have hsk := skip_blanks_run input q c2 _ hdc hq (by decide)
  obtain ⟨h0, hd1⟩ := peek_of_drop hdq
  obtain ⟨h1, hd2⟩ := peek_of_drop hd1
  obtain ⟨h2, hd3⟩ := peek_of_drop hd2
  have hend : peek input (c2 + q.length + 2 + 1) = 0 := peek_of_drop_nil hd3
  rw [text_block_next_end input file ⟨1, 1⟩ 4 _ ⟨c2, ls.length + 2, c2⟩ _ _ hws hsk,
    if_neg (not_not.2 ⟨h0, h1, h2⟩)] at hbody
  simp only [Outcome.bind] at hbody
  unfold jsonnet_lex jsonnet_lex_trace
  rw [lex_loop_emit file input _ ⟨0, 1, 0⟩ _ _ _ (by rw [hp0]; omega) hbody,
    show input.length = (input.length - 1) + 1 by omega,
    lex_loop_eof file input _ _ hend]
  simp only [Outcome.bind, List.filterMap_cons, List.filterMap_nil]
  rw [show c2 + q.length + 2 - c2 + 1 = q.length + 3 by omega,
    show c2 + q.length + 2 + 1 - c2 + 1 = q.length + 4 by omega]

/-- The text block of the specification, `hello` and `world` indented by two spaces, and
one with a line that is indented more, an empty line and a closing `|||` after a tab; in
the first, `whitespace_check` on the first and the second line counts `i` from 0 to 2. -/
theorem text_block_round_trip_witness :
    (jsonnet_lex [] (str "|||\n  hello\n  world\n|||") =
      .ok [⟨.STRING, str "hello\nworld\n", ⟨[], ⟨1, 1⟩, ⟨4, 3⟩⟩⟩,
        ⟨.END_OF_FILE, [], ⟨[], ⟨4, 4⟩, ⟨4, 4⟩⟩⟩] ∧
      IntExact (str "|||\n  hello\n  world\n|||") 4) ∧
    (jsonnet_lex [] (str "|||\n \ta\n \t b|||\n \t\n\t|||") =
      .ok [⟨.STRING, str "a\n b|||\n\n", ⟨[], ⟨1, 1⟩, ⟨5, 4⟩⟩⟩,
        ⟨.END_OF_FILE, [], ⟨[], ⟨5, 5⟩, ⟨5, 5⟩⟩⟩] ∧
      IntExact (str "|||\n \ta\n \t b|||\n \t\n\t|||") 4) ∧
    whitespace_check (str "|||\n  hello\n  world\n|||") 4 12 = .ok 2 ∧
    whitespace_check_iters (str "|||\n  hello\n  world\n|||") 4 12 24 0 =
      [⟨0, [4, 12], []⟩, ⟨1, [5, 13], []⟩, ⟨2, [6], []⟩] :=
  ⟨text_block_round_trip [] (str "  ") [] [str "hello", str "world"] (by decide) (by decide)
      (by decide) (by decide) (by decide) (by decide),
   text_block_round_trip [] (str " \t") (str "\t") [str "a", str " b|||", []] (by decide)
      (by decide) (by decide) (by decide) (by decide) (by decide),
   by decide, by decide⟩

/-- The offset after the opening line and the body lines of a text block. -/
theorem drop_text_block_body (p : List Nat) (ls : List (List Nat)) (tail : List Nat) :
    (str "|||\n" ++ text_block_body p ls ++ tail).drop (4 + (text_block_body p ls).length)
      = tail := by
  have h := drop_after (show (str "|||\n" ++ text_block_body p ls ++ tail).drop 0 =
    (str "|||\n" ++ text_block_body p ls) ++ tail from rfl)
  rw [show 0 + (str "|||\n" ++ text_block_body p ls).length
      = 4 + (text_block_body p ls).length by
    rw [show str "|||\n" = [124, 124, 124, 10] by decide]; simp; omega] at h
  exact h

/-- The lexer on an input whose first iteration throws. -/
theorem jsonnet_lex_first_error (file input : List Nat) (e : StaticError)
    (h0 : peek input 0 ≠ 0) (hb : lex_body file input ⟨0, 1, 0⟩ = .error e) :
    jsonnet_lex file input = .error e := by
  unfold jsonnet_lex jsonnet_lex_trace
  rw [lex_loop_body_error file input _ ⟨0, 1, 0⟩ e h0 hb]
  rfl

/-- C18. Malformed text blocks are rejected, each error at the opening `|||` (line 1,
column 1): (a) when the byte after `|||\n` is no space or tab (the end of the input
included), with `Text block's first line must start with whitespace.`; (b) when the input
ends inside a body line, the first or a later one, before its `'\n'`, with
`Unexpected EOF`; (c) when what follows the last body line does not start with the
indentation `p` and, after its leading spaces and tabs `q`, does not start with `|||`, with
`Text block not terminated with |||`.  In (b) and (c) the indentation `p` has at most
`INT_MAX` bytes (the values that the `int`s `i` and `ws_chars` of the source can hold),
and in every call of `whitespace_check` on the first line of the block (at the offset 4)
the index `i` and the count returned stay at most `INT_MAX`; in (a) `whitespace_check`
stops at `i = 0`. -/
theorem text_block_errors (file : List Nat) :
    (∀ rest, ¬ (rest.headD 0 = 32 ∨ rest.headD 0 = 9) →
      jsonnet_lex file (str "|||\n" ++ rest) = .error ⟨file, ⟨1, 1⟩,
        str "Text block's first line must start with whitespace."⟩) ∧
    (∀ p u, IsBlanks p → p ≠ [] → p.length ≤ INT_MAX → (∀ b ∈ u, b ≠ 10 ∧ b ≠ 0) →
      ¬ (u.headD 0 = 32 ∨ u.headD 0 = 9) →
      jsonnet_lex file (str "|||\n" ++ p ++ u) =
        .error ⟨file, ⟨1, 1⟩, str "Unexpected EOF"⟩ ∧
      IntExact (str "|||\n" ++ p ++ u) 4) ∧
    (∀ p ls u, IsBlanks p → p ≠ [] → p.length ≤ INT_MAX → IsTextLines ls →
      (∀ b ∈ u, b ≠ 10 ∧ b ≠ 0) →
      jsonnet_lex file (str "|||\n" ++ text_block_body p ls ++ p ++ u) =
        .error ⟨file, ⟨1, 1⟩, str "Unexpected EOF"⟩ ∧
      IntExact (str "|||\n" ++ text_block_body p ls ++ p ++ u) 4) ∧
    (∀ p ls q r, IsBlanks p → p ≠ [] → p.length ≤ INT_MAX → IsTextLines ls → IsBlanks q →
      ¬ p <+: q → ¬ (r.headD 0 = 32 ∨ r.headD 0 = 9) → ¬ (str "|||") <+: r →
      jsonnet_lex file (str "|||\n" ++ text_block_body p ls ++ q ++ r) =
        .error ⟨file, ⟨1, 1⟩, str "Text block not terminated with |||"⟩ ∧
      IntExact (str "|||\n" ++ text_block_body p ls ++ q ++ r) 4) := by
  have hstr : str "|||\n" = [124, 124, 124, 10] := by decide
  refine ⟨?_, ?_, ?_, ?_⟩
  · intro rest hrest
    obtain ⟨input, hinput⟩ : ∃ input, input = str "|||\n" ++ rest := ⟨_, rfl⟩
    rw [← hinput]
    have hpk : peek input 0 = 124 ∧ peek input (0 + 1) = 124 ∧ peek input (0 + 2) = 124
        ∧ peek input (0 + 3) = 10 := by
      rw [hinput, hstr]; exact ⟨rfl, rfl, rfl, rfl⟩
    have hd4 : input.drop 4 = [] ++ rest := by rw [hinput, hstr]; rfl
    have hws := whitespace_check_match input 4 4 [] rest rest hd4 hd4 (by simp) hrest
    have hbody := lex_body_of_text_block file input ⟨0, 1, 0⟩ hpk
    simp only [Nat.zero_add, hws, Outcome.bind, List.length_nil, if_true] at hbody
    exact jsonnet_lex_first_error file input _ (by rw [hpk.1]; omega) hbody
  · intro p u hp hpne hint hu hu1
    rw [List.append_assoc]
    obtain ⟨input, hinput⟩ : ∃ input, input = str "|||\n" ++ (p ++ u) := ⟨_, rfl⟩
    rw [← hinput]
    have hpk : peek input 0 = 124 ∧ peek input (0 + 1) = 124 ∧ peek input (0 + 2) = 124
        ∧ peek input (0 + 3) = 10 := by
      rw [hinput, hstr]; exact ⟨rfl, rfl, rfl, rfl⟩
    have hd4 : input.drop 4 = p ++ u := by rw [hinput, hstr]; rfl
    have hws := whitespace_check_match input 4 4 p u u hd4 hd4 hp hu1
    have hne0 : p.length ≠ 0 := by
      intro h0; exact hpne (List.length_eq_zero.1 h0)
    have hline := text_line_loop_eof input file ⟨1, 1⟩ u (4 + p.length) []
      (drop_after hd4) hu
    have hbody := lex_body_of_text_block file input ⟨0, 1, 0⟩ hpk
    simp only [Nat.zero_add, hws, Outcome.bind, if_neg hne0] at hbody
    rw [show (⟨1, 0 - 0 + 1⟩ : Location) = ⟨1, 1⟩ from rfl, text_block_loop_unfold, hline]
      at hbody
    simp only [Outcome.bind] at hbody
    exact ⟨jsonnet_lex_first_error file input _ (by rw [hpk.1]; omega) hbody,
      IntExact_of_indent input 4 p u hd4 hu1 hint⟩
  · intro p ls u hp hpne hint hls hu
    rw [List.append_assoc _ p]
    obtain ⟨f, hbody⟩ := lex_body_text_block_lines file p ls (p ++ u) hp hpne hls
    obtain ⟨ta, hta1, hta2⟩ := text_lines_first p hls (p ++ u)
    have hdc := drop_text_block_body p ls (p ++ u)
    obtain ⟨input, hinput⟩ :
        ∃ input, input = str "|||\n" ++ text_block_body p ls ++ (p ++ u) := ⟨_, rfl⟩
    rw [← hinput] at hbody hdc ⊢
    obtain ⟨c2, hc2⟩ : ∃ c2, c2 = 4 + (text_block_body p ls).length := ⟨_, rfl⟩
    rw [← hc2] at hbody hdc
    have hp0 : peek input 0 = 124 := by rw [hinput, hstr]; rfl
    have hd4 : input.drop 4 = p ++ ta := by
      rw [hinput, hstr, ← hta1]; simp
    have hws := whitespace_check_match input 4 c2 p ta u hd4 hdc hp hta2
    have hne0 : p.length ≠ 0 := by
      intro h0; exact hpne (List.length_eq_zero.1 h0)
    have hline := text_line_loop_eof input file ⟨1, 1⟩ u (c2 + p.length) (text_block_data ls)
      (drop_after hdc) hu
    rw [text_block_next_continue input file ⟨1, 1⟩ 4 _ ⟨c2, ls.length + 2, c2⟩ _ p.length
      hws hne0, text_block_loop_unfold, hline] at hbody
    simp only [Outcome.bind] at hbody
    exact ⟨jsonnet_lex_first_error file input _ (by rw [hp0]; omega) hbody,
      IntExact_of_indent input 4 p ta hd4 hta2 hint⟩
  · intro p ls q r hp hpne hint hls hq hpq hr hbars
    rw [show str "|||" = [124, 124, 124] by decide] at hbars
    rw [List.append_assoc _ q]
    obtain ⟨f, hbody⟩ := lex_body_text_block_lines file p ls (q ++ r) hp hpne hls
    obtain ⟨ta, hta1, hta2⟩ := text_lines_first p hls (q ++ r)
    have hdc := drop_text_block_body p ls (q ++ r)
    obtain ⟨input, hinput⟩ :
        ∃ input, input = str "|||\n" ++ text_block_body p ls ++ (q ++ r) := ⟨_, rfl⟩
    rw [← hinput] at hbody hdc ⊢
    obtain ⟨c2, hc2⟩ : ∃ c2, c2 = 4 + (text_block_body p ls).length := ⟨_, rfl⟩
    rw [← hc2] at hbody hdc
    have hp0 : peek input 0 = 124 := by rw [hinput, hstr]; rfl
    have hd4 : input.drop 4 = p ++ ta := by
      rw [hinput, hstr, ← hta1]; simp
    have hws := whitespace_check_mismatch input 4 c2 p ta hd4 hp
      (by rw [hdc]; exact not_prefix_blanks p q r hp hpq hr)
    have hsk := skip_blanks_run input q c2 r hdc hq hr
    have hnb : ¬ (peek input (c2 + q.length) = 124 ∧ peek input (c2 + q.length + 1) = 124
        ∧ peek input (c2 + q.length + 2) = 124) :=
      fun h => hbars (prefix_of_peek_bars (drop_after hdc) h)
    rw [text_block_next_end input file ⟨1, 1⟩ 4 _ ⟨c2, ls.length + 2, c2⟩ _ _ hws hsk,
      if_pos hnb] at hbody
    simp only [Outcome.bind] at hbody
    exact ⟨jsonnet_lex_first_error file input _ (by rw [hp0]; omega) hbody,
      IntExact_of_indent input 4 p ta hd4 hta2 hint⟩

/-- The three inputs of the specification, `|||\nfoo\n|||`, `|||\n foo` and
`|||\n foo\nbar`; a block that ends inside its second line; and one whose closing line has
only two `|`. -/
theorem text_block_errors_witness :
    jsonnet_lex [] (str "|||\nfoo\n|||") = .error ⟨[], ⟨1, 1⟩,
      str "Text block's first line must start with whitespace."⟩ ∧
    jsonnet_lex [] (str "|||\n foo") = .error ⟨[], ⟨1, 1⟩, str "Unexpected EOF"⟩ ∧
    jsonnet_lex [] (str "|||\n foo\n ba") = .error ⟨[], ⟨1, 1⟩, str "Unexpected EOF"⟩ ∧
    jsonnet_lex [] (str "|||\n foo\nbar") =
      .error ⟨[], ⟨1, 1⟩, str "Text block not terminated with |||"⟩ ∧
    jsonnet_lex [] (str "|||\n\tfoo\n  ||") =
      .error ⟨[], ⟨1, 1⟩, str "Text block not terminated with |||"⟩ ∧
    IntExact (str "|||\n\tfoo\n  ||") 4 :=
  ⟨(text_block_errors []).1 (str "foo\n|||") (by decide),
   ((text_block_errors []).2.1 (str " ") (str "foo") (by decide) (by decide) (by decide)
     (by decide) (by decide)).1,
   ((text_block_errors []).2.2.1 (str " ") [str "foo"] (str "ba") (by decide) (by decide)
     (by decide) (by decide) (by decide)).1,
   ((text_block_errors []).2.2.2 (str " ") [str "foo"] [] (str "bar") (by decide) (by decide)
     (by decide) (by decide) (by decide) (by decide) (by decide) (by decide)).1,
   ((text_block_errors []).2.2.2 (str "\t") [str "foo"] (str "  ") (str "||") (by decide)
     (by decide) (by decide) (by decide) (by decide) (by decide) (by decide) (by decide)).1,
   ((text_block_errors []).2.2.2 (str "\t") [str "foo"] (str "  ") (str "||") (by decide)
     (by decide) (by decide) (by decide) (by decide) (by decide) (by decide) (by decide)).2⟩

/-! ## Line comments: the rest of the input is lexed as if it stood alone -/

theorem Outcome.down_bind {α β γ δ : Type} (x : Outcome α) (h : α → Outcome β)
    (f : β → δ) (g : α → γ) (h2 : γ → Outcome δ)
    (hh : ∀ a, x = .ok a → (h a).down f = h2 (g a)) :
    (x.bind h).down f = (x.down g).bind h2 := by
  cases x with
  | ok a => exact hh a rfl
  | error e => rfl
  | diverge => rfl

theorem bind_ne_diverge_left {α β : Type} {x : Outcome α} {f : α → Outcome β}
    (h : x.bind f ≠ .diverge) : x ≠ .diverge := by
  intro hx; rw [hx] at h; exact h rfl

theorem bind_ne_diverge_right {α β : Type} {x : Outcome α} {f : α → Outcome β} {a : α}
    (h : x.bind f ≠ .diverge) (hx : x = .ok a) : f a ≠ .diverge := by
  rw [hx] at h; exact h

theorem identifier_loop_shift (input input2 : List Nat) (k : Nat)
    (hpk : ∀ i, peek input2 (k + i) = peek input i) :
    ∀ (fuel fuel2 c : Nat) (id : List Nat), fuel ≤ fuel2 →
      identifier_loop input fuel c id ≠ .diverge →
      identifier_loop input2 fuel2 (k + c) id
        = (identifier_loop input fuel c id).down fun r => (k + r.1, r.2) := by
  intro fuel
  induction fuel with
  | zero => intro fuel2 c id _ h; exact absurd rfl h
  | succ fuel ih =>
    intro fuel2 c id hle h
    obtain ⟨f2, rfl⟩ : ∃ f2, fuel2 = f2 + 1 := ⟨fuel2 - 1, by omega⟩
    rw [identifier_loop] at h
    rw [identifier_loop, identifier_loop]
    simp only [hpk]
    split_ifs at h ⊢
    · exact ih f2 (c + 1) _ (by omega) h
    · rfl
    · rfl

theorem operator_loop_shift (input input2 : List Nat) (k : Nat)
    (hpk : ∀ i, peek input2 (k + i) = peek input i) :
    ∀ (fuel fuel2 c : Nat) (data : List Nat), fuel ≤ fuel2 →
      operator_loop input fuel c data ≠ .diverge →
      operator_loop input2 fuel2 (k + c) data
        = (operator_loop input fuel c data).down fun r => (k + r.1, r.2) := by
  intro fuel
  induction fuel with
  | zero => intro fuel2 c id _ h; exact absurd rfl h
  | succ fuel ih =>
    intro fuel2 c id hle h
    obtain ⟨f2, rfl⟩ : ∃ f2, fuel2 = f2 + 1 := ⟨fuel2 - 1, by omega⟩
    rw [operator_loop] at h
    rw [operator_loop, operator_loop]
    simp only [hpk]
    split_ifs at h ⊢
    · exact ih f2 (c + 1) _ (by omega) h
    · rfl
    · rfl

theorem line_comment_loop_shift (input input2 : List Nat) (k : Nat)
    (hpk : ∀ i, peek input2 (k + i) = peek input i) :
    ∀ (fuel fuel2 c : Nat), fuel ≤ fuel2 →
      line_comment_loop input fuel c ≠ .diverge →
      line_comment_loop input2 fuel2 (k + c)
        = (line_comment_loop input fuel c).down fun c1 => k + c1 := by
  intro fuel
  induction fuel with
  | zero => intro fuel2 c _ h; exact absurd rfl h
  | succ fuel ih =>
    intro fuel2 c hle h
    obtain ⟨f2, rfl⟩ : ∃ f2, fuel2 = f2 + 1 := ⟨fuel2 - 1, by omega⟩
    rw [line_comment_loop] at h
    rw [line_comment_loop, line_comment_loop]
    simp only [hpk]
    split_ifs at h ⊢
    · exact ih f2 (c + 1) (by omega) h
    · rfl

theorem skip_blanks_loop_shift (input input2 : List Nat) (k : Nat)
    (hpk : ∀ i, peek input2 (k + i) = peek input i) :
    ∀ (fuel fuel2 c : Nat), fuel ≤ fuel2 →
      skip_blanks_loop input fuel c ≠ .diverge →
      skip_blanks_loop input2 fuel2 (k + c)
        = (skip_blanks_loop input fuel c).down fun c1 => k + c1 := by
  intro fuel
  induction fuel with
  | zero => intro fuel2 c _ h; exact absurd rfl h
  | succ fuel ih =>
    intro fuel2 c hle h
    obtain ⟨f2, rfl⟩ : ∃ f2, fuel2 = f2 + 1 := ⟨fuel2 - 1, by omega⟩
    rw [skip_blanks_loop] at h
    rw [skip_blanks_loop, skip_blanks_loop]
    simp only [hpk]
    split_ifs at h ⊢
    · exact ih f2 (c + 1) (by omega) h
    · rfl

theorem text_line_loop_shift (input input2 file : List Nat) (begin : Location) (k : Nat)
    (hpk : ∀ i, peek input2 (k + i) = peek input i) :
    ∀ (fuel fuel2 c : Nat) (block : List Nat), fuel ≤ fuel2 →
      text_line_loop input file begin fuel c block ≠ .diverge →
      text_line_loop input2 file begin.down fuel2 (k + c) block
        = (text_line_loop input file begin fuel c block).down fun r => (k + r.1, r.2) := by
  intro fuel
  induction fuel with
  | zero => intro fuel2 c id _ h; exact absurd rfl h
  | succ fuel ih =>
    intro fuel2 c id hle h
    obtain ⟨f2, rfl⟩ : ∃ f2, fuel2 = f2 + 1 := ⟨fuel2 - 1, by omega⟩
    rw [text_line_loop] at h
    rw [text_line_loop, text_line_loop]
    simp only [hpk]
    split_ifs at h ⊢
    · rfl
    · exact ih f2 (c + 1) _ (by omega) h
    · rfl

theorem whitespace_check_loop_shift (input input2 : List Nat) (k : Nat)
    (hpk : ∀ i, peek input2 (k + i) = peek input i) (a b : Nat) :
    ∀ (fuel fuel2 i : Nat), fuel ≤ fuel2 →
      whitespace_check_loop input a b fuel i ≠ .diverge →
      whitespace_check_loop input2 (k + a) (k + b) fuel2 i
        = (whitespace_check_loop input a b fuel i).down id := by
  intro fuel
  induction fuel with
  | zero => intro fuel2 c _ h; exact absurd rfl h
  | succ fuel ih =>
    intro fuel2 c hle h
    obtain ⟨f2, rfl⟩ : ∃ f2, fuel2 = f2 + 1 := ⟨fuel2 - 1, by omega⟩
    rw [whitespace_check_loop] at h
    rw [whitespace_check_loop, whitespace_check_loop]
    simp only [Nat.add_assoc, hpk]
    split_ifs at h ⊢
    · rfl
    · exact ih f2 (c + 1) (by omega) h
    · rfl

theorem block_comment_loop_shift (input input2 : List Nat) (k : Nat)
    (hpk : ∀ i, peek input2 (k + i) = peek input i) :
    ∀ (fuel fuel2 : Nat) (st : Cursor), fuel ≤ fuel2 →
      block_comment_loop input fuel st ≠ .diverge →
      block_comment_loop input2 fuel2 (st.shift k)
        = (block_comment_loop input fuel st).down (Cursor.shift k) := by
  intro fuel
  induction fuel with
  | zero => intro fuel2 c _ h; exact absurd rfl h
  | succ fuel ih =>
    intro fuel2 st hle h
    obtain ⟨f2, rfl⟩ : ∃ f2, fuel2 = f2 + 1 := ⟨fuel2 - 1, by omega⟩
    rw [block_comment_loop] at h
    rw [block_comment_loop, block_comment_loop]
    simp only [Cursor.shift, Nat.add_assoc, hpk]
    split_ifs at h ⊢
    · exact ih f2 ⟨st.c + 1, st.line_number + 1, st.c + 1⟩ (by omega) h
    · exact ih f2 { st with c := st.c + 1 } (by omega) h
    · rfl

theorem unicode_escape_loop_shift (input input2 file : List Nat) (begin : Location)
    (k : Nat) (hpk : ∀ i, peek input2 (k + i) = peek input i) (c : Nat) :
    ∀ (n i cp : Nat),
      unicode_escape_loop input2 file begin.down (k + c) n i cp
        = (unicode_escape_loop input file begin c n i cp).down id := by
  intro n
  induction n with
  | zero => intro i cp; rfl
  | succ n ih =>
    intro i cp
    rw [unicode_escape_loop, unicode_escape_loop]
    simp only [Nat.add_assoc, hpk]
    split_ifs
    · rfl
    · rfl
    · exact ih _ _
    · exact ih _ _
    · exact ih _ _
    · rfl

theorem Cursor.shift_c (k : Nat) (st : Cursor) : (st.shift k).c = k + st.c := rfl

theorem Cursor.shift_line_number (k : Nat) (st : Cursor) :
    (st.shift k).line_number = st.line_number + 1 := rfl

theorem Cursor.shift_line_start (k : Nat) (st : Cursor) :
    (st.shift k).line_start = k + st.line_start := rfl

theorem lex_number_loop_shift (input input2 file : List Nat) (begin : Location) (k : Nat)
    (hpk : ∀ i, peek input2 (k + i) = peek input i) :
    ∀ (fuel fuel2 : Nat) (s : State) (c : Nat) (r : List Nat), fuel ≤ fuel2 →
      (s = .BEGIN ∨ 1 ≤ c) →
      lex_number_loop input file begin fuel s c r ≠ .diverge →
      lex_number_loop input2 file begin.down fuel2 s (k + c) r
        = (lex_number_loop input file begin fuel s c r).down fun x => (x.1, k + x.2) := by
  intro fuel
  induction fuel with
  | zero => intro fuel2 s c r _ _ h; exact absurd rfl h
  | succ fuel ih =>
    intro fuel2 s c r hle hc h
    obtain ⟨f2, rfl⟩ : ∃ f2, fuel2 = f2 + 1 := ⟨fuel2 - 1, by omega⟩
    rw [lex_number_loop] at h
    rw [lex_number_loop, lex_number_loop]
    simp only [hpk]
    cases hsw : lex_number_switch s (peek input c) with
    | next s1 =>
      rw [hsw] at h
      exact ih f2 s1 (c + 1) _ (by omega) (Or.inr (by omega)) h
    | stop =>
      have h1 : 1 ≤ c := by
        rcases hc with rfl | hc
        · simp only [lex_number_switch] at hsw
          split_ifs at hsw
        · exact hc
      simp only [Outcome.down]
      rw [Nat.add_sub_assoc h1]
    | fail msg => rfl

theorem lex_number_shift (input input2 file : List Nat) (begin : Location) (k : Nat)
    (hpk : ∀ i, peek input2 (k + i) = peek input i) (hlen : input.length ≤ input2.length)
    (c : Nat) (h : lex_number input c file begin ≠ .diverge) :
    lex_number input2 (k + c) file begin.down
      = (lex_number input c file begin).down fun x => (x.1, k + x.2) :=
  lex_number_loop_shift input input2 file begin k hpk _ _ .BEGIN c [] (by omega)
    (Or.inl rfl) h

theorem whitespace_check_shift (input input2 : List Nat) (k : Nat)
    (hpk : ∀ i, peek input2 (k + i) = peek input i) (hlen : input.length ≤ input2.length)
    (a b : Nat) (h : whitespace_check input a b ≠ .diverge) :
    whitespace_check input2 (k + a) (k + b) = (whitespace_check input a b).down id :=
  whitespace_check_loop_shift input input2 k hpk a b _ _ 0 (by omega) h

theorem string_loop_shift (input input2 file : List Nat) (begin : Location) (k : Nat)
    (hpk : ∀ i, peek input2 (k + i) = peek input i) :
    ∀ (fuel fuel2 : Nat) (st : Cursor) (data : List Nat), fuel ≤ fuel2 →
      string_loop input file begin fuel st data ≠ .diverge →
      string_loop input2 file begin.down fuel2 (st.shift k) data
        = (string_loop input file begin fuel st data).down fun r => (r.1.shift k, r.2) := by
  intro fuel
  induction fuel with
  | zero => intro fuel2 st data _ h; exact absurd rfl h
  | succ fuel ih =>
    intro fuel2 st data hle h
    obtain ⟨f2, rfl⟩ : ∃ f2, fuel2 = f2 + 1 := ⟨fuel2 - 1, by omega⟩
    rw [string_loop] at h
    rw [string_loop, string_loop]
    dsimp only at h ⊢
    simp only [Cursor.shift_c, Cursor.shift_line_number, Cursor.shift_line_start,
      Nat.add_assoc, hpk]
    by_cases h0 : peek input st.c = 0
    · simp only [if_pos h0]; rfl
    simp only [if_neg h0] at h ⊢
    by_cases h34 : peek input st.c = 34
    · simp only [if_pos h34]; rfl
    simp only [if_neg h34] at h ⊢
    by_cases h92 : peek input st.c = 92
    · simp only [if_pos h92] at h ⊢
      rw [unicode_escape_loop_shift input input2 file begin k hpk]
      by_cases e1 : peek input (st.c + 1) = 34 ∨ peek input (st.c + 1) = 92 ∨ peek input (st.c + 1) = 47
      · simp only [if_pos e1] at h ⊢
        have hi := ih f2 _ _ (by omega) h
        simp only [Cursor.shift, Nat.add_assoc] at hi
        exact hi
      simp only [if_neg e1] at h ⊢
      by_cases e2 : peek input (st.c + 1) = 98
      · simp only [if_pos e2] at h ⊢
        have hi := ih f2 _ _ (by omega) h
        simp only [Cursor.shift, Nat.add_assoc] at hi
        exact hi
      simp only [if_neg e2] at h ⊢
      by_cases e3 : peek input (st.c + 1) = 102
      · simp only [if_pos e3] at h ⊢
        have hi := ih f2 _ _ (by omega) h
        simp only [Cursor.shift, Nat.add_assoc] at hi
        exact hi
      simp only [if_neg e3] at h ⊢
      by_cases e4 : peek input (st.c + 1) = 110
      · simp only [if_pos e4] at h ⊢
        have hi := ih f2 _ _ (by omega) h
        simp only [Cursor.shift, Nat.add_assoc] at hi
        exact hi
      simp only [if_neg e4] at h ⊢
      by_cases e5 : peek input (st.c + 1) = 114
      · simp only [if_pos e5] at h ⊢
        have hi := ih f2 _ _ (by omega) h
        simp only [Cursor.shift, Nat.add_assoc] at hi
        exact hi
      simp only [if_neg e5] at h ⊢
      by_cases e6 : peek input (st.c + 1) = 116
      · simp only [if_pos e6] at h ⊢
        have hi := ih f2 _ _ (by omega) h
        simp only [Cursor.shift, Nat.add_assoc] at hi
        exact hi
      simp only [if_neg e6] at h ⊢
      by_cases e7 : peek input (st.c + 1) = 117
      · simp only [if_pos e7] at h ⊢
        simp only [Nat.add_assoc] at h
        symm
        apply Outcome.down_bind
        intro cp hcp
        have h2 := bind_ne_diverge_right h hcp
        have hi := ih f2 _ _ (by omega) h2
        simp only [Cursor.shift, Nat.add_assoc] at hi
        exact hi.symm
      simp only [if_neg e7]
      by_cases e8 : peek input (st.c + 1) = 0
      · simp only [if_pos e8]; rfl
      · simp only [if_neg e8]; rfl
    simp only [if_neg h92] at h ⊢
    by_cases h10 : peek input st.c = 10
    · simp only [if_pos h10] at h ⊢
      have hi := ih f2 _ _ (by omega) h
      simp only [Cursor.shift, Nat.add_assoc] at hi
      exact hi
    · simp only [if_neg h10] at h ⊢
      have hi := ih f2 _ _ (by omega) h
      simp only [Cursor.shift, Nat.add_assoc] at hi
      exact hi

theorem Outcome.ok_bind {α β : Type} (a : α) (f : α → Outcome β) :
    (Outcome.ok a).bind f = f a := rfl

theorem Outcome.error_bind {α β : Type} (e : StaticError) (f : α → Outcome β) :
    (Outcome.error e : Outcome α).bind f = .error e := rfl

theorem Outcome.down_ok {α β : Type} (a : α) (f : α → β) :
    (Outcome.ok a).down f = .ok (f a) := rfl

theorem Outcome.down_error {α β : Type} (e : StaticError) (f : α → β) :
    (Outcome.error e : Outcome α).down f = .error e.down := rfl

theorem text_block_loop_shift (input input2 file : List Nat) (begin : Location) (k : Nat)
    (hpk : ∀ i, peek input2 (k + i) = peek input i) (hlen : input.length ≤ input2.length)
    (first_line : Nat) :
    ∀ (fuel fuel2 ws : Nat) (st : Cursor) (block : List Nat), fuel ≤ fuel2 →
      text_block_loop input file begin first_line fuel ws st block ≠ .diverge →
      text_block_loop input2 file begin.down (k + first_line) fuel2 ws (st.shift k) block
        = (text_block_loop input file begin first_line fuel ws st block).down
            fun r => (r.1.shift k, r.2) := by
  intro fuel
  induction fuel with
  | zero => intro fuel2 ws st block _ h; exact absurd rfl h
  | succ fuel ih =>
    intro fuel2 ws st block hle h
    obtain ⟨f2, rfl⟩ : ∃ f2, fuel2 = f2 + 1 := ⟨fuel2 - 1, by omega⟩
    rw [text_block_loop] at h
    rw [text_block_loop, text_block_loop]
    dsimp only at h ⊢
    have h1 := text_line_loop_shift input input2 file begin k hpk (input.length + 1)
      (input2.length + 1) (st.c + ws) block (by omega) (bind_ne_diverge_left h)
    simp only [Cursor.shift_c, Cursor.shift_line_number, Nat.add_assoc]
    simp only [Nat.add_assoc] at h1
    rw [h1]
    cases hl : text_line_loop input file begin (input.length + 1) (st.c + ws) block with
    | diverge => rw [hl] at h; exact absurd rfl h
    | error e => rfl
    | ok line =>
      rw [hl] at h
      simp only [Outcome.ok_bind, Outcome.down_ok, Nat.add_assoc] at h ⊢
      have h2 := whitespace_check_shift input input2 k hpk hlen first_line (line.1 + 1)
        (bind_ne_diverge_left h)
      rw [h2]
      cases hw : whitespace_check input first_line (line.1 + 1) with
      | diverge => rw [hw] at h; exact absurd rfl h
      | error e => rfl
      | ok n =>
        rw [hw] at h
        simp only [Outcome.ok_bind, Outcome.down_ok, id] at h ⊢
        by_cases hn : n = 0
        · simp only [if_pos hn] at h ⊢
          have h3 := skip_blanks_loop_shift input input2 k hpk (input.length + 1)
            (input2.length + 1) (line.1 + 1) (by omega) (bind_ne_diverge_left h)
          rw [h3]
          cases hs : skip_blanks_loop input (input.length + 1) (line.1 + 1) with
          | diverge => rw [hs] at h; exact absurd rfl h
          | error e => rfl
          | ok c3 =>
            simp only [Outcome.ok_bind, Outcome.down_ok, Nat.add_assoc, hpk]
            by_cases hb : ¬ (peek input c3 = 124 ∧ peek input (c3 + 1) = 124
                ∧ peek input (c3 + 2) = 124)
            · simp only [if_pos hb]; rfl
            · simp only [if_neg hb]; rfl
        · simp only [if_neg hn] at h ⊢
          have hi := ih f2 n _ _ (by omega) h
          simp only [Cursor.shift, Nat.add_assoc] at hi
          exact hi

theorem begin_shift (k : Nat) (st : Cursor) :
    (⟨(st.shift k).line_number, (st.shift k).c - (st.shift k).line_start + 1⟩ : Location)
      = Location.down ⟨st.line_number, st.c - st.line_start + 1⟩ := by
  simp only [Cursor.shift, Location.down, Nat.add_sub_add_left]

/-- The body of the driver on the input with `k` bytes before it that end in the first
`'\n'`: the same step, shifted. -/
theorem lex_body_shift (file input input2 : List Nat) (k : Nat)
    (hpk : ∀ i, peek input2 (k + i) = peek input i) (hlen : input.length ≤ input2.length)
    (st : Cursor) (h : lex_body file input st ≠ .diverge) :
    lex_body file input2 (st.shift k) = (lex_body file input st).down (Step.shift k) := by
  have hbegin : (⟨st.line_number + 1, st.c - st.line_start + 1⟩ : Location)
      = Location.down ⟨st.line_number, st.c - st.line_start + 1⟩ := rfl
  unfold lex_body at h ⊢
  dsimp only at h ⊢
  simp only [Cursor.shift_c, Cursor.shift_line_number, Cursor.shift_line_start,
    Nat.add_sub_add_left, Nat.add_assoc, hpk, hbegin]
  by_cases hws : peek input st.c = 32 ∨ peek input st.c = 9 ∨ peek input st.c = 13
  · simp only [if_pos hws]; rfl
  simp only [if_neg hws] at h ⊢
  by_cases hnl : peek input st.c = 10
  · simp only [if_pos hnl]; rfl
  simp only [if_neg hnl] at h ⊢
  cases hp : punctuation (peek input st.c) with
  | some kind => simp only [hp]; rfl
  | none =>
  simp only [hp] at h ⊢
  by_cases h33 : peek input st.c = 33
  · simp only [if_pos h33]
    by_cases h61 : peek input (st.c + 1) = 61
    · simp only [if_pos h61]; rfl
    · simp only [if_neg h61]; rfl
  simp only [if_neg h33] at h ⊢
  by_cases h126 : peek input st.c = 126
  · simp only [if_pos h126]; rfl
  simp only [if_neg h126] at h ⊢
  by_cases h43 : peek input st.c = 43
  · simp only [if_pos h43]; rfl
  simp only [if_neg h43] at h ⊢
  by_cases h45 : peek input st.c = 45
  · simp only [if_pos h45]; rfl
  simp only [if_neg h45] at h ⊢
  by_cases hnum : is_number (peek input st.c) = true
  · simp only [if_pos hnum] at h ⊢
    rw [lex_number_shift input input2 file _ k hpk hlen st.c (bind_ne_diverge_left h)]
    cases hr : lex_number input st.c file ⟨st.line_number, st.c - st.line_start + 1⟩ with
    | diverge => rw [hr] at h; exact absurd rfl h
    | error e => rfl
    | ok r => rfl
  simp only [if_neg hnum] at h ⊢
  by_cases hq : peek input st.c = 34
  · simp only [if_pos hq] at h ⊢
    have h1 := string_loop_shift input input2 file ⟨st.line_number, st.c - st.line_start + 1⟩
      k hpk (input.length + 1) (input2.length + 1) _ _ (by omega) (bind_ne_diverge_left h)
    simp only [Cursor.shift, Nat.add_assoc] at h1
    rw [h1]
    cases hr : string_loop input file ⟨st.line_number, st.c - st.line_start + 1⟩
        (input.length + 1) { st with c := st.c + 1 } [] with
    | diverge => rw [hr] at h; exact absurd rfl h
    | error e => rfl
    | ok r => rfl
  simp only [if_neg hq] at h ⊢
  by_cases hid : is_identifier_first (peek input st.c) = true
  · simp only [if_pos hid] at h ⊢
    rw [identifier_loop_shift input input2 k hpk (input.length + 1) (input2.length + 1) st.c
      [] (by omega) (bind_ne_diverge_left h)]
    cases hr : identifier_loop input (input.length + 1) st.c [] with
    | diverge => rw [hr] at h; exact absurd rfl h
    | error e => rfl
    | ok r =>
      obtain ⟨c1, id⟩ := r
      rw [identifier_loop_first input _ _ _ hid] at hr
      have hc := (identifier_loop_spec input _ _ _ _ _ hr).1
      simp only [Outcome.down_ok, Outcome.ok_bind, Step.shift, Cursor.shift]
      rw [Nat.add_sub_assoc (by omega : 1 ≤ c1)]
  simp only [if_neg hid] at h ⊢
  by_cases hsym : is_symbol (peek input st.c) = true
  · simp only [if_pos hsym] at h ⊢
    have hsy := (is_symbol_iff _).1 hsym
    have hlc_run : ∀ c1, line_comment_loop input (input.length + 1) st.c = .ok c1 →
        1 ≤ c1 := by
      intro c1 hr
      rw [line_comment_loop_first input _ _ ⟨by omega, by omega⟩] at hr
      have := (line_comment_loop_spec input _ _ _ hr).1
      omega
    by_cases hlc : peek input st.c = 47 ∧ peek input (st.c + 1) = 47
    · simp only [if_pos hlc] at h ⊢
      rw [line_comment_loop_shift input input2 k hpk (input.length + 1) (input2.length + 1)
        st.c (by omega) (bind_ne_diverge_left h)]
      cases hr : line_comment_loop input (input.length + 1) st.c with
      | diverge => rw [hr] at h; exact absurd rfl h
      | error e => rfl
      | ok c1 =>
        simp only [Outcome.down_ok, Outcome.ok_bind, Step.shift, Cursor.shift]
        rw [Nat.add_sub_assoc (hlc_run c1 hr)]
    simp only [if_neg hlc] at h ⊢
    by_cases hhash : peek input st.c = 35
    · simp only [if_pos hhash] at h ⊢
      rw [line_comment_loop_shift input input2 k hpk (input.length + 1) (input2.length + 1)
        st.c (by omega) (bind_ne_diverge_left h)]
      cases hr : line_comment_loop input (input.length + 1) st.c with
      | diverge => rw [hr] at h; exact absurd rfl h
      | error e => rfl
      | ok c1 =>
        simp only [Outcome.down_ok, Outcome.ok_bind, Step.shift, Cursor.shift]
        rw [Nat.add_sub_assoc (hlc_run c1 hr)]
    simp only [if_neg hhash] at h ⊢
    by_cases hbc : peek input st.c = 47 ∧ peek input (st.c + 1) = 42
    · simp only [if_pos hbc] at h ⊢
      have h1 := block_comment_loop_shift input input2 k hpk (input.length + 1)
        (input2.length + 1) _ (by omega) (bind_ne_diverge_left h)
      simp only [Cursor.shift, Nat.add_assoc] at h1
      rw [h1]
      cases hr : block_comment_loop input (input.length + 1) { st with c := st.c + 2 } with
      | diverge => rw [hr] at h; exact absurd rfl h
      | error e => rfl
      | ok st1 =>
        simp only [Outcome.down_ok, Outcome.ok_bind, Cursor.shift_c, hpk]
        by_cases hz : peek input st1.c = 0
        · simp only [if_pos hz]; rfl
        · simp only [if_neg hz]; rfl
    simp only [if_neg hbc] at h ⊢
    by_cases htb : peek input st.c = 124 ∧ peek input (st.c + 1) = 124
        ∧ peek input (st.c + 2) = 124 ∧ peek input (st.c + 3) = 10
    · simp only [if_pos htb] at h ⊢
      rw [whitespace_check_shift input input2 k hpk hlen _ _ (bind_ne_diverge_left h)]
      cases hw : whitespace_check input (st.c + 4) (st.c + 4) with
      | diverge => rw [hw] at h; exact absurd rfl h
      | error e => rfl
      | ok ws =>
        rw [hw] at h
        simp only [Outcome.down_ok, Outcome.ok_bind, id] at h ⊢
        by_cases hz : ws = 0
        · simp only [if_pos hz]; rfl
        · simp only [if_neg hz] at h ⊢
          have h1 := text_block_loop_shift input input2 file
            ⟨st.line_number, st.c - st.line_start + 1⟩ k hpk hlen (st.c + 4)
            (input.length + 1) (input2.length + 1) ws _ _ (by omega) (bind_ne_diverge_left h)
          simp only [Cursor.shift, Nat.add_assoc] at h1
          rw [h1]
          cases hr : text_block_loop input file ⟨st.line_number, st.c - st.line_start + 1⟩
              (st.c + 4) (input.length + 1) ws ⟨st.c + 4, st.line_number + 1, st.c + 4⟩ [] with
          | diverge => rw [hr] at h; exact absurd rfl h
          | error e => rfl
          | ok r => rfl
    simp only [if_neg htb] at h ⊢
    rw [operator_loop_shift input input2 k hpk (input.length + 1) (input2.length + 1) st.c
      [] (by omega) (bind_ne_diverge_left h)]
    cases hr : operator_loop input (input.length + 1) st.c [] with
    | diverge => rw [hr] at h; exact absurd rfl h
    | error e => rfl
    | ok r =>
      obtain ⟨c1, data⟩ := r
      rw [operator_loop_first input _ _ _ hsym] at hr
      have hc := (operator_loop_spec input _ _ _ _ _ hr).1
      simp only [Outcome.down_ok, Outcome.ok_bind, Step.shift, Cursor.shift]
      rw [Nat.add_sub_assoc (by omega : 1 ≤ c1)]
  simp only [if_neg hsym]
  by_cases hlt : char_lt_32 (peek input st.c) = true
  · simp only [if_pos hlt]; rfl
  · simp only [if_neg hlt]; rfl

theorem Step.shift_cursor (k : Nat) (step : Step) :
    (step.shift k).cursor = step.cursor.shift k := by
  cases step <;> rfl

theorem Step.shift_token (k : Nat) (step : Step) (file : List Nat) (b e : Location) :
    (step.shift k).token file b.down e.down = (step.token file b e).map Token.down := by
  cases step <;> rfl

theorem begin_shift_add (k a b c : Nat) :
    (⟨a + 1, k + b - (k + c) + 1⟩ : Location) = Location.down ⟨a, b - c + 1⟩ := by
  simp only [Location.down, Nat.add_sub_add_left]

/-- The driver's loop on the input with `k` bytes before it that end in the first `'\n'`:
the same iterations, shifted. -/
theorem lex_loop_shift (file input input2 : List Nat) (k : Nat)
    (hpk : ∀ i, peek input2 (k + i) = peek input i) (hlen : input.length ≤ input2.length) :
    ∀ (fuel fuel2 : Nat) (st : Cursor), fuel ≤ fuel2 →
      lex_loop file input fuel st ≠ .diverge →
      lex_loop file input2 fuel2 (st.shift k)
        = (lex_loop file input fuel st).down (List.map (Event.shift k)) := by
  intro fuel
  induction fuel with
  | zero => intro fuel2 st _ h; exact absurd rfl h
  | succ fuel ih =>
    intro fuel2 st hle h
    obtain ⟨f2, rfl⟩ : ∃ f2, fuel2 = f2 + 1 := ⟨fuel2 - 1, by omega⟩
    rw [lex_loop] at h
    rw [lex_loop, lex_loop]
    dsimp only at h ⊢
    simp only [Cursor.shift_c, Cursor.shift_line_number, Cursor.shift_line_start,
      begin_shift_add, hpk]
    by_cases h0 : peek input st.c ≠ 0
    · simp only [if_pos h0] at h ⊢
      rw [lex_body_shift file input input2 k hpk hlen st (bind_ne_diverge_left h)]
      cases hb : lex_body file input st with
      | diverge => rw [hb] at h; exact absurd rfl h
      | error e => rfl
      | ok step =>
        rw [hb] at h
        simp only [Outcome.ok_bind, Outcome.down_ok, Step.shift_cursor, Cursor.shift_c,
          Cursor.shift_line_number, Cursor.shift_line_start, begin_shift_add,
          Step.shift_token, Nat.add_assoc] at h ⊢
        have hi := ih f2 { step.cursor with c := step.cursor.c + 1 } (by omega)
          (bind_ne_diverge_left h)
        simp only [Cursor.shift, Nat.add_assoc] at hi
        rw [hi]
        cases hr : lex_loop file input fuel { step.cursor with c := step.cursor.c + 1 } with
        | diverge => rw [hr] at h; exact absurd rfl h
        | error e => rfl
        | ok r => rfl
    · simp only [if_neg h0]
      rfl

theorem filterMap_token_shift (k : Nat) (evs : List Event) :
    (evs.map (Event.shift k)).filterMap Event.token
      = (evs.filterMap Event.token).map Token.down := by
  induction evs with
  | nil => rfl
  | cons ev evs ih =>
    obtain ⟨a, b, tok⟩ := ev
    cases tok with
    | none => simpa [Event.shift, List.filterMap_cons] using ih
    | some t => simpa [Event.shift, List.filterMap_cons] using ih

theorem peek_append_right (pre t : List Nat) (i : Nat) :
    peek (pre ++ t) (pre.length + i) = peek t i := by
  simp [peek, List.getElem?_append_right]

/-- The loop of a line comment over bytes that are neither NUL nor `'\n'`, followed by
one that is. -/
theorem line_comment_loop_run (input : List Nat) :
    ∀ (w : List Nat) (c : Nat) (tail : List Nat) (fuel : Nat),
      input.drop c = w ++ tail → (∀ b ∈ w, b ≠ 0 ∧ b ≠ 10) →
      (tail.headD 0 = 0 ∨ tail.headD 0 = 10) →
      line_comment_loop input (fuel + w.length + 1) c = .ok (c + w.length) := by
  intro w
  induction w with
  | nil =>
    intro c tail fuel hd _ ht
    have hp := peek_after_drop (show input.drop c = [] ++ tail from hd)
    simp only [List.length_nil, Nat.add_zero] at hp ⊢
    rw [line_comment_loop, hp, if_neg (by omega)]
  | cons x w ih =>
    intro c tail fuel hd hw ht
    obtain ⟨hp, hd1⟩ := peek_of_drop hd
    rw [show fuel + (x :: w).length + 1 = (fuel + w.length + 1) + 1 by
      simp only [List.length_cons]; omega, line_comment_loop, hp, if_pos (hw x (by simp)),
      ih (c + 1) tail fuel hd1 (fun y hy => hw y (by simp [hy])) ht]
    simp only [List.length_cons]
    congr 1
    omega

theorem lex_body_of_line_comment (file input : List Nat) (st : Cursor)
    (h : (peek input st.c = 47 ∧ peek input (st.c + 1) = 47) ∨ peek input st.c = 35) :
    lex_body file input st =
      (line_comment_loop input (input.length + 1) st.c).bind fun c1 =>
        .ok (.skip { st with c := c1 - 1 }) := by
  rcases h with ⟨h1, h2⟩ | h1
  · simp [lex_body, h1, h2, punctuation, is_number, is_identifier_first, is_upper, is_lower,
      is_symbol]
  · simp [lex_body, h1, punctuation, is_number, is_identifier_first, is_upper, is_lower,
      is_symbol]

theorem lex_body_of_newline (file input : List Nat) (st : Cursor)
    (h : peek input st.c = 10) :
    lex_body file input st =
      .ok (.skip { st with line_number := st.line_number + 1, line_start := st.c + 1 }) := by
  simp [lex_body, h]

/-- The body of the driver at the start of a line comment `c0 ++ s`, `c0` one of `//` and
`#`: the cursor is left on the last byte of the comment. -/
theorem lex_body_line_comment_run (file c0 s tail : List Nat)
    (hc0 : c0 = [47, 47] ∨ c0 = [35]) (hs : ∀ b ∈ s, b ≠ 0 ∧ b ≠ 10)
    (ht : tail.headD 0 = 0 ∨ tail.headD 0 = 10) :
    lex_body file (c0 ++ s ++ tail) ⟨0, 1, 0⟩ =
      .ok (.skip ⟨c0.length + s.length - 1, 1, 0⟩) := by
  obtain ⟨input, hinput⟩ : ∃ input, input = c0 ++ s ++ tail := ⟨_, rfl⟩
  rw [← hinput]
  have hw : ∀ b ∈ c0 ++ s, b ≠ 0 ∧ b ≠ 10 := by
    intro b hb
    rcases List.mem_append.1 hb with hb | hb
    · rcases hc0 with rfl | rfl <;> simp at hb <;> omega
    · exact hs b hb
  have hpk : (peek input 0 = 47 ∧ peek input (0 + 1) = 47) ∨ peek input 0 = 35 := by
    rw [hinput]
    rcases hc0 with rfl | rfl
    · exact Or.inl ⟨rfl, rfl⟩
    · exact Or.inr rfl
  have hlen : (c0 ++ s).length ≤ input.length := by rw [hinput]; simp
  have hrun := line_comment_loop_run input (c0 ++ s) 0 tail (input.length - (c0 ++ s).length)
    (by rw [hinput]; rfl) hw ht
  rw [show input.length - (c0 ++ s).length + (c0 ++ s).length + 1 = input.length + 1 by omega]
    at hrun
  rw [lex_body_of_line_comment file input ⟨0, 1, 0⟩ hpk, hrun]
  simp [Outcome.bind]

/-- The lexer on an input that starts with a line comment and its `'\n'`: what it does on
the rest of the input, one line further down. -/
theorem jsonnet_lex_after_line_comment (file c0 s t : List Nat)
    (hc0 : c0 = [47, 47] ∨ c0 = [35]) (hs : ∀ b ∈ s, b ≠ 0 ∧ b ≠ 10) :
    jsonnet_lex file (c0 ++ s ++ 10 :: t) = (jsonnet_lex file t).down (List.map Token.down) := by
  obtain ⟨input, hinput⟩ : ∃ input, input = c0 ++ s ++ 10 :: t := ⟨_, rfl⟩
  have hbody := lex_body_line_comment_run file c0 s (10 :: t) hc0 hs (Or.inr rfl)
  rw [← hinput] at hbody ⊢
  have hc0len : 1 ≤ c0.length := by rcases hc0 with rfl | rfl <;> simp
  obtain ⟨k, hk⟩ : ∃ k, k = c0.length + s.length + 1 := ⟨_, rfl⟩
  have hlen : input.length = k + t.length := by
    rw [hinput, hk]; simp; omega
  have hdrop : input.drop (c0.length + s.length) = 10 :: t := by
    have := drop_after (show input.drop 0 = (c0 ++ s) ++ 10 :: t by rw [hinput]; rfl)
    simpa using this
  have hnl : peek input (c0.length + s.length) = 10 := (peek_of_drop hdrop).1
  have hp0 : peek input 0 ≠ 0 := by
    rw [hinput]
    rcases hc0 with rfl | rfl <;> simp [peek]
  have hpk : ∀ i, peek input (k + i) = peek t i := by
    intro i
    have := peek_append_right (c0 ++ s ++ [10]) t i
    have e1 : (c0 ++ s ++ [10]).length = k := by rw [hk]; simp; omega
    have e2 : c0 ++ s ++ [10] ++ t = input := by rw [hinput]; simp
    rw [e1, e2] at this
    exact this
  have htot : lex_loop file t (t.length + 1) ⟨0, 1, 0⟩ ≠ .diverge :=
    lex_loop_total file t _ _ (Inv_init t) (by simp)
  have hshift := lex_loop_shift file t input k hpk (by omega) (t.length + 1)
    (c0.length + s.length + t.length) ⟨0, 1, 0⟩ (by omega) htot
  have hbody2 := lex_body_of_newline file input ⟨c0.length + s.length - 1 + 1, 1, 0⟩
    (by rw [show c0.length + s.length - 1 + 1 = c0.length + s.length by omega]; exact hnl)
  unfold jsonnet_lex jsonnet_lex_trace
  rw [show input.length + 1 = (c0.length + s.length + t.length) + 1 + 1 by omega,
    lex_loop_skip file input _ ⟨0, 1, 0⟩ _ hp0 hbody,
    lex_loop_skip file input _ ⟨c0.length + s.length - 1 + 1, 1, 0⟩ _
      (by rw [show c0.length + s.length - 1 + 1 = c0.length + s.length by omega, hnl]; omega)
      hbody2]
  have hcur : (⟨c0.length + s.length - 1 + 1 + 1, 1 + 1,
      c0.length + s.length - 1 + 1 + 1⟩ : Cursor) = Cursor.shift k ⟨0, 1, 0⟩ := by
    simp only [Cursor.shift, Cursor.mk.injEq, Nat.add_zero]
    exact ⟨by omega, trivial, by omega⟩
  rw [hcur, hshift]
  cases hr : lex_loop file t (t.length + 1) ⟨0, 1, 0⟩ with
  | diverge => exact absurd hr htot
  | error e => rfl
  | ok evs =>
    simp only [Outcome.down_ok, Outcome.ok_bind, List.filterMap_cons,
      filterMap_token_shift]

/-- The lexer on an input that is one line comment: the `END_OF_FILE` token alone. -/
theorem jsonnet_lex_line_comment_only (file c0 s : List Nat)
    (hc0 : c0 = [47, 47] ∨ c0 = [35]) (hs : ∀ b ∈ s, b ≠ 0 ∧ b ≠ 10) :
    jsonnet_lex file (c0 ++ s) =
      .ok [⟨.END_OF_FILE, [], ⟨file, ⟨1, c0.length + s.length + 1⟩,
        ⟨1, c0.length + s.length + 1⟩⟩⟩] := by
  have hbody := lex_body_line_comment_run file c0 s [] hc0 hs (Or.inl rfl)
  rw [List.append_nil] at hbody
  have hc0len : 1 ≤ c0.length := by rcases hc0 with rfl | rfl <;> simp
  have hp0 : peek (c0 ++ s) 0 ≠ 0 := by
    rcases hc0 with rfl | rfl <;> simp [peek]
  have hend : peek (c0 ++ s) (c0.length + s.length - 1 + 1) = 0 := by
    apply peek_of_drop_nil
    simp; omega
  unfold jsonnet_lex jsonnet_lex_trace
  rw [show (c0 ++ s).length + 1 = (c0.length + s.length - 1) + 1 + 1 by simp; omega,
    lex_loop_skip file (c0 ++ s) _ ⟨0, 1, 0⟩ _ hp0 hbody,
    lex_loop_eof file (c0 ++ s) _ _ hend]
  simp only [Outcome.ok_bind, List.filterMap_cons, List.filterMap_nil]
  rw [show c0.length + s.length - 1 + 1 - 0 + 1 = c0.length + s.length + 1 by omega]

/-- C13. Line comments are transparent: for every `s` without NUL and `'\n'` and every
input `t`, the lexer on `//` ++ s ++ `\n` ++ t and on `#` ++ s ++ `\n` ++ t does what it
does on `t`, one line further down: it succeeds exactly when `jsonnet_lex` on `t` succeeds
(`Outcome.down` takes a success to a success and an error to an error, and the lexer never
runs out of its loop bounds), and then returns the tokens of `t` with the same kinds and
data, every line increased by one and the columns unchanged; and a comment alone, `//` ++ s
or `#` ++ s, yields only `END_OF_FILE`. -/
theorem line_comment_transparent (file s t : List Nat) (hs : ∀ b ∈ s, b ≠ 0 ∧ b ≠ 10) :
    jsonnet_lex file (str "//" ++ s ++ str "\n" ++ t)
      = (jsonnet_lex file t).down (List.map Token.down) ∧
    jsonnet_lex file (str "#" ++ s ++ str "\n" ++ t)
      = (jsonnet_lex file t).down (List.map Token.down) ∧
    ((∃ toks, jsonnet_lex file (str "//" ++ s ++ str "\n" ++ t) = .ok toks)
      ↔ ∃ toks, jsonnet_lex file t = .ok toks) ∧
    ((∃ toks, jsonnet_lex file (str "#" ++ s ++ str "\n" ++ t) = .ok toks)
      ↔ ∃ toks, jsonnet_lex file t = .ok toks) ∧
    jsonnet_lex file (str "//" ++ s) =
      .ok [⟨.END_OF_FILE, [], ⟨file, ⟨1, s.length + 3⟩, ⟨1, s.length + 3⟩⟩⟩] ∧
    jsonnet_lex file (str "#" ++ s) =
      .ok [⟨.END_OF_FILE, [], ⟨file, ⟨1, s.length + 2⟩, ⟨1, s.length + 2⟩⟩⟩] := by
  have h1 : str "//" = [47, 47] := by decide
  have h2 : str "#" = [35] := by decide
  have h3 : str "\n" = [10] := by decide
  rw [h1, h2, h3]
  have ha := jsonnet_lex_after_line_comment file [47, 47] s t (Or.inl rfl) hs
  have hb := jsonnet_lex_after_line_comment file [35] s t (Or.inr rfl) hs
  have hc := jsonnet_lex_line_comment_only file [47, 47] s (Or.inl rfl) hs
  have hd := jsonnet_lex_line_comment_only file [35] s (Or.inr rfl) hs
  have e1 : [47, 47] ++ s ++ [10] ++ t = [47, 47] ++ s ++ 10 :: t := by simp
  have e2 : [35] ++ s ++ [10] ++ t = [35] ++ s ++ 10 :: t := by simp
  have hiff : ∀ x : Outcome (List Token),
      (∃ toks, x.down (List.map Token.down) = .ok toks) ↔ ∃ toks, x = .ok toks := by
    intro x
    cases x with
    | ok a => exact ⟨fun _ => ⟨a, rfl⟩, fun _ => ⟨_, rfl⟩⟩
    | error e =>
      exact ⟨fun ⟨_, h⟩ => by simp [Outcome.down] at h, fun ⟨_, h⟩ => by simp at h⟩
    | diverge =>
      exact ⟨fun ⟨_, h⟩ => by simp [Outcome.down] at h, fun ⟨_, h⟩ => by simp at h⟩
  rw [e1, e2, ha, hb]
  refine ⟨rfl, rfl, hiff _, hiff _, ?_, ?_⟩
  · rw [hc]
    simp only [List.length_cons, List.length_nil]
    rw [show 0 + 1 + 1 + s.length + 1 = s.length + 3 by omega]
  · rw [hd]
    simp only [List.length_cons, List.length_nil]
    rw [show 0 + 1 + s.length + 1 = s.length + 2 by omega]

/-- The input `// c\n/* d */ # e\nfoo` of the specification: the identifier `foo` on
line 3, as for the rest `/* d */ # e\nfoo` where it is on line 2. -/
theorem line_comment_transparent_witness :
    jsonnet_lex [] (str "//" ++ str " c" ++ str "\n" ++ str "/* d */ # e\nfoo")
      = (jsonnet_lex [] (str "/* d */ # e\nfoo")).down (List.map Token.down) ∧
    jsonnet_lex [] (str "/* d */ # e\nfoo") =
      .ok [⟨.IDENTIFIER, str "foo", ⟨[], ⟨2, 1⟩, ⟨2, 3⟩⟩⟩,
        ⟨.END_OF_FILE, [], ⟨[], ⟨2, 4⟩, ⟨2, 4⟩⟩⟩] ∧
    jsonnet_lex [] (str "// c\n/* d */ # e\nfoo") =
      .ok [⟨.IDENTIFIER, str "foo", ⟨[], ⟨3, 1⟩, ⟨3, 3⟩⟩⟩,
        ⟨.END_OF_FILE, [], ⟨[], ⟨3, 4⟩, ⟨3, 4⟩⟩⟩] ∧
    jsonnet_lex [] (str "# only a comment") =
      .ok [⟨.END_OF_FILE, [], ⟨[], ⟨1, 17⟩, ⟨1, 17⟩⟩⟩] :=
  ⟨(line_comment_transparent [] (str " c") (str "/* d */ # e\nfoo") (by decide)).1,
   by decide, by decide,
   (line_comment_transparent [] (str " only a comment") [] (by decide)).2.2.2.2.2⟩

/-! ## The accesses of the loops stay inside the input and move forward -/

theorem ItersOK_nil (n c : Nat) : ItersOK n c [] :=
  ⟨fun _ h => by simp at h, List.Pairwise.nil⟩

theorem ItersOK_cons {n c c1 : Nat} {reads backs : List Nat} {rest : List Iter}
    (hr : ∀ i ∈ reads, i ≤ n) (hb : ∀ e ∈ backs, 1 ≤ e ∧ e ≤ n) (hlt : c < c1)
    (h : ItersOK n c1 rest) : ItersOK n c (⟨c, reads, backs⟩ :: rest) := by
  refine ⟨?_, List.Pairwise.cons ?_ h.2⟩
  · intro it hit
    rcases List.mem_cons.1 hit with rfl | hit
    · exact ⟨Nat.le_refl _, hr, hb⟩
    · obtain ⟨h1, h2, h3⟩ := h.1 it hit
      exact ⟨by omega, h2, h3⟩
  · intro it hit
    have := (h.1 it hit).1
    show c < it.cursor
    omega

theorem ItersOK_single {n c : Nat} {reads backs : List Nat}
    (hr : ∀ i ∈ reads, i ≤ n) (hb : ∀ e ∈ backs, 1 ≤ e ∧ e ≤ n) :
    ItersOK n c [⟨c, reads, backs⟩] :=
  ItersOK_cons hr hb (Nat.lt_succ_self c) (ItersOK_nil n (c + 1))

theorem mem_all_reads {its : List Iter} {i : Nat} :
    i ∈ all_reads its ↔ ∃ it ∈ its, i ∈ it.reads := by
  induction its with
  | nil => simp [all_reads]
  | cons it its ih => simp [all_reads, ih]

theorem mem_all_backs {its : List Iter} {e : Nat} :
    e ∈ all_backs its ↔ ∃ it ∈ its, e ∈ it.backs := by
  induction its with
  | nil => simp [all_backs]
  | cons it its ih => simp [all_backs, ih]

theorem ItersOK_reads {n c : Nat} {its : List Iter} (h : ItersOK n c its) :
    ∀ i ∈ all_reads its, i ≤ n := by
  intro i hi
  obtain ⟨it, hit, h1⟩ := mem_all_reads.1 hi
  exact (h.1 it hit).2.1 i h1

theorem ItersOK_backs {n c : Nat} {its : List Iter} (h : ItersOK n c its) :
    ∀ e ∈ all_backs its, 1 ≤ e ∧ e ≤ n := by
  intro e he
  obtain ⟨it, hit, h1⟩ := mem_all_backs.1 he
  exact (h.1 it hit).2.2 e h1

theorem reads_one {n c : Nat} (h : c ≤ n) : ∀ i ∈ [c], i ≤ n := by
  intro i hi
  simp only [List.mem_singleton] at hi
  omega

theorem reads_two {n a b : Nat} (ha : a ≤ n) (hb : b ≤ n) : ∀ i ∈ [a, b], i ≤ n := by
  intro i hi
  simp only [List.mem_cons, List.mem_singleton, List.not_mem_nil, or_false] at hi
  omega

theorem reads_append {n : Nat} {x y : List Nat} (hx : ∀ i ∈ x, i ≤ n) (hy : ∀ i ∈ y, i ≤ n) :
    ∀ i ∈ x ++ y, i ≤ n := by
  intro i hi
  rcases List.mem_append.1 hi with h | h
  · exact hx i h
  · exact hy i h

theorem no_backs {n : Nat} : ∀ e ∈ ([] : List Nat), 1 ≤ e ∧ e ≤ n :=
  fun _ h => by simp at h

theorem identifier_iters_ok (input : List Nat) :
    ∀ (fuel c : Nat), c ≤ input.length →
      ItersOK input.length c (identifier_iters input fuel c) := by
  intro fuel
  induction fuel with
  | zero => intro c _; exact ItersOK_nil _ _
  | succ fuel ih =>
    intro c hc
    rw [identifier_iters]
    by_cases h0 : peek input c ≠ 0
    · have hlt := peek_lt h0
      rw [if_pos h0]
      by_cases hi : ¬ is_identifier (peek input c) = true
      · rw [if_pos hi]; exact ItersOK_single (reads_one hc) no_backs
      · rw [if_neg hi]
        exact ItersOK_cons (reads_one hc) no_backs (Nat.lt_succ_self c) (ih (c + 1) hlt)
    · rw [if_neg h0]; exact ItersOK_single (reads_one hc) no_backs

theorem operator_iters_ok (input : List Nat) :
    ∀ (fuel c : Nat), c ≤ input.length →
      ItersOK input.length c (operator_iters input fuel c) := by
  intro fuel
  induction fuel with
  | zero => intro c _; exact ItersOK_nil _ _
  | succ fuel ih =>
    intro c hc
    rw [operator_iters]
    by_cases h0 : peek input c ≠ 0
    · have hlt := peek_lt h0
      rw [if_pos h0]
      by_cases hi : ¬ is_symbol (peek input c) = true
      · rw [if_pos hi]; exact ItersOK_single (reads_one hc) no_backs
      · rw [if_neg hi]
        exact ItersOK_cons (reads_one hc) no_backs (Nat.lt_succ_self c) (ih (c + 1) hlt)
    · rw [if_neg h0]; exact ItersOK_single (reads_one hc) no_backs

theorem line_comment_iters_ok (input : List Nat) :
    ∀ (fuel c : Nat), c ≤ input.length →
      ItersOK input.length c (line_comment_iters input fuel c) := by
  intro fuel
  induction fuel with
  | zero => intro c _; exact ItersOK_nil _ _
  | succ fuel ih =>
    intro c hc
    rw [line_comment_iters]
    by_cases h0 : peek input c ≠ 0 ∧ peek input c ≠ 10
    · have hlt := peek_lt h0.1
      rw [if_pos h0]
      exact ItersOK_cons (reads_one hc) no_backs (Nat.lt_succ_self c) (ih (c + 1) hlt)
    · rw [if_neg h0]; exact ItersOK_single (reads_one hc) no_backs

theorem skip_blanks_iters_ok (input : List Nat) :
    ∀ (fuel c : Nat), c ≤ input.length →
      ItersOK input.length c (skip_blanks_iters input fuel c) := by
  intro fuel
  induction fuel with
  | zero => intro c _; exact ItersOK_nil _ _
  | succ fuel ih =>
    intro c hc
    rw [skip_blanks_iters]
    by_cases h0 : peek input c = 32 ∨ peek input c = 9
    · have hlt : c < input.length := peek_lt (by omega)
      rw [if_pos h0]
      exact ItersOK_cons (reads_one hc) no_backs (Nat.lt_succ_self c) (ih (c + 1) hlt)
    · rw [if_neg h0]; exact ItersOK_single (reads_one hc) no_backs

theorem text_line_iters_ok (input : List Nat) :
    ∀ (fuel c : Nat), c ≤ input.length →
      ItersOK input.length c (text_line_iters input fuel c) := by
  intro fuel
  induction fuel with
  | zero => intro c _; exact ItersOK_nil _ _
  | succ fuel ih =>
    intro c hc
    rw [text_line_iters]
    by_cases h10 : peek input c ≠ 10
    · rw [if_pos h10]
      by_cases h0 : peek input c = 0
      · rw [if_pos h0]; exact ItersOK_single (reads_one hc) no_backs
      · rw [if_neg h0]
        exact ItersOK_cons (reads_one hc) no_backs (Nat.lt_succ_self c)
          (ih (c + 1) (peek_lt h0))
    · rw [if_neg h10]; exact ItersOK_single (reads_one hc) no_backs

theorem star_slash_reads_le (input : List Nat) (c : Nat) (hc : c ≤ input.length) :
    ∀ i ∈ star_slash_reads input c, i ≤ input.length := by
  unfold star_slash_reads
  by_cases h : peek input c = 42
  · rw [if_pos h]
    have : c < input.length := peek_lt (by omega)
    exact reads_two hc this
  · rw [if_neg h]; exact reads_one hc

theorem block_comment_iters_ok (input : List Nat) :
    ∀ (fuel c : Nat), c ≤ input.length →
      ItersOK input.length c (block_comment_iters input fuel c) := by
  intro fuel
  induction fuel with
  | zero => intro c _; exact ItersOK_nil _ _
  | succ fuel ih =>
    intro c hc
    rw [block_comment_iters]
    by_cases h0 : peek input c ≠ 0 ∧ ¬ (peek input c = 42 ∧ peek input (c + 1) = 47)
    · rw [if_pos h0]
      exact ItersOK_cons (star_slash_reads_le input c hc) no_backs (Nat.lt_succ_self c)
        (ih (c + 1) (peek_lt h0.1))
    · rw [if_neg h0]; exact ItersOK_single (star_slash_reads_le input c hc) no_backs

theorem lex_number_iters_ok (input : List Nat) :
    ∀ (fuel : Nat) (s : State) (c : Nat), c ≤ input.length → (s = .BEGIN ∨ 1 ≤ c) →
      ItersOK input.length c (lex_number_iters input fuel s c) := by
  intro fuel
  induction fuel with
  | zero => intro s c _ _; exact ItersOK_nil _ _
  | succ fuel ih =>
    intro s c hc hs
    rw [lex_number_iters]
    cases hsw : lex_number_switch s (peek input c) with
    | next s1 =>
      have hlt := peek_lt (switch_next_plain hsw).1
      exact ItersOK_cons (reads_one hc) no_backs (Nat.lt_succ_self c)
        (ih s1 (c + 1) hlt (Or.inr (by omega)))
    | stop =>
      have h1 : 1 ≤ c := by
        rcases hs with rfl | hs
        · simp only [lex_number_switch] at hsw
          split_ifs at hsw
        · exact hs
      exact ItersOK_single (reads_one hc) (by
        intro e he
        simp only [List.mem_singleton] at he
        omega)
    | fail msg => exact ItersOK_single (reads_one hc) no_backs

theorem whitespace_check_iters_ok (input : List Nat) (a b : Nat) :
    ∀ (fuel i : Nat), a + i ≤ input.length → b + i ≤ input.length →
      ItersOK input.length i (whitespace_check_iters input a b fuel i) := by
  intro fuel
  induction fuel with
  | zero => intro i _ _; exact ItersOK_nil _ _
  | succ fuel ih =>
    intro i ha hb
    rw [whitespace_check_iters]
    by_cases hws : peek input (a + i) = 32 ∨ peek input (a + i) = 9
    · have hlt : a + i < input.length := peek_lt (by omega)
      rw [if_pos hws]
      by_cases hne : peek input (b + i) ≠ peek input (a + i)
      · rw [if_pos hne]; exact ItersOK_single (reads_two ha hb) no_backs
      · rw [if_neg hne]
        have hlt2 : b + i < input.length := peek_lt (by omega)
        exact ItersOK_cons (reads_two ha hb) no_backs (Nat.lt_succ_self i)
          (ih (i + 1) (by omega) (by omega))
    · rw [if_neg hws]; exact ItersOK_single (reads_one ha) no_backs

theorem unicode_escape_iters_ok (input : List Nat) (c : Nat) :
    ∀ (k i : Nat), c + i ≤ input.length →
      ItersOK input.length i (unicode_escape_iters input c k i) := by
  intro k
  induction k with
  | zero => intro i _; exact ItersOK_nil _ _
  | succ k ih =>
    intro i hc
    rw [unicode_escape_iters]
    by_cases h0 : peek input (c + i) = 0
    · rw [if_pos h0]; exact ItersOK_single (reads_one hc) no_backs
    rw [if_neg h0]
    have hlt := peek_lt h0
    have hrec := ItersOK_cons (reads_one hc) (@no_backs input.length) (Nat.lt_succ_self i)
      (ih (i + 1) (by omega))
    by_cases h34 : peek input (c + i) = 34
    · rw [if_pos h34]; exact ItersOK_single (reads_one hc) no_backs
    rw [if_neg h34]
    by_cases h1 : 48 ≤ peek input (c + i) ∧ peek input (c + i) ≤ 57
    · rw [if_pos h1]; exact hrec
    rw [if_neg h1]
    by_cases h2 : 97 ≤ peek input (c + i) ∧ peek input (c + i) ≤ 102
    · rw [if_pos h2]; exact hrec
    rw [if_neg h2]
    by_cases h3 : 65 ≤ peek input (c + i) ∧ peek input (c + i) ≤ 70
    · rw [if_pos h3]; exact hrec
    · rw [if_neg h3]; exact ItersOK_single (reads_one hc) no_backs


theorem Outcome.after_ok {α β : Type} (a : α) (f : α → List β) :
    (Outcome.ok a).after f = f a := rfl

theorem Outcome.after_error {α β : Type} (e : StaticError) (f : α → List β) :
    (Outcome.error e : Outcome α).after f = [] := rfl

theorem Outcome.after_diverge {α β : Type} (f : α → List β) :
    (Outcome.diverge : Outcome α).after f = [] := rfl

theorem string_iters_ok (input : List Nat) :
    ∀ (fuel c : Nat), c ≤ input.length →
      ItersOK input.length c (string_iters input fuel c) := by
  intro fuel
  induction fuel with
  | zero => intro c _; exact ItersOK_nil _ _
  | succ fuel ih =>
    intro c hc
    rw [string_iters]
    by_cases h0 : peek input c = 0
    · rw [if_pos h0]; exact ItersOK_single (reads_one hc) no_backs
    rw [if_neg h0]
    have hlt := peek_lt h0
    by_cases h34 : peek input c = 34
    · rw [if_pos h34]; exact ItersOK_single (reads_one hc) no_backs
    rw [if_neg h34]
    by_cases h92 : peek input c = 92
    · rw [if_pos h92]
      have hr2 : ∀ i ∈ [c, c + 1], i ≤ input.length := reads_two hc hlt
      by_cases he : peek input (c + 1) = 34 ∨ peek input (c + 1) = 92 ∨ peek input (c + 1) = 47
          ∨ peek input (c + 1) = 98 ∨ peek input (c + 1) = 102 ∨ peek input (c + 1) = 110
          ∨ peek input (c + 1) = 114 ∨ peek input (c + 1) = 116
      · rw [if_pos he]
        have hlt1 : c + 1 < input.length := peek_lt (by omega)
        exact ItersOK_cons hr2 no_backs (by omega) (ih (c + 1 + 1) hlt1)
      rw [if_neg he]
      by_cases hu : peek input (c + 1) = 117
      · rw [if_pos hu]
        have hlt1 : c + 1 < input.length := peek_lt (by omega)
        have hdig := ItersOK_reads
          (unicode_escape_iters_ok input (c + 1 + 1) 4 0 (by omega))
        cases hr : unicode_escape_loop input [] ⟨0, 0⟩ (c + 1 + 1) 4 0 0 with
        | ok r =>
          have hpl := unicode_escape_loop_spec input [] ⟨0, 0⟩ (c + 1 + 1) 4 0 0 r hr
          have hle := Plain_le hpl (by omega) (by omega)
          rw [Outcome.after_ok]
          exact ItersOK_cons (reads_append hr2 hdig) no_backs (by omega)
            (ih (c + 1 + 1 + 3 + 1) (by omega))
        | error e =>
          rw [Outcome.after_error]
          exact ItersOK_single (reads_append hr2 hdig) no_backs
        | diverge =>
          rw [Outcome.after_diverge]
          exact ItersOK_single (reads_append hr2 hdig) no_backs
      · rw [if_neg hu]; exact ItersOK_single hr2 no_backs
    · rw [if_neg h92]
      exact ItersOK_cons (reads_one hc) no_backs (Nat.lt_succ_self c) (ih (c + 1) hlt)

theorem bars_reads_le (input : List Nat) (c : Nat) (hc : c ≤ input.length) :
    ∀ i ∈ bars_reads input c, i ≤ input.length := by
  unfold bars_reads
  by_cases h : peek input c = 124
  · rw [if_pos h]
    have h1 : c < input.length := peek_lt (by omega)
    by_cases h2 : peek input (c + 1) = 124
    · rw [if_pos h2]
      have h3 : c + 1 < input.length := peek_lt (by omega)
      intro i hi
      simp only [List.mem_cons, List.mem_singleton, List.not_mem_nil, or_false] at hi
      omega
    · rw [if_neg h2]; exact reads_two hc h1
  · rw [if_neg h]; exact reads_one hc

theorem text_block_open_reads_le (input : List Nat) (c : Nat) (hc : c ≤ input.length) :
    ∀ i ∈ text_block_open_reads input c, i ≤ input.length := by
  unfold text_block_open_reads
  apply reads_append (bars_reads_le input c hc)
  by_cases h : peek input c = 124 ∧ peek input (c + 1) = 124 ∧ peek input (c + 2) = 124
  · rw [if_pos h]
    have : c + 2 < input.length := peek_lt (by omega)
    exact reads_one (by omega)
  · rw [if_neg h]; intro i hi; simp at hi

theorem text_block_iters_ok (input : List Nat) (first_line : Nat)
    (hf : first_line ≤ input.length) :
    ∀ (fuel ws c : Nat), c + ws ≤ input.length →
      ItersOK input.length c (text_block_iters input first_line fuel ws c) := by
  intro fuel
  induction fuel with
  | zero => intro ws c _; exact ItersOK_nil _ _
  | succ fuel ih =>
    intro ws c hc
    rw [text_block_iters]
    dsimp only
    have hline := ItersOK_reads (text_line_iters_ok input (input.length + 1) (c + ws) hc)
    cases hl : text_line_loop input [] ⟨0, 0⟩ (input.length + 1) (c + ws) [] with
    | error e => exact ItersOK_single hline no_backs
    | diverge => exact ItersOK_single hline no_backs
    | ok r =>
      obtain ⟨c1, block⟩ := r
      obtain ⟨h1, -, h3⟩ := text_line_loop_spec input [] ⟨0, 0⟩ _ _ _ _ _ hl
      have hlt : c1 < input.length := peek_lt (by omega)
      dsimp only
      have hcheck := ItersOK_reads (whitespace_check_iters_ok input first_line (c1 + 1)
        (input.length + 1) 0 (by omega) (by omega))
      cases hw : whitespace_check input first_line (c1 + 1) with
      | error e => exact ItersOK_single (reads_append hline hcheck) no_backs
      | diverge => exact ItersOK_single (reads_append hline hcheck) no_backs
      | ok n =>
        dsimp only
        by_cases hn : n = 0
        · rw [if_pos hn]
          have hskip := ItersOK_reads
            (skip_blanks_iters_ok input (input.length + 1) (c1 + 1) (by omega))
          refine ItersOK_single (reads_append (reads_append (reads_append hline hcheck) hskip)
            ?_) no_backs
          cases hs : skip_blanks_loop input (input.length + 1) (c1 + 1) with
          | error e => rw [Outcome.after_error]; intro i hi; simp at hi
          | diverge => rw [Outcome.after_diverge]; intro i hi; simp at hi
          | ok c3 =>
            rw [Outcome.after_ok]
            obtain ⟨h4, h5⟩ := skip_blanks_loop_spec input _ _ _ hs
            exact bars_reads_le input c3 (Plain_le h5 h4 (by omega))
        · rw [if_neg hn]
          have hpl := whitespace_check_spec input first_line (c1 + 1) n hw hn
          exact ItersOK_cons (reads_append hline hcheck) no_backs (by omega)
            (ih n (c1 + 1) (Plain_le hpl (by omega) (by omega)))

/-- The iteration of the driver's loop at a cursor inside the input: it starts at that
cursor, reads no offset beyond the length of the input, and steps back only from a cursor
between 1 and the length of the input. -/
theorem lex_body_iter_ok (input : List Nat) (st : Cursor) (hlt : st.c < input.length) :
    ∃ reads backs, lex_body_iter input st = ⟨st.c, reads, backs⟩ ∧
      (∀ i ∈ reads, i ≤ input.length) ∧ ∀ e ∈ backs, 1 ≤ e ∧ e ≤ input.length := by
  have hc : st.c ≤ input.length := Nat.le_of_lt hlt
  have hone : ∀ i ∈ [st.c], i ≤ input.length := reads_one hc
  have hcons : ∀ {x : List Nat}, (∀ i ∈ x, i ≤ input.length) →
      ∀ i ∈ st.c :: x, i ≤ input.length := fun hx => reads_append hone hx
  unfold lex_body_iter
  dsimp only
  by_cases h33 : peek input st.c = 33
  · rw [if_pos h33]; exact ⟨_, _, rfl, reads_two hc hlt, no_backs⟩
  rw [if_neg h33]
  by_cases hnum : is_number (peek input st.c) = true
  · rw [if_pos hnum]
    have hok := lex_number_iters_ok input (input.length + 1) .BEGIN st.c hc (Or.inl rfl)
    exact ⟨_, _, rfl, hcons (ItersOK_reads hok), ItersOK_backs hok⟩
  rw [if_neg hnum]
  by_cases hq : peek input st.c = 34
  · rw [if_pos hq]
    exact ⟨_, _, rfl, hcons (ItersOK_reads (string_iters_ok input _ (st.c + 1) hlt)),
      no_backs⟩
  rw [if_neg hq]
  by_cases hid : is_identifier_first (peek input st.c) = true
  · rw [if_pos hid]
    refine ⟨_, _, rfl, hcons (ItersOK_reads (identifier_iters_ok input _ st.c hc)), ?_⟩
    cases hr : identifier_loop input (input.length + 1) st.c [] with
    | error e => rw [Outcome.after_error]; exact no_backs
    | diverge => rw [Outcome.after_diverge]; exact no_backs
    | ok r =>
      obtain ⟨c1, id⟩ := r
      rw [identifier_loop_first input _ _ _ hid] at hr
      obtain ⟨h1, h2, -⟩ := identifier_loop_spec input _ _ _ _ _ hr
      have := Plain_le h2 h1 hlt
      rw [Outcome.after_ok]
      intro e he
      simp only [List.mem_singleton] at he
      omega
  rw [if_neg hid]
  by_cases hsym : is_symbol (peek input st.c) = true
  · rw [if_pos hsym]
    have hsy := (is_symbol_iff _).1 hsym
    have hcomment : ∀ e ∈ (line_comment_loop input (input.length + 1) st.c).after
        (fun c1 => [c1]), 1 ≤ e ∧ e ≤ input.length := by
      cases hr : line_comment_loop input (input.length + 1) st.c with
      | error e => rw [Outcome.after_error]; exact no_backs
      | diverge => rw [Outcome.after_diverge]; exact no_backs
      | ok c1 =>
        by_cases hp : peek input st.c ≠ 0 ∧ peek input st.c ≠ 10
        · rw [line_comment_loop_first input _ _ hp] at hr
          obtain ⟨h1, h2⟩ := line_comment_loop_spec input _ _ _ hr
          have := Plain_le h2 h1 hlt
          rw [Outcome.after_ok]
          intro e he
          simp only [List.mem_singleton] at he
          omega
        · omega
    by_cases hlc : peek input st.c = 47 ∧ peek input (st.c + 1) = 47
    · rw [if_pos hlc]
      exact ⟨_, _, rfl, hcons (reads_append (reads_one hlt)
        (ItersOK_reads (line_comment_iters_ok input _ st.c hc))), hcomment⟩
    rw [if_neg hlc]
    by_cases hhash : peek input st.c = 35
    · rw [if_pos hhash]
      exact ⟨_, _, rfl, hcons (ItersOK_reads (line_comment_iters_ok input _ st.c hc)),
        hcomment⟩
    rw [if_neg hhash]
    by_cases hbc : peek input st.c = 47 ∧ peek input (st.c + 1) = 42
    · rw [if_pos hbc]
      have h1 : st.c + 1 < input.length := peek_lt (by omega)
      exact ⟨_, _, rfl, hcons (reads_append (reads_one hlt)
        (ItersOK_reads (block_comment_iters_ok input _ (st.c + 2) h1))), no_backs⟩
    rw [if_neg hbc]
    by_cases htb : peek input st.c = 124 ∧ peek input (st.c + 1) = 124
        ∧ peek input (st.c + 2) = 124 ∧ peek input (st.c + 3) = 10
    · rw [if_pos htb]
      have h3 : st.c + 3 < input.length := peek_lt (by omega)
      refine ⟨_, _, rfl, reads_append (reads_append (text_block_open_reads_le input st.c hc)
        (ItersOK_reads (whitespace_check_iters_ok input (st.c + 4) (st.c + 4) _ 0
          (by omega) (by omega)))) ?_, no_backs⟩
      cases hw : whitespace_check input (st.c + 4) (st.c + 4) with
      | error e => rw [Outcome.after_error]; intro i hi; simp at hi
      | diverge => rw [Outcome.after_diverge]; intro i hi; simp at hi
      | ok ws =>
        rw [Outcome.after_ok]
        by_cases hz : ws = 0
        · rw [if_pos hz]; intro i hi; simp at hi
        · rw [if_neg hz]
          have hpl := whitespace_check_spec input _ _ ws hw hz
          exact ItersOK_reads (text_block_iters_ok input (st.c + 4) (by omega) _ ws
            (st.c + 4) (Plain_le hpl (by omega) (by omega)))
    rw [if_neg htb]
    refine ⟨_, _, rfl, reads_append ?_ (ItersOK_reads (operator_iters_ok input _ st.c hc)),
      ?_⟩
    · by_cases h47 : peek input st.c = 47
      · rw [if_pos h47]; exact reads_two hc hlt
      · rw [if_neg h47]; exact text_block_open_reads_le input st.c hc
    · cases hr : operator_loop input (input.length + 1) st.c [] with
      | error e => rw [Outcome.after_error]; exact no_backs
      | diverge => rw [Outcome.after_diverge]; exact no_backs
      | ok r =>
        obtain ⟨c1, data⟩ := r
        rw [operator_loop_first input _ _ _ hsym] at hr
        obtain ⟨h1, h2, -⟩ := operator_loop_spec input _ _ _ _ _ hr
        have := Plain_le h2 h1 hlt
        rw [Outcome.after_ok]
        intro e he
        simp only [List.mem_singleton] at he
        omega
  · rw [if_neg hsym]; exact ⟨_, _, rfl, hone, no_backs⟩

/-- The iterations of the driver's loop stay inside the input and move forward. -/
theorem lex_loop_iters_ok (file input : List Nat) :
    ∀ (fuel : Nat) (st : Cursor), Inv input st →
      ItersOK input.length st.c (lex_loop_iters file input fuel st) := by
  intro fuel
  induction fuel with
  | zero => intro st _; exact ItersOK_nil _ _
  | succ fuel ih =>
    intro st hinv
    rw [lex_loop_iters]
    by_cases h0 : peek input st.c ≠ 0
    · rw [if_pos h0]
      obtain ⟨reads, backs, heq, hr, hb⟩ := lex_body_iter_ok input st (peek_lt h0)
      rw [heq]
      cases hbody : lex_body file input st with
      | error e => rw [Outcome.after_error]; exact ItersOK_single hr hb
      | diverge => rw [Outcome.after_diverge]; exact ItersOK_single hr hb
      | ok step =>
        obtain ⟨hle, hinv1, -⟩ := lex_body_spec file input st step hinv h0 hbody
        rw [Outcome.after_ok]
        exact ItersOK_cons hr hb (by simp only []; omega) (ih _ hinv1)
    · rw [if_neg h0]
      exact ItersOK_single (reads_one hinv.1) no_backs

theorem jsonnet_lex_iters_ok (file input : List Nat) :
    ItersOK input.length 0 (jsonnet_lex_iters file input) :=
  lex_loop_iters_ok file input _ ⟨0, 1, 0⟩ (Inv_init input)

/-- The iterations of the log are the iterations of the trace: the cursors at which they
start are the same. -/
theorem lex_loop_iters_trace (file input : List Nat) :
    ∀ (fuel : Nat) (st : Cursor) (evs : List Event),
      lex_loop file input fuel st = .ok evs →
      (lex_loop_iters file input fuel st).map Iter.cursor = evs.map Event.first := by
  intro fuel
  induction fuel with
  | zero => intro st evs h; simp [lex_loop] at h
  | succ fuel ih =>
    intro st evs h
    rw [lex_loop] at h
    rw [lex_loop_iters]
    by_cases h0 : peek input st.c ≠ 0
    · rw [if_pos h0] at h ⊢
      dsimp only at h
      obtain ⟨step, hstep, h1⟩ := bind_eq_ok h
      obtain ⟨r, hr, h2⟩ := bind_eq_ok h1
      simp only [Outcome.ok.injEq] at h2
      subst h2
      obtain ⟨reads, backs, heq, -, -⟩ := lex_body_iter_ok input st (peek_lt h0)
      rw [heq, hstep, Outcome.after_ok]
      simp only [List.map_cons, ih _ _ hr]
    · rw [if_neg h0] at h ⊢
      simp only [Outcome.ok.injEq] at h
      subst h
      rfl

theorem lex_loop_iters_cursor (file input : List Nat) :
    ∀ (fuel : Nat) (st : Cursor), Inv input st →
      ∀ it ∈ lex_loop_iters file input fuel st, it.cursor ≤ input.length := by
  intro fuel
  induction fuel with
  | zero => intro st _ it hit; simp [lex_loop_iters] at hit
  | succ fuel ih =>
    intro st hinv it hit
    rw [lex_loop_iters] at hit
    by_cases h0 : peek input st.c ≠ 0
    · rw [if_pos h0] at hit
      obtain ⟨reads, backs, heq, -, -⟩ := lex_body_iter_ok input st (peek_lt h0)
      rw [heq] at hit
      rcases List.mem_cons.1 hit with rfl | hit
      · exact hinv.1
      · cases hbody : lex_body file input st with
        | error e => rw [hbody, Outcome.after_error] at hit; simp at hit
        | diverge => rw [hbody, Outcome.after_diverge] at hit; simp at hit
        | ok step =>
          obtain ⟨-, hinv1, -⟩ := lex_body_spec file input st step hinv h0 hbody
          rw [hbody, Outcome.after_ok] at hit
          exact ih _ hinv1 it hit
    · rw [if_neg h0] at hit
      simp only [List.mem_singleton] at hit
      subst hit
      exact hinv.1

/-- The count that `whitespace_check(a, b)` returns, added to `b`, is an offset of the
input: the jump `c = &c[ws_chars]` stays inside it. -/
theorem whitespace_check_loop_jump (input : List Nat) (a b : Nat) (hb : b ≤ input.length)
    (fuel ws : Nat) (h : whitespace_check_loop input a b fuel 0 = .ok ws) :
    b + ws ≤ input.length := by
  by_cases hws : ws = 0
  · omega
  · obtain ⟨-, hpl⟩ := whitespace_check_loop_spec input a b fuel 0 ws h hws
    have := @peek_lt input (b + ws - 1) (hpl (b + ws - 1) (by omega) (by omega)).1
    omega

/-- C22. No out-of-bounds reads: for every input of at most `INT_MAX` bytes (the list of
the bytes before the terminating NUL, of length `n`, so that the NUL is at the index `n`;
`INT_MAX` bounds the values that the `int`s `i` and `ws_chars` of the source can hold),
every offset read in a run of `jsonnet_lex` is at most `n`: the reads of `*c`, the
lookaheads `c+1`, `c+2`, `c+3`, the reads `c[0..3]` of a `\u` escape and those after its
`c += 3`, the reads after the jump by `ws_chars`, and the reads `a[i]`, `b[i]` of
`whitespace_check`; every iteration of the driver starts at a cursor that is at most `n`;
every `c--` or `--c` is from a cursor that is at least 1 and at most `n`, so that it
leaves an index that is not negative and the `++c` that follows lands at most at `n`.  The
same holds of `lex_number` entered at any offset up to `n` and of `whitespace_check` on
any two such offsets, where moreover every value of the `int` index `i` is at most
`INT_MAX`, so that no `i++` overflows and `a[i]`, `b[i]` are at the offsets `a + i`,
`b + i`, and the count returned, which is stored in `int ws_chars`, is at most `INT_MAX`
and, added to `b`, at most `n`, so that the jump by `ws_chars` stays inside the input. -/
theorem no_out_of_bounds_reads (file input : List Nat) (hint : input.length ≤ INT_MAX) :
    (∀ it ∈ jsonnet_lex_iters file input,
      it.cursor ≤ input.length ∧ (∀ i ∈ it.reads, i ≤ input.length) ∧
        ∀ e ∈ it.backs, 1 ≤ e ∧ e ≤ input.length) ∧
    (∀ fuel c, c ≤ input.length → ∀ it ∈ lex_number_iters input fuel .BEGIN c,
      (∀ i ∈ it.reads, i ≤ input.length) ∧ ∀ e ∈ it.backs, 1 ≤ e ∧ e ≤ input.length) ∧
    (∀ fuel a b, a ≤ input.length → b ≤ input.length →
      (∀ it ∈ whitespace_check_iters input a b fuel 0,
        it.cursor ≤ INT_MAX ∧ ∀ i ∈ it.reads, i ≤ input.length) ∧
      ∀ ws, whitespace_check_loop input a b fuel 0 = .ok ws →
        ws ≤ INT_MAX ∧ b + ws ≤ input.length) := by
  refine ⟨?_, ?_, ?_⟩
  · intro it hit
    have h := (jsonnet_lex_iters_ok file input).1 it hit
    exact ⟨lex_loop_iters_cursor file input _ _ (Inv_init input) it hit, h.2.1, h.2.2⟩
  · intro fuel c hc it hit
    exact ((lex_number_iters_ok input fuel .BEGIN c hc (Or.inl rfl)).1 it hit).2
  · intro fuel a b ha hb
    have hx := IntExact_of_length input hint a b fuel
    refine ⟨fun it hit => ⟨hx.1 it hit, ?_⟩, fun ws h => ⟨hx.2 ws h, ?_⟩⟩
    · exact ((whitespace_check_iters_ok input a b fuel 0 (by omega) (by omega)).1 it hit).2.1
    · exact whitespace_check_loop_jump input a b hb fuel ws h

/-- The accesses at the end of short inputs: the lookahead after a last `!` or `/` reads
the terminating NUL; a `\u` escape cut after two digits reads up to the NUL; the
identifier `ab` and the number `1` are followed by a back-up from the NUL; and the text
block with the line `x` indented by one space reads `a[i]`, `b[i]` and the bytes after the
jumps, the last one the third closing bar; in it `whitespace_check` on the first line
counts `i` from 0 to 1 and returns 1. -/
theorem no_out_of_bounds_reads_witness :
    (str "!").length ≤ INT_MAX ∧
    (∀ it ∈ jsonnet_lex_iters [] (str "!"),
      it.cursor ≤ 1 ∧ (∀ i ∈ it.reads, i ≤ 1) ∧ ∀ e ∈ it.backs, 1 ≤ e ∧ e ≤ 1) ∧
    jsonnet_lex_iters [] (str "!") = [⟨0, [0, 1], []⟩, ⟨1, [1], []⟩] ∧
    jsonnet_lex_iters [] (str "/") = [⟨0, [0, 1, 0, 1], [1]⟩, ⟨1, [1], []⟩] ∧
    jsonnet_lex_iters [] (str "\"\\u12") = [⟨0, [0, 1, 2, 3, 4, 5], []⟩] ∧
    jsonnet_lex_iters [] (str "ab") = [⟨0, [0, 0, 1, 2], [2]⟩, ⟨2, [2], []⟩] ∧
    jsonnet_lex_iters [] (str "1") = [⟨0, [0, 0, 1], [1]⟩, ⟨1, [1], []⟩] ∧
    jsonnet_lex_iters [] (str "|||\n x\n|||") =
      [⟨0, [0, 1, 2, 3, 4, 4, 5, 5, 6, 4, 7, 7, 7, 8, 9], []⟩, ⟨10, [10], []⟩] ∧
    whitespace_check_iters (str "|||\n x\n|||") 4 4 11 0 = [⟨0, [4, 4], []⟩, ⟨1, [5], []⟩] ∧
    whitespace_check (str "|||\n x\n|||") 4 4 = .ok 1 :=
  ⟨by decide, (no_out_of_bounds_reads [] (str "!") (by decide)).1, by decide, by decide,
    by decide, by decide, by decide, by decide, by decide, by decide⟩

/-! ## Termination and coverage -/

/-- On a C string, a trace ends with the `END_OF_FILE` iteration at the end of the
input. -/
theorem TraceOK_end {file input : List Nat} (hnul : NulFree input) {c : Nat}
    {evs : List Event} (h : TraceOK file input c evs) :
    ∃ init t, evs = init ++ [⟨input.length, input.length, some t⟩]
      ∧ t.kind = .END_OF_FILE := by
  induction h with
  | eof c hz hle =>
    have hc := nul_free_end hnul hz hle
    subst hc
    exact ⟨[], _, rfl, rfl⟩
  | step c n tok rest hlt hle hnz htok hrest ih =>
    obtain ⟨init, t, h1, h2⟩ := ih
    exact ⟨_ :: init, t, by rw [h1]; rfl, h2⟩

/-- On a C string, the iterations of a trace from the offset `c` on share out the offsets
from `c` up to the end of the input: each lies in exactly one, and no offset before `c`
lies in any. -/
theorem TraceOK_cover {file input : List Nat} (hnul : NulFree input) {c : Nat}
    {evs : List Event} (h : TraceOK file input c evs) (j : Nat) :
    (j < c → evs.countP (fun ev => ev.consumes j) = 0) ∧
    (c ≤ j → j < input.length →
      evs.countP (fun ev => ev.consumes j) = 1) := by
  induction h with
  | eof c hz hle =>
    have hc := nul_free_end hnul hz hle
    constructor
    · intro hj
      simp only [List.countP_cons, List.countP_nil, Event.consumes]
      rw [if_neg (by simp only [decide_eq_true_eq]; omega)]
    · intro h1 h2; omega
  | step c n tok rest hlt hle hnz htok hrest ih =>
    obtain ⟨ih1, ih2⟩ := ih
    constructor
    · intro hj
      rw [List.countP_cons, ih1 (by omega),
        if_neg (by simp only [Event.consumes, decide_eq_true_eq]; omega)]
    · intro h1 h2
      rw [List.countP_cons]
      by_cases hjn : j < n
      · rw [ih1 hjn, if_pos (by simp only [Event.consumes, decide_eq_true_eq]; omega)]
      · rw [ih2 (by omega) h2,
          if_neg (by simp only [Event.consumes, decide_eq_true_eq]; omega)]

/-- The numbers of bytes consumed by the iterations of a trace from the offset `c` on add
up to the number of bytes from `c` to the end of the input. -/
theorem TraceOK_sum {file input : List Nat} (hnul : NulFree input) {c : Nat}
    {evs : List Event} (h : TraceOK file input c evs) :
    (evs.map fun ev => ev.next - ev.first).sum = input.length - c := by
  induction h with
  | eof c hz hle =>
    have hc := nul_free_end hnul hz hle
    simp only [List.map_cons, List.map_nil, List.sum_cons, List.sum_nil]
    omega
  | step c n tok rest hlt hle hnz htok hrest ih =>
    simp only [List.map_cons, List.sum_cons, ih]
    omega

/-- C21. Termination and full coverage: for every input that is a C string of at most
`INT_MAX` bytes (the values that the `int`s `i` and `ws_chars` of the source can hold),
`jsonnet_lex` returns a token sequence or throws one `StaticError` (the model never runs
out of a loop bound); the cursor grows strictly from each iteration to the next in the
driver's loop and, entered at any offset of the input, in the number automaton, the string
reader, the identifier and operator runs, the line and block comment skippers and the
text-block reader (its loop over the lines, its loop over the bytes of a line, the loop of
`whitespace_check` and the loop over the blanks before the closing bars); the `int`s of
`whitespace_check` stay at most `INT_MAX` wherever it is entered, so that no `i++`
overflows and `ws_chars` is the count of the model; and when the lexer succeeds the
iterations of its trace are those of the log, the last is the `END_OF_FILE` iteration with
the cursor at the end of the input, every byte of the input is consumed by exactly one
iteration (a token, a white space skip or a comment), and the numbers of bytes consumed
add up to the length of the input. -/
theorem termination_and_coverage (file input : List Nat) (hnul : NulFree input)
    (hint : input.length ≤ INT_MAX) :
    ((∃ toks, jsonnet_lex file input = .ok toks) ∨
      ∃ err, jsonnet_lex file input = .error err) ∧
    Forward (jsonnet_lex_iters file input) ∧
    (∀ fuel c, c ≤ input.length →
      Forward (lex_number_iters input fuel .BEGIN c) ∧
      Forward (string_iters input fuel c) ∧
      Forward (identifier_iters input fuel c) ∧
      Forward (operator_iters input fuel c) ∧
      Forward (line_comment_iters input fuel c) ∧
      Forward (block_comment_iters input fuel c) ∧
      Forward (text_line_iters input fuel c) ∧
      Forward (skip_blanks_iters input fuel c) ∧
      ∀ first_line, first_line ≤ input.length →
        Forward (whitespace_check_iters input first_line c fuel 0) ∧
        ∀ ws_chars, c + ws_chars ≤ input.length →
          Forward (text_block_iters input first_line fuel ws_chars c)) ∧
    (∀ a, IntExact input a) ∧
    (∀ evs, jsonnet_lex_trace file input = .ok evs →
      (jsonnet_lex_iters file input).map Iter.cursor = evs.map Event.first ∧
      (∃ init t, evs = init ++ [⟨input.length, input.length, some t⟩]
        ∧ t.kind = .END_OF_FILE) ∧
      (∀ j, j < input.length → evs.countP (fun ev => ev.consumes j) = 1) ∧
      (evs.map fun ev => ev.next - ev.first).sum = input.length) := by
  refine ⟨jsonnet_lex_total file input, (jsonnet_lex_iters_ok file input).2, ?_,
    IntExact_of_length input hint, ?_⟩
  · intro fuel c hc
    exact ⟨(lex_number_iters_ok input fuel .BEGIN c hc (Or.inl rfl)).2,
      (string_iters_ok input fuel c hc).2, (identifier_iters_ok input fuel c hc).2,
      (operator_iters_ok input fuel c hc).2, (line_comment_iters_ok input fuel c hc).2,
      (block_comment_iters_ok input fuel c hc).2, (text_line_iters_ok input fuel c hc).2,
      (skip_blanks_iters_ok input fuel c hc).2,
      fun first_line hf =>
        ⟨(whitespace_check_iters_ok input first_line c fuel 0 (by omega) (by omega)).2,
          fun ws hws => (text_block_iters_ok input first_line hf fuel ws c hws).2⟩⟩
  · intro evs hevs
    have htr := jsonnet_lex_trace_ok file input evs hevs
    refine ⟨lex_loop_iters_trace file input _ _ evs hevs, TraceOK_end hnul htr,
      fun j hj => (TraceOK_cover hnul htr j).2 (Nat.zero_le j) hj, ?_⟩
    have := TraceOK_sum hnul htr
    simpa using this

/-- The input `a +1`: five iterations, at the cursors 0 to 4, the last at the end of the
input; each of the four bytes is consumed by exactly one of them.  The text block with the
line `x` indented by one space: it lexes to a `STRING`, and the `int`s of
`whitespace_check` on its first line stay in range. -/
theorem termination_and_coverage_witness :
    NulFree (str "a +1") ∧ (str "a +1").length ≤ INT_MAX ∧
    ((∃ toks, jsonnet_lex [] (str "a +1") = .ok toks) ∨
      ∃ err, jsonnet_lex [] (str "a +1") = .error err) ∧
    Forward (jsonnet_lex_iters [] (str "a +1")) ∧
    (jsonnet_lex_iters [] (str "a +1")).map Iter.cursor = [0, 1, 2, 3, 4] ∧
    jsonnet_lex_trace [] (str "a +1") =
      .ok [⟨0, 1, some ⟨.IDENTIFIER, str "a", ⟨[], ⟨1, 1⟩, ⟨1, 1⟩⟩⟩⟩, ⟨1, 2, none⟩,
        ⟨2, 3, some ⟨.OPERATOR, str "+", ⟨[], ⟨1, 3⟩, ⟨1, 3⟩⟩⟩⟩,
        ⟨3, 4, some ⟨.NUMBER, str "1", ⟨[], ⟨1, 4⟩, ⟨1, 4⟩⟩⟩⟩,
        ⟨4, 4, some ⟨.END_OF_FILE, [], ⟨[], ⟨1, 5⟩, ⟨1, 5⟩⟩⟩⟩] ∧
    (∀ j, j < 4 →
      [(⟨0, 1, some ⟨.IDENTIFIER, str "a", ⟨[], ⟨1, 1⟩, ⟨1, 1⟩⟩⟩⟩ : Event), ⟨1, 2, none⟩,
        ⟨2, 3, some ⟨.OPERATOR, str "+", ⟨[], ⟨1, 3⟩, ⟨1, 3⟩⟩⟩⟩,
        ⟨3, 4, some ⟨.NUMBER, str "1", ⟨[], ⟨1, 4⟩, ⟨1, 4⟩⟩⟩⟩,
        ⟨4, 4, some ⟨.END_OF_FILE, [], ⟨[], ⟨1, 5⟩, ⟨1, 5⟩⟩⟩⟩].countP
          (fun ev => ev.consumes j) = 1) ∧
    jsonnet_lex [] (str "|||\n x\n|||") =
      .ok [⟨.STRING, str "x\n", ⟨[], ⟨1, 1⟩, ⟨3, 3⟩⟩⟩,
        ⟨.END_OF_FILE, [], ⟨[], ⟨3, 4⟩, ⟨3, 4⟩⟩⟩] ∧
    IntExact (str "|||\n x\n|||") 4 :=
  ⟨by decide, by decide, (termination_and_coverage [] (str "a +1") (by decide) (by decide)).1,
    (termination_and_coverage [] (str "a +1") (by decide) (by decide)).2.1, by decide,
    by decide,
    ((termination_and_coverage [] (str "a +1") (by decide) (by decide)).2.2.2.2 _
      (by decide)).2.2.1,
    by decide,
    (termination_and_coverage [] (str "|||\n x\n|||") (by decide) (by decide)).2.2.2.1 4⟩

/-! ## The logs follow the loops of the model -/

theorem getLast?_cons_of_some {α : Type} {a x : α} {l : List α} (h : l.getLast? = some x) :
    (a :: l).getLast? = some x := by
  cases l with
  | nil => simp at h
  | cons b l => rw [List.getLast?_cons_cons]; exact h

/-- The log of the identifier loop ends at the cursor with which the loop ends. -/
theorem identifier_iters_last (input : List Nat) :
    ∀ (fuel c : Nat) (id : List Nat) (c1 : Nat) (id1 : List Nat),
      identifier_loop input fuel c id = .ok (c1, id1) →
      (identifier_iters input fuel c).getLast? = some ⟨c1, [c1], []⟩ := by
  intro fuel
  induction fuel with
  | zero => intro c id c1 id1 h; simp [identifier_loop] at h
  | succ fuel ih =>
    intro c id c1 id1 h
    rw [identifier_loop] at h
    rw [identifier_iters]
    by_cases h0 : peek input c ≠ 0
    · rw [if_pos h0] at h ⊢
      by_cases hi : ¬ is_identifier (peek input c) = true
      · rw [if_pos hi] at h ⊢
        simp only [Outcome.ok.injEq, Prod.mk.injEq] at h
        rw [h.1]; rfl
      · rw [if_neg hi] at h ⊢
        exact getLast?_cons_of_some (ih _ _ _ _ h)
    · rw [if_neg h0] at h ⊢
      simp only [Outcome.ok.injEq, Prod.mk.injEq] at h
      rw [h.1]; rfl

/-- The log of the operator loop ends at the cursor with which the loop ends. -/
theorem operator_iters_last (input : List Nat) :
    ∀ (fuel c : Nat) (data : List Nat) (c1 : Nat) (data1 : List Nat),
      operator_loop input fuel c data = .ok (c1, data1) →
      (operator_iters input fuel c).getLast? = some ⟨c1, [c1], []⟩ := by
  intro fuel
  induction fuel with
  | zero => intro c id c1 id1 h; simp [operator_loop] at h
  | succ fuel ih =>
    intro c id c1 id1 h
    rw [operator_loop] at h
    rw [operator_iters]
    by_cases h0 : peek input c ≠ 0
    · rw [if_pos h0] at h ⊢
      by_cases hi : ¬ is_symbol (peek input c) = true
      · rw [if_pos hi] at h ⊢
        simp only [Outcome.ok.injEq, Prod.mk.injEq] at h
        rw [h.1]; rfl
      · rw [if_neg hi] at h ⊢
        exact getLast?_cons_of_some (ih _ _ _ _ h)
    · rw [if_neg h0] at h ⊢
      simp only [Outcome.ok.injEq, Prod.mk.injEq] at h
      rw [h.1]; rfl

/-- The log of a line comment ends at the cursor with which its loop ends. -/
theorem line_comment_iters_last (input : List Nat) :
    ∀ (fuel c c1 : Nat), line_comment_loop input fuel c = .ok c1 →
      (line_comment_iters input fuel c).getLast? = some ⟨c1, [c1], []⟩ := by
  intro fuel
  induction fuel with
  | zero => intro c c1 h; simp [line_comment_loop] at h
  | succ fuel ih =>
    intro c c1 h
    rw [line_comment_loop] at h
    rw [line_comment_iters]
    by_cases h0 : peek input c ≠ 0 ∧ peek input c ≠ 10
    · rw [if_pos h0] at h ⊢
      exact getLast?_cons_of_some (ih _ _ h)
    · rw [if_neg h0] at h ⊢
      simp only [Outcome.ok.injEq] at h
      rw [h]; rfl

/-- The log of the loop that skips blanks ends at the cursor with which the loop ends. -/
theorem skip_blanks_iters_last (input : List Nat) :
    ∀ (fuel c c1 : Nat), skip_blanks_loop input fuel c = .ok c1 →
      (skip_blanks_iters input fuel c).getLast? = some ⟨c1, [c1], []⟩ := by
  intro fuel
  induction fuel with
  | zero => intro c c1 h; simp [skip_blanks_loop] at h
  | succ fuel ih =>
    intro c c1 h
    rw [skip_blanks_loop] at h
    rw [skip_blanks_iters]
    by_cases h0 : peek input c = 32 ∨ peek input c = 9
    · rw [if_pos h0] at h ⊢
      exact getLast?_cons_of_some (ih _ _ h)
    · rw [if_neg h0] at h ⊢
      simp only [Outcome.ok.injEq] at h
      rw [h]; rfl

/-- The log of a line of a text block ends at the cursor with which its loop ends. -/
theorem text_line_iters_last (input file : List Nat) (begin : Location) :
    ∀ (fuel c : Nat) (block : List Nat) (c1 : Nat) (block1 : List Nat),
      text_line_loop input file begin fuel c block = .ok (c1, block1) →
      (text_line_iters input fuel c).getLast? = some ⟨c1, [c1], []⟩ := by
  intro fuel
  induction fuel with
  | zero => intro c b c1 b1 h; simp [text_line_loop] at h
  | succ fuel ih =>
    intro c b c1 b1 h
    rw [text_line_loop] at h
    rw [text_line_iters]
    by_cases h10 : peek input c ≠ 10
    · rw [if_pos h10] at h ⊢
      by_cases h0 : peek input c = 0
      · rw [if_pos h0] at h; simp at h
      · rw [if_neg h0] at h ⊢
        exact getLast?_cons_of_some (ih _ _ _ _ h)
    · rw [if_neg h10] at h ⊢
      simp only [Outcome.ok.injEq, Prod.mk.injEq] at h
      rw [h.1]; rfl

/-- The log of a block comment ends at the cursor with which its loop ends. -/
theorem block_comment_iters_last (input : List Nat) :
    ∀ (fuel : Nat) (st st1 : Cursor), block_comment_loop input fuel st = .ok st1 →
      (block_comment_iters input fuel st.c).getLast?
        = some ⟨st1.c, star_slash_reads input st1.c, []⟩ := by
  intro fuel
  induction fuel with
  | zero => intro st st1 h; simp [block_comment_loop] at h
  | succ fuel ih =>
    intro st st1 h
    rw [block_comment_loop] at h
    rw [block_comment_iters]
    by_cases h0 : peek input st.c ≠ 0 ∧ ¬ (peek input st.c = 42 ∧ peek input (st.c + 1) = 47)
    · rw [if_pos h0] at h ⊢
      by_cases h10 : peek input st.c = 10
      · rw [if_pos h10] at h
        exact getLast?_cons_of_some (ih _ _ h)
      · rw [if_neg h10] at h
        exact getLast?_cons_of_some (ih _ _ h)
    · rw [if_neg h0] at h ⊢
      simp only [Outcome.ok.injEq] at h
      rw [h]; rfl

/-- The log of `lex_number` ends at the cursor of `goto end`, from which the `c--` steps
back to the cursor that the function leaves. -/
theorem lex_number_iters_last (input file : List Nat) (begin : Location) :
    ∀ (fuel : Nat) (s : State) (c : Nat) (r r1 : List Nat) (c1 : Nat),
      lex_number_loop input file begin fuel s c r = .ok (r1, c1) →
      ∃ e, c1 = e - 1 ∧ (lex_number_iters input fuel s c).getLast? = some ⟨e, [e], [e]⟩ := by
  intro fuel
  induction fuel with
  | zero => intro s c r r1 c1 h; simp [lex_number_loop] at h
  | succ fuel ih =>
    intro s c r r1 c1 h
    rw [lex_number_loop] at h
    rw [lex_number_iters]
    cases hsw : lex_number_switch s (peek input c) with
    | next s1 =>
      rw [hsw] at h
      obtain ⟨e, h1, h2⟩ := ih _ _ _ _ _ h
      exact ⟨e, h1, getLast?_cons_of_some h2⟩
    | stop =>
      rw [hsw] at h
      simp only [Outcome.ok.injEq, Prod.mk.injEq] at h
      exact ⟨c, h.2.symm, rfl⟩
    | fail msg => rw [hsw] at h; simp at h

/-- Whether the digits of a `\u` escape are read to the end does not depend on the file
name and the location that an error would carry. -/
theorem unicode_escape_loop_ok (input file file2 : List Nat) (begin begin2 : Location)
    (c : Nat) :
    ∀ (n i cp r : Nat), unicode_escape_loop input file begin c n i cp = .ok r →
      unicode_escape_loop input file2 begin2 c n i cp = .ok r := by
  intro n
  induction n with
  | zero => intro i cp r h; exact h
  | succ n ih =>
    intro i cp r h
    rw [unicode_escape_loop] at h ⊢
    by_cases h0 : peek input (c + i) = 0
    · rw [if_pos h0] at h; simp at h
    rw [if_neg h0] at h ⊢
    by_cases h34 : peek input (c + i) = 34
    · rw [if_pos h34] at h; simp at h
    rw [if_neg h34] at h ⊢
    by_cases h1 : 48 ≤ peek input (c + i) ∧ peek input (c + i) ≤ 57
    · rw [if_pos h1] at h ⊢; exact ih _ _ _ h
    rw [if_neg h1] at h ⊢
    by_cases h2 : 97 ≤ peek input (c + i) ∧ peek input (c + i) ≤ 102
    · rw [if_pos h2] at h ⊢; exact ih _ _ _ h
    rw [if_neg h2] at h ⊢
    by_cases h3 : 65 ≤ peek input (c + i) ∧ peek input (c + i) ≤ 70
    · rw [if_pos h3] at h ⊢; exact ih _ _ _ h
    · rw [if_neg h3] at h; simp at h

/-- The log of a string literal ends at the cursor with which its loop ends, the closing
quote. -/
theorem string_iters_last (input file : List Nat) (begin : Location) :
    ∀ (fuel : Nat) (st : Cursor) (data : List Nat) (st1 : Cursor) (data1 : List Nat),
      string_loop input file begin fuel st data = .ok (st1, data1) →
      (string_iters input fuel st.c).getLast? = some ⟨st1.c, [st1.c], []⟩ := by
  intro fuel
  induction fuel with
  | zero => intro st data st1 data1 h; simp [string_loop] at h
  | succ fuel ih =>
    intro st data st1 data1 h
    rw [string_loop] at h
    rw [string_iters]
    dsimp only at h
    by_cases h0 : peek input st.c = 0
    · rw [if_pos h0] at h; simp at h
    rw [if_neg h0] at h ⊢
    by_cases h34 : peek input st.c = 34
    · rw [if_pos h34] at h ⊢
      simp only [Outcome.ok.injEq, Prod.mk.injEq] at h
      rw [h.1]; rfl
    rw [if_neg h34] at h ⊢
    by_cases h92 : peek input st.c = 92
    · rw [if_pos h92] at h ⊢
      by_cases e1 : peek input (st.c + 1) = 34 ∨ peek input (st.c + 1) = 92
          ∨ peek input (st.c + 1) = 47
      · rw [if_pos e1] at h
        rw [if_pos (by omega)]
        exact getLast?_cons_of_some (ih _ _ _ _ h)
      rw [if_neg e1] at h
      by_cases e2 : peek input (st.c + 1) = 98
      · rw [if_pos e2] at h
        rw [if_pos (by omega)]
        exact getLast?_cons_of_some (ih _ _ _ _ h)
      rw [if_neg e2] at h
      by_cases e3 : peek input (st.c + 1) = 102
      · rw [if_pos e3] at h
        rw [if_pos (by omega)]
        exact getLast?_cons_of_some (ih _ _ _ _ h)
      rw [if_neg e3] at h
      by_cases e4 : peek input (st.c + 1) = 110
      · rw [if_pos e4] at h
        rw [if_pos (by omega)]
        exact getLast?_cons_of_some (ih _ _ _ _ h)
      rw [if_neg e4] at h
      by_cases e5 : peek input (st.c + 1) = 114
      · rw [if_pos e5] at h
        rw [if_pos (by omega)]
        exact getLast?_cons_of_some (ih _ _ _ _ h)
      rw [if_neg e5] at h
      by_cases e6 : peek input (st.c + 1) = 116
      · rw [if_pos e6] at h
        rw [if_pos (by omega)]
        exact getLast?_cons_of_some (ih _ _ _ _ h)
      rw [if_neg e6] at h
      rw [if_neg (by omega)]
      by_cases e7 : peek input (st.c + 1) = 117
      · rw [if_pos e7] at h ⊢
        obtain ⟨cp, hcp, h1⟩ := bind_eq_ok h
        rw [unicode_escape_loop_ok input file [] begin ⟨0, 0⟩ _ _ _ _ _ hcp,
          Outcome.after_ok]
        exact getLast?_cons_of_some (ih _ _ _ _ h1)
      · rw [if_neg e7] at h
        split_ifs at h
    rw [if_neg h92] at h ⊢
    by_cases h10 : peek input st.c = 10
    · rw [if_pos h10] at h
      exact getLast?_cons_of_some (ih _ _ _ _ h)
    · rw [if_neg h10] at h
      exact getLast?_cons_of_some (ih _ _ _ _ h)

end Jsonnet
